import Mathlib

/-!
# Pintos filesystem and virtual-memory core: a shallow embedding

The definitions below follow `src/filesys/cache.c`, `src/filesys/inode.c`,
`src/vm/swap.c` and `src/userprog/syscall_util.c`.  Memory is modelled as
byte maps (`Buf`): a byte offset is sent to the byte stored there.  Code that
stops in an `ASSERT`/`PANIC`, touches memory outside an array, dereferences
`NULL` or spins for ever returns a `Fault`.  Kernel heap allocation
(`malloc`, `calloc`) is taken to succeed, and the block device driver accepts
every sector number.
-/

namespace Pintos

/-- The ways in which the modelled code fails to return a value. -/
inductive Fault where
  /-- An array is indexed outside its bounds. -/
  | oob
  /-- An `ASSERT` fails or `PANIC` is called. -/
  | assertion
  /-- A loop never ends. -/
  | spin
  /-- A null pointer is dereferenced. -/
  | null
deriving DecidableEq, Repr

/-- A region of memory: byte offset to byte value. -/
abbrev Buf := Nat → Nat

/-- The all-zero buffer (`calloc`, `memset (p, 0, n)`). -/
def zeros : Buf := fun _ => 0

/-- Bytes per sector. -/
def BLOCK_SECTOR_SIZE : Nat := 512

/-- The C call `memcpy (dst + dofs, src + sofs, n)`. -/
def memcpy (dst : Buf) (dofs : Nat) (src : Buf) (sofs n : Nat) : Buf :=
  fun i => if dofs ≤ i ∧ i < dofs + n then src (sofs + (i - dofs)) else dst i

/-- The error of a run, if it has one. -/
def fault_of {α : Type} : Except Fault α → Option Fault
  | Except.error e => some e
  | Except.ok _ => none

/-! ## Buffer cache (`src/filesys/cache.c`) -/

/-- One slot of the cache, `struct cache_entry` (the lock left out). -/
structure cache_entry where
  sector : Nat
  valid : Bool
  dirty : Bool
  accessed : Bool
  loaded : Bool
  read_cnt : Nat
  write_cnt : Nat
  buffer : Buf

/-- The statics of cache.c together with the file system device. -/
structure Cache where
  /-- The array `cache[64]`. -/
  cache : Nat → cache_entry
  /-- The clock hand. -/
  iter_idx : Nat
  /-- Slot indices queued for the read-ahead thread. -/
  read_queue : List Nat
  /-- Contents of `fs_device`, sector by sector. -/
  disk : Nat → Buf
  /-- The value of `block_size (fs_device)`. -/
  dev_size : Nat

/-- Assignment to `cache[i]`. -/
def Cache.set (c : Cache) (i : Nat) (e : cache_entry) : Cache :=
  { c with cache := fun j => if j = i then e else c.cache j }

/-- The call `block_write (fs_device, s, b)`. -/
def Cache.block_write (c : Cache) (s : Nat) (b : Buf) : Cache :=
  { c with disk := fun t => if t = s then b else c.disk t }

/-- State after `cache_init` on a device with contents `disk`. -/
def cache_init (disk : Nat → Buf) (dev_size : Nat) : Cache :=
  { cache := fun _ => ⟨0, false, false, false, false, 0, 0, zeros⟩
    iter_idx := 0
    read_queue := []
    disk := disk
    dev_size := dev_size }

/-- The function `cache_load`: clear the buffer, read the slot's sector into it. -/
def cache_load (c : Cache) (i : Nat) : Cache :=
  c.set i { c.cache i with buffer := c.disk (c.cache i).sector, loaded := true }

/-- Inner loop of the read-ahead thread: pop each queued index and load the
slot if it is not loaded. -/
def read_ahead_loop : List Nat → Cache → Cache
  | [], c => { c with read_queue := [] }
  | index :: q, c =>
    read_ahead_loop q (if (c.cache index).loaded then c else cache_load c index)

/-- The read-ahead thread runs until its queue is empty. -/
def read_ahead (c : Cache) : Cache := read_ahead_loop c.read_queue c

/-- One turn of the read-ahead thread: a single queue entry. -/
def read_ahead_step (c : Cache) : Cache :=
  match c.read_queue with
  | [] => c
  | index :: q =>
    let c1 := { c with read_queue := q }
    if (c1.cache index).loaded then c1 else cache_load c1 index

/-- The `for` loop of `cache_evict` from slot `i` with `n` slots to go.  The
slot lock is free in a sequential run, so `lock_try_acquire` succeeds. -/
def evict_sweep : Nat → Nat → Cache → Except Fault (Cache × Option Nat)
  | 0, _, c => pure (c, none)
  | n + 1, i, c =>
    if (c.cache i).valid = false then Except.error Fault.assertion
    else if (c.cache i).accessed then
      evict_sweep n (i + 1) (c.set i { c.cache i with accessed := false })
    else if (c.cache i).loaded then
      let c1 := { c with iter_idx := i + 1 }
      let c2 := if (c1.cache i).dirty then
        c1.block_write (c1.cache i).sector (c1.cache i).buffer else c1
      pure (c2, some i)
    else evict_sweep n (i + 1) c

/-- The loop `while (1)` of `cache_evict`, at most `r` sweeps. -/
def evict_rounds : Nat → Cache → Except Fault (Cache × Option Nat)
  | 0, c => pure (c, none)
  | r + 1, c =>
    match evict_sweep (64 - c.iter_idx) c.iter_idx c with
    | Except.error e => Except.error e
    | Except.ok (c1, some i) => pure (c1, some i)
    | Except.ok (c1, none) => evict_rounds r { c1 with iter_idx := 0 }

/-- The function `cache_evict`.  Three sweeps find every loaded slot (the first
two clear the accessed bits).  When no slot is loaded the loop never ends: it
does not yield, and its caller `cache_allocate` holds `cache_lock`, which the
read-ahead thread needs before it can take an entry off its queue and load a
slot.  That run is `Fault.spin`. -/
def cache_evict (c : Cache) : Except Fault (Cache × Nat) :=
  match evict_rounds 3 c with
  | Except.error e => Except.error e
  | Except.ok (c1, some i) => pure (c1, i)
  | Except.ok (_, none) => Except.error Fault.spin

/-- The `for` loop of `cache_allocate` from slot `i` with `n` slots to go;
`idx` is the invalid slot remembered so far.  A hit is `Sum.inl`. -/
def allocate_scan (c : Cache) (sector : Nat) : Nat → Nat → Option Nat → Sum Nat (Option Nat)
  | 0, _, idx => Sum.inr idx
  | n + 1, i, idx =>
    if (c.cache i).sector = sector ∧ (c.cache i).valid = true then Sum.inl i
    else if (c.cache i).valid = false then allocate_scan c sector n (i + 1) (some i)
    else allocate_scan c sector n (i + 1) idx

/-- The function `cache_allocate`: the slot of `sector`, taken over from an
invalid slot or a victim when the sector has none. -/
def cache_allocate (c : Cache) (sector : Nat) : Except Fault (Cache × Nat) :=
  match allocate_scan c sector 64 0 none with
  | Sum.inl i => pure (c, i)
  | Sum.inr idx =>
    match (match idx with
      | some i => (pure (c, i) : Except Fault (Cache × Nat))
      | none => cache_evict c) with
    | Except.error e => Except.error e
    | Except.ok (c1, i) =>
      pure (c1.set i { c1.cache i with
        sector := sector, valid := true, dirty := false, accessed := false,
        read_cnt := 0, write_cnt := 0, loaded := false }, i)

/-- The function `cache_write_at`.  A copy that does not fit the 512-byte
buffer is a fault. -/
def cache_write_at (c : Cache) (sector : Nat) (buffer : Buf) (ofs size : Nat) :
    Except Fault Cache :=
  match cache_allocate c sector with
  | Except.error e => Except.error e
  | Except.ok (c1, idx) =>
    let c2 := if (c1.cache idx).loaded then c1 else cache_load c1 idx
    if 512 < ofs + size then Except.error Fault.oob
    else pure (c2.set idx { c2.cache idx with
      buffer := memcpy (c2.cache idx).buffer ofs buffer 0 size,
      dirty := true, accessed := true })

/-- The function `cache_read_at`: returns the destination buffer.  The successor
sector (32-bit arithmetic) is queued for read-ahead. -/
def cache_read_at (c : Cache) (sector : Nat) (buffer : Buf) (ofs size : Nat) :
    Except Fault (Cache × Buf) :=
  match cache_allocate c sector with
  | Except.error e => Except.error e
  | Except.ok (c1, idx) =>
    let c2 := if (c1.cache idx).loaded then c1 else cache_load c1 idx
    if 512 < ofs + size then Except.error Fault.oob
    else
      let out := memcpy buffer 0 (c2.cache idx).buffer ofs size
      let c3 := c2.set idx { c2.cache idx with accessed := true }
      if (sector + 1) % 4294967296 < c3.dev_size then
        match cache_allocate c3 ((sector + 1) % 4294967296) with
        | Except.error e => Except.error e
        | Except.ok (c4, next) =>
          if (c4.cache next).loaded then pure (c4, out)
          else pure ({ c4 with read_queue := c4.read_queue ++ [next] }, out)
      else pure (c3, out)

/-- The loop of `cache_done` from slot `i` with `n` slots to go. -/
def cache_done_loop : Nat → Nat → Cache → Cache
  | 0, _, c => c
  | n + 1, i, c =>
    if (c.cache i).dirty = true ∧ (c.cache i).loaded = true ∧ (c.cache i).valid = true then
      cache_done_loop n (i + 1)
        ((c.block_write (c.cache i).sector (c.cache i).buffer).set i
          { c.cache i with dirty := false })
    else cache_done_loop n (i + 1) c

/-- The function `cache_done`. -/
def cache_done (c : Cache) : Cache := cache_done_loop 64 0 c

/-- The loop of `cache_remove` from slot `i` with `n` slots to go. -/
def cache_remove_loop (sector : Nat) : Nat → Nat → Cache → Cache
  | 0, _, c => c
  | n + 1, i, c =>
    if (c.cache i).sector = sector ∧ (c.cache i).valid = true ∧ (c.cache i).loaded = true then
      (c.block_write (c.cache i).sector zeros).set i
        { c.cache i with buffer := zeros, valid := false, loaded := false, dirty := false }
    else cache_remove_loop sector n (i + 1) c

/-- The function `cache_remove`. -/
def cache_remove (c : Cache) (sector : Nat) : Cache := cache_remove_loop sector 64 0 c

/-! ### Logical content and invariants of the cache -/

/-- Slot `i` holds the content of sector `s`. -/
def holds (c : Cache) (s i : Nat) : Bool :=
  (c.cache i).valid && (c.cache i).loaded && decide ((c.cache i).sector = s)

/-- What a reader of sector `s` sees: the buffer of the slot that holds `s`,
the device where no slot does. -/
def view (c : Cache) (s : Nat) : Buf :=
  match (List.range 64).find? (holds c s) with
  | some i => (c.cache i).buffer
  | none => c.disk s

/-- Invariant of the cache; the slot `x` (if any) is allowed to wait for its
load without being queued. -/
structure CacheInvExcept (c : Cache) (x : Option Nat) : Prop where
  /-- No sector has two valid slots. -/
  uniq : ∀ i j, i < 64 → j < 64 → (c.cache i).valid = true → (c.cache j).valid = true →
    (c.cache i).sector = (c.cache j).sector → i = j
  /-- A loaded slot that is not dirty agrees with the device. -/
  clean : ∀ i, i < 64 → (c.cache i).valid = true → (c.cache i).loaded = true →
    (c.cache i).dirty = false → (c.cache i).buffer = c.disk (c.cache i).sector
  /-- A valid slot that is not loaded is queued for read-ahead. -/
  queued : ∀ i, i < 64 → some i ≠ x → (c.cache i).valid = true → (c.cache i).loaded = false →
    i ∈ c.read_queue
  /-- The queue names slots of the array. -/
  bound : ∀ i ∈ c.read_queue, i < 64

/-- Invariant of the cache between two calls. -/
def CacheInv (c : Cache) : Prop := CacheInvExcept c none

/-- The two states have the same slots up to the accessed bits and counters,
the same queue and the same device. -/
structure Similar (c c1 : Cache) : Prop where
  sector : ∀ j, (c1.cache j).sector = (c.cache j).sector
  valid : ∀ j, (c1.cache j).valid = (c.cache j).valid
  dirty : ∀ j, (c1.cache j).dirty = (c.cache j).dirty
  loaded : ∀ j, (c1.cache j).loaded = (c.cache j).loaded
  buffer : ∀ j, (c1.cache j).buffer = (c.cache j).buffer
  queue : c1.read_queue = c.read_queue
  disk : c1.disk = c.disk
  dev : c1.dev_size = c.dev_size

/-- A step from `c` to `c1` that leaves every sector's content as seen
through the cache, and the identity of the slots, alone. -/
structure Keeps (c c1 : Cache) : Prop where
  inv : CacheInv c1
  view : ∀ s, view c1 s = view c s
  sector : ∀ j, (c1.cache j).sector = (c.cache j).sector
  valid : ∀ j, (c1.cache j).valid = (c.cache j).valid
  dev : c1.dev_size = c.dev_size

/-- Some slot of the array is invalid or loaded: `cache_allocate` finds a slot
for a sector that has none, by its scan or by `cache_evict`. -/
def has_slot (c : Cache) : Bool :=
  (List.range 64).any (fun i => !(c.cache i).valid || (c.cache i).loaded)

/-- Every valid slot that still waits for its load holds a sector of `R`. -/
def Waiting (c : Cache) (R : List Nat) : Prop :=
  ∀ i, i < 64 → (c.cache i).valid = true → (c.cache i).loaded = false →
    (c.cache i).sector ∈ R

/-- The slots that wait for their load leave room for `n` more of them: they
hold sectors of a list of at most `64 - n` entries. -/
def Room (c : Cache) (n : Nat) : Prop :=
  ∃ R : List Nat, Waiting c R ∧ R.length + n ≤ 64

/-- State after the write-back of slot `v` by `cache_evict`. -/
def wb (c : Cache) (v : Nat) : Cache :=
  if (c.cache v).dirty then c.block_write (c.cache v).sector (c.cache v).buffer else c

/-- A step from `c` to `c1` that no reader of the cache can tell: the invariant
holds again and every sector reads as before. -/
structure Transparent (c c1 : Cache) : Prop where
  inv : CacheInv c1
  view : ∀ s, view c1 s = view c s
  dev : c1.dev_size = c.dev_size

/-! ### Sequences of calls on the cache -/

/-- A call on the cache, or a turn of the read-ahead thread between two calls. -/
inductive CacheOp where
  /-- The call `cache_read_at (sector, buffer, ofs, size)`. -/
  | read (sector ofs size : Nat)
  /-- The call `cache_write_at (sector, data, ofs, size)`. -/
  | write (sector : Nat) (data : Buf) (ofs size : Nat)
  /-- The read-ahead thread serves one queue entry. -/
  | ahead
  /-- The call `cache_done ()`. -/
  | done

/-- The bytes of the call lie inside one sector. -/
def CacheOp.fits : CacheOp → Bool
  | CacheOp.read _ ofs size => decide (ofs + size ≤ 512)
  | CacheOp.write _ _ ofs size => decide (ofs + size ≤ 512)
  | CacheOp.ahead => true
  | CacheOp.done => true

/-- The call writes sector `s`. -/
def CacheOp.writes (s : Nat) : CacheOp → Bool
  | CacheOp.write t _ _ _ => decide (t = s)
  | _ => false

/-- The first `n` bytes of a buffer. -/
def bytes (b : Buf) (n : Nat) : List Nat := (List.range n).map b

/-- Runs the calls in order on the code and collects what each read returns. -/
def run_ops : Cache → List CacheOp → Except Fault (Cache × List (List Nat))
  | c, [] => pure (c, [])
  | c, CacheOp.read s ofs size :: ops =>
    match cache_read_at c s zeros ofs size with
    | Except.error e => Except.error e
    | Except.ok (c1, out) =>
      match run_ops c1 ops with
      | Except.error e => Except.error e
      | Except.ok (c2, rs) => pure (c2, bytes out size :: rs)
  | c, CacheOp.write s data ofs size :: ops =>
    match cache_write_at c s data ofs size with
    | Except.error e => Except.error e
    | Except.ok c1 => run_ops c1 ops
  | c, CacheOp.ahead :: ops => run_ops (read_ahead_step c) ops
  | c, CacheOp.done :: ops => run_ops (cache_done c) ops

/-- The same calls on a plain store of sectors, without a cache: a read returns
what the store holds, a write changes the store, nothing else does. -/
def store_ops : (Nat → Buf) → List CacheOp → (Nat → Buf) × List (List Nat)
  | m, [] => (m, [])
  | m, CacheOp.read s ofs size :: ops =>
    ((store_ops m ops).1, bytes (fun i => m s (ofs + i)) size :: (store_ops m ops).2)
  | m, CacheOp.write s data ofs size :: ops =>
    store_ops (fun t => if t = s then memcpy (m s) ofs data 0 size else m t) ops
  | m, CacheOp.ahead :: ops => store_ops m ops
  | m, CacheOp.done :: ops => store_ops m ops

/-- The sectors that can wait for their load after the call, when those of `R`
can before it: a read or a write of a sector loads its slot, and a read hands
a slot to the next sector. -/
def CacheOp.waiting (R : List Nat) : CacheOp → List Nat
  | CacheOp.read s _ _ => ((R.filter (fun x => decide (x ≠ s))).insert ((s + 1) % 4294967296))
  | CacheOp.write s _ _ _ => R.filter (fun x => decide (x ≠ s))
  | CacheOp.ahead => R
  | CacheOp.done => R

/-- The call looks for a slot: it is a read or a write. -/
def CacheOp.allocates : CacheOp → Bool
  | CacheOp.read _ _ _ => true
  | CacheOp.write _ _ _ _ => true
  | _ => false

/-- Before each read and each write of the sequence, fewer than 64 sectors can
wait for their load, counted from the list `R` of those that can at the start:
not all 64 slots wait, and `cache_allocate` has a slot to give. -/
def served : List Nat → List CacheOp → Bool
  | _, [] => true
  | R, op :: ops => (!op.allocates || decide (R.length < 64)) && served (op.waiting R) ops

/-! ## Free map -/

/-- Modelled from the spec: the free map (`filesys/free-map.c` is not among the
sources): one bit per sector of the device, set while the sector is in use. -/
structure FreeMap where
  used : Nat → Bool
  size : Nat

/-- First free sector among `n` sectors from `i` on. -/
def free_scan (used : Nat → Bool) : Nat → Nat → Option Nat
  | 0, _ => none
  | n + 1, i => if used i = false then some i else free_scan used n (i + 1)

/-- Modelled from the spec: `free_map_allocate (&sector)` takes the first free
sector and marks it used; it fails, changing nothing, when no sector is free. -/
def free_map_allocate (fm : FreeMap) : Option (FreeMap × Nat) :=
  match free_scan fm.used fm.size 0 with
  | none => none
  | some s => some ({ fm with used := fun t => if t = s then true else fm.used t }, s)

/-- Modelled from the spec: `free_map_release (sector)` marks the sector free. -/
def free_map_release (fm : FreeMap) (sector : Nat) : FreeMap :=
  { fm with used := fun t => if t = sector then false else fm.used t }

/-! ## Inodes (`src/filesys/inode.c`) -/

/-- The 32-bit little-endian word at byte offset `ofs`. -/
def get32 (b : Buf) (ofs : Nat) : Nat :=
  b ofs % 256 + 256 * (b (ofs + 1) % 256) + 65536 * (b (ofs + 2) % 256) +
    16777216 * (b (ofs + 3) % 256)

/-- Stores the low 32 bits of `v` at byte offset `ofs`. -/
def put32 (b : Buf) (ofs v : Nat) : Buf :=
  fun i =>
    if i = ofs then v % 256
    else if i = ofs + 1 then v / 256 % 256
    else if i = ofs + 2 then v / 65536 % 256
    else if i = ofs + 3 then v / 16777216 % 256
    else b i

/-- A 32-bit word read as a signed `int`. -/
def to_int32 (v : Nat) : Int := if v < 2147483648 then (v : Int) else (v : Int) - 4294967296

/-- The 32-bit word of a signed `int`. -/
def of_int32 (x : Int) : Nat := (x % 4294967296).toNat

def INODE_MAGIC : Nat := 0x494e4f44
def NUM_DIRECT : Nat := 10
def NUM_SECTORS : Nat := 16522

namespace inode_disk

/-! The fields of `struct inode_disk`, laid over the 512 bytes of a sector:
`length` at 0, `direct[10]` at 4, `indirect[1]` at 44, `double_indirect[1]` at 48,
`isdir` at 52, `entry_cnt` at 56, `magic` at 60, `unused` from 64. -/

def length (d : Buf) : Int := to_int32 (get32 d 0)
def direct (d : Buf) (i : Nat) : Nat := get32 d (4 + 4 * i)
def indirect (d : Buf) : Nat := get32 d 44
def double_indirect (d : Buf) : Nat := get32 d 48
def isdir (d : Buf) : Bool := decide (d 52 % 256 ≠ 0)
def entry_cnt (d : Buf) : Int := to_int32 (get32 d 56)
def magic (d : Buf) : Nat := get32 d 60

def set_length (d : Buf) (v : Int) : Buf := put32 d 0 (of_int32 v)
def set_direct (d : Buf) (i v : Nat) : Buf := put32 d (4 + 4 * i) v
def set_indirect (d : Buf) (v : Nat) : Buf := put32 d 44 v
def set_double_indirect (d : Buf) (v : Nat) : Buf := put32 d 48 v
def set_isdir (d : Buf) (v : Bool) : Buf := fun i => if i = 52 then (if v then 1 else 0) else d i
def set_entry_cnt (d : Buf) (v : Int) : Buf := put32 d 56 (of_int32 v)
def set_magic (d : Buf) (v : Nat) : Buf := put32 d 60 v

end inode_disk

/-- The element `indirect_blocks[k]` of a `struct indirect_block`, an array of
128 sector numbers. -/
def entry (b : Buf) (k : Nat) : Except Fault Nat :=
  if k < 128 then pure (get32 b (4 * k)) else Except.error Fault.oob

/-- Assignment to `indirect_blocks[k]`. -/
def set_entry (b : Buf) (k v : Nat) : Except Fault Buf :=
  if k < 128 then pure (put32 b (4 * k) v) else Except.error Fault.oob

/-- The in-memory inode, `struct inode` (list element and lock left out). -/
structure inode where
  sector : Nat
  open_cnt : Int
  removed : Bool
  deny_write_cnt : Int
  length : Int
  isdir : Bool
  entry_cnt : Int

/-- The file system: cache and device, free map, the in-memory inodes by
address, the list `open_inodes` (addresses, front first) and the next address
`malloc` hands out.  Address 0 is `NULL`. -/
structure FS where
  cache : Cache
  free_map : FreeMap
  heap : Nat → Option inode
  open_inodes : List Nat
  brk : Nat

/-- Reads through an inode pointer. -/
def FS.deref (st : FS) (p : Nat) : Except Fault inode :=
  match st.heap p with
  | some ino => pure ino
  | none => Except.error Fault.null

/-- Writes through an inode pointer. -/
def FS.store (st : FS) (p : Nat) (ino : inode) : FS :=
  { st with heap := fun q => if q = p then some ino else st.heap q }

/-- The memory seen from the pointer `b + k`. -/
def ptr_add (b : Buf) (k : Nat) : Buf := fun i => b (k + i)

/-- The memory at `b` once the memory from `b + k` on has become `out`. -/
def ptr_store (b : Buf) (k : Nat) (out : Buf) : Buf := fun i => if i < k then b i else out (i - k)

/-- The function `bytes_to_sectors`: `DIV_ROUND_UP (size, 512)` in `int`
arithmetic, converted to `size_t`. -/
def bytes_to_sectors (size : Int) : Nat := of_int32 (Int.tdiv (size + 511) 512)

/-- The function `get_disk_inode`: a fresh zeroed block filled from the cache. -/
def get_disk_inode (c : Cache) (sector : Nat) : Except Fault (Cache × Buf) :=
  cache_read_at c sector zeros 0 512

/-- Indirect branch of `inode_disk_block_to_sector` once `indirect[0]` is set:
slot `k` of the index block. -/
def indirect_tail (st : FS) (d : Buf) (k : Nat) (ib : Buf) (create : Bool) :
    Except Fault (FS × Buf × Nat) := do
  let (c1, ib1) ← cache_read_at st.cache (inode_disk.indirect d) ib 0 512
  let sector ← entry ib1 k
  if sector = 0 ∧ create = true then
    match free_map_allocate st.free_map with
    | none => pure ({ st with cache := c1 }, d, 0)
    | some (fm, s) => do
      let ib2 ← set_entry ib1 k s
      let c2 ← cache_write_at c1 (inode_disk.indirect d) ib2 0 512
      let r ← entry ib2 k
      let c3 ← cache_write_at c2 r zeros 0 512
      pure ({ st with cache := c3, free_map := fm }, d, r)
  else pure ({ st with cache := c1 }, d, sector)

/-- Double-indirect branch once the inner index block `inner` exists: slot `k`
of that block.  `ib` is the outer block as held in memory. -/
def double_tail_inner (st : FS) (d : Buf) (inner k : Nat) (ib dib : Buf) (create : Bool) :
    Except Fault (FS × Buf × Nat) := do
  let (c1, dib1) ← cache_read_at st.cache inner dib 0 512
  let sector ← entry dib1 k
  if sector = 0 ∧ create = true then
    match free_map_allocate st.free_map with
    | none => pure ({ st with cache := c1 }, d, 0)
    | some (fm, s) => do
      let dib2 ← set_entry dib1 k s
      let c2 ← cache_write_at c1 inner dib2 0 512
      let c3 ← cache_write_at c2 (inode_disk.double_indirect d) ib 0 512
      let r ← entry dib2 k
      let c4 ← cache_write_at c3 r zeros 0 512
      pure ({ st with cache := c4, free_map := fm }, d, r)
  else pure ({ st with cache := c1 }, d, sector)

/-- Double-indirect branch once `double_indirect[0]` is set; `index` is
`block_idx - (NUM_DIRECT + 128)`.  Outer slot `index / BLOCK_SECTOR_SIZE`, inner slot
`index % BLOCK_SECTOR_SIZE`. -/
def double_tail (st : FS) (d : Buf) (index : Nat) (ib dib : Buf) (create : Bool) :
    Except Fault (FS × Buf × Nat) := do
  let (c1, ib1) ← cache_read_at st.cache (inode_disk.double_indirect d) ib 0 512
  let outer ← entry ib1 (index / BLOCK_SECTOR_SIZE)
  if create = true ∧ outer = 0 then
    match free_map_allocate st.free_map with
    | none => pure ({ st with cache := c1 }, d, 0)
    | some (fm, s) => do
      let ib2 ← set_entry ib1 (index / BLOCK_SECTOR_SIZE) s
      let inner ← entry ib2 (index / BLOCK_SECTOR_SIZE)
      let c2 ← cache_write_at c1 inner dib 0 512
      let c3 ← cache_write_at c2 (inode_disk.double_indirect d) ib2 0 512
      double_tail_inner { st with cache := c3, free_map := fm } d inner
        (index % BLOCK_SECTOR_SIZE) ib2 dib create
  else if outer = 0 then pure ({ st with cache := c1 }, d, 0)
  else double_tail_inner { st with cache := c1 } d outer (index % BLOCK_SECTOR_SIZE) ib1 dib create

/-- The function `inode_disk_block_to_sector`: the sector of block `block_idx`
of the on-disk inode `d` held in memory, 0 for none.  `ib` and `dib` are the
caller's scratch blocks; every caller clears them before the call and never
reads them afterwards, so they are not returned.  Returns the file system, the
on-disk inode as changed in memory, and the sector. -/
def inode_disk_block_to_sector (st : FS) (d : Buf) (block_idx : Nat) (ib dib : Buf)
    (create : Bool) : Except Fault (FS × Buf × Nat) :=
  if block_idx < NUM_DIRECT then
    let sector := inode_disk.direct d block_idx
    if sector = 0 ∧ create = true then
      match free_map_allocate st.free_map with
      | none => pure (st, d, 0)
      | some (fm, s) => do
        let d1 := inode_disk.set_direct d block_idx s
        let c1 ← cache_write_at st.cache (inode_disk.direct d1 block_idx) zeros 0 512
        pure ({ st with cache := c1, free_map := fm }, d1, inode_disk.direct d1 block_idx)
    else pure (st, d, sector)
  else if block_idx < NUM_DIRECT + 128 then
    if create = true ∧ inode_disk.indirect d = 0 then
      match free_map_allocate st.free_map with
      | none => pure (st, d, 0)
      | some (fm, s) => do
        let d1 := inode_disk.set_indirect d s
        let c1 ← cache_write_at st.cache (inode_disk.indirect d1) ib 0 512
        indirect_tail { st with cache := c1, free_map := fm } d1 (block_idx - NUM_DIRECT) ib create
    else if inode_disk.indirect d = 0 then pure (st, d, 0)
    else indirect_tail st d (block_idx - NUM_DIRECT) ib create
  else if block_idx < NUM_SECTORS then
    if create = true ∧ inode_disk.double_indirect d = 0 then
      match free_map_allocate st.free_map with
      | none => pure (st, d, 0)
      | some (fm, s) => do
        let d1 := inode_disk.set_double_indirect d s
        let c1 ← cache_write_at st.cache (inode_disk.double_indirect d1) ib 0 512
        double_tail { st with cache := c1, free_map := fm } d1
          (block_idx - (NUM_DIRECT + 128)) ib dib create
    else if inode_disk.double_indirect d = 0 then pure (st, d, 0)
    else double_tail st d (block_idx - (NUM_DIRECT + 128)) ib dib create
  else Except.error Fault.assertion

/-- The function `inode_block_to_sector`: reads the on-disk inode, resolves the
block, and writes the on-disk inode back when `create` is set. -/
def inode_block_to_sector (st : FS) (p : Nat) (block_idx : Nat) (ib dib : Buf)
    (create : Bool) : Except Fault (FS × Nat) := do
  let ino ← st.deref p
  let (c1, d) ← get_disk_inode st.cache ino.sector
  let (st2, d2, ret) ← inode_disk_block_to_sector { st with cache := c1 } d block_idx ib dib create
  if create = true then
    let c3 ← cache_write_at st2.cache ino.sector d2 0 512
    pure ({ st2 with cache := c3 }, ret)
  else pure (st2, ret)

/-- The loop of `inode_create` over the blocks `i`, `i + 1`, ... (`n` to go):
allocate each block and zero it.  The flag is false after `goto done` on a
failed allocation. -/
def create_loop : Nat → Nat → FS → Buf → Except Fault (FS × Buf × Bool)
  | 0, _, st, d => pure (st, d, true)
  | n + 1, i, st, d => do
    let (st1, d1, res) ← inode_disk_block_to_sector st d i zeros zeros true
    if res = 0 then pure (st1, d1, false)
    else
      let c2 ← cache_write_at st1.cache res zeros 0 512
      create_loop n (i + 1) { st1 with cache := c2 } d1

/-- The function `inode_create`.  A failed allocation leaves what was allocated
and written before it in place and the inode sector unwritten. -/
def inode_create (st : FS) (sector : Nat) (length : Int) (isdir : Bool) :
    Except Fault (FS × Bool) :=
  if length < 0 then Except.error Fault.assertion
  else
    let d := inode_disk.set_entry_cnt (inode_disk.set_isdir (inode_disk.set_magic
      (inode_disk.set_length zeros length) INODE_MAGIC) isdir) 0
    match create_loop (bytes_to_sectors length) 0 st d with
    | Except.error e => Except.error e
    | Except.ok (st1, _, false) => pure (st1, false)
    | Except.ok (st1, d1, true) =>
      match cache_write_at st1.cache sector d1 0 512 with
      | Except.error e => Except.error e
      | Except.ok c2 => pure ({ st1 with cache := c2 }, true)

/-- The function `inode_reopen`. -/
def inode_reopen (st : FS) (p : Nat) : Except Fault (FS × Nat) :=
  if p = 0 then pure (st, p)
  else do
    let ino ← st.deref p
    pure (st.store p { ino with open_cnt := ino.open_cnt + 1 }, p)

/-- The search of `inode_open` through the list of open inodes. -/
def open_search (st : FS) (sector : Nat) : List Nat → Except Fault (Option Nat)
  | [] => pure none
  | p :: l => do
    let ino ← st.deref p
    if ino.sector = sector then pure (some p) else open_search st sector l

/-- The function `inode_open`: returns the file system and the inode's address. -/
def inode_open (st : FS) (sector : Nat) : Except Fault (FS × Nat) := do
  match ← open_search st sector st.open_inodes with
  | some p => inode_reopen st p
  | none =>
    let p := st.brk
    let (c1, d) ← cache_read_at st.cache sector zeros 0 512
    let ino : inode :=
      { sector := sector, open_cnt := 1, deny_write_cnt := 0, removed := false,
        length := inode_disk.length d, entry_cnt := inode_disk.entry_cnt d,
        isdir := inode_disk.isdir d }
    pure ({ st with cache := c1, heap := fun q => if q = p then some ino else st.heap q,
                    open_inodes := p :: st.open_inodes, brk := p + 1 }, p)

/-- The function `inode_length`. -/
def inode_length (st : FS) (p : Nat) : Except Fault Int := do
  let ino ← st.deref p
  pure ino.length

/-- The function `inode_remove`. -/
def inode_remove (st : FS) (p : Nat) : Except Fault FS :=
  if p = 0 then Except.error Fault.assertion
  else do
    let ino ← st.deref p
    pure (st.store p { ino with removed := true })

/-- First loop of `inode_close` on a removed inode: release the data sector of
each block `i`, `i + 1`, ... (`n` to go). -/
def close_data_loop : Nat → Nat → FS → Nat → Except Fault FS
  | 0, _, st, _ => pure st
  | n + 1, i, st, p => do
    let (st1, sector) ← inode_block_to_sector st p i zeros zeros false
    if sector ≠ 0 then
      close_data_loop n (i + 1)
        { st1 with cache := cache_remove st1.cache sector,
                   free_map := free_map_release st1.free_map sector } p
    else close_data_loop n (i + 1) st1 p

/-- Second loop of `inode_close` on a removed inode: release each inner index block
named by the slots `i`, `i + 1`, ... (`n` to go) of the double-indirect block `ib`. -/
def close_inner_loop : Nat → Nat → FS → Buf → Except Fault FS
  | 0, _, st, _ => pure st
  | n + 1, i, st, ib => do
    let s ← entry ib i
    if s ≠ 0 then
      close_inner_loop n (i + 1)
        { st with cache := cache_remove st.cache s,
                  free_map := free_map_release st.free_map s } ib
    else close_inner_loop n (i + 1) st ib

/-- The branch of `inode_close` that frees the blocks of a removed inode. -/
def close_removed (st : FS) (p : Nat) (ino : inode) : Except Fault FS := do
  let st1 ← close_data_loop (bytes_to_sectors ino.length) 0 st p
  let (c2, d) ← get_disk_inode st1.cache ino.sector
  let st2 : FS := { st1 with cache := c2 }
  let st3 : FS :=
    if inode_disk.indirect d ≠ 0 then
      { st2 with cache := cache_remove st2.cache (inode_disk.indirect d),
                 free_map := free_map_release st2.free_map (inode_disk.indirect d) }
    else st2
  let st4 ←
    if inode_disk.double_indirect d ≠ 0 then do
      let (c4, ib) ← cache_read_at st3.cache (inode_disk.double_indirect d) zeros 0 512
      let st5 ← close_inner_loop BLOCK_SECTOR_SIZE 0 { st3 with cache := c4 } ib
      pure { st5 with cache := cache_remove st5.cache (inode_disk.double_indirect d),
                      free_map := free_map_release st5.free_map (inode_disk.double_indirect d) }
    else pure st3
  pure { st4 with cache := cache_remove st4.cache ino.sector,
                  free_map := free_map_release st4.free_map ino.sector }

/-- The branch of `inode_close` that writes length, entry count and directory
flag back to the on-disk inode. -/
def close_kept (st : FS) (ino : inode) : Except Fault FS := do
  let (c1, d) ← get_disk_inode st.cache ino.sector
  let d1 := inode_disk.set_isdir (inode_disk.set_entry_cnt
    (inode_disk.set_length d ino.length) ino.entry_cnt) ino.isdir
  let c2 ← cache_write_at c1 ino.sector d1 0 512
  pure { st with cache := c2 }

/-- The function `inode_close`. -/
def inode_close (st : FS) (p : Nat) : Except Fault FS :=
  if p = 0 then pure st
  else do
    let ino ← st.deref p
    let st1 := st.store p { ino with open_cnt := ino.open_cnt - 1 }
    if ino.open_cnt - 1 = 0 then
      let st2 : FS := { st1 with open_inodes := st1.open_inodes.erase p }
      let st3 ← if ino.removed then close_removed st2 p ino else close_kept st2 ino
      pure { st3 with heap := fun q => if q = p then none else st3.heap q }
    else pure st1

/-- The loop of `inode_read_at`; `fuel` bounds the number of chunks.  Returns
the file system, the caller's buffer and the number of bytes read. -/
def read_loop : Nat → FS → Nat → Buf → Nat → Nat → Nat → Except Fault (FS × Buf × Nat)
  | 0, st, _, buffer, _, _, bytes_read => pure (st, buffer, bytes_read)
  | fuel + 1, st, p, buffer, size, offset, bytes_read =>
    if size = 0 then pure (st, buffer, bytes_read)
    else do
      let block_idx := offset / BLOCK_SECTOR_SIZE
      let sector_ofs := offset % BLOCK_SECTOR_SIZE
      let ino ← st.deref p
      let inode_left : Int := ino.length - offset
      let sector_left : Int := (BLOCK_SECTOR_SIZE : Int) - sector_ofs
      let min_left : Int := if inode_left < sector_left then inode_left else sector_left
      let chunk_size : Int := if (size : Int) < min_left then size else min_left
      if chunk_size ≤ 0 then pure (st, buffer, bytes_read)
      else do
        let (st1, sector_idx) ← inode_block_to_sector st p block_idx zeros zeros false
        if sector_idx = 0 ∧ inode_left > 0 then
          read_loop fuel st1 p (memcpy buffer bytes_read zeros 0 chunk_size.toNat)
            (size - chunk_size.toNat) (offset + chunk_size.toNat)
            (bytes_read + chunk_size.toNat)
        else if sector_idx = 0 then pure (st1, buffer, bytes_read)
        else do
          let (c2, out) ← cache_read_at st1.cache sector_idx (ptr_add buffer bytes_read)
            sector_ofs chunk_size.toNat
          read_loop fuel { st1 with cache := c2 } p (ptr_store buffer bytes_read out)
            (size - chunk_size.toNat) (offset + chunk_size.toNat)
            (bytes_read + chunk_size.toNat)

/-- The function `inode_read_at`.  Every chunk takes at least one byte, so
`size` chunks are enough. -/
def inode_read_at (st : FS) (p : Nat) (buffer : Buf) (size offset : Nat) :
    Except Fault (FS × Buf × Nat) :=
  read_loop size st p buffer size offset 0

/-- The loop of `inode_write_at`; `fuel` bounds the number of chunks.  Returns
the file system and the number of bytes written. -/
def write_loop : Nat → FS → Nat → Buf → Nat → Nat → Nat → Except Fault (FS × Nat)
  | 0, st, _, _, _, _, bytes_written => pure (st, bytes_written)
  | fuel + 1, st, p, buffer, size, offset, bytes_written =>
    if size = 0 then pure (st, bytes_written)
    else do
      let block_idx := offset / BLOCK_SECTOR_SIZE
      let sector_ofs := offset % BLOCK_SECTOR_SIZE
      let sector_left := BLOCK_SECTOR_SIZE - sector_ofs
      let chunk_size := if size < sector_left then size else sector_left
      if chunk_size ≤ 0 then pure (st, bytes_written)
      else do
        let ino ← st.deref p
        if ((offset + chunk_size : Nat) : Int) > ino.length then
          if ((offset + chunk_size : Nat) : Int) > ino.length then do
            let (st1, sector_idx) ← inode_block_to_sector st p block_idx zeros zeros true
            if sector_idx = 0 then pure (st1, bytes_written)
            else do
              let ino1 ← st1.deref p
              let st2 := st1.store p { ino1 with length := ((offset + chunk_size : Nat) : Int) }
              let c3 ← cache_write_at st2.cache sector_idx (ptr_add buffer bytes_written)
                sector_ofs chunk_size
              write_loop fuel { st2 with cache := c3 } p buffer (size - chunk_size)
                (offset + chunk_size) (bytes_written + chunk_size)
          else do
            let (st1, sector_idx) ← inode_block_to_sector st p block_idx zeros zeros false
            if sector_idx = 0 then pure (st1, bytes_written)
            else do
              let c3 ← cache_write_at st1.cache sector_idx (ptr_add buffer bytes_written)
                sector_ofs chunk_size
              write_loop fuel { st1 with cache := c3 } p buffer (size - chunk_size)
                (offset + chunk_size) (bytes_written + chunk_size)
        else do
          let (st1, sector_idx) ← inode_block_to_sector st p block_idx zeros zeros false
          if sector_idx = 0 then pure (st1, bytes_written)
          else do
            let c3 ← cache_write_at st1.cache sector_idx (ptr_add buffer bytes_written)
              sector_ofs chunk_size
            write_loop fuel { st1 with cache := c3 } p buffer (size - chunk_size)
              (offset + chunk_size) (bytes_written + chunk_size)

/-- The function `inode_write_at`. -/
def inode_write_at (st : FS) (p : Nat) (buffer : Buf) (size offset : Nat) :
    Except Fault (FS × Nat) := do
  let ino ← st.deref p
  if ino.deny_write_cnt ≠ 0 then pure (st, 0)
  else write_loop size st p buffer size offset 0

/-- The function `inode_deny_write`. -/
def inode_deny_write (st : FS) (p : Nat) : Except Fault FS := do
  let ino ← st.deref p
  if ino.deny_write_cnt + 1 ≤ ino.open_cnt then
    pure (st.store p { ino with deny_write_cnt := ino.deny_write_cnt + 1 })
  else Except.error Fault.assertion

/-- The function `inode_allow_write`. -/
def inode_allow_write (st : FS) (p : Nat) : Except Fault FS := do
  let ino ← st.deref p
  if 0 < ino.deny_write_cnt ∧ ino.deny_write_cnt ≤ ino.open_cnt then
    pure (st.store p { ino with deny_write_cnt := ino.deny_write_cnt - 1 })
  else Except.error Fault.assertion

/-! ### Block resolution and reading on the logical content of the device

The functions below redo the read-only paths of inode.c on a plain store of
sectors `V` (what `view` shows of the cache and the device).  The code is
compared with them. -/

/-- The two states differ by a step of the cache that no reader can tell. -/
structure SameFS (st st1 : FS) : Prop where
  cache : Transparent st.cache st1.cache
  free_map : st1.free_map = st.free_map
  heap : st1.heap = st.heap
  open_inodes : st1.open_inodes = st.open_inodes
  brk : st1.brk = st.brk

/-- The result `r` of the code run from `st` is the result `q` computed on the
logical content, and the run leaves that content alone.  The run hands at most
`k` slots of the cache to read-ahead.  It can stop in the endless loop of
`cache_evict` (`Fault.spin`), but not when the cache has room for `k` more
waiting slots. -/
def Agrees {α : Type} (st : FS) (k : Nat) (r : Except Fault (FS × α)) (q : Except Fault α) :
    Prop :=
  match r with
  | Except.error e => (e = Fault.spin ∧ ¬ Room st.cache k) ∨ q = Except.error e
  | Except.ok (st1, a) =>
    q = Except.ok a ∧ SameFS st st1 ∧ ∀ n, Room st.cache (n + k) → Room st1.cache n

/-- A sector read into the memory block `b`. -/
def load_block (b : Buf) (s : Buf) : Buf := memcpy b 0 s 0 512

/-- Slot `k` of the index block in sector `s`, read into the scratch block `b`. -/
def store_entry (V : Nat → Buf) (s k : Nat) (b : Buf) : Except Fault Nat :=
  entry (load_block b (V s)) k

/-- Double-indirect lookup without allocation. -/
def store_double (V : Nat → Buf) (d : Buf) (index : Nat) (ib dib : Buf) : Except Fault Nat := do
  let outer ← store_entry V (inode_disk.double_indirect d) (index / BLOCK_SECTOR_SIZE) ib
  if outer = 0 then pure 0 else store_entry V outer (index % BLOCK_SECTOR_SIZE) dib

/-- Block resolution without allocation (`create == false`). -/
def store_resolve (V : Nat → Buf) (d : Buf) (block_idx : Nat) (ib dib : Buf) :
    Except Fault Nat :=
  if block_idx < NUM_DIRECT then pure (inode_disk.direct d block_idx)
  else if block_idx < NUM_DIRECT + 128 then
    if inode_disk.indirect d = 0 then pure 0
    else store_entry V (inode_disk.indirect d) (block_idx - NUM_DIRECT) ib
  else if block_idx < NUM_SECTORS then
    if inode_disk.double_indirect d = 0 then pure 0
    else store_double V d (block_idx - (NUM_DIRECT + 128)) ib dib
  else Except.error Fault.assertion

/-- Block resolution of the inode in sector `sector`. -/
def store_block_to_sector (V : Nat → Buf) (sector block_idx : Nat) : Except Fault Nat :=
  store_resolve V (load_block zeros (V sector)) block_idx zeros zeros

/-- Reading from a file of length `length` whose inode is in sector `sector`. -/
def store_read_loop (V : Nat → Buf) (sector : Nat) (length : Int) :
    Nat → Buf → Nat → Nat → Nat → Except Fault (Buf × Nat)
  | 0, buffer, _, _, bytes_read => pure (buffer, bytes_read)
  | fuel + 1, buffer, size, offset, bytes_read =>
    if size = 0 then pure (buffer, bytes_read)
    else
      let block_idx := offset / BLOCK_SECTOR_SIZE
      let sector_ofs := offset % BLOCK_SECTOR_SIZE
      let inode_left : Int := length - offset
      let sector_left : Int := (BLOCK_SECTOR_SIZE : Int) - sector_ofs
      let min_left : Int := if inode_left < sector_left then inode_left else sector_left
      let chunk_size : Int := if (size : Int) < min_left then size else min_left
      if chunk_size ≤ 0 then pure (buffer, bytes_read)
      else do
        let sector_idx ← store_block_to_sector V sector block_idx
        if sector_idx = 0 ∧ inode_left > 0 then
          store_read_loop V sector length fuel (memcpy buffer bytes_read zeros 0 chunk_size.toNat)
            (size - chunk_size.toNat) (offset + chunk_size.toNat)
            (bytes_read + chunk_size.toNat)
        else if sector_idx = 0 then pure (buffer, bytes_read)
        else
          store_read_loop V sector length fuel
            (memcpy buffer bytes_read (V sector_idx) sector_ofs chunk_size.toNat)
            (size - chunk_size.toNat) (offset + chunk_size.toNat)
            (bytes_read + chunk_size.toNat)

/-! ### Block index resolution in the words of the specification -/

/-- Entry `k` of the index block stored in sector `s`.  An index block holds
128 sector addresses; there is no entry 128 or above. -/
def index_entry (V : Nat → Buf) (s k : Nat) : Option Nat :=
  if k < 128 then some (get32 (V s) (4 * k)) else none

/-- Block index resolution as the specification states it: `direct[block_idx]`
below 10; slot `block_idx - 10` of the indirect block below 138; from there the
outer slot `(block_idx - 138) / 512` of the double-indirect block and the inner
slot `(block_idx - 138) % 512` of the block it names; 0 as soon as a pointer on
the path is 0.  `none` where the path asks for an entry an index block does not
have. -/
def spec_block_to_sector (V : Nat → Buf) (d : Buf) (block_idx : Nat) : Option Nat :=
  if block_idx < 10 then some (inode_disk.direct d block_idx)
  else if block_idx < 138 then
    if inode_disk.indirect d = 0 then some 0
    else index_entry V (inode_disk.indirect d) (block_idx - 10)
  else if block_idx < 16522 then
    if inode_disk.double_indirect d = 0 then some 0
    else
      match index_entry V (inode_disk.double_indirect d) ((block_idx - 138) / 512) with
      | none => none
      | some outer =>
        if outer = 0 then some 0 else index_entry V outer ((block_idx - 138) % 512)
  else none

/-- A device for the examples: sector 3 is a double-indirect block whose slot 0
names sector 4; sector 4 is an inner index block whose slot 2 names sector 77;
sector 5 is an indirect block whose slot 127 names sector 78. -/
def ex_index_disk : Nat → Buf := fun s =>
  if s = 3 then put32 zeros 0 4
  else if s = 4 then put32 zeros 8 77
  else if s = 5 then put32 zeros 508 78
  else zeros

/-- An on-disk inode for the examples: `direct[0] = 9`, indirect block 5,
double-indirect block 3. -/
def ex_index_inode : Buf :=
  inode_disk.set_double_indirect (inode_disk.set_indirect (inode_disk.set_direct zeros 0 9) 5) 3

/-- A file system on `ex_index_disk` right after `cache_init`, sectors 0 to 9 in
use, no inode open. -/
def ex_index_fs : FS :=
  { cache := cache_init ex_index_disk 4096
    free_map := { used := fun t => decide (t < 10), size := 4096 }
    heap := fun _ => none
    open_inodes := []
    brk := 1 }

/-! ### Scenarios on a small volume -/

/-- A blank 4096-sector volume right after `cache_init`: sectors 0 to 2 in use
(free map, root directory, and the sector the scenarios put their inode in),
no inode open. -/
def ex_blank_fs : FS :=
  { cache := cache_init (fun _ => zeros) 4096
    free_map := { used := fun t => decide (t < 3), size := 4096 }
    heap := fun _ => none
    open_inodes := []
    brk := 1 }

/-- Calls of `inode_deny_write` (`true`) and `inode_allow_write` (`false`) on the
inode `p`, in order. -/
def deny_allow : FS → Nat → List Bool → Except Fault FS
  | st, _, [] => pure st
  | st, p, true :: l => do
    let st1 ← inode_deny_write st p
    deny_allow st1 p l
  | st, p, false :: l => do
    let st1 ← inode_allow_write st p
    deny_allow st1 p l

/-- The deny-write scenario of the specification: an empty file opened twice
(handles A and B); deny on A, write of 10 bytes through B, allow on A, the same
write through B.  Returns the two handles and the two byte counts. -/
def ex_deny_scenario : Except Fault (List Nat) := do
  let (st1, _) ← inode_create ex_blank_fs 2 0 false
  let (st2, a) ← inode_open st1 2
  let (st3, b) ← inode_open st2 2
  let st4 ← inode_deny_write st3 a
  let (st5, n1) ← inode_write_at st4 b (fun _ => 65) 10 0
  let st6 ← inode_allow_write st5 a
  let (_, n2) ← inode_write_at st6 b (fun _ => 65) 10 0
  pure [a, b, n1, n2]

/-- An empty file with two openers and writes allowed. -/
def ex_shared_inode : inode :=
  { sector := 2, open_cnt := 2, removed := false, deny_write_cnt := 0, length := 0,
    isdir := false, entry_cnt := 0 }

/-- The blank volume with `ex_shared_inode` open at address 1. -/
def ex_shared_fs : FS :=
  { ex_blank_fs with
    heap := fun q => if q = 1 then some ex_shared_inode else none
    open_inodes := [1]
    brk := 2 }

/-- The same volume after one `inode_deny_write`. -/
def ex_denied_fs : FS :=
  ex_shared_fs.store 1 { ex_shared_inode with deny_write_cnt := 1 }

/-- Round-trip scenario: an empty file, one byte written at offset 136192, the
first byte of block 266. -/
def ex_block266_scenario : Except Fault (FS × Nat) := do
  let (st1, _) ← inode_create ex_blank_fs 2 0 false
  let (st2, p) ← inode_open st1 2
  inode_write_at st2 p (fun _ => 65) 1 136192

/-- Hole scenario of the specification: an empty file, the bytes `"ABC"`
written at offset 1000000. -/
def ex_hole_scenario : Except Fault (FS × Nat) := do
  let (st1, _) ← inode_create ex_blank_fs 2 0 false
  let (st2, p) ← inode_open st1 2
  inode_write_at st2 p (fun i => 65 + i) 3 1000000

/-- Remove-then-close scenario: an empty file, one byte written at offset 70656
(block 138, the first block behind the double-indirect block), then
`inode_remove` and the last `inode_close`. -/
def ex_remove_scenario : Except Fault FS := do
  let (st1, _) ← inode_create ex_blank_fs 2 0 false
  let (st2, p) ← inode_open st1 2
  let (st3, _) ← inode_write_at st2 p (fun _ => 65) 1 70656
  let st4 ← inode_remove st3 p
  inode_close st4 p

/-- Write-into-a-hole scenario: an empty file, one byte written at offset 1024
(blocks 0 and 1 stay holes), then the byte 88 written at offset 0 and read
back.  Returns the two write counts, the read count and the byte read. -/
def ex_fill_scenario : Except Fault (List Nat) := do
  let (st1, _) ← inode_create ex_blank_fs 2 0 false
  let (st2, p) ← inode_open st1 2
  let (st3, n1) ← inode_write_at st2 p (fun _ => 65) 1 1024
  let (st4, n2) ← inode_write_at st3 p (fun _ => 88) 1 0
  let (_, b, n3) ← inode_read_at st4 p zeros 1 0
  pure [n1, n2, n3, b 0]

/-- Read scenario: an empty file, one byte written at offset 70656 (block 138)
and one at offset 332800 (block 650), then one byte read at offset 136192
(block 266, a hole inside the length). -/
def ex_read266_scenario : Except Fault (FS × Buf × Nat) := do
  let (st1, _) ← inode_create ex_blank_fs 2 0 false
  let (st2, p) ← inode_open st1 2
  let (st3, _) ← inode_write_at st2 p (fun _ => 65) 1 70656
  let (st4, _) ← inode_write_at st3 p (fun _ => 65) 1 332800
  inode_read_at st4 p zeros 1 136192

/-- The slots of the double-indirect path of `block_idx`, as
`inode_disk_block_to_sector` computes them: `index / BLOCK_SECTOR_SIZE` in the
outer block and `index % BLOCK_SECTOR_SIZE` in the inner block, where `index` is
`block_idx - (NUM_DIRECT + 128)`. -/
def double_slots (block_idx : Nat) : Nat × Nat :=
  ((block_idx - (NUM_DIRECT + 128)) / BLOCK_SECTOR_SIZE,
   (block_idx - (NUM_DIRECT + 128)) % BLOCK_SECTOR_SIZE)

/-- A device whose sector `s` holds the bytes `s`, `s + 1`, ... (mod 256). -/
def ex_numbered_disk : Nat → Buf := fun s i => (s + i) % 256

/-- Reads of the whole sectors 0, 1, ..., 64 in order: 65 distinct sectors. -/
def ex_reads65 : List CacheOp := (List.range 65).map (fun s => CacheOp.read s 0 512)

/-- Calls after a write of sector 7: a read of sector 6 (whose read-ahead
touches sector 7), a write of sector 8, a turn of the read-ahead thread and a
read of sector 7. -/
def ex_after_write : List CacheOp :=
  [CacheOp.read 6 0 512, CacheOp.write 8 zeros 0 512, CacheOp.ahead, CacheOp.read 7 0 16]

/-- Some valid slot carries sector `s`, loaded or not. -/
def resident (c : Cache) (s : Nat) : Bool :=
  (List.range 64).any (fun i => (c.cache i).valid && decide ((c.cache i).sector = s))

/-- Scenario for `cache_remove`: after `cache_init` on the numbered device a
read of sector 4 (its read-ahead takes a slot for sector 5 without loading it),
then `cache_remove (5)` and a read of the first two bytes of sector 5.  Returns
whether sector 5 was resident before the removal and is after it, and the two
bytes read. -/
def ex_remove_unloaded : Except Fault (List Nat) := do
  let (c1, _) ← cache_read_at (cache_init ex_numbered_disk 4096) 4 zeros 0 512
  let c2 := cache_remove c1 5
  let (_, b) ← cache_read_at c2 5 zeros 0 2
  pure [if resident c1 5 then 1 else 0, if resident c2 5 then 1 else 0, b 0, b 1]

/-- The cache on the numbered device with sector 4 loaded, clean, in slot 0 and
every other slot invalid. -/
def ex_loaded_cache : Cache :=
  { cache := fun j =>
      if j = 0 then ⟨4, true, false, true, true, 0, 0, ex_numbered_disk 4⟩
      else ⟨0, false, false, false, false, 0, 0, zeros⟩
    iter_idx := 0
    read_queue := []
    disk := ex_numbered_disk
    dev_size := 4096 }

/-! ### Calls on the list of open inodes -/

/-- The part of the file system that block resolution and the cache never
touch: the in-memory inodes, the open list and the allocator. -/
def FS.rest (st : FS) : (Nat → Option inode) × List Nat × Nat :=
  (st.heap, st.open_inodes, st.brk)

/-- A call of the inode layer on the open list. -/
inductive InodeCall where
  | do_open (sector : Nat)
  | do_reopen (p : Nat)
  | do_close (p : Nat)
  | do_remove (p : Nat)
  | do_deny (p : Nat)
  | do_allow (p : Nat)

/-- Runs one call. -/
def inode_call (st : FS) : InodeCall → Except Fault FS
  | InodeCall.do_open sector => (inode_open st sector).map Prod.fst
  | InodeCall.do_reopen p => (inode_reopen st p).map Prod.fst
  | InodeCall.do_close p => inode_close st p
  | InodeCall.do_remove p => inode_remove st p
  | InodeCall.do_deny p => inode_deny_write st p
  | InodeCall.do_allow p => inode_allow_write st p

/-- Runs the calls in order. -/
def inode_calls : FS → List InodeCall → Except Fault FS
  | st, [] => pure st
  | st, call :: l => do
    let st1 ← inode_call st call
    inode_calls st1 l

/-- Invariant of the open list: it lists each live in-memory inode once, no two
of them have the same sector, each has an opener, none sits at `NULL`, and
`malloc` hands out addresses above theirs. -/
structure OpenInv (st : FS) : Prop where
  nodup : st.open_inodes.Nodup
  live : ∀ p, p ∈ st.open_inodes → ∃ ino, st.heap p = some ino ∧ 1 ≤ ino.open_cnt
  listed : ∀ p ino, st.heap p = some ino → p ∈ st.open_inodes
  uniq : ∀ p q a b, st.heap p = some a → st.heap q = some b → a.sector = b.sector → p = q
  fresh : ∀ p, p ∈ st.open_inodes → p < st.brk
  nonnull : ∀ p, p ∈ st.open_inodes → p ≠ 0
  brk_pos : 1 ≤ st.brk

/-- Every open inode has `open_cnt ≥ deny_write_cnt ≥ 0`. -/
def DenyInv (st : FS) : Prop :=
  ∀ p ino, st.heap p = some ino → 0 ≤ ino.deny_write_cnt ∧ ino.deny_write_cnt ≤ ino.open_cnt

/-- The blank volume with `ex_shared_inode`, marked removed, open at address 1. -/
def ex_removed_fs : FS :=
  ex_shared_fs.store 1 { ex_shared_inode with removed := true }

/-- Scenario: a file is opened, marked removed, and opened again by a new
caller.  Returns the two addresses and the `open_cnt` of the inode at the end. -/
def ex_open_removed : Except Fault (List Int) := do
  let (st1, _) ← inode_create ex_blank_fs 2 0 false
  let (st2, p) ← inode_open st1 2
  let st3 ← inode_remove st2 p
  let (st4, q) ← inode_open st3 2
  let ino ← st4.deref q
  pure [(p : Int), (q : Int), ino.open_cnt]

/-- Scenario: a file is opened twice, both openers deny writes, one of them
closes without allowing writes again.  Returns `open_cnt` and `deny_write_cnt`
at the end. -/
def ex_close_denied : Except Fault (List Int) := do
  let (st1, _) ← inode_create ex_blank_fs 2 0 false
  let st2 ← inode_calls st1 [InodeCall.do_open 2, InodeCall.do_open 2, InodeCall.do_deny 1,
    InodeCall.do_deny 1, InodeCall.do_close 1]
  let ino ← st2.deref 1
  pure [ino.open_cnt, ino.deny_write_cnt]

/-! ## Swap (`src/vm/swap.c`) -/

/-- Modelled from the spec: a bitmap of `size` bits (`lib/kernel/bitmap.c` is
not among the sources). -/
structure Bitmap where
  bits : Nat → Bool
  size : Nat

/-- Modelled from the spec: `bitmap_test (b, idx)`, with its assertion that the
index is inside the bitmap. -/
def bitmap_test (b : Bitmap) (idx : Nat) : Except Fault Bool :=
  if idx < b.size then pure (b.bits idx) else Except.error Fault.assertion

/-- Modelled from the spec: `bitmap_set (b, idx, value)`, with its assertion. -/
def bitmap_set (b : Bitmap) (idx : Nat) (value : Bool) : Except Fault Bitmap :=
  if idx < b.size then pure { b with bits := fun j => if j = idx then value else b.bits j }
  else Except.error Fault.assertion

/-- Modelled from the spec: some bit among `cnt` bits from `start` on is `value`. -/
def bitmap_contains (b : Bitmap) (start cnt : Nat) (value : Bool) : Bool :=
  (List.range cnt).any (fun k => b.bits (start + k) == value)

/-- Modelled from the spec: the search of `bitmap_scan` over the start indices
`i`, `i + 1`, ... (`n` to go) for `cnt` bits equal to `value`. -/
def bitmap_scan_loop (b : Bitmap) (cnt : Nat) (value : Bool) : Nat → Nat → Option Nat
  | 0, _ => none
  | n + 1, i =>
    if bitmap_contains b i cnt (!value) then bitmap_scan_loop b cnt value n (i + 1) else some i

/-- Modelled from the spec: `bitmap_scan (b, start, cnt, value)`: the first run
of `cnt` bits equal to `value` that starts at or after `start` and ends inside
the bitmap; `none` is `BITMAP_ERROR`. -/
def bitmap_scan (b : Bitmap) (start cnt : Nat) (value : Bool) : Option Nat :=
  if cnt ≤ b.size then bitmap_scan_loop b cnt value (b.size - cnt + 1 - start) start else none

/-- Modelled from the spec: `bitmap_scan_and_flip`: the run found is flipped. -/
def bitmap_scan_and_flip (b : Bitmap) (start cnt : Nat) (value : Bool) : Bitmap × Option Nat :=
  match bitmap_scan b start cnt value with
  | none => (b, none)
  | some idx =>
    ({ b with bits := fun j => if idx ≤ j ∧ j < idx + cnt then !value else b.bits j }, some idx)

/-- An entry of the supplemental page table, `struct SPT_entry`; `frame` is a
kernel address, 0 for `NULL`, `mmap_file` the number of an open file. -/
structure SPT_entry where
  page : Nat
  frame : Nat
  index : Nat
  evicted : Bool
  writable : Bool
  is_mmap : Bool
  mmap_read_bytes : Nat
  mmap_zero_bytes : Nat
  mmap_offset : Nat
  mmap_file : Nat
deriving DecidableEq

/-- The statics of swap.c: the bitmap and the contents of the swap device. -/
structure Swap where
  swap_bitmap : Bitmap
  swap_block : Nat → Buf

/-- The writing loop of `swap_out`: sectors `i`, `i + 1`, ... (`n` to go) of the
frame go to the swap sectors from `index + i` on. -/
def swap_out_loop (frame : Buf) (index : Nat) : Nat → Nat → (Nat → Buf) → Nat → Buf
  | 0, _, blk => blk
  | n + 1, i, blk =>
    swap_out_loop frame index n (i + 1)
      (fun s => if s = index + i then ptr_add frame (i * BLOCK_SECTOR_SIZE) else blk s)

/-- The function `swap_out`, on the contents `frame` of the frame of `fte` and
the entry `fte->aux`; out of swap is a `PANIC`. -/
def swap_out (sw : Swap) (frame : Buf) (spte : SPT_entry) : Except Fault (Swap × SPT_entry) :=
  match bitmap_scan_and_flip sw.swap_bitmap 0 8 false with
  | (_, none) => Except.error Fault.assertion
  | (bm, some index) =>
    pure ({ swap_bitmap := bm, swap_block := swap_out_loop frame index 8 0 sw.swap_block },
      { spte with index := index, evicted := true })

/-- The loop of `swap_in` over the sectors `i`, `i + 1`, ... (`n` to go). -/
def swap_in_loop (index : Nat) : Nat → Nat → Swap → Buf → Except Fault (Swap × Buf)
  | 0, _, sw, frame => pure (sw, frame)
  | n + 1, i, sw, frame => do
    let t ← bitmap_test sw.swap_bitmap (index + i)
    if t = false then Except.error Fault.assertion
    else do
      let frame1 := memcpy frame (i * BLOCK_SECTOR_SIZE) (sw.swap_block (index + i)) 0 512
      let bm ← bitmap_set sw.swap_bitmap (index + i) false
      swap_in_loop index n (i + 1) { sw with swap_bitmap := bm } frame1

/-- The function `swap_in`, on the contents `frame` of the frame of `fte`. -/
def swap_in (sw : Swap) (frame : Buf) (index : Nat) : Except Fault (Swap × Buf) :=
  swap_in_loop index 8 0 sw frame

/-- The loop of `swap_delete` over the bits `index + i`, ... (`n` to go). -/
def swap_delete_loop (index : Nat) : Nat → Nat → Bitmap → Except Fault Bitmap
  | 0, _, bm => pure bm
  | n + 1, i, bm => do
    let bm1 ← bitmap_set bm (index + i) false
    swap_delete_loop index n (i + 1) bm1

/-- The function `swap_delete`. -/
def swap_delete (sw : Swap) (index : Nat) : Except Fault Swap := do
  let bm ← swap_delete_loop index 8 0 sw.swap_bitmap
  pure { sw with swap_bitmap := bm }

/-- A swap device of 32 sectors whose first 8-sector slot is taken. -/
def ex_swap : Swap :=
  { swap_bitmap := { bits := fun j => decide (j < 8), size := 32 }
    swap_block := fun _ => zeros }

/-- A frame filled with the bytes 0, 1, 2, ... (mod 251). -/
def ex_frame : Buf := fun j => j % 251

/-- An entry of a resident, writable page. -/
def ex_spte : SPT_entry :=
  { page := 0x8048000, frame := 0xc0100000, index := 0, evicted := false, writable := true,
    is_mmap := false, mmap_read_bytes := 0, mmap_zero_bytes := 0, mmap_offset := 0,
    mmap_file := 0 }

/-! ## Frame table, supplemental page table and `munmap`
(`src/vm/frame.c`, `src/vm/suppage.c`, `src/userprog/syscall_util.c`) -/

/-- Bytes per page. -/
def PGSIZE : Nat := 4096

/-- The start of kernel virtual memory. -/
def PHYS_BASE : Nat := 0xc0000000

/-- Modelled from the spec: `pg_round_down` (`threads/vaddr.h` is not among the
sources): the start of the page an address lies in. -/
def pg_round_down (va : Nat) : Nat := va - va % PGSIZE

/-- An entry of the frame table, `struct frame_table_entry` (the lock left out);
`owner` is a thread, `aux` the address of an `SPT_entry`. -/
structure frame_table_entry where
  owner : Nat
  frame : Nat
  aux : Nat
deriving DecidableEq

/-- Modelled from the spec: an entry of a page table (`userprog/pagedir.c` is
not among the sources): the frame, and the bits `PTE_P` (present), `PTE_W`,
`PTE_A` and `PTE_D` of the entry.  A page that never had a mapping has no
entry. -/
structure pte where
  kpage : Nat
  present : Bool
  writable : Bool
  accessed : Bool
  dirty : Bool
deriving DecidableEq

/-- A mapping of a file, `struct mmap_entry`. -/
structure mmap_entry where
  mapid : Int
  file : Nat
  addr : Nat
  length : Nat
deriving DecidableEq

/-- A call of `file_write_at` as the file layer sees it: the file, the bytes
and the offset. -/
structure FileWrite where
  file : Nat
  data : List Nat
  ofs : Nat
deriving DecidableEq

/-- An entry of the executable page table, `struct execpage_entry`. -/
structure execpage_entry where
  upage : Nat
  ofs : Nat
  page_read_bytes : Nat
  page_zero_bytes : Nat
  writable : Bool
deriving DecidableEq

/-- The state of the paging code: the running thread, the `SPT_entry` objects by
address and the table `t->SPT` of each thread (addresses of its entries), the
`frame_table_entry` objects by address and the global `frame_table`, the page
table of each thread, kernel memory, the free pages of the user pool, the
contents of the files, the calls of `file_write_at` so far, the open file
handles, the list `t->mmap_list` of each thread, the swap statics and the
next address `calloc` hands out; then the descriptors `t->file_list` of each
thread (number and file), the length of each file and whether it is a
directory, the table `t->execpage` and the counter `t->mapid` of each thread,
and the clock hand `global_frame`.  Address 0 is `NULL`.  Modelled from the
spec: a `struct file *` is the number of the file it opens (`filesys/file.c` is
not among the sources), and `open_files` has one element for each open handle
of a file. -/
structure VM where
  cur : Nat
  spt_heap : Nat → Option SPT_entry
  SPT : Nat → List Nat
  fte_heap : Nat → Option frame_table_entry
  frame_table : List Nat
  pagedir : Nat → Nat → Option pte
  mem : Buf
  free_pages : List Nat
  files : Nat → Buf
  writes : List FileWrite
  open_files : List Nat
  mmap_list : Nat → List mmap_entry
  swap : Swap
  brk : Nat
  file_list : Nat → List (Int × Nat)
  file_length : Nat → Nat
  file_isdir : Nat → Bool
  execpage : Nat → List execpage_entry
  mapid : Nat → Int
  global_frame : Nat

/-- Reads through a pointer to an `SPT_entry`. -/
def VM.spte (st : VM) (p : Nat) : Except Fault SPT_entry :=
  match st.spt_heap p with
  | some e => pure e
  | none => Except.error Fault.null

/-- Reads through a pointer to a `frame_table_entry`. -/
def VM.fte (st : VM) (p : Nat) : Except Fault frame_table_entry :=
  match st.fte_heap p with
  | some f => pure f
  | none => Except.error Fault.null

/-- The comparison of the hash table `SPT`: the entry at `a` has key `page`. -/
def spt_key_is (st : VM) (page : Nat) (a : Nat) : Bool :=
  match st.spt_heap a with
  | some e => e.page == page
  | none => false

/-- The comparison of the hash table `frame_table`: the entry at `a` has key
`frame`. -/
def fte_key_is (st : VM) (frame : Nat) (a : Nat) : Bool :=
  match st.fte_heap a with
  | some f => f.frame == frame
  | none => false

/-- The function `SPT_lookup` on the table of thread `t`; `hash_find` is
modelled from the spec as the search for the element with the key. -/
def SPT_lookup (st : VM) (t : Nat) (fault_addr : Nat) : Nat :=
  match (st.SPT t).find? (spt_key_is st (pg_round_down fault_addr)) with
  | some a => a
  | none => 0

/-- The function `SPT_remove`; `hash_delete` is modelled from the spec as the
removal of the element with the key of the entry. -/
def SPT_remove (st : VM) (spte : Nat) (t : Nat) : Except Fault VM :=
  if spte = 0 then Except.error Fault.assertion
  else do
    let e ← st.spte spte
    pure { st with
      SPT := fun u => if u = t then (st.SPT t).eraseP (spt_key_is st e.page) else st.SPT u
      spt_heap := fun q => if q = spte then none else st.spt_heap q }

/-- The function `fte_lookup`. -/
def fte_lookup (st : VM) (frame : Nat) : Except Fault Nat :=
  if frame = 0 then Except.error Fault.assertion
  else
    match st.frame_table.find? (fte_key_is st frame) with
    | some a => pure a
    | none => pure 0

/-- Modelled from the spec: `pagedir_is_dirty (pd, vpage)`, the bit `PTE_D` of
the entry of the page, present or not; false for a page without entry. -/
def pagedir_is_dirty (pd : Nat → Option pte) (vpage : Nat) : Bool :=
  match pd vpage with
  | some p => p.dirty
  | none => false

/-- Modelled from the spec: `pagedir_clear_page (pd, upage)` marks the page
not present, so that later accesses fault; the other bits of the entry, the
dirty bit among them, stay as they are. -/
def pagedir_clear_page (pd : Nat → Option pte) (upage : Nat) : Nat → Option pte :=
  fun q => if q = upage then (pd upage).map (fun p => { p with present := false }) else pd q

/-- The function `frame_remove`; `palloc_free_page` is modelled from the spec
as the return of the page to the pool. -/
def frame_remove (st : VM) (fte : Nat) : Except Fault VM :=
  if fte = 0 then Except.error Fault.assertion
  else do
    let f ← st.fte fte
    let e ← st.spte f.aux
    pure { st with
      pagedir := fun u => if u = f.owner then pagedir_clear_page (st.pagedir f.owner) e.page
                          else st.pagedir u
      frame_table := st.frame_table.eraseP (fte_key_is st f.frame)
      free_pages := f.frame :: st.free_pages
      fte_heap := fun q => if q = fte then none else st.fte_heap q }

/-- Modelled from the spec: `file_write_at (file, buffer, size, file_ofs)` with
the buffer in kernel memory (`filesys/file.c` is not among the sources): the
bytes become the contents of the file from the offset on, and the call is
recorded. -/
def file_write_at (st : VM) (file : Nat) (buffer : Nat) (size : Nat) (file_ofs : Nat) : VM :=
  { st with
    files := fun g => if g = file then memcpy (st.files file) file_ofs st.mem buffer size
                      else st.files g
    writes := st.writes ++ [{ file := file, data := bytes (ptr_add st.mem buffer) size,
                              ofs := file_ofs }] }

/-- The function `mapid_to_mmap_entry`; `none` is `NULL`. -/
def mapid_to_mmap_entry (st : VM) (mapping : Int) : Option mmap_entry :=
  (st.mmap_list st.cur).find? (fun me => me.mapid == mapping)

/-- One turn of the loop of `munmap`, for the page at `addr`. -/
def munmap_page (st : VM) (addr : Nat) : Except Fault VM := do
  let spte := SPT_lookup st st.cur addr
  let e ← st.spte spte
  let st1 ←
    if pagedir_is_dirty (st.pagedir st.cur) e.page then do
      let fte ← fte_lookup st e.frame
      if fte = 0 then Except.error Fault.assertion
      else frame_remove (file_write_at st e.mmap_file e.frame e.mmap_read_bytes e.mmap_offset) fte
    else pure st
  SPT_remove st1 spte st.cur

/-- The loop of `munmap` from `addr` on, `n` turns at most. -/
def munmap_loop (end_addr : Nat) : Nat → Nat → VM → Except Fault VM
  | 0, addr, st => if addr < end_addr then Except.error Fault.spin else pure st
  | n + 1, addr, st =>
    if addr < end_addr then do
      let st1 ← munmap_page st addr
      munmap_loop end_addr n ((addr + PGSIZE) % 4294967296) st1
    else pure st

/-- The function `munmap`; `file_close` is modelled from the spec as the end of
the handle. -/
def munmap (st : VM) (mapping : Int) : Except Fault VM :=
  match mapid_to_mmap_entry st mapping with
  | none => Except.error Fault.null
  | some me => do
    let end_addr := (me.addr + me.length) % 4294967296
    let st1 ← munmap_loop end_addr 1048577 me.addr st
    pure { st1 with
      mmap_list := fun u =>
        if u = st1.cur then (st1.mmap_list st1.cur).erase me else st1.mmap_list u
      open_files := st1.open_files.erase me.file }

/-- The `cnt` pages from `addr` on, lowest first. -/
def pages_from : Nat → Nat → List Nat
  | _, 0 => []
  | addr, cnt + 1 => addr :: pages_from (addr + PGSIZE) cnt

/-- The pages of a mapping, lowest first. -/
def mmap_pages (me : mmap_entry) : List Nat :=
  pages_from me.addr ((me.length + (PGSIZE - 1)) / PGSIZE)

/-- The call of `file_write_at` that writes the page at `pg` back, if the page
table of the running thread has the page dirty. -/
def write_back_of (st : VM) (pg : Nat) : Option FileWrite :=
  match st.spt_heap (SPT_lookup st st.cur pg) with
  | some e =>
    if pagedir_is_dirty (st.pagedir st.cur) e.page then
      some { file := e.mmap_file, data := bytes (ptr_add st.mem e.frame) e.mmap_read_bytes,
             ofs := e.mmap_offset }
    else none
  | none => none

/-- The page at `pg` can be unmapped: the running thread has an entry for it
and, if its page table has the page dirty, the frame of the entry is in the
frame table, owned by the thread and pointing back at the entry. -/
def MappedPage (st : VM) (pg : Nat) : Prop :=
  ∃ e, SPT_lookup st st.cur pg ≠ 0 ∧ st.spt_heap (SPT_lookup st st.cur pg) = some e ∧
    (pagedir_is_dirty (st.pagedir st.cur) e.page = true →
      e.frame ≠ 0 ∧ ∃ f, st.frame_table.find? (fte_key_is st e.frame) = some f ∧ f ≠ 0 ∧
        st.fte_heap f =
          some { owner := st.cur, frame := e.frame, aux := SPT_lookup st st.cur pg })

/-- No two entries of the table of the running thread have the same key. -/
def SPTDistinct (st : VM) : Prop :=
  ∀ a b ea eb, a ∈ st.SPT st.cur → b ∈ st.SPT st.cur →
    st.spt_heap a = some ea → st.spt_heap b = some eb → ea.page = eb.page → a = b

/-- The contents of the files after the call `w` of `file_write_at`. -/
def apply_write (files : Nat → Buf) (w : FileWrite) : Nat → Buf :=
  fun g i =>
    if g = w.file ∧ w.ofs ≤ i ∧ i < w.ofs + w.data.length then w.data.getD (i - w.ofs) 0
    else files g i

/-- What one turn of the loop of `munmap` for the page `pg`, with entry at `a`,
changes from `st` to `st1` outside the files: the entry is gone from the table
and freed, no other page of the thread loses its mapping, and every frame-table
entry that does not point at `a` stays. -/
def PageGone (st st1 : VM) (pg a : Nat) : Prop :=
  st1.cur = st.cur ∧ st1.mem = st.mem ∧
  st1.spt_heap = (fun q => if q = a then none else st.spt_heap q) ∧
  st1.SPT st.cur = (st.SPT st.cur).eraseP (spt_key_is st pg) ∧
  (∀ p, p ≠ pg → st1.pagedir st.cur p = st.pagedir st.cur p) ∧
  (∀ fr f x, st.frame_table.find? (fte_key_is st fr) = some f → st.fte_heap f = some x →
    x.aux ≠ a →
    st1.frame_table.find? (fte_key_is st1 fr) = some f ∧ st1.fte_heap f = some x)

/-- The mapping of the example: file 3, of 3 pages, at 0x10000000. -/
def ex_mapping : mmap_entry := { mapid := 0, file := 3, addr := 0x10000000, length := 12288 }

/-- The entry of page `k` of the example mapping, with its frame. -/
def ex_mmap_spte (k frame : Nat) : SPT_entry :=
  { page := 0x10000000 + 4096 * k, frame := frame, index := 0, evicted := false,
    writable := true, is_mmap := true, mmap_read_bytes := 4096, mmap_zero_bytes := 0,
    mmap_offset := 4096 * k, mmap_file := 3 }

/-- Thread 1 has mapped a 3-page file of bytes 0x41; only page 1 was touched: it
is resident in the frame at 0xc0100000, which holds bytes 0x42, and dirty. -/
def ex_vm : VM :=
  { cur := 1
    spt_heap := fun a =>
      if a = 100 then some (ex_mmap_spte 0 0)
      else if a = 101 then some (ex_mmap_spte 1 0xc0100000)
      else if a = 102 then some (ex_mmap_spte 2 0)
      else none
    SPT := fun t => if t = 1 then [100, 101, 102] else []
    fte_heap := fun a =>
      if a = 200 then some { owner := 1, frame := 0xc0100000, aux := 101 } else none
    frame_table := [200]
    pagedir := fun t pg =>
      if t = 1 ∧ pg = 0x10001000 then
        some { kpage := 0xc0100000, present := true, writable := true, accessed := true,
               dirty := true }
      else none
    mem := fun i => if 0xc0100000 ≤ i ∧ i < 0xc0101000 then 0x42 else 0
    free_pages := []
    files := fun g i => if g = 3 ∧ i < 12288 then 0x41 else 0
    writes := []
    open_files := [3, 3]
    mmap_list := fun t => if t = 1 then [ex_mapping] else []
    swap := ex_swap
    brk := 300
    file_list := fun t => if t = 1 then [(2, 3)] else []
    file_length := fun g => if g = 3 then 12288 else 0
    file_isdir := fun _ => false
    execpage := fun _ => []
    mapid := fun t => if t = 1 then 1 else 0
    global_frame := 0 }

/-! ## Layout of `struct inode_disk` -/

/-- A member of a C struct: the size of its element type in bytes (which on
the 32-bit target is also its alignment) and the number of elements. -/
structure CField where
  size : Nat
  count : Nat
deriving DecidableEq

/-- The next multiple of `a` from `n` on. -/
def align_up (n a : Nat) : Nat := (n + (a - 1)) / a * a

/-- The offsets the C compiler gives the members from offset `ofs` on, and the
offset after the last member. -/
def struct_offsets : Nat → List CField → List Nat × Nat
  | ofs, [] => ([], ofs)
  | ofs, f :: fs =>
    let start := align_up ofs f.size
    let r := struct_offsets (start + f.size * f.count) fs
    (start :: r.1, r.2)

/-- The value of `sizeof` for a struct: the end of the last member rounded up
to the largest alignment. -/
def struct_sizeof (fs : List CField) : Nat :=
  align_up (struct_offsets 0 fs).2 (fs.foldl (fun a f => max a f.size) 1)

/-- The members of `struct inode_disk` in declaration order: `length`,
`direct[10]`, `indirect[1]`, `double_indirect[1]`, `isdir` (a 1-byte `bool`),
`entry_cnt`, `magic`, `unused[112]`. -/
def inode_disk_fields : List CField :=
  [⟨4, 1⟩, ⟨4, NUM_DIRECT⟩, ⟨4, 1⟩, ⟨4, 1⟩, ⟨1, 1⟩, ⟨4, 1⟩, ⟨4, 1⟩, ⟨4, 112⟩]

/-! ### Sequences of calls on the swap device -/

/-- The function `swap_init` on a swap device of `size` sectors with contents
`blk`; `bitmap_create` and `bitmap_set_all` are modelled from the spec. -/
def swap_init (blk : Nat → Buf) (size : Nat) : Swap :=
  { swap_bitmap := { bits := fun _ => false, size := size }, swap_block := blk }

/-- A call on the swap device. -/
inductive SwapOp where
  /-- The call `swap_out (fte)` for a frame with contents `frame` and entry
  `spte`. -/
  | out (frame : Buf) (spte : SPT_entry)
  /-- The call `swap_in (fte, index)`. -/
  | read_in (index : Nat)
  /-- The call `swap_delete (index)`. -/
  | delete (index : Nat)

/-- The swap statics together with the slot indices that `swap_out` has stamped
on entries and that are still held (not yet swapped in or deleted), and all the
indices `swap_out` has stamped so far. -/
structure SwapTrace where
  sw : Swap
  held : List Nat
  returned : List Nat

/-- Runs the calls in order; `swap_in` and `swap_delete` are applied to held
indices only, and a run that faults has no final state. -/
def swap_ops : SwapTrace → List SwapOp → Option SwapTrace
  | t, [] => some t
  | t, SwapOp.out frame spte :: ops =>
    match swap_out t.sw frame spte with
    | Except.ok (sw1, e) =>
      swap_ops { sw := sw1, held := e.index :: t.held, returned := e.index :: t.returned } ops
    | Except.error _ => none
  | t, SwapOp.read_in index :: ops =>
    if index ∈ t.held then
      match swap_in t.sw zeros index with
      | Except.ok (sw1, _) => swap_ops { t with sw := sw1, held := t.held.erase index } ops
      | Except.error _ => none
    else none
  | t, SwapOp.delete index :: ops =>
    if index ∈ t.held then
      match swap_delete t.sw index with
      | Except.ok sw1 => swap_ops { t with sw := sw1, held := t.held.erase index } ops
      | Except.error _ => none
    else none

/-- The invariant of the swap bitmap: every stamped index is a multiple of 8,
the held slots lie inside the device, no slot is held twice, and the set bits
are exactly the sectors of the held slots. -/
structure SwapInv (t : SwapTrace) : Prop where
  aligned : ∀ idx ∈ t.returned, idx % 8 = 0
  inside : ∀ idx ∈ t.held, idx % 8 = 0 ∧ idx + 8 ≤ t.sw.swap_bitmap.size
  nodup : t.held.Nodup
  bits : ∀ j, t.sw.swap_bitmap.bits j = true ↔ ∃ idx ∈ t.held, idx ≤ j ∧ j < idx + 8

/-- Three pages go out, the first comes back, the second is deleted and a
fourth goes out, on a device of 30 sectors. -/
def ex_swap_ops : List SwapOp :=
  [SwapOp.out ex_frame ex_spte, SwapOp.out zeros ex_spte, SwapOp.out ex_frame ex_spte,
   SwapOp.read_in 0, SwapOp.delete 8, SwapOp.out ex_frame ex_spte]

/-! ### `SPT_insert`, the executable page table and `mmap` -/

/-- The function `SPT_insert` for the running thread: returns the state and the
address of the new entry.  Memory allocation succeeds; `hash_insert` is
modelled from the spec: an element whose key is in the table already is not
inserted. -/
def SPT_insert (st : VM) (upage kpage : Nat) (writable : Bool) : Except Fault (VM × Nat) :=
  if upage = 0 then Except.error Fault.assertion
  else
    let p := st.brk
    let e : SPT_entry :=
      { page := upage, frame := kpage, index := 0, evicted := false, writable := writable,
        is_mmap := false, mmap_read_bytes := 0, mmap_zero_bytes := 0, mmap_offset := 0,
        mmap_file := 0 }
    let st1 : VM :=
      { st with spt_heap := fun q => if q = p then some e else st.spt_heap q, brk := p + 1 }
    match (st1.SPT st1.cur).find? (spt_key_is st1 upage) with
    | some _ => pure (st1, p)
    | none =>
      pure ({ st1 with
        SPT := fun u => if u = st1.cur then p :: st1.SPT st1.cur else st1.SPT u }, p)

/-- The function `execpage_lookup` on the table of thread `t`; `none` is
`NULL`. -/
def execpage_lookup (st : VM) (t : Nat) (fault_addr : Nat) : Option execpage_entry :=
  (st.execpage t).find? (fun e => e.upage == pg_round_down fault_addr)

/-- The function `execpage_insert` for the running thread. -/
def execpage_insert (st : VM) (upage ofs page_read_bytes page_zero_bytes : Nat)
    (writable : Bool) : VM :=
  let e : execpage_entry :=
    { upage := upage, ofs := ofs, page_read_bytes := page_read_bytes,
      page_zero_bytes := page_zero_bytes, writable := writable }
  match (st.execpage st.cur).find? (fun x => x.upage == upage) with
  | some _ => st
  | none =>
    { st with execpage := fun u => if u = st.cur then e :: st.execpage st.cur else st.execpage u }

/-- The function `fd_to_file`; 0 is `NULL`. -/
def fd_to_file (st : VM) (fd : Int) : Nat :=
  match (st.file_list st.cur).find? (fun f => f.1 == fd) with
  | some f => f.2
  | none => 0

/-- The function `isdir` of the system calls: `file_get_inode` reads through
the file pointer. -/
def isdir (st : VM) (fd : Int) : Except Fault Bool :=
  if fd_to_file st fd = 0 then Except.error Fault.null
  else pure (st.file_isdir (fd_to_file st fd))

/-- Modelled from the spec: `is_user_vaddr` (`threads/vaddr.h` is not among the
sources). -/
def is_user_vaddr (va : Nat) : Bool := decide (va < PHYS_BASE)

/-- The loop of `mmap`: `length` bytes of the file from `offset` on are still to
be described, for the pages from `addr` on; `n` turns at most. -/
def mmap_loop (file : Nat) : Nat → VM → Int → Nat → Nat → Except Fault VM
  | 0, st, length, _, _ => if 0 < length then Except.error Fault.spin else pure st
  | n + 1, st, length, offset, addr =>
    if 0 < length then do
      let page_read_bytes : Nat := if length < 4096 then length.toNat else PGSIZE
      let page_zero_bytes : Nat := PGSIZE - page_read_bytes
      let (st1, spte) ← SPT_insert st addr 0 true
      let e ← st1.spte spte
      let e1 : SPT_entry :=
        { e with
          is_mmap := true, mmap_offset := offset, mmap_read_bytes := page_read_bytes,
          mmap_zero_bytes := page_zero_bytes, mmap_file := file }
      let st2 : VM :=
        { st1 with spt_heap := fun q => if q = spte then some e1 else st1.spt_heap q }
      mmap_loop file n st2 (length - 4096) (offset + PGSIZE) ((addr + PGSIZE) % 4294967296)
    else pure st

/-- The function `mmap`: returns the state and the mapping id, or -1;
`file_reopen` and `file_length` are modelled from the spec. -/
def mmap (st : VM) (fd : Int) (addr : Nat) : Except Fault (VM × Int) :=
  let ptr := fd_to_file st fd
  if fd = 1 ∨ fd = 0 then pure (st, -1)
  else do
    let d ← isdir st fd
    if d then pure (st, -1)
    else if ptr = 0 ∨ is_user_vaddr addr = false ∨ pg_round_down addr ≠ addr ∨ addr = 0 then
      pure (st, -1)
    else if SPT_lookup st st.cur addr ≠ 0 ∨ (execpage_lookup st st.cur addr).isSome then
      pure (st, -1)
    else
      let file := ptr
      let st1 : VM := { st with open_files := file :: st.open_files }
      let length : Nat := st1.file_length file
      if length = 0 then pure (st1, -1)
      else do
        let me : mmap_entry :=
          { mapid := st1.mapid st1.cur, file := file, addr := addr, length := length }
        let st2 : VM :=
          { st1 with mapid := fun u => if u = st1.cur then st1.mapid st1.cur + 1 else st1.mapid u }
        let st3 ← mmap_loop file 1048577 st2 (length : Int) 0 addr
        pure ({ st3 with
          mmap_list := fun u =>
            if u = st3.cur then st3.mmap_list st3.cur ++ [me] else st3.mmap_list u }, me.mapid)

/-- The descriptor of page `k` of a mapping of the `len` bytes of `file` from
`offset` on at `addr`. -/
def mmap_spte (file addr offset len k : Nat) : SPT_entry :=
  { page := addr + 4096 * k, frame := 0, index := 0, evicted := false, writable := true,
    is_mmap := true, mmap_read_bytes := min 4096 (len - 4096 * k),
    mmap_zero_bytes := 4096 - min 4096 (len - 4096 * k), mmap_offset := offset + 4096 * k,
    mmap_file := file }

/-! ### Frame allocation and eviction (`src/vm/frame.c`) -/

/-- Modelled from the spec: `pagedir_is_accessed (pd, vpage)`, the bit `PTE_A`
of the entry of the page, present or not. -/
def pagedir_is_accessed (pd : Nat → Option pte) (vpage : Nat) : Bool :=
  match pd vpage with
  | some p => p.accessed
  | none => false

/-- Modelled from the spec: `pagedir_set_accessed (pd, vpage, accessed)`. -/
def pagedir_set_accessed (pd : Nat → Option pte) (vpage : Nat) (accessed : Bool) :
    Nat → Option pte :=
  fun q => if q = vpage then (pd vpage).map (fun p => { p with accessed := accessed }) else pd q

/-- Modelled from the spec: `pagedir_get_page (pd, uaddr)` for a page address:
the frame of a page that is present; 0 is `NULL`. -/
def pagedir_get_page (pd : Nat → Option pte) (upage : Nat) : Nat :=
  match pd upage with
  | some p => if p.present then p.kpage else 0
  | none => 0

/-- Modelled from the spec: `pagedir_set_page (pd, upage, kpage, writable)`
installs a new entry, present, with the accessed and dirty bits clear; memory
for the page table is there, so the call returns true. -/
def pagedir_set_page (pd : Nat → Option pte) (upage kpage : Nat) (writable : Bool) :
    Nat → Option pte :=
  fun q =>
    if q = upage then
      some { kpage := kpage, present := true, writable := writable, accessed := false,
             dirty := false }
    else pd q

/-- Modelled from the spec: `palloc_get_page (flags)` for the user pool: the
first free page, zeroed under `PAL_ZERO`, or `NULL` when the pool is empty. -/
def palloc_get_page (st : VM) (zero : Bool) : VM × Nat :=
  match st.free_pages with
  | [] => (st, 0)
  | p :: l =>
    ({ st with
      free_pages := l
      mem := fun i => if zero = true ∧ p ≤ i ∧ i < p + PGSIZE then 0 else st.mem i }, p)

/-- The inner loop of `choose_victim` over the frames from the iterator on; the
order of the hash table is the order of the list, and a frame lock is free in a
sequential run. -/
def victim_scan : List Nat → VM → Except Fault (VM × Option Nat)
  | [], st => pure ({ st with global_frame := 0 }, none)
  | a :: rest, st => do
    let f ← st.fte a
    let e ← st.spte f.aux
    if pagedir_is_accessed (st.pagedir f.owner) e.page then
      victim_scan rest { st with
        pagedir := fun u =>
          if u = f.owner then pagedir_set_accessed (st.pagedir f.owner) e.page false
          else st.pagedir u }
    else
      match rest with
      | [] => pure ({ st with global_frame := 0 }, some a)
      | b :: _ => do
        let g ← st.fte b
        pure ({ st with global_frame := g.frame }, some a)

/-- The function `choose_victim`: a pass from the clock hand, then passes from
the first frame; the third pass finds every frame with its accessed bit
cleared, and an empty table is searched for ever. -/
def choose_victim (st : VM) : Except Fault (VM × Nat) := do
  let start ←
    if st.global_frame = 0 then pure st.frame_table
    else do
      let next_fte ← fte_lookup st st.global_frame
      if next_fte = 0 then Except.error Fault.assertion
      else pure (st.frame_table.dropWhile (fun a => a != next_fte))
  match ← victim_scan start st with
  | (st1, some v) => pure (st1, v)
  | (st1, none) =>
    match ← victim_scan st1.frame_table st1 with
    | (st2, some v) => pure (st2, v)
    | (st2, none) =>
      match ← victim_scan st2.frame_table st2 with
      | (st3, some v) => pure (st3, v)
      | (_, none) => Except.error Fault.spin

/-- The call `swap_out (fte)` on the state: the frame of `fte` goes to swap and
the entry `fte->aux` is stamped. -/
def vm_swap_out (st : VM) (fte : Nat) : Except Fault VM :=
  if fte = 0 then Except.error Fault.assertion
  else do
    let f ← st.fte fte
    if f.aux = 0 then Except.error Fault.assertion
    else do
      let e ← st.spte f.aux
      let (sw, e1) ← swap_out st.swap (ptr_add st.mem f.frame) e
      pure { st with
        swap := sw
        spt_heap := fun q => if q = f.aux then some e1 else st.spt_heap q }

/-- The call `swap_in (fte, index)` on the state. -/
def vm_swap_in (st : VM) (fte : Nat) (index : Nat) : Except Fault VM :=
  if fte = 0 then Except.error Fault.assertion
  else do
    let f ← st.fte fte
    let (sw, buf) ← swap_in st.swap (ptr_add st.mem f.frame) index
    pure { st with swap := sw, mem := memcpy st.mem f.frame buf 0 PGSIZE }

/-- The branch of `frame_alloc` that resolves the victim `to_evict`. -/
def frame_alloc_evict (st : VM) (to_evict : Nat) : Except Fault VM := do
  let f ← st.fte to_evict
  let e ← st.spte f.aux
  if e.is_mmap then
    frame_remove (file_write_at st e.mmap_file e.frame e.mmap_read_bytes e.mmap_offset) to_evict
  else if pagedir_is_dirty (st.pagedir f.owner) e.page then do
    let st1 ← vm_swap_out st to_evict
    frame_remove st1 to_evict
  else do
    let st1 ← frame_remove st to_evict
    SPT_remove st1 f.aux f.owner

/-- The function `frame_alloc`: returns the state and the address of the new
entry.  Memory allocation succeeds. -/
def frame_alloc (st : VM) (zero : Bool) : Except Fault (VM × Nat) := do
  let new := st.brk
  let st0 : VM :=
    { st with
      brk := new + 1
      fte_heap := fun q =>
        if q = new then some { owner := 0, frame := 0, aux := 0 } else st.fte_heap q }
  let (st1, page) := palloc_get_page st0 zero
  let (st2, frame) ←
    if page = 0 then do
      let (sa, to_evict) ← choose_victim st1
      let sb ← frame_alloc_evict sa to_evict
      pure (palloc_get_page sb zero)
    else pure (st1, page)
  let nf : frame_table_entry := { owner := st2.cur, frame := frame, aux := 0 }
  let st3 : VM := { st2 with fte_heap := fun q => if q = new then some nf else st2.fte_heap q }
  match st3.frame_table.find? (fte_key_is st3 frame) with
  | some _ => pure (st3, new)
  | none => pure ({ st3 with frame_table := new :: st3.frame_table }, new)

/-- The function `allocate_page`. -/
def allocate_page (st : VM) (upage fte : Nat) (writable : Bool) : Except Fault (VM × Bool) :=
  if upage = 0 ∨ fte = 0 then Except.error Fault.assertion
  else do
    let f ← st.fte fte
    let kpage := f.frame
    if pagedir_get_page (st.pagedir st.cur) upage ≠ 0 then Except.error Fault.assertion
    else do
      let st1 : VM :=
        { st with
          pagedir := fun u =>
            if u = st.cur then pagedir_set_page (st.pagedir st.cur) upage kpage writable
            else st.pagedir u }
      let (st2, spte) ← SPT_insert st1 upage kpage writable
      pure ({ st2 with
        fte_heap := fun q => if q = fte then some { f with aux := spte } else st2.fte_heap q },
        true)

/-- The function `reclaim_page`. -/
def reclaim_page (st : VM) (spte upage fte : Nat) : Except Fault VM :=
  if upage = 0 ∨ fte = 0 then Except.error Fault.assertion
  else do
    let f ← st.fte fte
    let kpage := f.frame
    if pagedir_get_page (st.pagedir st.cur) upage ≠ 0 then Except.error Fault.assertion
    else do
      let e ← st.spte spte
      pure { st with
        pagedir := fun u =>
          if u = st.cur then pagedir_set_page (st.pagedir st.cur) upage kpage e.writable
          else st.pagedir u
        spt_heap := fun q =>
          if q = spte then some { e with page := upage, frame := kpage, evicted := false }
          else st.spt_heap q
        fte_heap := fun q => if q = fte then some { f with aux := spte } else st.fte_heap q }

/-- The function `destructor_` of the table of thread `t`, on the entry at
`entry`. -/
def destructor_ (st : VM) (entry : Nat) : Except Fault VM := do
  let e ← st.spte entry
  let st1 ←
    if e.evicted then do
      let sw ← swap_delete st.swap e.index
      pure { st with swap := sw }
    else if e.is_mmap = false then do
      let fte ← fte_lookup st e.frame
      if fte = 0 then Except.error Fault.null
      else frame_remove st fte
    else pure st
  pure { st1 with spt_heap := fun q => if q = entry then none else st1.spt_heap q }

/-- The walk of `hash_destroy` over the elements of the table. -/
def destroy_loop : List Nat → VM → Except Fault VM
  | [], st => pure st
  | a :: rest, st => do
    let st1 ← destructor_ st a
    destroy_loop rest st1

/-- The function `SPT_destroy`; `hash_destroy` is modelled from the spec: the
destructor runs on every element and the table is left without elements. -/
def SPT_destroy (st : VM) : Except Fault VM := do
  let st1 ← destroy_loop (st.SPT st.cur) st
  pure { st1 with SPT := fun u => if u = st.cur then [] else st1.SPT u }

/-- The example state with page 1 of the mapping resident but clean: it was
read, not written. -/
def ex_vm_clean : VM :=
  { ex_vm with
    pagedir := fun t pg =>
      if t = 1 ∧ pg = 0x10001000 then
        some { kpage := 0xc0100000, present := true, writable := true, accessed := false,
               dirty := false }
      else none }

/-- Thread 1 has one stack page, at 0x20000000, resident in the only frame of
the user pool, at 0xc0100000, written with bytes 0x42; the swap device has 32
free sectors. -/
def ex_stack_vm : VM :=
  { cur := 1
    spt_heap := fun a =>
      if a = 100 then
        some { page := 0x20000000, frame := 0xc0100000, index := 0, evicted := false,
               writable := true, is_mmap := false, mmap_read_bytes := 0, mmap_zero_bytes := 0,
               mmap_offset := 0, mmap_file := 0 }
      else none
    SPT := fun t => if t = 1 then [100] else []
    fte_heap := fun a =>
      if a = 200 then some { owner := 1, frame := 0xc0100000, aux := 100 } else none
    frame_table := [200]
    pagedir := fun t pg =>
      if t = 1 ∧ pg = 0x20000000 then
        some { kpage := 0xc0100000, present := true, writable := true, accessed := true,
               dirty := true }
      else none
    mem := fun i => if 0xc0100000 ≤ i ∧ i < 0xc0101000 then 0x42 else 0
    free_pages := []
    files := fun _ => zeros
    writes := []
    open_files := []
    mmap_list := fun _ => []
    swap := swap_init (fun _ => zeros) 32
    brk := 300
    file_list := fun _ => []
    file_length := fun _ => 0
    file_isdir := fun _ => false
    execpage := fun _ => []
    mapid := fun _ => 0
    global_frame := 0 }

/-- The stack page of `ex_stack_vm` is swapped out for a second page, brought
back by `swap_in` and `reclaim_page` as the fault handler does, not written, and
the next `frame_alloc` picks a victim.  Returns: the evicted flag and slot of
the entry while swapped out; the first byte of the page and its frame once it is
back; then, after the last `frame_alloc`, the result of `SPT_lookup` for the
page, whether a bit of the swap bitmap is set, the frame of the page and whether
the page has an executable-page entry. -/
def ex_lost_page_scenario : Except Fault (List Nat) := do
  let (st1, n1) ← frame_alloc ex_stack_vm true
  let (st2, _) ← allocate_page st1 0x20001000 n1 true
  let spte := SPT_lookup st2 1 0x20000000
  let e ← st2.spte spte
  let (st3, n2) ← frame_alloc st2 false
  let st4 ← vm_swap_in st3 n2 e.index
  let st5 ← reclaim_page st4 spte 0x20000000 n2
  let (st6, _) ← frame_alloc st5 true
  pure [if e.evicted then 1 else 0, e.index, st5.mem 0xc0100000,
    pagedir_get_page (st5.pagedir 1) 0x20000000, SPT_lookup st6 1 0x20000000,
    if bitmap_contains st6.swap.swap_bitmap 0 32 true then 1 else 0,
    pagedir_get_page (st6.pagedir 1) 0x20000000,
    if (execpage_lookup st6 1 0x20000000).isSome then 1 else 0]

/-- Scenario on the example state, in which page 1 of the mapping of file 3 is
resident and dirty in the only frame of the user pool: `frame_alloc` evicts the
page (the frame is written back to the file, the page is marked not present,
its entry stays in the table with the old frame), the frame is handed out again
and becomes the zeroed page 0x20000000 by `allocate_page`, and then `munmap`
unmaps the file.  Returns the calls of `file_write_at` in order (file, offset,
number of bytes, first and last byte); then, before the `munmap`, the frame of
page 1 in the page table (0 for not present), its dirty bit, the frame of page
0x20000000 and the bytes 4096 and 8191 of the file; and after the `munmap` the
same two bytes of the file and the frame of page 0x20000000. -/
def ex_stale_munmap : Except Fault (List (List Nat) × List Nat) := do
  let (st1, n1) ← frame_alloc ex_vm true
  let (st2, _) ← allocate_page st1 0x20000000 n1 true
  let st3 ← munmap st2 0
  pure (st3.writes.map
      (fun w => [w.file, w.ofs, w.data.length, w.data.headD 0, w.data.getLastD 0]),
    [pagedir_get_page (st2.pagedir 1) 0x10001000,
     if pagedir_is_dirty (st2.pagedir 1) 0x10001000 then 1 else 0,
     pagedir_get_page (st2.pagedir 1) 0x20000000,
     st2.files 3 4096, st2.files 3 8191,
     st3.files 3 4096, st3.files 3 8191,
     pagedir_get_page (st3.pagedir 1) 0x20000000])

/-! ### Sequences of calls on the cache, `cache_remove` included -/

/-- A call on the cache or a turn of the read-ahead thread, as in `CacheOp`, or
the call `cache_remove (sector)`. -/
inductive CacheCall where
  | op (o : CacheOp)
  | remove (sector : Nat)

/-- The state after one call. -/
def cache_call (c : Cache) : CacheCall → Except Fault Cache
  | CacheCall.op (CacheOp.read s ofs size) =>
    match cache_read_at c s zeros ofs size with
    | Except.error e => Except.error e
    | Except.ok (c1, _) => pure c1
  | CacheCall.op (CacheOp.write s data ofs size) => cache_write_at c s data ofs size
  | CacheCall.op CacheOp.ahead => pure (read_ahead_step c)
  | CacheCall.op CacheOp.done => pure (cache_done c)
  | CacheCall.remove s => pure (cache_remove c s)

/-- The state after the calls, in order. -/
def cache_calls : Cache → List CacheCall → Except Fault Cache
  | c, [] => pure c
  | c, call :: calls =>
    match cache_call c call with
    | Except.error e => Except.error e
    | Except.ok c1 => cache_calls c1 calls

/-- No slot that `cache_remove (sector)` would clear waits in the read-ahead
queue. -/
def remove_guard (c : Cache) (sector : Nat) : Bool :=
  (List.range 64).all (fun i =>
    !(decide ((c.cache i).sector = sector) && (c.cache i).valid && (c.cache i).loaded) ||
      !(c.read_queue.contains i))

/-- Every `cache_remove` of the run finds the slot of its sector outside the
read-ahead queue. -/
def guarded : Cache → List CacheCall → Bool
  | _, [] => true
  | c, call :: calls =>
    (match call with
      | CacheCall.remove s => remove_guard c s
      | CacheCall.op _ => true) &&
    (match cache_call c call with
      | Except.error _ => true
      | Except.ok c1 => guarded c1 calls)

/-- The flags of the slots: a loaded slot is valid, and so is every slot named
in the read-ahead queue. -/
structure FlagInv (c : Cache) : Prop where
  flags : ∀ i, (c.cache i).loaded = true → (c.cache i).valid = true
  queue : ∀ i ∈ c.read_queue, (c.cache i).valid = true

/-- Sector 0 is read, which queues the slot taken for sector 1; sector 1 is read
and then removed while its slot is still in the queue; the read-ahead thread
serves the entry. -/
def ex_stale_queue : List CacheCall :=
  [CacheCall.op (CacheOp.read 0 0 512), CacheCall.op (CacheOp.read 1 0 512),
   CacheCall.remove 1, CacheCall.op CacheOp.ahead]

/-- The same calls with the read-ahead thread served before the removal, then a
write and the flush. -/
def ex_drained_queue : List CacheCall :=
  [CacheCall.op (CacheOp.read 0 0 512), CacheCall.op (CacheOp.read 1 0 512),
   CacheCall.op CacheOp.ahead, CacheCall.op CacheOp.ahead, CacheCall.remove 1,
   CacheCall.op CacheOp.ahead, CacheCall.op (CacheOp.write 1 zeros 0 512),
   CacheCall.op CacheOp.done]

/-- The entry at `a` can be destroyed: it is allocated; if evicted, its slot lies
inside the swap device; if resident and not mmap'd, its frame is in the frame
table, with the back-pointer at the entry. -/
def DestroyReady (st : VM) (a : Nat) : Prop :=
  ∃ e, st.spt_heap a = some e ∧
    (e.evicted = true → e.index + 8 ≤ st.swap.swap_bitmap.size) ∧
    (e.evicted = false → e.is_mmap = false →
      e.frame ≠ 0 ∧ ∃ f x, st.frame_table.find? (fte_key_is st e.frame) = some f ∧ f ≠ 0 ∧
        st.fte_heap f = some x ∧ x.aux = a)

/-- No two entries of the frame table have the same key. -/
def FTDistinct (st : VM) : Prop :=
  ∀ a b x y, a ∈ st.frame_table → b ∈ st.frame_table →
    st.fte_heap a = some x → st.fte_heap b = some y → x.frame = y.frame → a = b

/-- What `destructor_` on the entry `e` at `a` changes from `st` to `st1`. -/
structure Destroyed (st st1 : VM) (a : Nat) (e : SPT_entry) : Prop where
  heap : st1.spt_heap = fun q => if q = a then none else st.spt_heap q
  size : st1.swap.swap_bitmap.size = st.swap.swap_bitmap.size
  bits : ∀ j, st1.swap.swap_bitmap.bits j = true ↔
    st.swap.swap_bitmap.bits j = true ∧ ¬ (e.evicted = true ∧ e.index ≤ j ∧ j < e.index + 8)
  kept : ∀ fr f1 x1, st.frame_table.find? (fte_key_is st fr) = some f1 →
    st.fte_heap f1 = some x1 → x1.aux ≠ a →
    st1.frame_table.find? (fte_key_is st1 fr) = some f1 ∧ st1.fte_heap f1 = some x1
  gone : ∀ fr, st.frame_table.find? (fte_key_is st fr) = none →
    st1.frame_table.find? (fte_key_is st1 fr) = none
  distinct : FTDistinct st → FTDistinct st1
  removed : FTDistinct st → e.evicted = false → e.is_mmap = false →
    st1.frame_table.find? (fte_key_is st1 e.frame) = none

/-- The example state with two more entries: a stack page at 0x20000000 that is
swapped out to slot 0, and a stack page at 0x20001000 that is resident in the
frame at 0xc0200000. -/
def ex_vm_swapped : VM :=
  { ex_vm with
    spt_heap := fun a =>
      if a = 103 then
        some { page := 0x20000000, frame := 0, index := 0, evicted := true, writable := true,
               is_mmap := false, mmap_read_bytes := 0, mmap_zero_bytes := 0, mmap_offset := 0,
               mmap_file := 0 }
      else if a = 104 then
        some { page := 0x20001000, frame := 0xc0200000, index := 0, evicted := false,
               writable := true, is_mmap := false, mmap_read_bytes := 0, mmap_zero_bytes := 0,
               mmap_offset := 0, mmap_file := 0 }
      else ex_vm.spt_heap a
    SPT := fun t => if t = 1 then [103, 104, 100, 101, 102] else []
    fte_heap := fun a =>
      if a = 201 then some { owner := 1, frame := 0xc0200000, aux := 104 }
      else ex_vm.fte_heap a
    frame_table := [200, 201]
    pagedir := fun t pg =>
      if t = 1 ∧ pg = 0x20001000 then
        some { kpage := 0xc0200000, present := true, writable := true, accessed := true,
               dirty := true }
      else ex_vm.pagedir t pg }

/-- The inode in sector `s` does not name its own sector as one of its index
blocks or data blocks (`V` is the content of the sectors): its indirect and
double-indirect pointers, the entries of its double-indirect block and its
block pointers are 0, for none, or another sector. -/
def SelfFree (V : Nat → Buf) (s : Nat) : Prop :=
  (inode_disk.indirect (V s) ≠ 0 → inode_disk.indirect (V s) ≠ s) ∧
  (inode_disk.double_indirect (V s) ≠ 0 →
    inode_disk.double_indirect (V s) ≠ s ∧
    ∀ j t, store_entry V (inode_disk.double_indirect (V s)) j zeros = Except.ok t →
      t ≠ 0 → t ≠ s) ∧
  (∀ k t, store_block_to_sector V s k = Except.ok t → t ≠ 0 → t ≠ s)

/-- The number of sectors that a read of `size` bytes at `offset` of a file of
`length` bytes takes its bytes from. -/
def read_chunks (length : Int) (size offset : Nat) : Nat :=
  if size = 0 ∨ length ≤ (offset : Int) then 0
  else
    (offset % 512 +
      (if (size : Int) ≤ length - (offset : Int) then size else (length - (offset : Int)).toNat)
      + 511) / 512

/-- The function `inode_read_at` on a plain store of sectors: what a read of
the file with its inode in `sector` gives when the sectors hold `V`. -/
def store_read_at (V : Nat → Buf) (sector : Nat) (length : Int) (buffer : Buf)
    (size offset : Nat) : Except Fault (Buf × Nat) :=
  store_read_loop V sector length size buffer size offset 0

/-- A volume for the close-and-reopen example: the inode in sector 2 has
`direct[0] = 5` and `direct[1] = 6` and the on-disk length 0; sectors 5 and 6
hold the byte 0x41 throughout. -/
def ex_file_disk : Nat → Buf := fun s =>
  if s = 2 then inode_disk.set_direct (inode_disk.set_direct zeros 0 5) 1 6
  else if s = 5 ∨ s = 6 then fun _ => 65
  else zeros

/-- The in-memory inode of the example file: length 600, one opener. -/
def ex_file_inode : inode :=
  { sector := 2, open_cnt := 1, removed := false, deny_write_cnt := 0, length := 600,
    isdir := false, entry_cnt := 0 }

/-- The example volume right after `cache_init`, with `ex_file_inode` open at
address 1. -/
def ex_file_fs : FS :=
  { cache := cache_init ex_file_disk 4096
    free_map := { used := fun t => decide (t < 7), size := 4096 }
    heap := fun q => if q = 1 then some ex_file_inode else none
    open_inodes := [1]
    brk := 2 }

/-- Close-and-reopen scenario on the example file: the last opener closes, the
sector is opened again, 600 bytes are read at offset 0 and one byte at offset
600.  Returns the length of the new inode, the bytes read and the two counts. -/
def ex_reopen_scenario : Except Fault (Int × List Nat × Nat × Nat) := do
  let st1 ← inode_close ex_file_fs 1
  let (st2, q) ← inode_open st1 2
  let ino ← st2.deref q
  let (st3, b, n1) ← inode_read_at st2 q zeros 600 0
  let (_, _, n2) ← inode_read_at st3 q zeros 1 600
  pure (ino.length, bytes b 600, n1, n2)

/-- Scenario: `SPT_insert` for the page 0x10000000, which has the entry at
address 100 in the example state, followed by `SPT_lookup` of that page.
Returns the address `SPT_insert` returned, the address the lookup returns and
the table of the thread. -/
def ex_insert_twice : Except Fault (Nat × Nat × List Nat) := do
  let (st1, p) ← SPT_insert ex_vm 0x10000000 0xc0200000 true
  pure (p, SPT_lookup st1 st1.cur 0x10000000, st1.SPT st1.cur)

/-- Scenario: `mmap` of the 3-page file at 0x0ffff000 in the example state, whose
second page 0x10000000 has the entry at address 100 already.  Returns the
address of the entry a later fault or `munmap` finds for 0x10000000, and the
`is_mmap` and `mmap_offset` fields of that entry and of the entry at address
301, which `SPT_insert` returned to `mmap` for that page. -/
def ex_mmap_orphan : Except Fault (Nat × List (Bool × Nat)) := do
  let (st1, _) ← mmap ex_vm 2 0x0ffff000
  let found := SPT_lookup st1 st1.cur 0x10000000
  let e ← st1.spte found
  let o ← st1.spte 301
  pure (found, [(e.is_mmap, e.mmap_offset), (o.is_mmap, o.mmap_offset)])

/-- A 6-sector volume right after `cache_init`: sectors 0 to 2 in use, sectors
3, 4 and 5 free, no inode open. -/
def ex_tiny_fs : FS :=
  { cache := cache_init (fun _ => zeros) 6
    free_map := { used := fun t => decide (t < 3), size := 6 }
    heap := fun _ => none
    open_inodes := []
    brk := 1 }

/-- Short-write scenario, first chunk alone: an empty file on `ex_tiny_fs`, 512
bytes written at offset 135680 (block 265).  Returns the count, the length in
memory and the free sector left, if any. -/
def ex_short_write_first : Except Fault (Nat × Int × Option Nat) := do
  let (st1, _) ← inode_create ex_tiny_fs 2 0 false
  let (st2, p) ← inode_open st1 2
  let (st3, n) ← inode_write_at st2 p (fun _ => 65) 512 135680
  let ino ← st3.deref p
  pure (n, ino.length, free_scan st3.free_map.used st3.free_map.size 0)

/-- Short-write scenario: an empty file on `ex_tiny_fs`, 1024 bytes written at
offset 135680 (blocks 265 and 266); the three free sectors go to block 265 and
its two index blocks. -/
def ex_short_write_scenario : Except Fault (FS × Nat) := do
  let (st1, _) ← inode_create ex_tiny_fs 2 0 false
  let (st2, p) ← inode_open st1 2
  inode_write_at st2 p (fun _ => 65) 1024 135680

/-- Failed-creation scenario: `inode_create` of a file of 2048 bytes (4 blocks)
on `ex_tiny_fs`, which has 3 free sectors.  Returns the result, the free sector
left afterwards, if any, and the free-map bits of the sectors 3, 4 and 5. -/
def ex_failed_create : Except Fault (Bool × Option Nat × List Bool) := do
  let (st1, ok) ← inode_create ex_tiny_fs 2 2048 false
  pure (ok, free_scan st1.free_map.used st1.free_map.size 0,
    [st1.free_map.used 3, st1.free_map.used 4, st1.free_map.used 5])

/-- No two valid slots of the array hold the same sector number. -/
def SlotsUnique (c : Cache) : Prop :=
  ∀ i j, i < 64 → j < 64 → (c.cache i).valid = true → (c.cache j).valid = true →
    (c.cache i).sector = (c.cache j).sector → i = j

/-- Every slot has the same sector number and valid flag in both states. -/
def SameSlots (c c1 : Cache) : Prop :=
  ∀ j, (c1.cache j).sector = (c.cache j).sector ∧ (c1.cache j).valid = (c.cache j).valid

/-! ### The clock of `cache_evict`, after the specification -/

/-- The order in which the clock hand visits the slots from cursor `k`: the
slots `k` to 63, then 0 to 63, and 0 to 63 once more. -/
def clock_order (k : Nat) : List Nat :=
  List.range' k (64 - k) ++ (List.range 64 ++ List.range 64)

/-- Following the specification: the hand visits the slots in the given order; a
slot whose accessed bit is set has it cleared and is passed over, and the first
slot visited with the bit clear and the loaded flag set is the victim.  Returns
the accessed bits after the walk and the victim, if the walk finds one. -/
def clock_walk (loaded : Nat → Bool) : List Nat → (Nat → Bool) → (Nat → Bool) × Option Nat
  | [], acc => (acc, none)
  | i :: rest, acc =>
    if acc i then clock_walk loaded rest (fun j => if j = i then false else acc j)
    else if loaded i then (acc, some i)
    else clock_walk loaded rest acc

/-- The cache `c` with the accessed bits `acc` and the clock hand at `k`. -/
def with_accessed (c : Cache) (acc : Nat → Bool) (k : Nat) : Cache :=
  { c with cache := fun j => { c.cache j with accessed := acc j }, iter_idx := k }

/-- The cache after an eviction that selected slot `v`: accessed bits `acc`, the
hand behind the victim, and the victim's buffer on the device if it was dirty. -/
def clock_result (c : Cache) (acc : Nat → Bool) (v : Nat) : Cache :=
  if (c.cache v).dirty then
    (with_accessed c acc (v + 1)).block_write (c.cache v).sector (c.cache v).buffer
  else with_accessed c acc (v + 1)

/-- A full cache on the numbered device: slot `j` holds sector `j`, valid and
loaded; the slots 0 to 2 have their accessed bit set, slot 3 is dirty with a
buffer of bytes 7, and the hand is at slot 2. -/
def ex_full_cache : Cache :=
  { cache := fun j =>
      ⟨j, true, decide (j = 3), decide (j < 3), true, 0, 0,
        if j = 3 then fun _ => 7 else ex_numbered_disk j⟩
    iter_idx := 2
    read_queue := []
    disk := ex_numbered_disk
    dev_size := 4096 }

/-- The calls `cache_read_at` of the 64 even sectors 0, 2, ..., 126, each of a
whole sector. -/
def ex_even_reads : List CacheOp := (List.range 64).map (fun i => CacheOp.read (2 * i) 0 512)

/-- Scenario: after `cache_init` the 64 reads of `ex_even_reads`, with no turn
of the read-ahead thread in between.  Returns the valid, loaded and accessed
flags of the 64 slots, the length of the read-ahead queue, whether
`cache_evict` then runs into its endless loop, and whether a `cache_read_at` of
sector 128 does. -/
def ex_spin_scenario : Except Fault (List (Bool × Bool × Bool) × Nat × Bool × Bool) := do
  let (c, _) ← run_ops (cache_init ex_numbered_disk 4096) ex_even_reads
  pure ((List.range 64).map
      (fun j => ((c.cache j).valid, (c.cache j).loaded, (c.cache j).accessed)),
    c.read_queue.length,
    decide (fault_of (cache_evict c) = some Fault.spin),
    decide (fault_of (cache_read_at c 128 zeros 0 512) = some Fault.spin))

/-- A device whose sector 3 is an empty index block and whose sector 4 still
holds the bytes 0xAA of an earlier use. -/
def ex_link_disk : Nat → Buf := fun s => if s = 4 then fun _ => 0xAA else zeros

/-- An on-disk inode whose indirect block is sector 3. -/
def ex_link_inode : Buf := inode_disk.set_indirect zeros 3

/-- A volume on `ex_link_disk` right after `cache_init`: sectors 0 to 3 in use,
sector 4 the first free one, no inode open. -/
def ex_link_fs : FS :=
  { cache := cache_init ex_link_disk 4096
    free_map := { used := fun t => decide (t < 4), size := 4096 }
    heap := fun _ => none
    open_inodes := []
    brk := 1 }

/-! ### Free sectors and the progress of `inode_create` -/

/-- The number of free sectors of the free map. -/
def free_count (fm : FreeMap) : Nat := (List.range fm.size).countP (fun t => !fm.used t)

/-- A file system with a consistent cache whose free map marks sector 0 (the
sector of the free map itself) used and has at most 2^32 sectors, the range of
`block_sector_t`. -/
structure GoodFS (st : FS) : Prop where
  cache : CacheInv st.cache
  zero : st.free_map.used 0 = true
  size : st.free_map.size ≤ 4294967296

/-- The sector after `s` in the arithmetic of `block_sector_t`: the sector that
`cache_read_at (s, ...)` hands a slot for read-ahead. -/
def next_sector (s : Nat) : Nat := (s + 1) % 4294967296

/-- The state of `inode_create` before block `i` of a new file, `d` being the
on-disk inode as built in memory so far.  The pointers of the blocks to come
are 0: the direct ones from `i` on, the indirect block up to block 10 and its
entries from `i - 10` on later, the double-indirect block up to block 138 and
later the entries from `i - 138` on of the first inner block `O`.  The slots of
the cache that wait for their load hold the successors of the index blocks read
so far and nothing else. -/
structure Building (st : FS) (d : Buf) (i : Nat) : Prop where
  good : GoodFS st
  direct : ∀ j, i ≤ j → j < 10 → inode_disk.direct d j = 0
  ind0 : i ≤ 10 → inode_disk.indirect d = 0 ∧ Waiting st.cache []
  ind : 10 < i → inode_disk.indirect d ≠ 0 ∧
    ∀ k, i - 10 ≤ k → k < 128 → get32 (view st.cache (inode_disk.indirect d)) (4 * k) = 0
  dbl0 : i ≤ 138 → inode_disk.double_indirect d = 0 ∧
    (10 < i → Waiting st.cache [next_sector (inode_disk.indirect d)])
  dbl : 138 < i → ∃ O, get32 (view st.cache (inode_disk.double_indirect d)) 0 = O ∧
    inode_disk.double_indirect d ≠ 0 ∧
    st.free_map.used (inode_disk.double_indirect d) = true ∧
    O ≠ 0 ∧ O ≠ inode_disk.double_indirect d ∧
    (∀ k, i - 138 ≤ k → k < 128 → get32 (view st.cache O) (4 * k) = 0) ∧
    Waiting st.cache [next_sector O, next_sector (inode_disk.double_indirect d),
      next_sector (inode_disk.indirect d)]

/-! ### The blocks of a file under construction -/

/-- The sector `x` has been handed out by the free map since its bitmap was
`used0`: free then, in use in the bitmap `used`. -/
def Fresh (used0 used : Nat → Bool) (x : Nat) : Prop := used0 x = false ∧ used x = true

/-- The pointer `v` is 0, for none, or a sector with the property `F`. -/
def Word0 (F : Nat → Prop) (v : Nat) : Prop := v = 0 ∨ F v

/-- Each of the 128 entries of the index block `b` is 0 or a sector with the
property `F`. -/
def Block0 (F : Nat → Prop) (b : Buf) : Prop := ∀ k, k < 128 → Word0 F (get32 b (4 * k))

/-- The blocks of a file under construction, `d` being its on-disk inode as
held in memory and `used0` the bitmap of the free map when the construction
began: every pointer of the inode is 0 or a sector handed out since, and every
sector handed out since reads, as an index block, as 128 such pointers. -/
structure Created (used0 : Nat → Bool) (st : FS) (d : Buf) : Prop where
  inv : CacheInv st.cache
  size : st.free_map.size ≤ 4294967296
  mono : ∀ x, used0 x = true → st.free_map.used x = true
  direct : ∀ j, j < 10 → Word0 (Fresh used0 st.free_map.used) (inode_disk.direct d j)
  indirect : Word0 (Fresh used0 st.free_map.used) (inode_disk.indirect d)
  double : Word0 (Fresh used0 st.free_map.used) (inode_disk.double_indirect d)
  blocks : ∀ x, Fresh used0 st.free_map.used x →
    Block0 (Fresh used0 st.free_map.used) (view st.cache x)

/-! # Theorems -/

theorem holds_iff (c : Cache) (s i : Nat) :
    holds c s i = true ↔
      (c.cache i).valid = true ∧ (c.cache i).loaded = true ∧ (c.cache i).sector = s := by
  simp [holds, and_assoc]

theorem find_congr {α : Type} (p q : α → Bool) (l : List α) (h : ∀ a ∈ l, p a = q a) :
    l.find? p = l.find? q := by
  induction l with
  | nil => rfl
  | cons a t ih =>
    have ha : p a = q a := h a (List.mem_cons_self a t)
    have ht : t.find? p = t.find? q := ih (fun b hb => h b (List.mem_cons_of_mem a hb))
    simp [List.find?, ha, ht]

theorem view_of_slot {c : Cache}
    (h : ∀ i j, i < 64 → j < 64 → (c.cache i).valid = true → (c.cache j).valid = true →
      (c.cache i).sector = (c.cache j).sector → i = j) {s i : Nat}
    (hi : i < 64) (hv : (c.cache i).valid = true) (hl : (c.cache i).loaded = true)
    (hs : (c.cache i).sector = s) : view c s = (c.cache i).buffer := by
  unfold view
  cases hf : (List.range 64).find? (holds c s) with
  | none =>
    rw [List.find?_eq_none] at hf
    have h1 := hf i (List.mem_range.2 hi)
    have h2 : holds c s i = true := (holds_iff c s i).2 ⟨hv, hl, hs⟩
    exact absurd h2 h1
  | some j =>
    have hj : holds c s j = true := List.find?_some hf
    have hjm : j < 64 := List.mem_range.1 (List.mem_of_find?_eq_some hf)
    obtain ⟨hjv, _, hjs⟩ := (holds_iff c s j).1 hj
    have hji : j = i := h j i hjm hi hjv hv (hjs.trans hs.symm)
    simp [hji]

theorem view_of_none {c : Cache} {s : Nat}
    (h : ∀ i, i < 64 → holds c s i = false) : view c s = c.disk s := by
  unfold view
  have hf : (List.range 64).find? (holds c s) = none := by
    rw [List.find?_eq_none]
    intro i hi
    simp [h i (List.mem_range.1 hi)]
  simp [hf]

theorem view_congr {c c1 : Cache} {s : Nat}
    (hh : ∀ i, i < 64 → holds c1 s i = holds c s i)
    (hb : ∀ i, i < 64 → holds c s i = true → (c1.cache i).buffer = (c.cache i).buffer)
    (hd : (∀ i, i < 64 → holds c s i = false) → c1.disk s = c.disk s) :
    view c1 s = view c s := by
  unfold view
  have hf : (List.range 64).find? (holds c1 s) = (List.range 64).find? (holds c s) :=
    find_congr _ _ _ (fun i hi => hh i (List.mem_range.1 hi))
  rw [hf]
  cases hf2 : (List.range 64).find? (holds c s) with
  | none =>
    simp only
    apply hd
    intro i hi
    rw [List.find?_eq_none] at hf2
    simpa using hf2 i (List.mem_range.2 hi)
  | some j =>
    simp only
    exact hb j (List.mem_range.1 (List.mem_of_find?_eq_some hf2)) (List.find?_some hf2)

theorem similar_refl (c : Cache) : Similar c c :=
  ⟨fun _ => rfl, fun _ => rfl, fun _ => rfl, fun _ => rfl, fun _ => rfl, rfl, rfl, rfl⟩

theorem similar_trans {a b c : Cache} (h1 : Similar a b) (h2 : Similar b c) : Similar a c :=
  ⟨fun j => (h2.sector j).trans (h1.sector j), fun j => (h2.valid j).trans (h1.valid j),
   fun j => (h2.dirty j).trans (h1.dirty j), fun j => (h2.loaded j).trans (h1.loaded j),
   fun j => (h2.buffer j).trans (h1.buffer j), h2.queue.trans h1.queue,
   h2.disk.trans h1.disk, h2.dev.trans h1.dev⟩

theorem similar_set_accessed (c : Cache) (i : Nat) (b : Bool) :
    Similar c (c.set i { c.cache i with accessed := b }) := by
  refine ⟨?_, ?_, ?_, ?_, ?_, rfl, rfl, rfl⟩ <;> intro j <;>
    by_cases h : j = i <;> simp [Cache.set, h]

theorem similar_iter (c : Cache) (k : Nat) : Similar c { c with iter_idx := k } :=
  ⟨fun _ => rfl, fun _ => rfl, fun _ => rfl, fun _ => rfl, fun _ => rfl, rfl, rfl, rfl⟩

theorem similar_wb {c c0 : Cache} (h : Similar c c0) (v : Nat) : Similar (wb c v) (wb c0 v) := by
  unfold wb
  rw [h.dirty v, h.sector v, h.buffer v]
  by_cases hd : (c.cache v).dirty = true
  · simp only [hd, if_true]
    exact ⟨h.sector, h.valid, h.dirty, h.loaded, h.buffer, h.queue,
      by simp [Cache.block_write, h.disk], h.dev⟩
  · simp only [hd]
    exact h

theorem sweep_some : ∀ (n i : Nat) (c c1 : Cache) (v : Nat),
    evict_sweep n i c = Except.ok (c1, some v) →
    i ≤ v ∧ v < i + n ∧ (c.cache v).valid = true ∧ (c.cache v).loaded = true ∧
      Similar (wb c v) c1 := by
  intro n
  induction n with
  | zero => intro i c c1 v h; simp [evict_sweep, pure, Except.pure] at h
  | succ n ih =>
    intro i c c1 v h
    unfold evict_sweep at h
    by_cases hv : (c.cache i).valid = false
    · rw [if_pos hv] at h; cases h
    · rw [if_neg hv] at h
      by_cases ha : (c.cache i).accessed = true
      · rw [if_pos ha] at h
        obtain ⟨h1, h2, h3, h4, h5⟩ := ih _ _ _ _ h
        have hs := similar_set_accessed c i false
        refine ⟨by omega, by omega, ?_, ?_, ?_⟩
        · rw [← hs.valid v]; exact h3
        · rw [← hs.loaded v]; exact h4
        · exact similar_trans (similar_wb hs v) h5
      · rw [if_neg ha] at h
        by_cases hl : (c.cache i).loaded = true
        · rw [if_pos hl] at h
          simp only [pure, Except.pure, Except.ok.injEq, Prod.mk.injEq,
            Option.some.injEq] at h
          obtain ⟨h1, h2⟩ := h
          subst h2
          refine ⟨le_refl _, by omega, by simpa using hv, hl, ?_⟩
          rw [← h1]
          unfold wb
          by_cases hd : (c.cache i).dirty = true
          · simp only [hd, if_true]
            exact ⟨fun _ => rfl, fun _ => rfl, fun _ => rfl, fun _ => rfl, fun _ => rfl,
              rfl, rfl, rfl⟩
          · simp only [hd]
            exact similar_iter c _
        · rw [if_neg hl] at h
          obtain ⟨h1, h2, h3, h4, h5⟩ := ih _ _ _ _ h
          exact ⟨by omega, by omega, h3, h4, h5⟩

theorem sweep_none : ∀ (n i : Nat) (c c1 : Cache),
    evict_sweep n i c = Except.ok (c1, none) →
    Similar c c1 ∧
    (∀ j, i ≤ j → j < i + n → (c1.cache j).accessed = false ∧
      ((c.cache j).loaded = true → (c.cache j).accessed = true)) ∧
    (∀ j, j < i → (c1.cache j).accessed = (c.cache j).accessed) := by
  intro n
  induction n with
  | zero =>
    intro i c c1 h
    simp only [evict_sweep, pure, Except.pure, Except.ok.injEq, Prod.mk.injEq, and_true] at h
    subst h
    exact ⟨similar_refl c, fun j h1 h2 => by omega, fun _ _ => rfl⟩
  | succ n ih =>
    intro i c c1 h
    unfold evict_sweep at h
    by_cases hv : (c.cache i).valid = false
    · rw [if_pos hv] at h; cases h
    · rw [if_neg hv] at h
      by_cases ha : (c.cache i).accessed = true
      · rw [if_pos ha] at h
        obtain ⟨h1, h2, h3⟩ := ih _ _ _ h
        refine ⟨similar_trans (similar_set_accessed c i false) h1, ?_, ?_⟩
        · intro j hj1 hj2
          by_cases hji : j = i
          · subst hji
            refine ⟨?_, fun _ => ha⟩
            rw [h3 j (by omega)]
            simp [Cache.set]
          · have := h2 j (by omega) (by omega)
            simpa [Cache.set, hji] using this
        · intro j hj
          rw [h3 j (by omega)]
          have : j ≠ i := by omega
          simp [Cache.set, this]
      · rw [if_neg ha] at h
        by_cases hl : (c.cache i).loaded = true
        · rw [if_pos hl] at h
          simp [pure, Except.pure] at h
        · rw [if_neg hl] at h
          obtain ⟨h1, h2, h3⟩ := ih _ _ _ h
          refine ⟨h1, ?_, fun j hj => h3 j (by omega)⟩
          intro j hj1 hj2
          by_cases hji : j = i
          · subst hji
            refine ⟨?_, fun h' => absurd h' hl⟩
            rw [h3 j (by omega)]
            simpa using ha
          · exact h2 j (by omega) (by omega)

theorem sweep_total : ∀ (n i : Nat) (c : Cache),
    (∀ j, i ≤ j → j < i + n → (c.cache j).valid = true) →
    ∃ r, evict_sweep n i c = Except.ok r := by
  intro n
  induction n with
  | zero => intro i c _; exact ⟨_, rfl⟩
  | succ n ih =>
    intro i c h
    unfold evict_sweep
    have hv : (c.cache i).valid = true := h i (le_refl _) (by omega)
    rw [if_neg (by simp [hv])]
    by_cases ha : (c.cache i).accessed = true
    · rw [if_pos ha]
      apply ih
      intro j h1 h2
      rw [(similar_set_accessed c i false).valid j]
      exact h j (by omega) (by omega)
    · rw [if_neg ha]
      by_cases hl : (c.cache i).loaded = true
      · rw [if_pos hl]
        exact ⟨_, rfl⟩
      · rw [if_neg hl]
        exact ih _ _ (fun j h1 h2 => h j (by omega) (by omega))

theorem similar_holds {c c1 : Cache} (h : Similar c c1) (s i : Nat) :
    holds c1 s i = holds c s i := by
  simp [holds, h.valid i, h.loaded i, h.sector i]

theorem similar_view {c c1 : Cache} (h : Similar c c1) (s : Nat) : view c1 s = view c s :=
  view_congr (fun i _ => similar_holds h s i) (fun i _ _ => h.buffer i)
    (fun _ => by rw [h.disk])

theorem similar_inv {c c1 : Cache} {x : Option Nat} (h : Similar c c1)
    (hi : CacheInvExcept c x) : CacheInvExcept c1 x := by
  constructor
  · intro i j h1 h2 h3 h4 h5
    rw [h.valid] at h3 h4
    rw [h.sector, h.sector] at h5
    exact hi.uniq i j h1 h2 h3 h4 h5
  · intro i h1 h2 h3 h4
    rw [h.valid] at h2
    rw [h.loaded] at h3
    rw [h.dirty] at h4
    rw [h.buffer, h.disk, h.sector]
    exact hi.clean i h1 h2 h3 h4
  · intro i h1 hx h2 h3
    rw [h.valid] at h2
    rw [h.loaded] at h3
    rw [h.queue]
    exact hi.queued i h1 hx h2 h3
  · intro i h1
    rw [h.queue] at h1
    exact hi.bound i h1

theorem keeps_refl {c : Cache} (h : CacheInv c) : Keeps c c :=
  ⟨h, fun _ => rfl, fun _ => rfl, fun _ => rfl, rfl⟩

theorem keeps_trans {a b c : Cache} (h1 : Keeps a b) (h2 : Keeps b c) : Keeps a c :=
  ⟨h2.inv, fun s => (h2.view s).trans (h1.view s),
   fun j => (h2.sector j).trans (h1.sector j), fun j => (h2.valid j).trans (h1.valid j),
   h2.dev.trans h1.dev⟩

theorem keeps_of_similar {c c1 : Cache} (hi : CacheInv c) (h : Similar c c1) : Keeps c c1 :=
  ⟨similar_inv h hi, similar_view h, h.sector, h.valid, h.dev⟩

theorem wb_cache (c : Cache) (v : Nat) : (wb c v).cache = c.cache := by
  unfold wb
  split <;> rfl

theorem wb_queue (c : Cache) (v : Nat) : (wb c v).read_queue = c.read_queue := by
  unfold wb
  split <;> rfl

theorem wb_dev (c : Cache) (v : Nat) : (wb c v).dev_size = c.dev_size := by
  unfold wb
  split <;> rfl

theorem wb_disk_self (c : Cache) {v : Nat} {x : Option Nat} (hi : CacheInvExcept c x)
    (hv : v < 64) (h1 : (c.cache v).valid = true) (h2 : (c.cache v).loaded = true) :
    (wb c v).disk (c.cache v).sector = (c.cache v).buffer := by
  unfold wb
  by_cases hd : (c.cache v).dirty = true
  · simp [hd, Cache.block_write]
  · simp only [hd]
    exact (hi.clean v hv h1 h2 (by simpa using hd)).symm

theorem wb_disk_other (c : Cache) (v s : Nat) (hs : s ≠ (c.cache v).sector) :
    (wb c v).disk s = c.disk s := by
  unfold wb
  by_cases hd : (c.cache v).dirty = true
  · simp [hd, Cache.block_write, hs]
  · simp [hd]

theorem wb_inv {c : Cache} {v : Nat} {x : Option Nat} (hi : CacheInvExcept c x)
    (hv : v < 64) (h1 : (c.cache v).valid = true) (h2 : (c.cache v).loaded = true) :
    CacheInvExcept (wb c v) x := by
  constructor
  · simpa [wb_cache] using hi.uniq
  · intro i hi1 hi2 hi3 hi4
    rw [wb_cache] at hi2 hi3 hi4 ⊢
    by_cases hs : (c.cache i).sector = (c.cache v).sector
    · have : i = v := hi.uniq i v hi1 hv hi2 h1 hs
      subst this
      exact (wb_disk_self c hi hv h1 h2).symm
    · rw [wb_disk_other c v _ hs]
      exact hi.clean i hi1 hi2 hi3 hi4
  · simpa [wb_cache, wb_queue] using hi.queued
  · simpa [wb_queue] using hi.bound

theorem wb_view {c : Cache} {v : Nat}
    (hv : v < 64) (h1 : (c.cache v).valid = true) (h2 : (c.cache v).loaded = true)
    (s : Nat) : view (wb c v) s = view c s := by
  apply view_congr
  · intro i _
    simp [holds, wb_cache]
  · intro i _ _
    rw [wb_cache]
  · intro hn
    apply wb_disk_other
    intro hs
    have := hn v hv
    rw [← Bool.not_eq_true, holds_iff] at this
    exact this ⟨h1, h2, hs.symm⟩

theorem keeps_wb {c : Cache} {v : Nat} (hi : CacheInv c)
    (hv : v < 64) (h1 : (c.cache v).valid = true) (h2 : (c.cache v).loaded = true) :
    Keeps c (wb c v) :=
  ⟨wb_inv hi hv h1 h2, wb_view hv h1 h2, fun j => by rw [wb_cache],
   fun j => by rw [wb_cache], wb_dev c v⟩

theorem rounds_some : ∀ (r : Nat) (c c1 : Cache) (v : Nat),
    evict_rounds r c = Except.ok (c1, some v) →
    v < 64 ∧ (c.cache v).valid = true ∧ (c.cache v).loaded = true ∧ Similar (wb c v) c1 := by
  intro r
  induction r with
  | zero => intro c c1 v h; simp [evict_rounds, pure, Except.pure] at h
  | succ r ih =>
    intro c c1 v h
    unfold evict_rounds at h
    cases hs : evict_sweep (64 - c.iter_idx) c.iter_idx c with
    | error e => rw [hs] at h; cases h
    | ok p =>
      obtain ⟨c2, o⟩ := p
      rw [hs] at h
      cases o with
      | some w =>
        simp only [pure, Except.pure, Except.ok.injEq, Prod.mk.injEq, Option.some.injEq] at h
        obtain ⟨h1, h2⟩ := h
        subst h1 h2
        obtain ⟨a1, a2, a3, a4, a5⟩ := sweep_some _ _ _ _ _ hs
        exact ⟨by omega, a3, a4, a5⟩
      | none =>
        simp only at h
        obtain ⟨a1, a2, a3, a4⟩ := ih _ _ _ h
        obtain ⟨b1, _, _⟩ := sweep_none _ _ _ _ hs
        have b2 : Similar c { c2 with iter_idx := 0 } := similar_trans b1 (similar_iter c2 0)
        refine ⟨a1, ?_, ?_, ?_⟩
        · rw [← b2.valid v]; exact a2
        · rw [← b2.loaded v]; exact a3
        · exact similar_trans (similar_wb b2 v) a4

theorem rounds_none : ∀ (r : Nat) (c c1 : Cache),
    evict_rounds r c = Except.ok (c1, none) → Similar c c1 := by
  intro r
  induction r with
  | zero =>
    intro c c1 h
    simp only [evict_rounds, pure, Except.pure, Except.ok.injEq, Prod.mk.injEq, and_true] at h
    subst h
    exact similar_refl c
  | succ r ih =>
    intro c c1 h
    unfold evict_rounds at h
    cases hs : evict_sweep (64 - c.iter_idx) c.iter_idx c with
    | error e => rw [hs] at h; cases h
    | ok p =>
      obtain ⟨c2, o⟩ := p
      rw [hs] at h
      cases o with
      | some w => simp [pure, Except.pure] at h
      | none =>
        simp only at h
        obtain ⟨b1, _, _⟩ := sweep_none _ _ _ _ hs
        exact similar_trans (similar_trans b1 (similar_iter c2 0)) (ih _ _ h)

theorem rounds_succ_none {r : Nat} {c c1 : Cache}
    (h : evict_rounds (r + 1) c = Except.ok (c1, none)) :
    ∃ c2, evict_sweep (64 - c.iter_idx) c.iter_idx c = Except.ok (c2, none) ∧
      evict_rounds r { c2 with iter_idx := 0 } = Except.ok (c1, none) := by
  unfold evict_rounds at h
  cases hs : evict_sweep (64 - c.iter_idx) c.iter_idx c with
  | error e => rw [hs] at h; cases h
  | ok p =>
    obtain ⟨c2, o⟩ := p
    rw [hs] at h
    cases o with
    | some w => simp [pure, Except.pure] at h
    | none => exact ⟨c2, rfl, h⟩

theorem rounds_none_unloaded {c c1 : Cache}
    (h : evict_rounds 3 c = Except.ok (c1, none)) :
    ∀ j, j < 64 → (c.cache j).loaded = false := by
  obtain ⟨c2, h1, h2⟩ := rounds_succ_none h
  obtain ⟨c3, h3, h4⟩ := rounds_succ_none h2
  obtain ⟨c4, h5, _⟩ := rounds_succ_none h4
  obtain ⟨s1, _, _⟩ := sweep_none _ _ _ _ h1
  obtain ⟨s3, a3, _⟩ := sweep_none _ _ _ _ h3
  obtain ⟨_, a5, _⟩ := sweep_none _ _ _ _ h5
  intro j hj
  have e3 := (a3 j (by simp) (by simpa using hj)).1
  have e5 := (a5 j (by simp) (by simpa using hj)).2
  simp only at e5
  by_contra hl
  have hl1 : (c.cache j).loaded = true := by simpa using hl
  have hl3 : (c3.cache j).loaded = true := by
    rw [s3.loaded j]
    show (c2.cache j).loaded = true
    rw [s1.loaded j]
    exact hl1
  have := e5 hl3
  rw [e3] at this
  cases this

theorem rounds_total : ∀ (r : Nat) (c : Cache), (∀ j, j < 64 → (c.cache j).valid = true) →
    ∃ p, evict_rounds r c = Except.ok p := by
  intro r
  induction r with
  | zero => intro c _; exact ⟨_, rfl⟩
  | succ r ih =>
    intro c hv
    unfold evict_rounds
    obtain ⟨p, hp⟩ := sweep_total (64 - c.iter_idx) c.iter_idx c
      (fun j h1 h2 => hv j (by omega))
    obtain ⟨c2, o⟩ := p
    rw [hp]
    cases o with
    | some w => exact ⟨_, rfl⟩
    | none =>
      simp only
      apply ih
      intro j hj
      obtain ⟨b1, _, _⟩ := sweep_none _ _ _ _ hp
      show (c2.cache j).valid = true
      rw [b1.valid j]
      exact hv j hj

theorem load_cache_self (c : Cache) (i : Nat) :
    (cache_load c i).cache i =
      { c.cache i with buffer := c.disk (c.cache i).sector, loaded := true } := by
  simp [cache_load, Cache.set]

theorem load_cache_other (c : Cache) {i j : Nat} (h : j ≠ i) :
    (cache_load c i).cache j = c.cache j := by
  simp [cache_load, Cache.set, h]

theorem load_sector (c : Cache) (i j : Nat) :
    ((cache_load c i).cache j).sector = (c.cache j).sector := by
  by_cases h : j = i
  · subst h; rw [load_cache_self]
  · rw [load_cache_other c h]

theorem load_valid (c : Cache) (i j : Nat) :
    ((cache_load c i).cache j).valid = (c.cache j).valid := by
  by_cases h : j = i
  · subst h; rw [load_cache_self]
  · rw [load_cache_other c h]

theorem load_dirty (c : Cache) (i j : Nat) :
    ((cache_load c i).cache j).dirty = (c.cache j).dirty := by
  by_cases h : j = i
  · subst h; rw [load_cache_self]
  · rw [load_cache_other c h]

theorem load_loaded_self (c : Cache) (i : Nat) : ((cache_load c i).cache i).loaded = true := by
  rw [load_cache_self]

theorem load_buffer_self (c : Cache) (i : Nat) :
    ((cache_load c i).cache i).buffer = c.disk (c.cache i).sector := by
  rw [load_cache_self]

/-- Loading a slot keeps the invariant; the loaded slot needs no queue entry
any more. -/
theorem load_inv {c : Cache} {x y : Option Nat} {i : Nat} (hi : CacheInvExcept c x)
    (hxy : ∀ j, j ≠ i → some j ≠ y → some j ≠ x) : CacheInvExcept (cache_load c i) y := by
  constructor
  · intro a b h1 h2 h3 h4 h5
    rw [load_valid] at h3 h4
    rw [load_sector, load_sector] at h5
    exact hi.uniq a b h1 h2 h3 h4 h5
  · intro a h1 h2 h3 h4
    by_cases ha : a = i
    · subst ha
      rw [load_buffer_self, load_sector]
      rfl
    · rw [load_cache_other c ha] at h2 h3 h4 ⊢
      exact hi.clean a h1 h2 h3 h4
  · intro a h1 hx h2 h3
    by_cases ha : a = i
    · subst ha
      rw [load_loaded_self] at h3
      cases h3
    · rw [load_cache_other c ha] at h2 h3
      exact hi.queued a h1 (hxy a ha hx) h2 h3
  · exact hi.bound

theorem load_view {c : Cache} {i : Nat}
    (hu : ∀ i j, i < 64 → j < 64 → (c.cache i).valid = true → (c.cache j).valid = true →
      (c.cache i).sector = (c.cache j).sector → i = j)
    (h64 : i < 64) (hl : (c.cache i).loaded = false) (s : Nat) :
    view (cache_load c i) s = view c s := by
  by_cases hv : (c.cache i).valid = true ∧ (c.cache i).sector = s
  · obtain ⟨hv1, hv2⟩ := hv
    have hu' : ∀ a b, a < 64 → b < 64 → ((cache_load c i).cache a).valid = true →
        ((cache_load c i).cache b).valid = true →
        ((cache_load c i).cache a).sector = ((cache_load c i).cache b).sector → a = b := by
      intro a b h1 h2 h3 h4 h5
      rw [load_valid] at h3 h4
      rw [load_sector, load_sector] at h5
      exact hu a b h1 h2 h3 h4 h5
    rw [view_of_slot hu' h64 (by rw [load_valid]; exact hv1) (load_loaded_self c i)
      (by rw [load_sector]; exact hv2), load_buffer_self, hv2]
    symm
    apply view_of_none
    intro j hj
    rw [← Bool.not_eq_true, holds_iff]
    rintro ⟨a1, a2, a3⟩
    have : j = i := hu j i hj h64 a1 hv1 (a3.trans hv2.symm)
    subst this
    rw [hl] at a2
    cases a2
  · apply view_congr
    · intro j _
      by_cases hj : j = i
      · subst hj
        have h1 : holds c s j = false := by
          rw [← Bool.not_eq_true, holds_iff]
          rintro ⟨a1, _, a3⟩
          exact hv ⟨a1, a3⟩
        have h2 : holds (cache_load c j) s j = false := by
          rw [← Bool.not_eq_true, holds_iff, load_valid, load_sector]
          rintro ⟨a1, _, a3⟩
          exact hv ⟨a1, a3⟩
        rw [h1, h2]
      · simp [holds, load_cache_other c hj]
    · intro j _ hh
      by_cases hj : j = i
      · subst hj
        rw [holds_iff] at hh
        rw [hl] at hh
        cases hh.2.1
      · rw [load_cache_other c hj]
    · intro _
      rfl

theorem read_ahead_loop_spec : ∀ (q : List Nat) (c : Cache),
    CacheInv { c with read_queue := q } →
    CacheInv (read_ahead_loop q c) ∧ (∀ s, view (read_ahead_loop q c) s = view c s) ∧
    (∀ j, ((read_ahead_loop q c).cache j).sector = (c.cache j).sector) ∧
    (∀ j, ((read_ahead_loop q c).cache j).valid = (c.cache j).valid) ∧
    (read_ahead_loop q c).dev_size = c.dev_size ∧
    (∀ j, j < 64 → ((read_ahead_loop q c).cache j).valid = true →
      ((read_ahead_loop q c).cache j).loaded = true) := by
  intro q
  induction q with
  | nil =>
    intro c hi
    refine ⟨hi, fun s => ?_, fun _ => rfl, fun _ => rfl, rfl, ?_⟩
    · exact view_congr (fun _ _ => rfl) (fun _ _ _ => rfl) (fun _ => rfl)
    · intro j hj hv
      by_contra hl
      have := hi.queued j hj (by simp) hv (by simpa using hl)
      simp at this
  | cons index q ih =>
    intro c hi
    have h64 : index < 64 := hi.bound index (List.mem_cons_self _ _)
    unfold read_ahead_loop
    by_cases hl : (c.cache index).loaded = true
    · rw [if_pos hl]
      apply ih
      constructor
      · exact hi.uniq
      · exact hi.clean
      · intro a h1 hx h2 h3
        have := hi.queued a h1 hx h2 h3
        rcases List.mem_cons.1 this with h | h
        · subst h
          rw [hl] at h3
          cases h3
        · exact h
      · intro a ha
        exact hi.bound a (List.mem_cons_of_mem _ ha)
    · rw [if_neg hl]
      have hl' : (c.cache index).loaded = false := by simpa using hl
      have hc : CacheInv { cache_load c index with read_queue := q } := by
        have h0 := load_inv (y := none) (i := index) hi (fun _ _ h => h)
        constructor
        · exact h0.uniq
        · exact h0.clean
        · intro a h1 hx h2 h3
          have := h0.queued a h1 hx h2 h3
          rcases List.mem_cons.1 this with h | h
          · subst h
            have h3' : ((cache_load c a).cache a).loaded = false := h3
            rw [load_loaded_self] at h3'
            cases h3'
          · exact h
        · intro a ha
          exact hi.bound a (List.mem_cons_of_mem _ ha)
      obtain ⟨r1, r2, r3, r4, r5, r6⟩ := ih (cache_load c index) hc
      refine ⟨r1, ?_, ?_, ?_, r5, r6⟩
      · intro s
        rw [r2 s]
        exact load_view hi.uniq h64 hl' s
      · intro j; rw [r3, load_sector]
      · intro j; rw [r4, load_valid]

theorem read_ahead_spec {c : Cache} (hi : CacheInv c) :
    Keeps c (read_ahead c) ∧
    (∀ j, j < 64 → ((read_ahead c).cache j).valid = true →
      ((read_ahead c).cache j).loaded = true) := by
  obtain ⟨r1, r2, r3, r4, r5, r6⟩ := read_ahead_loop_spec c.read_queue c hi
  exact ⟨⟨r1, r2, r3, r4, r5⟩, r6⟩

theorem victim_spec {c c1 : Cache} {r v : Nat} (hi : CacheInv c)
    (h : evict_rounds r c = Except.ok (c1, some v)) :
    Keeps c c1 ∧ v < 64 ∧ (c1.cache v).valid = true ∧ (c1.cache v).loaded = true ∧
      (c1.cache v).buffer = c1.disk (c1.cache v).sector := by
  obtain ⟨h1, h2, h3, h4⟩ := rounds_some _ _ _ _ h
  have k1 := keeps_wb hi h1 h2 h3
  have k2 := keeps_of_similar k1.inv h4
  refine ⟨keeps_trans k1 k2, h1, ?_, ?_, ?_⟩
  · rw [h4.valid, wb_cache]; exact h2
  · rw [h4.loaded, wb_cache]; exact h3
  · rw [h4.buffer, h4.disk, h4.sector, wb_cache]
    exact (wb_disk_self c hi h1 h2 h3).symm

theorem evict_spec {c c1 : Cache} {v : Nat} (hi : CacheInv c)
    (h : cache_evict c = Except.ok (c1, v)) :
    Keeps c c1 ∧ v < 64 ∧ (c1.cache v).valid = true ∧ (c1.cache v).loaded = true ∧
      (c1.cache v).buffer = c1.disk (c1.cache v).sector := by
  unfold cache_evict at h
  cases h1 : evict_rounds 3 c with
  | error e => rw [h1] at h; cases h
  | ok p =>
    obtain ⟨c2, o⟩ := p
    rw [h1] at h
    cases o with
    | some w =>
      simp only [pure, Except.pure, Except.ok.injEq, Prod.mk.injEq] at h
      obtain ⟨e1, e2⟩ := h
      subst e1 e2
      exact victim_spec hi h1
    | none => cases h

/-- The eviction leaves the sector, the valid flag and the loaded flag of every
slot as they are. -/
theorem evict_slots {c c1 : Cache} {v : Nat} (h : cache_evict c = Except.ok (c1, v)) (j : Nat) :
    (c1.cache j).sector = (c.cache j).sector ∧ (c1.cache j).valid = (c.cache j).valid ∧
      (c1.cache j).loaded = (c.cache j).loaded := by
  unfold cache_evict at h
  cases h1 : evict_rounds 3 c with
  | error e => rw [h1] at h; cases h
  | ok p =>
    obtain ⟨c2, o⟩ := p
    rw [h1] at h
    cases o with
    | some w =>
      simp only [pure, Except.pure, Except.ok.injEq, Prod.mk.injEq] at h
      obtain ⟨e1, e2⟩ := h
      subst e1 e2
      obtain ⟨_, _, _, hs⟩ := rounds_some _ _ _ _ h1
      refine ⟨?_, ?_, ?_⟩
      · rw [hs.sector, wb_cache]
      · rw [hs.valid, wb_cache]
      · rw [hs.loaded, wb_cache]
    | none => cases h

/-- With every slot valid, the only way `cache_evict` does not return is the
endless loop. -/
theorem evict_error {c : Cache} {e : Fault} (hv : ∀ j, j < 64 → (c.cache j).valid = true)
    (h : cache_evict c = Except.error e) : e = Fault.spin := by
  unfold cache_evict at h
  obtain ⟨p, hp⟩ := rounds_total 3 c hv
  obtain ⟨c2, o⟩ := p
  rw [hp] at h
  cases o with
  | some w => cases h
  | none =>
    simp only [Except.error.injEq] at h
    exact h.symm

/-- With every slot valid and one of them loaded, `cache_evict` returns. -/
theorem evict_total {c : Cache} (hv : ∀ j, j < 64 → (c.cache j).valid = true)
    (hl : ∃ j, j < 64 ∧ (c.cache j).loaded = true) : ∃ p, cache_evict c = Except.ok p := by
  unfold cache_evict
  obtain ⟨p, hp⟩ := rounds_total 3 c hv
  obtain ⟨c2, o⟩ := p
  rw [hp]
  cases o with
  | some w => exact ⟨_, rfl⟩
  | none =>
    obtain ⟨j, hj, hlj⟩ := hl
    have hu := rounds_none_unloaded hp j hj
    rw [hu] at hlj
    cases hlj

/-- With every slot valid and none loaded, `cache_evict` never returns. -/
theorem evict_spins {c : Cache} (hv : ∀ j, j < 64 → (c.cache j).valid = true)
    (hl : ∀ j, j < 64 → (c.cache j).loaded = false) :
    cache_evict c = Except.error Fault.spin := by
  cases h : cache_evict c with
  | error e => rw [evict_error hv h]
  | ok p =>
    obtain ⟨c1, v⟩ := p
    unfold cache_evict at h
    cases h1 : evict_rounds 3 c with
    | error e => rw [h1] at h; cases h
    | ok q =>
      obtain ⟨c2, o⟩ := q
      rw [h1] at h
      cases o with
      | some w =>
        obtain ⟨r1, _, r3, _⟩ := rounds_some _ _ _ _ h1
        rw [hl w r1] at r3
        cases r3
      | none => cases h

theorem has_slot_iff (c : Cache) :
    has_slot c = true ↔
      ∃ i, i < 64 ∧ ((c.cache i).valid = false ∨ (c.cache i).loaded = true) := by
  unfold has_slot
  simp only [List.any_eq_true, List.mem_range, Bool.or_eq_true, Bool.not_eq_true']

theorem has_slot_of_loaded {c : Cache} {i : Nat} (hi : i < 64) (hl : (c.cache i).loaded = true) :
    has_slot c = true :=
  (has_slot_iff c).2 ⟨i, hi, Or.inr hl⟩

theorem has_slot_of_invalid {c : Cache} {i : Nat} (hi : i < 64)
    (hl : (c.cache i).valid = false) : has_slot c = true :=
  (has_slot_iff c).2 ⟨i, hi, Or.inl hl⟩

theorem waiting_mono {c : Cache} {R R1 : List Nat} (h : Waiting c R) (hs : ∀ x, x ∈ R → x ∈ R1) :
    Waiting c R1 :=
  fun i h1 h2 h3 => hs _ (h i h1 h2 h3)

/-- Sixty-four slots that all wait for their load hold sixty-four different
sectors: with fewer sectors to wait for, some slot is invalid or loaded. -/
theorem has_slot_of_waiting {c : Cache} {R : List Nat}
    (hu : ∀ i j, i < 64 → j < 64 → (c.cache i).valid = true → (c.cache j).valid = true →
      (c.cache i).sector = (c.cache j).sector → i = j)
    (hw : Waiting c R) (hR : R.length < 64) : has_slot c = true := by
  by_contra hn
  have hall : ∀ i, i < 64 → (c.cache i).valid = true ∧ (c.cache i).loaded = false := by
    intro i hi
    by_contra hx
    apply hn
    rw [has_slot_iff]
    refine ⟨i, hi, ?_⟩
    by_cases hv : (c.cache i).valid = true
    · right
      by_contra hl
      exact hx ⟨hv, by simpa using hl⟩
    · left
      simpa using hv
  have hcard : (Finset.range 64).card ≤ R.toFinset.card := by
    apply Finset.card_le_card_of_injOn (fun i => (c.cache i).sector)
    · intro i hi
      have hi' : i < 64 := Finset.mem_range.1 hi
      exact List.mem_toFinset.2 (hw i hi' (hall i hi').1 (hall i hi').2)
    · intro i hi j hj hij
      have hi' : i < 64 := Finset.mem_range.1 (Finset.mem_coe.1 hi)
      have hj' : j < 64 := Finset.mem_range.1 (Finset.mem_coe.1 hj)
      exact hu i j hi' hj' (hall i hi').1 (hall j hj').1 hij
  have hle := List.toFinset_card_le R
  rw [Finset.card_range] at hcard
  omega

theorem room_has_slot {c : Cache} {n : Nat} (hi : CacheInv c) (h : Room c (n + 1)) :
    has_slot c = true := by
  obtain ⟨R, hw, hR⟩ := h
  exact has_slot_of_waiting hi.uniq hw (by omega)

theorem room_mono {c : Cache} {n m : Nat} (h : Room c n) (hm : m ≤ n) : Room c m := by
  obtain ⟨R, hw, hR⟩ := h
  exact ⟨R, hw, by omega⟩

theorem waiting_filter_length (R : List Nat) (s : Nat) :
    (R.filter (fun x => decide (x ≠ s))).length ≤ R.length :=
  List.length_filter_le _ _

theorem scan_inl (c : Cache) (s : Nat) : ∀ (n i : Nat) (idx : Option Nat) (k : Nat),
    allocate_scan c s n i idx = Sum.inl k →
    i ≤ k ∧ k < i + n ∧ (c.cache k).valid = true ∧ (c.cache k).sector = s := by
  intro n
  induction n with
  | zero => intro i idx k h; simp [allocate_scan] at h
  | succ n ih =>
    intro i idx k h
    unfold allocate_scan at h
    by_cases h1 : (c.cache i).sector = s ∧ (c.cache i).valid = true
    · rw [if_pos h1] at h
      cases h
      exact ⟨le_refl _, by omega, h1.2, h1.1⟩
    · rw [if_neg h1] at h
      by_cases h2 : (c.cache i).valid = false
      · rw [if_pos h2] at h
        obtain ⟨a, b, d⟩ := ih _ _ _ h
        exact ⟨by omega, by omega, d⟩
      · rw [if_neg h2] at h
        obtain ⟨a, b, d⟩ := ih _ _ _ h
        exact ⟨by omega, by omega, d⟩

theorem scan_inr (c : Cache) (s : Nat) : ∀ (n i : Nat) (idx r : Option Nat),
    allocate_scan c s n i idx = Sum.inr r →
    (∀ j, i ≤ j → j < i + n → ¬ ((c.cache j).sector = s ∧ (c.cache j).valid = true)) ∧
    ((r = idx ∧ ∀ j, i ≤ j → j < i + n → (c.cache j).valid = true) ∨
      ∃ k, r = some k ∧ i ≤ k ∧ k < i + n ∧ (c.cache k).valid = false) := by
  intro n
  induction n with
  | zero =>
    intro i idx r h
    simp only [allocate_scan, Sum.inr.injEq] at h
    exact ⟨fun j a b => by omega, Or.inl ⟨h.symm, fun j a b => by omega⟩⟩
  | succ n ih =>
    intro i idx r h
    unfold allocate_scan at h
    by_cases h1 : (c.cache i).sector = s ∧ (c.cache i).valid = true
    · rw [if_pos h1] at h
      cases h
    · rw [if_neg h1] at h
      by_cases h2 : (c.cache i).valid = false
      · rw [if_pos h2] at h
        obtain ⟨a, b⟩ := ih _ _ _ h
        refine ⟨?_, Or.inr ?_⟩
        · intro j j1 j2
          by_cases hj : j = i
          · subst hj; exact h1
          · exact a j (by omega) (by omega)
        · rcases b with ⟨b1, _⟩ | ⟨k, k1, k2, k3, k4⟩
          · exact ⟨i, b1, le_refl _, by omega, h2⟩
          · exact ⟨k, k1, by omega, by omega, k4⟩
      · rw [if_neg h2] at h
        obtain ⟨a, b⟩ := ih _ _ _ h
        refine ⟨?_, ?_⟩
        · intro j j1 j2
          by_cases hj : j = i
          · subst hj; exact h1
          · exact a j (by omega) (by omega)
        · rcases b with ⟨b1, b2⟩ | ⟨k, k1, k2, k3, k4⟩
          · refine Or.inl ⟨b1, ?_⟩
            intro j j1 j2
            by_cases hj : j = i
            · subst hj; simpa using h2
            · exact b2 j (by omega) (by omega)
          · exact Or.inr ⟨k, k1, by omega, by omega, k4⟩

theorem set_cache_self (c : Cache) (i : Nat) (e : cache_entry) : (c.set i e).cache i = e := by
  simp [Cache.set]

theorem set_cache_other (c : Cache) {i j : Nat} (e : cache_entry) (h : j ≠ i) :
    (c.set i e).cache j = c.cache j := by
  simp [Cache.set, h]

/-- Taking a slot over for another sector: the slot is invalid or agrees with
the device, and no valid slot has the new sector. -/
theorem reinit_spec {c : Cache} {k s : Nat} {e : cache_entry} (hi : CacheInv c) (hk : k < 64)
    (e2 : e.loaded = false) (e3 : e.sector = s)
    (hs : ∀ j, j < 64 → ¬ ((c.cache j).sector = s ∧ (c.cache j).valid = true))
    (hb : (c.cache k).valid = true → (c.cache k).loaded = true →
      (c.cache k).buffer = c.disk (c.cache k).sector) :
    CacheInvExcept (c.set k e) (some k) ∧ ∀ t, view (c.set k e) t = view c t := by
  constructor
  · constructor
    · intro a b h1 h2 h3 h4 h5
      by_cases ha : a = k
      · by_cases hb' : b = k
        · rw [ha, hb']
        · exfalso
          rw [ha, set_cache_self] at h5
          rw [set_cache_other c e hb'] at h4 h5
          exact hs b h2 ⟨by rw [← h5, e3], h4⟩
      · by_cases hb' : b = k
        · exfalso
          rw [hb', set_cache_self] at h5
          rw [set_cache_other c e ha] at h3 h5
          exact hs a h1 ⟨by rw [h5, e3], h3⟩
        · rw [set_cache_other c e ha] at h3 h5
          rw [set_cache_other c e hb'] at h4 h5
          exact hi.uniq a b h1 h2 h3 h4 h5
    · intro a h1 h2 h3 h4
      by_cases ha : a = k
      · rw [ha, set_cache_self, e2] at h3
        cases h3
      · rw [set_cache_other c e ha] at h2 h3 h4 ⊢
        exact hi.clean a h1 h2 h3 h4
    · intro a h1 hx h2 h3
      have ha : a ≠ k := fun h => hx (by rw [h])
      rw [set_cache_other c e ha] at h2 h3
      exact hi.queued a h1 (by simp) h2 h3
    · exact hi.bound
  · intro t
    by_cases hh : holds c t k = true
    · obtain ⟨a1, a2, a3⟩ := (holds_iff c t k).1 hh
      rw [view_of_slot hi.uniq hk a1 a2 a3, hb a1 a2, a3]
      apply view_of_none
      intro j hj
      rw [← Bool.not_eq_true, holds_iff]
      rintro ⟨b1, b2, b3⟩
      by_cases hjk : j = k
      · rw [hjk, set_cache_self, e2] at b2
        cases b2
      · rw [set_cache_other c e hjk] at b1 b3
        exact hjk (hi.uniq j k hj hk b1 a1 (b3.trans a3.symm))
    · apply view_congr
      · intro j _
        by_cases hjk : j = k
        · rw [hjk]
          have : holds (c.set k e) t k = false := by
            rw [← Bool.not_eq_true, holds_iff, set_cache_self, e2]
            rintro ⟨_, b2, _⟩
            cases b2
          rw [this]
          simpa using hh
        · simp [holds, set_cache_other c e hjk]
      · intro j _ hj
        by_cases hjk : j = k
        · rw [hjk] at hj
          exact absurd hj hh
        · rw [set_cache_other c e hjk]
      · intro _
        rfl

theorem inv_weaken {c : Cache} {x : Option Nat} (hi : CacheInv c) : CacheInvExcept c x :=
  ⟨hi.uniq, hi.clean, fun i h1 _ h2 h3 => hi.queued i h1 (by simp) h2 h3, hi.bound⟩

theorem allocate_spec {c c1 : Cache} {s idx : Nat} (hi : CacheInv c)
    (h : cache_allocate c s = Except.ok (c1, idx)) :
    idx < 64 ∧ CacheInvExcept c1 (some idx) ∧ (∀ t, view c1 t = view c t) ∧
      (c1.cache idx).valid = true ∧ (c1.cache idx).sector = s ∧ c1.dev_size = c.dev_size := by
  unfold cache_allocate at h
  cases hsc : allocate_scan c s 64 0 none with
  | inl i =>
    rw [hsc] at h
    simp only [pure, Except.pure, Except.ok.injEq, Prod.mk.injEq] at h
    obtain ⟨e1, e2⟩ := h
    subst e1 e2
    obtain ⟨_, a2, a3, a4⟩ := scan_inl c s _ _ _ _ hsc
    exact ⟨by omega, inv_weaken hi, fun _ => rfl, a3, a4, rfl⟩
  | inr r =>
    rw [hsc] at h
    obtain ⟨n1, n2⟩ := scan_inr c s _ _ _ _ hsc
    have hs : ∀ j, j < 64 → ¬ ((c.cache j).sector = s ∧ (c.cache j).valid = true) :=
      fun j hj => n1 j (Nat.zero_le _) (by omega)
    cases r with
    | some k =>
      simp only [pure, Except.pure, Except.ok.injEq, Prod.mk.injEq] at h
      obtain ⟨e1, e2⟩ := h
      subst e1 e2
      have hk : k < 64 ∧ (c.cache k).valid = false := by
        rcases n2 with ⟨b1, _⟩ | ⟨k', k1, _, k3, k4⟩
        · cases b1
        · cases k1
          exact ⟨by omega, k4⟩
      obtain ⟨q1, q2⟩ := reinit_spec (k := k) (s := s)
        (e := { c.cache k with
          sector := s, valid := true, dirty := false, accessed := false,
          read_cnt := 0, write_cnt := 0, loaded := false }) hi hk.1 rfl rfl hs
        (fun hv => by rw [hk.2] at hv; cases hv)
      exact ⟨hk.1, q1, q2, by rw [set_cache_self], by rw [set_cache_self], rfl⟩
    | none =>
      simp only at h
      cases hev : cache_evict c with
      | error e => rw [hev] at h; cases h
      | ok p =>
        obtain ⟨c2, v⟩ := p
        rw [hev] at h
        simp only [pure, Except.pure, Except.ok.injEq, Prod.mk.injEq] at h
        obtain ⟨e1, e2⟩ := h
        subst e1 e2
        obtain ⟨k1, k2, k3, k4, k5⟩ := evict_spec hi hev
        have hs2 : ∀ j, j < 64 → ¬ ((c2.cache j).sector = s ∧ (c2.cache j).valid = true) := by
          intro j hj
          rw [k1.sector, k1.valid]
          exact hs j hj
        obtain ⟨q1, q2⟩ := reinit_spec (k := v) (s := s)
          (e := { c2.cache v with
            sector := s, valid := true, dirty := false, accessed := false,
            read_cnt := 0, write_cnt := 0, loaded := false }) k1.inv k2 rfl rfl hs2
          (fun _ _ => k5)
        exact ⟨k2, q1, fun t => (q2 t).trans (k1.view t), by rw [set_cache_self],
          by rw [set_cache_self], k1.dev⟩

/-- With a slot that is invalid or loaded, `cache_allocate` returns. -/
theorem allocate_total {c : Cache} (hf : has_slot c = true) (s : Nat) :
    ∃ p, cache_allocate c s = Except.ok p := by
  unfold cache_allocate
  cases hsc : allocate_scan c s 64 0 none with
  | inl i => exact ⟨_, rfl⟩
  | inr r =>
    cases r with
    | some k => exact ⟨_, rfl⟩
    | none =>
      simp only
      obtain ⟨_, n2⟩ := scan_inr c s _ _ _ _ hsc
      have hv : ∀ j, j < 64 → (c.cache j).valid = true := by
        rcases n2 with ⟨_, b2⟩ | ⟨k', k1, _⟩
        · exact fun j hj => b2 j (Nat.zero_le _) (by omega)
        · cases k1
      obtain ⟨i, hi, hx⟩ := (has_slot_iff c).1 hf
      have hl : (c.cache i).loaded = true := by
        rcases hx with hx | hx
        · rw [hv i hi] at hx
          cases hx
        · exact hx
      obtain ⟨p, hp⟩ := evict_total hv ⟨i, hi, hl⟩
      rw [hp]
      exact ⟨_, rfl⟩

/-- The only way `cache_allocate` does not return is the endless loop of
`cache_evict`. -/
theorem allocate_error {c : Cache} {s : Nat} {e : Fault}
    (h : cache_allocate c s = Except.error e) : e = Fault.spin := by
  unfold cache_allocate at h
  cases hsc : allocate_scan c s 64 0 none with
  | inl i => rw [hsc] at h; cases h
  | inr r =>
    rw [hsc] at h
    cases r with
    | some k => cases h
    | none =>
      simp only at h
      obtain ⟨_, n2⟩ := scan_inr c s _ _ _ _ hsc
      have hv : ∀ j, j < 64 → (c.cache j).valid = true := by
        rcases n2 with ⟨_, b2⟩ | ⟨k', k1, _⟩
        · exact fun j hj => b2 j (Nat.zero_le _) (by omega)
        · cases k1
      cases hev : cache_evict c with
      | error e1 =>
        rw [hev] at h
        simp only [Except.error.injEq] at h
        subst h
        exact evict_error hv hev
      | ok p =>
        rw [hev] at h
        cases h

/-- A sector that has a valid slot is found by the scan of `cache_allocate`,
whatever the state of the other slots. -/
theorem allocate_hit {c : Cache} {s k : Nat} (hk : k < 64) (hv : (c.cache k).valid = true)
    (hs : (c.cache k).sector = s) : ∃ i, cache_allocate c s = Except.ok (c, i) := by
  unfold cache_allocate
  cases hsc : allocate_scan c s 64 0 none with
  | inl i => exact ⟨i, rfl⟩
  | inr r =>
    obtain ⟨n1, _⟩ := scan_inr c s _ _ _ _ hsc
    exact absurd ⟨hs, hv⟩ (n1 k (Nat.zero_le _) (by omega))

/-- The slots other than the one `cache_allocate` returns keep their sector,
valid flag and loaded flag. -/
theorem allocate_slots {c c1 : Cache} {s idx : Nat}
    (h : cache_allocate c s = Except.ok (c1, idx)) (j : Nat) (hj : j ≠ idx) :
    (c1.cache j).sector = (c.cache j).sector ∧ (c1.cache j).valid = (c.cache j).valid ∧
      (c1.cache j).loaded = (c.cache j).loaded := by
  unfold cache_allocate at h
  cases hsc : allocate_scan c s 64 0 none with
  | inl i =>
    rw [hsc] at h
    simp only [pure, Except.pure, Except.ok.injEq, Prod.mk.injEq] at h
    obtain ⟨e1, e2⟩ := h
    subst e1 e2
    exact ⟨rfl, rfl, rfl⟩
  | inr r =>
    rw [hsc] at h
    cases r with
    | some k =>
      simp only [pure, Except.pure, Except.ok.injEq, Prod.mk.injEq] at h
      obtain ⟨e1, e2⟩ := h
      subst e1 e2
      rw [set_cache_other _ _ hj]
      exact ⟨rfl, rfl, rfl⟩
    | none =>
      simp only at h
      cases hev : cache_evict c with
      | error e => rw [hev] at h; cases h
      | ok p =>
        obtain ⟨c2, v⟩ := p
        rw [hev] at h
        simp only [pure, Except.pure, Except.ok.injEq, Prod.mk.injEq] at h
        obtain ⟨e1, e2⟩ := h
        subst e1 e2
        rw [set_cache_other _ _ hj]
        exact evict_slots hev j

/-- The slot `cache_allocate` returns either was the slot of the sector, and is
as it was, or is handed out unloaded. -/
theorem allocate_slot {c c1 : Cache} {s idx : Nat}
    (h : cache_allocate c s = Except.ok (c1, idx)) :
    (c1.cache idx).loaded = false ∨
      ((c.cache idx).valid = true ∧ (c.cache idx).sector = s ∧
        (c1.cache idx).loaded = (c.cache idx).loaded) := by
  unfold cache_allocate at h
  cases hsc : allocate_scan c s 64 0 none with
  | inl i =>
    rw [hsc] at h
    simp only [pure, Except.pure, Except.ok.injEq, Prod.mk.injEq] at h
    obtain ⟨e1, e2⟩ := h
    subst e1 e2
    obtain ⟨_, _, a3, a4⟩ := scan_inl c s _ _ _ _ hsc
    exact Or.inr ⟨a3, a4, rfl⟩
  | inr r =>
    rw [hsc] at h
    cases r with
    | some k =>
      simp only [pure, Except.pure, Except.ok.injEq, Prod.mk.injEq] at h
      obtain ⟨e1, e2⟩ := h
      subst e1 e2
      left
      rw [set_cache_self]
    | none =>
      simp only at h
      cases hev : cache_evict c with
      | error e => rw [hev] at h; cases h
      | ok p =>
        obtain ⟨c2, v⟩ := p
        rw [hev] at h
        simp only [pure, Except.pure, Except.ok.injEq, Prod.mk.injEq] at h
        obtain ⟨e1, e2⟩ := h
        subst e1 e2
        left
        rw [set_cache_self]

/-- State of `cache_read_at` and `cache_write_at` once the slot is loaded. -/
theorem loaded_spec {c : Cache} {idx s : Nat} (h64 : idx < 64)
    (hi : CacheInvExcept c (some idx)) (hv : (c.cache idx).valid = true)
    (hs : (c.cache idx).sector = s) :
    let c2 := if (c.cache idx).loaded then c else cache_load c idx
    CacheInv c2 ∧ (∀ t, view c2 t = view c t) ∧ (c2.cache idx).valid = true ∧
      (c2.cache idx).loaded = true ∧ (c2.cache idx).sector = s ∧
      (c2.cache idx).buffer = view c s ∧ c2.dev_size = c.dev_size := by
  intro c2
  by_cases hl : (c.cache idx).loaded = true
  · have e : c2 = c := if_pos hl
    rw [e]
    refine ⟨?_, fun _ => rfl, hv, hl, hs, (view_of_slot hi.uniq h64 hv hl hs).symm, rfl⟩
    refine ⟨hi.uniq, hi.clean, ?_, hi.bound⟩
    intro a h1 _ h2 h3
    apply hi.queued a h1 _ h2 h3
    intro hx
    cases hx
    rw [hl] at h3
    cases h3
  · have e : c2 = cache_load c idx := if_neg hl
    have hl' : (c.cache idx).loaded = false := by simpa using hl
    rw [e]
    have hinv : CacheInv (cache_load c idx) := by
      apply load_inv hi
      intro j hj _ hx
      cases hx
      exact hj rfl
    have hview := load_view hi.uniq h64 hl'
    refine ⟨hinv, hview, by rw [load_valid]; exact hv, load_loaded_self c idx,
      by rw [load_sector]; exact hs, ?_, rfl⟩
    rw [← hview s]
    exact (view_of_slot hinv.uniq h64 (by rw [load_valid]; exact hv) (load_loaded_self c idx)
      (by rw [load_sector]; exact hs)).symm

theorem transparent_refl {c : Cache} (h : CacheInv c) : Transparent c c :=
  ⟨h, fun _ => rfl, rfl⟩

theorem transparent_trans {a b c : Cache} (h1 : Transparent a b) (h2 : Transparent b c) :
    Transparent a c :=
  ⟨h2.inv, fun s => (h2.view s).trans (h1.view s), h2.dev.trans h1.dev⟩

theorem keeps_transparent {c c1 : Cache} (h : Keeps c c1) : Transparent c c1 :=
  ⟨h.inv, h.view, h.dev⟩

/-- Overwriting the buffer of the loaded slot of `s` and marking it dirty. -/
theorem set_buffer_spec {c : Cache} {idx s : Nat} {e : cache_entry} (hi : CacheInv c)
    (h64 : idx < 64) (hv : (c.cache idx).valid = true) (hl : (c.cache idx).loaded = true)
    (hs : (c.cache idx).sector = s) (e1 : e.sector = s) (e2 : e.valid = true)
    (e3 : e.loaded = true) (e4 : e.dirty = true) :
    CacheInv (c.set idx e) ∧ view (c.set idx e) s = e.buffer ∧
      ∀ t, t ≠ s → view (c.set idx e) t = view c t := by
  have hinv : CacheInv (c.set idx e) := by
    constructor
    · intro a b h1 h2 h3 h4 h5
      have ha : ((c.set idx e).cache a).sector = (c.cache a).sector ∧ (c.cache a).valid = true := by
        by_cases h : a = idx
        · rw [h, set_cache_self, e1, hs]; exact ⟨rfl, hv⟩
        · rw [set_cache_other c e h] at h3 ⊢; exact ⟨rfl, h3⟩
      have hb : ((c.set idx e).cache b).sector = (c.cache b).sector ∧ (c.cache b).valid = true := by
        by_cases h : b = idx
        · rw [h, set_cache_self, e1, hs]; exact ⟨rfl, hv⟩
        · rw [set_cache_other c e h] at h4 ⊢; exact ⟨rfl, h4⟩
      rw [ha.1, hb.1] at h5
      exact hi.uniq a b h1 h2 ha.2 hb.2 h5
    · intro a h1 h2 h3 h4
      by_cases h : a = idx
      · rw [h, set_cache_self, e4] at h4
        cases h4
      · rw [set_cache_other c e h] at h2 h3 h4 ⊢
        exact hi.clean a h1 h2 h3 h4
    · intro a h1 hx h2 h3
      by_cases h : a = idx
      · rw [h, set_cache_self, e3] at h3
        cases h3
      · rw [set_cache_other c e h] at h2 h3
        exact hi.queued a h1 hx h2 h3
    · exact hi.bound
  refine ⟨hinv, ?_, ?_⟩
  · rw [view_of_slot hinv.uniq h64 (by rw [set_cache_self]; exact e2)
      (by rw [set_cache_self]; exact e3) (by rw [set_cache_self]; exact e1), set_cache_self]
  · intro t ht
    apply view_congr
    · intro j _
      by_cases h : j = idx
      · rw [h]
        simp [holds, set_cache_self, e1, e2, e3, hv, hl, hs]
      · simp [holds, set_cache_other c e h]
    · intro j _ hj
      by_cases h : j = idx
      · rw [h, holds_iff] at hj
        exact absurd (hs.symm.trans hj.2.2).symm ht
      · rw [set_cache_other c e h]
    · intro _
      rfl

theorem load_if_other (c : Cache) {i j : Nat} (h : j ≠ i) :
    ((if (c.cache i).loaded then c else cache_load c i).cache j) = c.cache j := by
  split
  · rfl
  · exact load_cache_other c h

/-- What `cache_write_at` leaves when it returns. -/
theorem cache_write_at_ok {c c1 : Cache} {s : Nat} {buf : Buf} {ofs size : Nat}
    (hi : CacheInv c) (hsz : ofs + size ≤ 512)
    (h : cache_write_at c s buf ofs size = Except.ok c1) :
    CacheInv c1 ∧ view c1 s = memcpy (view c s) ofs buf 0 size ∧
      (∀ t, t ≠ s → view c1 t = view c t) ∧ c1.dev_size = c.dev_size ∧
      (∀ R, Waiting c R → Waiting c1 (R.filter (fun x => decide (x ≠ s)))) ∧
      has_slot c1 = true := by
  unfold cache_write_at at h
  cases hp : cache_allocate c s with
  | error e => rw [hp] at h; cases h
  | ok p =>
    obtain ⟨c0, idx⟩ := p
    rw [hp] at h
    simp only at h
    rw [if_neg (by omega)] at h
    simp only [pure, Except.pure, Except.ok.injEq] at h
    obtain ⟨a1, a2, a3, a4, a5, a6⟩ := allocate_spec hi hp
    obtain ⟨b1, b2, b3, b4, b5, b6, b7⟩ := loaded_spec a1 a2 a4 a5
    obtain ⟨d1, d2, d3⟩ := set_buffer_spec
      (e := { (if (c0.cache idx).loaded then c0 else cache_load c0 idx).cache idx with
        buffer := memcpy ((if (c0.cache idx).loaded then c0 else cache_load c0 idx).cache idx).buffer
          ofs buf 0 size,
        dirty := true, accessed := true }) b1 a1 b3 b4 b5 b5 b3 b4 rfl
    subst h
    refine ⟨d1, ?_, ?_, ?_, ?_, ?_⟩
    · rw [d2]
      show memcpy _ ofs buf 0 size = _
      rw [b6, a3]
    · intro t ht
      rw [d3 t ht, b2, a3]
    · exact b7.trans a6
    · intro R hw j hj hv hl
      by_cases hji : j = idx
      · rw [hji, set_cache_self] at hl
        have hl' : ((if (c0.cache idx).loaded then c0 else cache_load c0 idx).cache idx).loaded
            = false := hl
        rw [b4] at hl'
        cases hl'
      · rw [set_cache_other _ _ hji, load_if_other c0 hji] at hv hl ⊢
        obtain ⟨s1, s2, s3⟩ := allocate_slots hp j hji
        have hne : (c0.cache j).sector ≠ s := by
          intro hx
          exact hji (a2.uniq j idx hj a1 hv a4 (hx.trans a5.symm))
        rw [List.mem_filter]
        refine ⟨?_, by simpa using hne⟩
        rw [s1]
        exact hw j hj (s2 ▸ hv) (s3 ▸ hl)
    · apply has_slot_of_loaded a1
      rw [set_cache_self]
      exact b4

/-- The only way `cache_write_at` of bytes inside the sector does not return is
the endless loop of `cache_evict`. -/
theorem cache_write_at_error {c : Cache} {s : Nat} {buf : Buf} {ofs size : Nat} {e : Fault}
    (hsz : ofs + size ≤ 512) (h : cache_write_at c s buf ofs size = Except.error e) :
    e = Fault.spin := by
  unfold cache_write_at at h
  cases hp : cache_allocate c s with
  | error e1 =>
    rw [hp] at h
    simp only [Except.error.injEq] at h
    subst h
    exact allocate_error hp
  | ok p =>
    obtain ⟨c0, idx⟩ := p
    rw [hp] at h
    simp only at h
    rw [if_neg (by omega)] at h
    cases h

/-- With a slot that is invalid or loaded, `cache_write_at` returns. -/
theorem cache_write_at_total {c : Cache} (hf : has_slot c = true) (s : Nat) (buf : Buf)
    {ofs size : Nat} (hsz : ofs + size ≤ 512) :
    ∃ c1, cache_write_at c s buf ofs size = Except.ok c1 := by
  obtain ⟨p, hp⟩ := allocate_total hf s
  obtain ⟨c0, idx⟩ := p
  unfold cache_write_at
  rw [hp]
  simp only
  rw [if_neg (by omega)]
  exact ⟨_, rfl⟩

theorem cache_write_at_spec {c : Cache} (hi : CacheInv c) (hf : has_slot c = true) (s : Nat)
    (buf : Buf) {ofs size : Nat} (hsz : ofs + size ≤ 512) :
    ∃ c1, cache_write_at c s buf ofs size = Except.ok c1 ∧ CacheInv c1 ∧
      view c1 s = memcpy (view c s) ofs buf 0 size ∧
      (∀ t, t ≠ s → view c1 t = view c t) ∧ c1.dev_size = c.dev_size := by
  obtain ⟨c1, h⟩ := cache_write_at_total hf s buf hsz
  obtain ⟨r1, r2, r3, r4, _⟩ := cache_write_at_ok hi hsz h
  exact ⟨c1, h, r1, r2, r3, r4⟩

/-- What `cache_read_at` returns and leaves when it returns. -/
theorem cache_read_at_ok {c c1 : Cache} {s : Nat} {buf out : Buf} {ofs size : Nat}
    (hi : CacheInv c) (hsz : ofs + size ≤ 512)
    (h : cache_read_at c s buf ofs size = Except.ok (c1, out)) :
    out = memcpy buf 0 (view c s) ofs size ∧ Transparent c c1 ∧
      (∀ R, Waiting c R →
        Waiting c1 ((s + 1) % 4294967296 :: R.filter (fun x => decide (x ≠ s)))) := by
  unfold cache_read_at at h
  cases hp : cache_allocate c s with
  | error e => rw [hp] at h; cases h
  | ok p =>
    obtain ⟨c0, idx⟩ := p
    rw [hp] at h
    simp only at h
    rw [if_neg (by omega)] at h
    obtain ⟨a1, a2, a3, a4, a5, a6⟩ := allocate_spec hi hp
    obtain ⟨b1, b2, b3, b4, b5, b6, b7⟩ := loaded_spec a1 a2 a4 a5
    have hkeep : ∀ j, j ≠ idx →
        ((if (c0.cache idx).loaded then c0 else cache_load c0 idx).cache j) = c0.cache j :=
      fun j hj => load_if_other c0 hj
    generalize hc2 : (if (c0.cache idx).loaded then c0 else cache_load c0 idx) = c2
      at h b1 b2 b3 b4 b5 b6 b7 hkeep
    have hsim := similar_set_accessed c2 idx true
    have t3 : Transparent c (c2.set idx { c2.cache idx with accessed := true }) :=
      ⟨similar_inv hsim b1, fun t => by rw [similar_view hsim, b2, a3], by
        rw [hsim.dev, b7, a6]⟩
    have hout : memcpy buf 0 (c2.cache idx).buffer ofs size = memcpy buf 0 (view c s) ofs size := by
      rw [b6, a3]
    have hw3 : ∀ R, Waiting c R →
        Waiting (c2.set idx { c2.cache idx with accessed := true })
          (R.filter (fun x => decide (x ≠ s))) := by
      intro R hw j hj hv hl
      by_cases hji : j = idx
      · rw [hji, set_cache_self] at hl
        have hl' : (c2.cache idx).loaded = false := hl
        rw [b4] at hl'
        cases hl'
      · rw [set_cache_other _ _ hji, hkeep j hji] at hv hl ⊢
        obtain ⟨s1, s2, s3⟩ := allocate_slots hp j hji
        have hne : (c0.cache j).sector ≠ s := by
          intro hx
          exact hji (a2.uniq j idx hj a1 hv a4 (hx.trans a5.symm))
        rw [List.mem_filter]
        refine ⟨?_, by simpa using hne⟩
        rw [s1]
        exact hw j hj (s2 ▸ hv) (s3 ▸ hl)
    split at h
    · cases hp2 : cache_allocate (c2.set idx { c2.cache idx with accessed := true })
        ((s + 1) % 4294967296) with
      | error e => rw [hp2] at h; cases h
      | ok p =>
        obtain ⟨c4, next⟩ := p
        rw [hp2] at h
        simp only at h
        obtain ⟨n1, n2, n3, n4, n5, n6⟩ := allocate_spec t3.inv hp2
        have hw4 : ∀ R, Waiting c R →
            Waiting c4 ((s + 1) % 4294967296 :: R.filter (fun x => decide (x ≠ s))) := by
          intro R hw j hj hv hl
          by_cases hjn : j = next
          · rw [hjn, n5]
            exact List.mem_cons_self _ _
          · obtain ⟨s1, s2, s3⟩ := allocate_slots hp2 j hjn
            rw [s1]
            exact List.mem_cons_of_mem _ (hw3 R hw j hj (s2 ▸ hv) (s3 ▸ hl))
        by_cases hl : (c4.cache next).loaded = true
        · rw [if_pos hl] at h
          simp only [pure, Except.pure, Except.ok.injEq, Prod.mk.injEq] at h
          obtain ⟨e1, e2⟩ := h
          subst e1 e2
          refine ⟨hout, ⟨?_, fun t => (n3 t).trans (t3.view t), n6.trans t3.dev⟩, hw4⟩
          refine ⟨n2.uniq, n2.clean, ?_, n2.bound⟩
          intro a h1 _ h2 h3
          apply n2.queued a h1 _ h2 h3
          intro hx
          cases hx
          rw [hl] at h3
          cases h3
        · rw [if_neg hl] at h
          simp only [pure, Except.pure, Except.ok.injEq, Prod.mk.injEq] at h
          obtain ⟨e1, e2⟩ := h
          subst e1 e2
          refine ⟨hout, ⟨?_, fun t => ?_, n6.trans t3.dev⟩, fun R hw => hw4 R hw⟩
          · refine ⟨n2.uniq, n2.clean, ?_, ?_⟩
            · intro a h1 _ h2 h3
              show a ∈ c4.read_queue ++ [next]
              by_cases ha : a = next
              · simp [ha]
              · exact List.mem_append_left _ (n2.queued a h1 (by simpa using ha) h2 h3)
            · intro a ha
              rcases List.mem_append.1 ha with h | h
              · exact n2.bound a h
              · simp only [List.mem_singleton] at h
                rw [h]
                exact n1
          · rw [← t3.view t, ← n3 t]
            exact view_congr (fun _ _ => rfl) (fun _ _ _ => rfl) (fun _ => rfl)
    · simp only [pure, Except.pure, Except.ok.injEq, Prod.mk.injEq] at h
      obtain ⟨e1, e2⟩ := h
      subst e1 e2
      exact ⟨hout, t3, fun R hw => waiting_mono (hw3 R hw) (fun x hx => List.mem_cons_of_mem _ hx)⟩

/-- The only way `cache_read_at` of bytes inside the sector does not return is
the endless loop of `cache_evict`. -/
theorem cache_read_at_error {c : Cache} {s : Nat} {buf : Buf} {ofs size : Nat} {e : Fault}
    (hsz : ofs + size ≤ 512) (h : cache_read_at c s buf ofs size = Except.error e) :
    e = Fault.spin := by
  unfold cache_read_at at h
  cases hp : cache_allocate c s with
  | error e1 =>
    rw [hp] at h
    simp only [Except.error.injEq] at h
    subst h
    exact allocate_error hp
  | ok p =>
    obtain ⟨c0, idx⟩ := p
    rw [hp] at h
    simp only at h
    rw [if_neg (by omega)] at h
    generalize (if (c0.cache idx).loaded then c0 else cache_load c0 idx) = c2 at h
    by_cases hd : (s + 1) % 4294967296 <
        (c2.set idx { c2.cache idx with accessed := true }).dev_size
    · rw [if_pos hd] at h
      cases hp2 : cache_allocate (c2.set idx { c2.cache idx with accessed := true })
        ((s + 1) % 4294967296) with
      | error e1 =>
        rw [hp2] at h
        simp only [Except.error.injEq] at h
        subst h
        exact allocate_error hp2
      | ok p =>
        obtain ⟨c4, next⟩ := p
        rw [hp2] at h
        simp only at h
        split at h <;> cases h
    · rw [if_neg hd] at h
      cases h

/-- With a slot that is invalid or loaded, `cache_read_at` returns: the slot of
the sector is loaded when the slot of the next sector is looked for. -/
theorem cache_read_at_total {c : Cache} (hi : CacheInv c) (hf : has_slot c = true) (s : Nat)
    (buf : Buf) {ofs size : Nat} (hsz : ofs + size ≤ 512) :
    ∃ p, cache_read_at c s buf ofs size = Except.ok p := by
  obtain ⟨p, hp⟩ := allocate_total hf s
  obtain ⟨c0, idx⟩ := p
  obtain ⟨a1, a2, a3, a4, a5, a6⟩ := allocate_spec hi hp
  obtain ⟨b1, b2, b3, b4, b5, b6, b7⟩ := loaded_spec a1 a2 a4 a5
  unfold cache_read_at
  rw [hp]
  simp only
  rw [if_neg (by omega)]
  generalize hc2 : (if (c0.cache idx).loaded then c0 else cache_load c0 idx) = c2
    at b1 b2 b3 b4 b5 b6 b7
  split
  · have hf3 : has_slot (c2.set idx { c2.cache idx with accessed := true }) = true := by
      apply has_slot_of_loaded a1
      rw [set_cache_self]
      exact b4
    obtain ⟨p, hp2⟩ := allocate_total hf3 ((s + 1) % 4294967296)
    obtain ⟨c4, next⟩ := p
    rw [hp2]
    simp only
    split
    · exact ⟨_, rfl⟩
    · exact ⟨_, rfl⟩
  · exact ⟨_, rfl⟩

theorem cache_read_at_spec {c : Cache} (hi : CacheInv c) (hf : has_slot c = true) (s : Nat)
    (buf : Buf) {ofs size : Nat} (hsz : ofs + size ≤ 512) :
    ∃ c1, cache_read_at c s buf ofs size = Except.ok (c1, memcpy buf 0 (view c s) ofs size) ∧
      Transparent c c1 := by
  obtain ⟨p, h⟩ := cache_read_at_total hi hf s buf hsz
  obtain ⟨c1, out⟩ := p
  obtain ⟨r1, r2, _⟩ := cache_read_at_ok hi hsz h
  subst r1
  exact ⟨c1, h, r2⟩

/-- A read leaves room for one waiting slot less. -/
theorem read_room {c c1 : Cache} {s : Nat} {buf out : Buf} {ofs size n : Nat}
    (hi : CacheInv c) (hsz : ofs + size ≤ 512)
    (h : cache_read_at c s buf ofs size = Except.ok (c1, out)) (hr : Room c (n + 1)) :
    Room c1 n := by
  obtain ⟨R, hw, hR⟩ := hr
  obtain ⟨_, _, r3⟩ := cache_read_at_ok hi hsz h
  refine ⟨_, r3 R hw, ?_⟩
  have := waiting_filter_length R s
  simp only [List.length_cons]
  omega

/-- A write leaves the room as it is. -/
theorem write_room {c c1 : Cache} {s : Nat} {buf : Buf} {ofs size n : Nat}
    (hi : CacheInv c) (hsz : ofs + size ≤ 512)
    (h : cache_write_at c s buf ofs size = Except.ok c1) (hr : Room c n) : Room c1 n := by
  obtain ⟨R, hw, hR⟩ := hr
  obtain ⟨_, _, _, _, r5, _⟩ := cache_write_at_ok hi hsz h
  refine ⟨_, r5 R hw, ?_⟩
  have := waiting_filter_length R s
  omega

theorem read_ahead_step_spec {c : Cache} (hi : CacheInv c) :
    Transparent c (read_ahead_step c) := by
  unfold read_ahead_step
  cases hq : c.read_queue with
  | nil => exact transparent_refl hi
  | cons index q =>
    simp only
    have h64 : index < 64 := hi.bound index (by rw [hq]; exact List.mem_cons_self _ _)
    by_cases hl : (c.cache index).loaded = true
    · rw [if_pos hl]
      refine ⟨⟨hi.uniq, hi.clean, ?_, ?_⟩, fun t => ?_, rfl⟩
      · intro a h1 hx h2 h3
        have := hi.queued a h1 hx h2 h3
        rw [hq] at this
        rcases List.mem_cons.1 this with h | h
        · rw [h, hl] at h3
          cases h3
        · exact h
      · intro a ha
        exact hi.bound a (by rw [hq]; exact List.mem_cons_of_mem _ ha)
      · exact view_congr (fun _ _ => rfl) (fun _ _ _ => rfl) (fun _ => rfl)
    · rw [if_neg hl]
      have hl' : (c.cache index).loaded = false := by simpa using hl
      have h0 : CacheInv (cache_load c index) := load_inv hi (fun _ _ h => h)
      refine ⟨⟨h0.uniq, h0.clean, ?_, ?_⟩, fun t => ?_, rfl⟩
      · intro a h1 hx h2 h3
        have := h0.queued a h1 hx h2 h3
        have hq' : (cache_load c index).read_queue = index :: q := hq
        rw [hq'] at this
        rcases List.mem_cons.1 this with h | h
        · have h3' : ((cache_load c index).cache a).loaded = false := h3
          rw [h, load_loaded_self] at h3'
          cases h3'
        · exact h
      · intro a ha
        exact hi.bound a (by rw [hq]; exact List.mem_cons_of_mem _ ha)
      · rw [← load_view hi.uniq h64 hl' t]
        exact view_congr (fun _ _ => rfl) (fun _ _ _ => rfl) (fun _ => rfl)

theorem view_eq_disk_of_clean {c : Cache} (hi : CacheInv c)
    (hc : ∀ j, j < 64 → (c.cache j).valid = true → (c.cache j).loaded = true →
      (c.cache j).dirty = false) (s : Nat) : view c s = c.disk s := by
  by_cases h : ∃ j, j < 64 ∧ holds c s j = true
  · obtain ⟨j, hj, hh⟩ := h
    obtain ⟨a1, a2, a3⟩ := (holds_iff c s j).1 hh
    rw [view_of_slot hi.uniq hj a1 a2 a3, hi.clean j hj a1 a2 (hc j hj a1 a2), a3]
  · apply view_of_none
    intro j hj
    by_contra hh
    exact h ⟨j, hj, by simpa using hh⟩

/-- One write-back of `cache_done`. -/
theorem flush_spec {c : Cache} {i : Nat} (hi : CacheInv c) (h64 : i < 64)
    (hv : (c.cache i).valid = true) (hl : (c.cache i).loaded = true)
    (hd : (c.cache i).dirty = true) :
    Transparent c ((c.block_write (c.cache i).sector (c.cache i).buffer).set i
      { c.cache i with dirty := false }) := by
  have hw : wb c i = c.block_write (c.cache i).sector (c.cache i).buffer := by
    unfold wb
    rw [if_pos hd]
  rw [← hw]
  have k := keeps_wb hi h64 hv hl
  have hc : (wb c i).cache i = c.cache i := by rw [wb_cache]
  have hinv : CacheInv ((wb c i).set i { c.cache i with dirty := false }) := by
    constructor
    · intro a b h1 h2 h3 h4 h5
      have ha : (((wb c i).set i { c.cache i with dirty := false }).cache a).sector =
            (c.cache a).sector ∧
          (((wb c i).set i { c.cache i with dirty := false }).cache a).valid =
            (c.cache a).valid := by
        by_cases h : a = i
        · rw [h, set_cache_self]; exact ⟨rfl, rfl⟩
        · rw [set_cache_other _ _ h, wb_cache]; exact ⟨rfl, rfl⟩
      have hb : (((wb c i).set i { c.cache i with dirty := false }).cache b).sector =
            (c.cache b).sector ∧
          (((wb c i).set i { c.cache i with dirty := false }).cache b).valid =
            (c.cache b).valid := by
        by_cases h : b = i
        · rw [h, set_cache_self]; exact ⟨rfl, rfl⟩
        · rw [set_cache_other _ _ h, wb_cache]; exact ⟨rfl, rfl⟩
      rw [ha.1, hb.1] at h5
      rw [ha.2] at h3
      rw [hb.2] at h4
      exact hi.uniq a b h1 h2 h3 h4 h5
    · intro a h1 h2 h3 h4
      by_cases h : a = i
      · rw [h, set_cache_self]
        exact (wb_disk_self c hi h64 hv hl).symm
      · rw [set_cache_other _ _ h] at h2 h3 h4 ⊢
        exact k.inv.clean a h1 h2 h3 h4
    · intro a h1 hx h2 h3
      by_cases h : a = i
      · rw [h, set_cache_self] at h3
        rw [hl] at h3
        cases h3
      · rw [set_cache_other _ _ h] at h2 h3
        exact k.inv.queued a h1 hx h2 h3
    · exact k.inv.bound
  refine ⟨hinv, fun t => ?_, wb_dev c i⟩
  rw [← k.view t]
  apply view_congr
  · intro j _
    by_cases h : j = i
    · rw [h]
      simp [holds, set_cache_self, hc]
    · simp [holds, set_cache_other _ _ h]
  · intro j _ _
    by_cases h : j = i
    · rw [h, set_cache_self, hc]
    · rw [set_cache_other _ _ h]
  · intro _
    rfl

theorem cache_done_loop_spec : ∀ (n i : Nat) (c : Cache), CacheInv c → i + n ≤ 64 →
    (∀ j, j < i → (c.cache j).valid = true → (c.cache j).loaded = true →
      (c.cache j).dirty = false) →
    Transparent c (cache_done_loop n i c) ∧
    (∀ j, j < i + n → ((cache_done_loop n i c).cache j).valid = true →
      ((cache_done_loop n i c).cache j).loaded = true →
      ((cache_done_loop n i c).cache j).dirty = false) := by
  intro n
  induction n with
  | zero =>
    intro i c hi _ hc
    exact ⟨transparent_refl hi, hc⟩
  | succ n ih =>
    intro i c hi hn hc
    unfold cache_done_loop
    by_cases h : (c.cache i).dirty = true ∧ (c.cache i).loaded = true ∧ (c.cache i).valid = true
    · rw [if_pos h]
      have t := flush_spec hi (by omega) h.2.2 h.2.1 h.1
      obtain ⟨r1, r2⟩ := ih (i + 1) _ t.inv (by omega) (by
        intro j hj h1 h2
        by_cases hji : j = i
        · rw [hji, set_cache_self]
        · rw [set_cache_other _ _ hji] at h1 h2 ⊢
          exact hc j (by omega) h1 h2)
      exact ⟨transparent_trans t r1, fun j hj => r2 j (by omega)⟩
    · rw [if_neg h]
      obtain ⟨r1, r2⟩ := ih (i + 1) c hi (by omega) (by
        intro j hj h1 h2
        by_cases hji : j = i
        · rw [hji] at h1 h2 ⊢
          by_contra hd
          exact h ⟨by simpa using hd, h2, h1⟩
        · exact hc j (by omega) h1 h2)
      exact ⟨r1, fun j hj => r2 j (by omega)⟩

theorem cache_done_spec {c : Cache} (hi : CacheInv c) :
    Transparent c (cache_done c) ∧ ∀ s, (cache_done c).disk s = view c s := by
  obtain ⟨r1, r2⟩ := cache_done_loop_spec 64 0 c hi (by norm_num) (fun j hj => by omega)
  refine ⟨r1, fun s => ?_⟩
  rw [← r1.view s]
  exact (view_eq_disk_of_clean r1.inv (fun j hj => r2 j (by omega)) s).symm

theorem cache_init_inv (disk : Nat → Buf) (n : Nat) : CacheInv (cache_init disk n) := by
  constructor
  · intro i j _ _ h
    simp [cache_init] at h
  · intro i _ h
    simp [cache_init] at h
  · intro i _ _ h
    simp [cache_init] at h
  · intro i h
    simp [cache_init] at h

theorem cache_init_view (disk : Nat → Buf) (n s : Nat) : view (cache_init disk n) s = disk s := by
  apply view_of_none
  intro i _
  simp [holds, cache_init]

theorem bytes_memcpy (buf src : Buf) (ofs size : Nat) :
    bytes (memcpy buf 0 src ofs size) size = bytes (fun i => src (ofs + i)) size := by
  unfold bytes
  apply List.map_congr_left
  intro i hi
  have : i < size := List.mem_range.1 hi
  simp [memcpy, this]

theorem run_ops_ok : ∀ (ops : List CacheOp) (c c1 : Cache) (rs : List (List Nat)), CacheInv c →
    (∀ op ∈ ops, op.fits = true) → run_ops c ops = Except.ok (c1, rs) →
    rs = (store_ops (view c) ops).2 ∧ CacheInv c1 ∧
      (∀ s, view c1 s = (store_ops (view c) ops).1 s) ∧ c1.dev_size = c.dev_size := by
  intro ops
  induction ops with
  | nil =>
    intro c c1 rs hi _ h
    simp only [run_ops, pure, Except.pure, Except.ok.injEq, Prod.mk.injEq] at h
    obtain ⟨e1, e2⟩ := h
    subst e1 e2
    exact ⟨rfl, hi, fun _ => rfl, rfl⟩
  | cons op ops ih =>
    intro c c1 rs hi hf h
    have hf1 : op.fits = true := hf op (List.mem_cons_self _ _)
    have hf2 : ∀ o ∈ ops, o.fits = true := fun o ho => hf o (List.mem_cons_of_mem _ ho)
    cases op with
    | read s ofs size =>
      have hsz : ofs + size ≤ 512 := by simpa [CacheOp.fits] using hf1
      simp only [run_ops] at h
      cases h1 : cache_read_at c s zeros ofs size with
      | error e => rw [h1] at h; cases h
      | ok p =>
        obtain ⟨c0, out⟩ := p
        rw [h1] at h
        simp only at h
        cases h2 : run_ops c0 ops with
        | error e => rw [h2] at h; cases h
        | ok q =>
          obtain ⟨c2, rs2⟩ := q
          rw [h2] at h
          simp only [pure, Except.pure, Except.ok.injEq, Prod.mk.injEq] at h
          obtain ⟨e1, e2⟩ := h
          subst e1 e2
          obtain ⟨o1, t1, _⟩ := cache_read_at_ok hi hsz h1
          obtain ⟨r1, i2, v2, d2⟩ := ih c0 c2 rs2 t1.inv hf2 h2
          have hv : view c0 = view c := funext t1.view
          rw [hv] at r1 v2
          refine ⟨?_, i2, v2, d2.trans t1.dev⟩
          simp only [store_ops, r1, o1, bytes_memcpy]
    | write s data ofs size =>
      have hsz : ofs + size ≤ 512 := by simpa [CacheOp.fits] using hf1
      simp only [run_ops] at h
      cases h1 : cache_write_at c s data ofs size with
      | error e => rw [h1] at h; cases h
      | ok c0 =>
        rw [h1] at h
        simp only at h
        obtain ⟨i1, v1, w1, d1, _⟩ := cache_write_at_ok hi hsz h1
        obtain ⟨r1, i2, v2, d2⟩ := ih c0 c1 rs i1 hf2 h
        have hv : view c0 = fun t => if t = s then memcpy (view c s) ofs data 0 size
            else view c t := by
          funext t
          by_cases ht : t = s
          · rw [ht, v1]; simp
          · rw [w1 t ht]; simp [ht]
        rw [hv] at r1 v2
        exact ⟨by simp only [store_ops, r1], i2, by simpa only [store_ops] using v2, d2.trans d1⟩
    | ahead =>
      have t1 := read_ahead_step_spec hi
      simp only [run_ops] at h
      obtain ⟨r1, i2, v2, d2⟩ := ih _ c1 rs t1.inv hf2 h
      have hv : view (read_ahead_step c) = view c := funext t1.view
      rw [hv] at r1 v2
      exact ⟨by simp only [store_ops, r1], i2, by simpa only [store_ops] using v2, d2.trans t1.dev⟩
    | done =>
      have t1 := (cache_done_spec hi).1
      simp only [run_ops] at h
      obtain ⟨r1, i2, v2, d2⟩ := ih _ c1 rs t1.inv hf2 h
      have hv : view (cache_done c) = view c := funext t1.view
      rw [hv] at r1 v2
      exact ⟨by simp only [store_ops, r1], i2, by simpa only [store_ops] using v2, d2.trans t1.dev⟩

/-- A sequence of calls that does not return stops in the endless loop of
`cache_evict`, nowhere else. -/
theorem run_ops_error : ∀ (ops : List CacheOp) (c : Cache) (e : Fault), CacheInv c →
    (∀ op ∈ ops, op.fits = true) → run_ops c ops = Except.error e → e = Fault.spin := by
  intro ops
  induction ops with
  | nil =>
    intro c e _ _ h
    simp [run_ops, pure, Except.pure] at h
  | cons op ops ih =>
    intro c e hi hf h
    have hf1 : op.fits = true := hf op (List.mem_cons_self _ _)
    have hf2 : ∀ o ∈ ops, o.fits = true := fun o ho => hf o (List.mem_cons_of_mem _ ho)
    cases op with
    | read s ofs size =>
      have hsz : ofs + size ≤ 512 := by simpa [CacheOp.fits] using hf1
      simp only [run_ops] at h
      cases h1 : cache_read_at c s zeros ofs size with
      | error e1 =>
        rw [h1] at h
        simp only [Except.error.injEq] at h
        subst h
        exact cache_read_at_error hsz h1
      | ok p =>
        obtain ⟨c0, out⟩ := p
        rw [h1] at h
        simp only at h
        obtain ⟨_, t1, _⟩ := cache_read_at_ok hi hsz h1
        cases h2 : run_ops c0 ops with
        | error e2 =>
          rw [h2] at h
          simp only [Except.error.injEq] at h
          subst h
          exact ih c0 _ t1.inv hf2 h2
        | ok q =>
          rw [h2] at h
          cases h
    | write s data ofs size =>
      have hsz : ofs + size ≤ 512 := by simpa [CacheOp.fits] using hf1
      simp only [run_ops] at h
      cases h1 : cache_write_at c s data ofs size with
      | error e1 =>
        rw [h1] at h
        simp only [Except.error.injEq] at h
        subst h
        exact cache_write_at_error hsz h1
      | ok c0 =>
        rw [h1] at h
        simp only at h
        obtain ⟨i1, _⟩ := cache_write_at_ok hi hsz h1
        exact ih c0 e i1 hf2 h
    | ahead =>
      simp only [run_ops] at h
      exact ih _ e (read_ahead_step_spec hi).inv hf2 h
    | done =>
      simp only [run_ops] at h
      exact ih _ e (cache_done_spec hi).1.inv hf2 h

theorem read_ahead_step_waiting {c : Cache} {R : List Nat} (hw : Waiting c R) :
    Waiting (read_ahead_step c) R := by
  unfold read_ahead_step
  cases hq : c.read_queue with
  | nil => exact hw
  | cons index q =>
    simp only
    split
    · exact fun i h1 h2 h3 => hw i h1 h2 h3
    · intro j hj hv hl
      by_cases h : j = index
      · rw [h, load_loaded_self] at hl
        cases hl
      · rw [load_cache_other _ h] at hv hl ⊢
        exact hw j hj hv hl

/-- The loop of `cache_done` changes no sector, valid flag or loaded flag. -/
theorem done_loop_slots : ∀ (n i : Nat) (c : Cache) (j : Nat),
    ((cache_done_loop n i c).cache j).sector = (c.cache j).sector ∧
      ((cache_done_loop n i c).cache j).valid = (c.cache j).valid ∧
      ((cache_done_loop n i c).cache j).loaded = (c.cache j).loaded := by
  intro n
  induction n with
  | zero => intro i c j; exact ⟨rfl, rfl, rfl⟩
  | succ n ih =>
    intro i c j
    unfold cache_done_loop
    split
    · obtain ⟨r1, r2, r3⟩ := ih (i + 1)
        ((c.block_write (c.cache i).sector (c.cache i).buffer).set i
          { c.cache i with dirty := false }) j
      rw [r1, r2, r3]
      by_cases h : j = i
      · rw [h, set_cache_self]
        exact ⟨rfl, rfl, rfl⟩
      · rw [set_cache_other _ _ h]
        exact ⟨rfl, rfl, rfl⟩
    · exact ih (i + 1) c j

theorem cache_done_waiting {c : Cache} {R : List Nat} (hw : Waiting c R) :
    Waiting (cache_done c) R := by
  intro j hj hv hl
  obtain ⟨r1, r2, r3⟩ := done_loop_slots 64 0 c j
  unfold cache_done at hv hl ⊢
  rw [r1]
  exact hw j hj (r2 ▸ hv) (r3 ▸ hl)

/-- A sequence of calls returns when before each read and write fewer than 64
sectors can wait for their load. -/
theorem run_ops_total : ∀ (ops : List CacheOp) (c : Cache) (R : List Nat), CacheInv c →
    (∀ op ∈ ops, op.fits = true) → Waiting c R → served R ops = true →
    ∃ p, run_ops c ops = Except.ok p := by
  intro ops
  induction ops with
  | nil => intro c R _ _ _ _; exact ⟨_, rfl⟩
  | cons op ops ih =>
    intro c R hi hf hw hs
    have hf1 : op.fits = true := hf op (List.mem_cons_self _ _)
    have hf2 : ∀ o ∈ ops, o.fits = true := fun o ho => hf o (List.mem_cons_of_mem _ ho)
    simp only [served, Bool.and_eq_true, Bool.or_eq_true, Bool.not_eq_true',
      decide_eq_true_eq] at hs
    obtain ⟨hs1, hs2⟩ := hs
    cases op with
    | read s ofs size =>
      have hsz : ofs + size ≤ 512 := by simpa [CacheOp.fits] using hf1
      have hR : R.length < 64 := by
        rcases hs1 with h | h
        · cases h
        · exact h
      obtain ⟨p, h1⟩ := cache_read_at_total hi (has_slot_of_waiting hi.uniq hw hR) s zeros hsz
      obtain ⟨c0, out⟩ := p
      obtain ⟨_, t1, w1⟩ := cache_read_at_ok hi hsz h1
      have hw1 : Waiting c0 ((CacheOp.read s ofs size).waiting R) :=
        waiting_mono (w1 R hw) (fun x hx => by
          simp only [CacheOp.waiting, List.mem_insert_iff]
          rcases List.mem_cons.1 hx with h | h
          · exact Or.inl h
          · exact Or.inr h)
      obtain ⟨q, h2⟩ := ih c0 _ t1.inv hf2 hw1 hs2
      obtain ⟨c2, rs⟩ := q
      exact ⟨_, by simp only [run_ops, h1, h2]; rfl⟩
    | write s data ofs size =>
      have hsz : ofs + size ≤ 512 := by simpa [CacheOp.fits] using hf1
      have hR : R.length < 64 := by
        rcases hs1 with h | h
        · cases h
        · exact h
      obtain ⟨c0, h1⟩ := cache_write_at_total (has_slot_of_waiting hi.uniq hw hR) s data hsz
      obtain ⟨i1, _, _, _, w1, _⟩ := cache_write_at_ok hi hsz h1
      obtain ⟨q, h2⟩ := ih c0 _ i1 hf2 (w1 R hw) hs2
      exact ⟨q, by simp only [run_ops, h1, h2]⟩
    | ahead =>
      obtain ⟨q, h2⟩ := ih _ _ (read_ahead_step_spec hi).inv hf2 (read_ahead_step_waiting hw) hs2
      exact ⟨q, by simp only [run_ops, h2]⟩
    | done =>
      obtain ⟨q, h2⟩ := ih _ _ (cache_done_spec hi).1.inv hf2 (cache_done_waiting hw) hs2
      exact ⟨q, by simp only [run_ops, h2]⟩

theorem cache_init_waiting (disk : Nat → Buf) (n : Nat) : Waiting (cache_init disk n) [] := by
  intro i _ hv _
  cases hv

theorem store_ops_untouched (s : Nat) : ∀ (ops : List CacheOp) (m : Nat → Buf),
    (∀ op ∈ ops, op.writes s = false) → (store_ops m ops).1 s = m s := by
  intro ops
  induction ops with
  | nil => intro m _; rfl
  | cons op ops ih =>
    intro m h
    have h1 := h op (List.mem_cons_self _ _)
    have h2 : ∀ o ∈ ops, o.writes s = false := fun o ho => h o (List.mem_cons_of_mem _ ho)
    cases op with
    | read t ofs size => simpa [store_ops] using ih m h2
    | write t data ofs size =>
      have ht : s ≠ t := by
        intro e
        simp [CacheOp.writes, e] at h1
      simp only [store_ops]
      rw [ih _ h2]
      simp [ht]
    | ahead => simpa [store_ops] using ih m h2
    | done => simpa [store_ops] using ih m h2

theorem get32_lt (b : Buf) (ofs : Nat) : get32 b ofs < 4294967296 := by
  unfold get32
  omega

theorem get32_put32_same (b : Buf) (ofs v : Nat) : get32 (put32 b ofs v) ofs = v % 4294967296 := by
  simp only [get32, put32]
  have h1 : ofs + 1 ≠ ofs := by omega
  have h2 : ofs + 2 ≠ ofs := by omega
  have h3 : ofs + 3 ≠ ofs := by omega
  have h4 : ofs + 2 ≠ ofs + 1 := by omega
  have h5 : ofs + 3 ≠ ofs + 1 := by omega
  have h6 : ofs + 3 ≠ ofs + 2 := by omega
  simp only [if_true, h1, h2, h3, h4, h5, h6, if_false]
  omega

theorem get32_put32_other (b : Buf) (ofs ofs1 v : Nat) (h : ofs1 + 4 ≤ ofs ∨ ofs + 4 ≤ ofs1) :
    get32 (put32 b ofs v) ofs1 = get32 b ofs1 := by
  simp only [get32, put32]
  have a0 : ofs1 ≠ ofs := by omega
  have a1 : ofs1 ≠ ofs + 1 := by omega
  have a2 : ofs1 ≠ ofs + 2 := by omega
  have a3 : ofs1 ≠ ofs + 3 := by omega
  have b0 : ofs1 + 1 ≠ ofs := by omega
  have b1 : ofs1 + 1 ≠ ofs + 1 := by omega
  have b2 : ofs1 + 1 ≠ ofs + 2 := by omega
  have b3 : ofs1 + 1 ≠ ofs + 3 := by omega
  have c0 : ofs1 + 2 ≠ ofs := by omega
  have c1 : ofs1 + 2 ≠ ofs + 1 := by omega
  have c2 : ofs1 + 2 ≠ ofs + 2 := by omega
  have c3 : ofs1 + 2 ≠ ofs + 3 := by omega
  have d0 : ofs1 + 3 ≠ ofs := by omega
  have d1 : ofs1 + 3 ≠ ofs + 1 := by omega
  have d2 : ofs1 + 3 ≠ ofs + 2 := by omega
  have d3 : ofs1 + 3 ≠ ofs + 3 := by omega
  simp only [a0, a1, a2, a3, b0, b1, b2, b3, c0, c1, c2, c3, d0, d1, d2, d3, if_false]

theorem get32_congr {b b1 : Buf} {ofs : Nat}
    (h : ∀ i, ofs ≤ i → i < ofs + 4 → b1 i = b i) : get32 b1 ofs = get32 b ofs := by
  simp only [get32]
  rw [h ofs (by omega) (by omega), h (ofs + 1) (by omega) (by omega),
    h (ofs + 2) (by omega) (by omega), h (ofs + 3) (by omega) (by omega)]

theorem to_int32_of_int32 (x : Int) (h1 : -2147483648 ≤ x) (h2 : x < 2147483648) :
    to_int32 (of_int32 x % 4294967296) = x := by
  unfold to_int32 of_int32
  split <;> omega

theorem load_block_lt (b s : Buf) {i : Nat} (h : i < 512) : load_block b s i = s i := by
  simp [load_block, memcpy, h]

theorem get32_load_block (b s : Buf) {ofs : Nat} (h : ofs + 4 ≤ 512) :
    get32 (load_block b s) ofs = get32 s ofs :=
  get32_congr (fun i _ h2 => load_block_lt b s (by omega))

theorem sameFS_refl {st : FS} (h : CacheInv st.cache) : SameFS st st :=
  ⟨transparent_refl h, rfl, rfl, rfl, rfl⟩

theorem sameFS_trans {a b c : FS} (h1 : SameFS a b) (h2 : SameFS b c) : SameFS a c :=
  ⟨transparent_trans h1.cache h2.cache, h2.free_map.trans h1.free_map, h2.heap.trans h1.heap,
   h2.open_inodes.trans h1.open_inodes, h2.brk.trans h1.brk⟩

theorem sameFS_view {a b : FS} (h : SameFS a b) : view b.cache = view a.cache :=
  funext h.cache.view

theorem sameFS_cache {st : FS} {c1 : Cache} (h : Transparent st.cache c1) :
    SameFS st { st with cache := c1 } :=
  ⟨h, rfl, rfl, rfl, rfl⟩

/-- A read through the cache of bytes inside the sector either stops in the
endless loop of `cache_evict`, which needs a cache without room for one more
waiting slot, or gives the bytes as the logical content has them. -/
theorem read_cases {c : Cache} (hi : CacheInv c) (s : Nat) (b : Buf) {ofs size : Nat}
    (hsz : ofs + size ≤ 512) :
    (cache_read_at c s b ofs size = Except.error Fault.spin ∧ ¬ Room c 1) ∨
    ∃ c1, cache_read_at c s b ofs size = Except.ok (c1, memcpy b 0 (view c s) ofs size) ∧
      Transparent c c1 ∧ ∀ n, Room c (n + 1) → Room c1 n := by
  cases h : cache_read_at c s b ofs size with
  | error e =>
    left
    have he := cache_read_at_error hsz h
    subst he
    refine ⟨rfl, ?_⟩
    intro hr
    obtain ⟨p, hp⟩ := cache_read_at_total hi (room_has_slot hi hr) s b hsz
    rw [hp] at h
    cases h
  | ok p =>
    right
    obtain ⟨c1, out⟩ := p
    obtain ⟨r1, r2, _⟩ := cache_read_at_ok hi hsz h
    subst r1
    exact ⟨c1, rfl, r2, fun n hr => read_room hi hsz h hr⟩

/-- Reading a whole sector through the cache gives the block as loaded from the
logical content. -/
theorem read_block_spec {c : Cache} (hi : CacheInv c) (hf : has_slot c = true) (s : Nat)
    (b : Buf) :
    ∃ c1, cache_read_at c s b 0 512 = Except.ok (c1, load_block b (view c s)) ∧
      Transparent c c1 :=
  cache_read_at_spec hi hf s b (by norm_num)

theorem read_block_cases {c : Cache} (hi : CacheInv c) (s : Nat) (b : Buf) :
    (cache_read_at c s b 0 512 = Except.error Fault.spin ∧ ¬ Room c 1) ∨
    ∃ c1, cache_read_at c s b 0 512 = Except.ok (c1, load_block b (view c s)) ∧
      Transparent c c1 ∧ ∀ n, Room c (n + 1) → Room c1 n :=
  read_cases hi s b (by norm_num)

/-- A read of a whole sector stops in the endless loop of `cache_evict`, with
no slot invalid or loaded, or returns the block. -/
theorem read_block_alt {c : Cache} (hi : CacheInv c) (s : Nat) (b : Buf) :
    (has_slot c = false ∧ cache_read_at c s b 0 512 = Except.error Fault.spin) ∨
    ∃ c1, cache_read_at c s b 0 512 = Except.ok (c1, load_block b (view c s)) ∧
      Transparent c c1 := by
  cases h : cache_read_at c s b 0 512 with
  | error e =>
    left
    have he := cache_read_at_error (show 0 + 512 ≤ 512 by norm_num) h
    subst he
    refine ⟨?_, rfl⟩
    cases hf : has_slot c with
    | false => rfl
    | true =>
      obtain ⟨p, hp⟩ := cache_read_at_total hi hf s b (show 0 + 512 ≤ 512 by norm_num)
      rw [hp] at h
      cases h
  | ok p =>
    right
    obtain ⟨c1, out⟩ := p
    obtain ⟨r1, r2, _⟩ := cache_read_at_ok hi (show 0 + 512 ≤ 512 by norm_num) h
    subst r1
    exact ⟨c1, rfl, r2⟩

theorem agrees_pure {α : Type} {st : FS} (hi : CacheInv st.cache) (a : α) :
    Agrees st 0 (Except.ok (st, a)) (Except.ok a) :=
  ⟨rfl, sameFS_refl hi, fun _ h => h⟩

theorem agrees_error {α : Type} (st : FS) (k : Nat) (e : Fault) :
    Agrees (α := α) st k (Except.error e) (Except.error e) :=
  Or.inr rfl

theorem agrees_spin {α : Type} {st : FS} {k : Nat} (q : Except Fault α)
    (h : ¬ Room st.cache k) : Agrees st k (Except.error Fault.spin) q :=
  Or.inl ⟨rfl, h⟩

theorem agrees_mono {α : Type} {st : FS} {k m : Nat} {r : Except Fault (FS × α)}
    {q : Except Fault α} (h : Agrees st k r q) (hk : k ≤ m) : Agrees st m r q := by
  cases r with
  | error e =>
    rcases h with ⟨h1, h2⟩ | h
    · exact Or.inl ⟨h1, fun hr => h2 (room_mono hr hk)⟩
    · exact Or.inr h
  | ok p =>
    obtain ⟨st1, a⟩ := p
    obtain ⟨h1, h2, h3⟩ := h
    refine ⟨h1, h2, fun n hr => ?_⟩
    exact room_mono (h3 (n + (m - k)) (by
      have e : n + (m - k) + k = n + m := by omega
      rw [e]
      exact hr)) (Nat.le_add_right _ _)

/-- A run after a step that no reader can tell and that takes room for `j`
waiting slots. -/
theorem agrees_after {α : Type} {st st1 : FS} {k j : Nat} {r : Except Fault (FS × α)}
    {q : Except Fault α} (hs : SameFS st st1)
    (hr : ∀ n, Room st.cache (n + j) → Room st1.cache n) (ha : Agrees st1 k r q) :
    Agrees st (k + j) r q := by
  cases r with
  | error e =>
    rcases ha with ⟨h1, h2⟩ | h
    · refine Or.inl ⟨h1, fun hx => h2 (hr k hx)⟩
    · exact Or.inr h
  | ok p =>
    obtain ⟨st2, a⟩ := p
    obtain ⟨h1, h2, h3⟩ := ha
    refine ⟨h1, sameFS_trans hs h2, fun n hx => h3 n (hr (n + k) (by
      have e : n + k + j = n + (k + j) := by omega
      rw [e]
      exact hx))⟩

/-- A run that agrees and does not stop in the endless loop gives the result
computed on the logical content. -/
theorem agrees_snd {α : Type} {st : FS} {k : Nat} {r : Except Fault (FS × α)}
    {q : Except Fault α} (h : Agrees st k r q) :
    fault_of r = some Fault.spin ∨ r.map Prod.snd = q := by
  cases r with
  | error e =>
    rcases h with ⟨h1, _⟩ | h
    · left
      rw [h1]
      rfl
    · right
      rw [h]
      rfl
  | ok p =>
    obtain ⟨st1, a⟩ := p
    right
    rw [h.1]
    rfl

/-- With room for its `k` slots a run that agrees gives the result computed
on the logical content. -/
theorem agrees_room {α : Type} {st : FS} {k : Nat} {r : Except Fault (FS × α)}
    {q : Except Fault α} (h : Agrees st k r q) (hr : Room st.cache k) :
    r.map Prod.snd = q := by
  cases r with
  | error e =>
    rcases h with ⟨_, hn⟩ | h
    · exact absurd hr hn
    · rw [h]
      rfl
  | ok p =>
    obtain ⟨st1, a⟩ := p
    rw [h.1]
    rfl

/-- With room for its `k` slots a run that agrees returns, and returns the
result computed on the logical content. -/
theorem agrees_total {α : Type} {st : FS} {k n : Nat} {r : Except Fault (FS × α)} {a : α}
    (h : Agrees st k r (Except.ok a)) (hr : Room st.cache (n + k)) :
    ∃ st1, r = Except.ok (st1, a) ∧ SameFS st st1 ∧ Room st1.cache n := by
  cases r with
  | error e =>
    rcases h with ⟨_, h2⟩ | h
    · exact absurd (room_mono hr (Nat.le_add_left _ _)) h2
    · cases h
  | ok p =>
    obtain ⟨st1, b⟩ := p
    obtain ⟨h1, h2, h3⟩ := h
    cases h1
    exact ⟨st1, rfl, h2, h3 n hr⟩

theorem indirect_tail_false {st : FS} (hi : CacheInv st.cache) (d : Buf) (k : Nat) (ib : Buf) :
    Agrees st 1 (indirect_tail st d k ib false)
      ((store_entry (view st.cache) (inode_disk.indirect d) k ib).map (fun s => (d, s))) := by
  unfold indirect_tail store_entry
  rcases read_block_cases hi (inode_disk.indirect d) ib with ⟨h1, hn⟩ | ⟨c1, h1, t1, r1⟩
  · simp only [bind, Except.bind, h1]
    exact agrees_spin _ hn
  · simp only [bind, Except.bind, h1]
    cases he : entry (load_block ib (view st.cache (inode_disk.indirect d))) k with
    | error e => exact agrees_error _ _ _
    | ok s =>
      simp only [Bool.false_eq_true, and_false, if_false, Except.map, pure, Except.pure]
      exact ⟨rfl, sameFS_cache t1, r1⟩

theorem double_tail_inner_false {st : FS} (hi : CacheInv st.cache) (d : Buf) (inner k : Nat)
    (ib dib : Buf) :
    Agrees st 1 (double_tail_inner st d inner k ib dib false)
      ((store_entry (view st.cache) inner k dib).map (fun s => (d, s))) := by
  unfold double_tail_inner store_entry
  rcases read_block_cases hi inner dib with ⟨h1, hn⟩ | ⟨c1, h1, t1, r1⟩
  · simp only [bind, Except.bind, h1]
    exact agrees_spin _ hn
  · simp only [bind, Except.bind, h1]
    cases he : entry (load_block dib (view st.cache inner)) k with
    | error e => exact agrees_error _ _ _
    | ok s =>
      simp only [Bool.false_eq_true, and_false, if_false, Except.map, pure, Except.pure]
      exact ⟨rfl, sameFS_cache t1, r1⟩

theorem double_tail_false {st : FS} (hi : CacheInv st.cache) (d : Buf) (index : Nat)
    (ib dib : Buf) :
    Agrees st 2 (double_tail st d index ib dib false)
      ((store_double (view st.cache) d index ib dib).map (fun s => (d, s))) := by
  unfold double_tail store_double store_entry
  rcases read_block_cases hi (inode_disk.double_indirect d) ib with ⟨h1, hn⟩ | ⟨c1, h1, t1, r1⟩
  · simp only [bind, Except.bind, h1]
    exact agrees_spin _ (fun hr => hn (room_mono hr (by norm_num)))
  · simp only [bind, Except.bind, h1]
    cases he : entry (load_block ib (view st.cache (inode_disk.double_indirect d)))
        (index / BLOCK_SECTOR_SIZE) with
    | error e => exact agrees_error _ _ _
    | ok outer =>
      simp only [Bool.false_eq_true, false_and, if_false]
      by_cases ho : outer = 0
      · simp only [ho, if_true, Except.map, pure, Except.pure]
        exact ⟨rfl, sameFS_cache t1, fun n hr => r1 n (room_mono hr (by omega))⟩
      · simp only [ho, if_false]
        have hs : SameFS st { st with cache := c1 } := sameFS_cache t1
        have := @double_tail_inner_false { st with cache := c1 } t1.inv d outer
          (index % BLOCK_SECTOR_SIZE)
          (load_block ib (view st.cache (inode_disk.double_indirect d))) dib
        rw [sameFS_view hs] at this
        exact agrees_after hs r1 this

theorem resolve_false {st : FS} (hi : CacheInv st.cache) (d : Buf) (block_idx : Nat)
    (ib dib : Buf) :
    Agrees st 2 (inode_disk_block_to_sector st d block_idx ib dib false)
      ((store_resolve (view st.cache) d block_idx ib dib).map (fun s => (d, s))) := by
  unfold inode_disk_block_to_sector store_resolve
  by_cases h1 : block_idx < NUM_DIRECT
  · simp only [h1, if_true, Bool.false_eq_true, and_false, if_false, Except.map, pure,
      Except.pure]
    exact agrees_mono (agrees_pure hi _) (by norm_num)
  · simp only [h1, if_false]
    by_cases h2 : block_idx < NUM_DIRECT + 128
    · simp only [h2, if_true, Bool.false_eq_true, false_and, if_false]
      by_cases h3 : inode_disk.indirect d = 0
      · simp only [h3, if_true, Except.map, pure, Except.pure]
        exact agrees_mono (agrees_pure hi _) (by norm_num)
      · simp only [h3, if_false]
        exact agrees_mono (indirect_tail_false hi d _ ib) (by norm_num)
    · simp only [h2, if_false]
      by_cases h4 : block_idx < NUM_SECTORS
      · simp only [h4, if_true, Bool.false_eq_true, false_and, if_false]
        by_cases h5 : inode_disk.double_indirect d = 0
        · simp only [h5, if_true, Except.map, pure, Except.pure]
          exact agrees_mono (agrees_pure hi _) (by norm_num)
        · simp only [h5, if_false]
          exact double_tail_false hi d _ ib dib
      · simp only [h4, if_false, Except.map]
        exact agrees_error _ _ _

theorem store_entry_eq (V : Nat → Buf) (s k : Nat) (b : Buf) :
    store_entry V s k b =
      match index_entry V s k with
      | some v => Except.ok v
      | none => Except.error Fault.oob := by
  unfold store_entry entry index_entry
  by_cases h : k < 128
  · simp only [h, if_true, pure, Except.pure]
    rw [get32_load_block _ _ (by omega)]
  · simp only [h, if_false]

theorem store_resolve_eq (V : Nat → Buf) (d : Buf) (block_idx : Nat) (ib dib : Buf)
    (hb : block_idx < 16522) :
    store_resolve V d block_idx ib dib =
      match spec_block_to_sector V d block_idx with
      | some v => Except.ok v
      | none => Except.error Fault.oob := by
  unfold store_resolve spec_block_to_sector store_double NUM_DIRECT NUM_SECTORS BLOCK_SECTOR_SIZE
  by_cases h1 : block_idx < 10
  · simp only [h1, if_true, pure, Except.pure]
  · simp only [h1, if_false]
    by_cases h2 : block_idx < 138
    · have h2' : block_idx < 10 + 128 := h2
      simp only [h2, h2', if_true]
      by_cases h3 : inode_disk.indirect d = 0
      · simp only [h3, if_true, pure, Except.pure]
      · simp only [h3, if_false]
        exact store_entry_eq V _ _ ib
    · have h2' : ¬ block_idx < 10 + 128 := h2
      have h4 : block_idx - (10 + 128) = block_idx - 138 := by norm_num
      simp only [h2, h2', if_false, hb, if_true, h4]
      by_cases h5 : inode_disk.double_indirect d = 0
      · simp only [h5, if_true, pure, Except.pure]
      · simp only [h5, if_false, bind, Except.bind]
        rw [store_entry_eq]
        cases index_entry V (inode_disk.double_indirect d) ((block_idx - 138) / 512) with
        | none => rfl
        | some outer =>
          simp only
          by_cases h6 : outer = 0
          · simp only [h6, if_true, pure, Except.pure]
          · simp only [h6, if_false]
            rw [store_entry_eq]

/-- Block index resolution with `create == false` on the entries that exist.
For every on-disk inode and every `block_idx < 16522`, whenever the path of the
specification names an entry that exists (first part), the code returns that
entry from a cache with room for the two index blocks it reads: `direct[block_idx]`
below 10, slot `block_idx - 10` of the indirect block below 138, then slot
`(block_idx - 138) % 512` of the inner block named by slot
`(block_idx - 138) / 512` of the double-indirect block, and 0 as soon as a
pointer on the path is 0; it leaves the on-disk inode, the free map and the
content of every sector alone.  The path names no entry only (second part)
when both pointers of a double-indirect path are set and the inner slot is 128
or above. -/
theorem resolve_in_range (st : FS) (d : Buf) (block_idx : Nat) (ib dib : Buf)
    (hi : CacheInv st.cache) (hb : block_idx < 16522) (hroom : Room st.cache 2) :
    (∀ s, spec_block_to_sector (view st.cache) d block_idx = some s →
      ∃ st1, inode_disk_block_to_sector st d block_idx ib dib false = Except.ok (st1, d, s) ∧
        st1.free_map = st.free_map ∧ (∀ t, view st1.cache t = view st.cache t) ∧
        CacheInv st1.cache) ∧
    (spec_block_to_sector (view st.cache) d block_idx = none →
      138 ≤ block_idx ∧ inode_disk.double_indirect d ≠ 0 ∧
      index_entry (view st.cache) (inode_disk.double_indirect d) ((block_idx - 138) / 512) ≠
        some 0 ∧
      128 ≤ (block_idx - 138) % 512) := by
  constructor
  · intro s hs
    have h := resolve_false hi d block_idx ib dib
    rw [store_resolve_eq _ _ _ _ _ hb, hs] at h
    simp only [Except.map] at h
    obtain ⟨st1, h1, hsame, _⟩ := agrees_total (n := 0) h hroom
    exact ⟨st1, h1, hsame.free_map, hsame.cache.view, hsame.cache.inv⟩
  · intro hn
    unfold spec_block_to_sector at hn
    by_cases h1 : block_idx < 10
    · simp [h1] at hn
    · simp only [h1, if_false] at hn
      by_cases h2 : block_idx < 138
      · simp only [h2, if_true] at hn
        by_cases h3 : inode_disk.indirect d = 0
        · simp [h3] at hn
        · simp only [h3, if_false, index_entry] at hn
          have : block_idx - 10 < 128 := by omega
          simp [this] at hn
      · simp only [h2, if_false, hb, if_true] at hn
        by_cases h5 : inode_disk.double_indirect d = 0
        · simp [h5] at hn
        · simp only [h5, if_false] at hn
          have h6 : (block_idx - 138) / 512 < 128 := by omega
          simp only [index_entry, h6, if_true] at hn ⊢
          by_cases h7 : get32 (view st.cache (inode_disk.double_indirect d))
              (4 * ((block_idx - 138) / 512)) = 0
          · simp [h7] at hn
          · simp only [h7, if_false] at hn
            refine ⟨by omega, h5, by simpa using h7, ?_⟩
            by_contra h8
            have : (block_idx - 138) % 512 < 128 := by omega
            simp [this] at hn

theorem ex_index_fs_inv : CacheInv ex_index_fs.cache := cache_init_inv _ _

set_option maxRecDepth 1000000 in
/-- C10, failing input: block 266 of the example inode, whose double-indirect
block (sector 3) and inner block (sector 4) are both set.  The claim has the
call return entry `(266 - 138) mod 512 = 128` of the inner block; the code
indexes the 128-entry block `indirect_blocks` at 128, out of bounds, and
returns no entry of the block. -/
theorem block_index_resolution_block266 :
    spec_block_to_sector (view ex_index_fs.cache) ex_index_inode 266 = none ∧
    fault_of (inode_disk_block_to_sector ex_index_fs ex_index_inode 266 zeros zeros false) =
      some Fault.oob := by
  constructor
  · have hv : view ex_index_fs.cache = ex_index_disk := funext (cache_init_view _ _)
    rw [hv]
    decide
  · decide

theorem store_store (st : FS) (p : Nat) (a b : inode) :
    (st.store p a).store p b = st.store p b := by
  unfold FS.store
  congr 1
  funext q
  by_cases h : q = p <;> simp [h]

theorem store_self (st : FS) (p : Nat) (a : inode) (h : st.heap p = some a) :
    st.store p a = st := by
  unfold FS.store
  cases st with
  | mk c f hp o b =>
    simp only [FS.mk.injEq, true_and, and_true]
    funext q
    by_cases hq : q = p
    · simp only [hq, if_true]; exact h.symm
    · simp [hq]

theorem deref_store (st : FS) (p : Nat) (a : inode) : (st.store p a).deref p = Except.ok a := by
  simp [FS.deref, FS.store, pure, Except.pure]

theorem deref_of_heap {st : FS} {p : Nat} {a : inode} (h : st.heap p = some a) :
    st.deref p = Except.ok a := by
  simp [FS.deref, h, pure, Except.pure]

/-- Net effect of a run of deny and allow calls: the counter moves by the number
of denies minus the number of allows, nothing else changes. -/
theorem deny_allow_spec : ∀ (l : List Bool) (st st1 : FS) (p : Nat) (ino : inode),
    st.heap p = some ino → deny_allow st p l = Except.ok st1 →
    st1 = st.store p { ino with
      deny_write_cnt := ino.deny_write_cnt + l.count true - l.count false } := by
  intro l
  induction l with
  | nil =>
    intro st st1 p ino h hr
    simp only [deny_allow, pure, Except.pure, Except.ok.injEq] at hr
    subst hr
    simp only [List.count_nil, Nat.cast_zero, add_zero, sub_zero]
    exact (store_self st p ino h).symm
  | cons b l ih =>
    intro st st1 p ino h hr
    cases b with
    | true =>
      simp only [deny_allow, inode_deny_write, bind, Except.bind, deref_of_heap h] at hr
      by_cases ha : ino.deny_write_cnt + 1 ≤ ino.open_cnt
      · simp only [ha, if_true, pure, Except.pure] at hr
        have := ih _ st1 p { ino with deny_write_cnt := ino.deny_write_cnt + 1 }
          (by simp [FS.store]) hr
        rw [this, store_store]
        congr 2
        simp only [List.count_cons_self, ne_eq, Bool.false_eq_true, not_false_eq_true,
          List.count_cons_of_ne, Nat.cast_add, Nat.cast_one]
        ring
      · simp [ha] at hr
    | false =>
      simp only [deny_allow, inode_allow_write, bind, Except.bind, deref_of_heap h] at hr
      by_cases ha : 0 < ino.deny_write_cnt ∧ ino.deny_write_cnt ≤ ino.open_cnt
      · simp only [ha, and_self, if_true, pure, Except.pure] at hr
        have := ih _ st1 p { ino with deny_write_cnt := ino.deny_write_cnt - 1 }
          (by simp [FS.store]) hr
        rw [this, store_store]
        congr 2
        simp only [ne_eq, Bool.true_eq_false, not_false_eq_true, List.count_cons_of_ne,
          List.count_cons_self, Nat.cast_add, Nat.cast_one]
        ring
      · simp [ha] at hr

/-- C4: deny-write.  Let `pre` and `post` be runs of `inode_deny_write` and
`inode_allow_write` calls on an inode.  If after `pre` the counter
`deny_write_cnt` is positive, a write through any pointer to the inode returns
0 and leaves the whole file system unchanged (inode length, cache, device, free
map).  If `pre ++ post` has as many allows as denies, the file system after it
is the one before it, so a write returns what it returned before the denies:
`n` for every write of `n` bytes that the inode took then. -/
theorem deny_write (st st1 st2 : FS) (p : Nat) (ino : inode) (pre post : List Bool)
    (h : st.heap p = some ino) (h1 : deny_allow st p pre = Except.ok st1)
    (h2 : deny_allow st1 p post = Except.ok st2)
    (hd : 0 < ino.deny_write_cnt + pre.count true - pre.count false)
    (hb : (pre ++ post).count true = (pre ++ post).count false) :
    (∀ buffer size offset, inode_write_at st1 p buffer size offset = Except.ok (st1, 0)) ∧
    st2 = st ∧
    (∀ buffer size offset,
      inode_write_at st2 p buffer size offset = inode_write_at st p buffer size offset) := by
  have e1 := deny_allow_spec pre st st1 p ino h h1
  have hp1 : st1.heap p = some { ino with
      deny_write_cnt := ino.deny_write_cnt + pre.count true - pre.count false } := by
    rw [e1]
    simp [FS.store]
  have e2 := deny_allow_spec post st1 st2 p _ hp1 h2
  have hst : st2 = st := by
    rw [e2, e1, store_store]
    simp only [List.count_append, Nat.cast_add] at hb ⊢
    have hc : ino.deny_write_cnt + (List.count true pre : Int) - (List.count false pre : Int) +
        (List.count true post : Int) - (List.count false post : Int) = ino.deny_write_cnt := by
      omega
    rw [hc]
    exact store_self st p ino h
  refine ⟨?_, hst, fun _ _ _ => by rw [hst]⟩
  intro buffer size offset
  have hne : ino.deny_write_cnt + (List.count true pre : Int) - (List.count false pre : Int) ≠ 0 := by
    omega
  simp [inode_write_at, bind, Except.bind, deref_of_heap hp1, hne, pure, Except.pure]

set_option maxRecDepth 100000 in
/-- Witness of C4.  In the scenario of the specification both handles are the
same inode, the write under deny returns 0 and the write after the allow
returns 10; and the theorem for one deny followed by one allow on an inode
with two openers. -/
theorem deny_write_witness :
    ex_deny_scenario.toOption = some [1, 1, 0, 10] ∧
    ((∀ buffer size offset,
      inode_write_at ex_denied_fs 1 buffer size offset = Except.ok (ex_denied_fs, 0)) ∧
    ex_denied_fs.store 1 ex_shared_inode = ex_shared_fs ∧
    (∀ buffer size offset,
      inode_write_at (ex_denied_fs.store 1 ex_shared_inode) 1 buffer size offset =
        inode_write_at ex_shared_fs 1 buffer size offset)) :=
  ⟨by decide, deny_write ex_shared_fs ex_denied_fs (ex_denied_fs.store 1 ex_shared_inode) 1
    ex_shared_inode [true] [false] rfl rfl rfl (by decide) (by decide)⟩

set_option maxRecDepth 1000000 in
/-- C1, failing input: in an empty file a write of one byte at offset 136192
(block 266) stops in an out-of-bounds access: the inner slot is
`(266 - 138) % 512 = 128` in a block of 128 entries.  Nothing is written, so no
read can return the byte. -/
theorem round_trip_block266 : fault_of ex_block266_scenario = some Fault.oob := by
  decide

set_option maxRecDepth 1000000 in
/-- C2, failing input: the hole scenario of the specification.  Offset 1000000
is block 1953, inner slot `(1953 - 138) % 512 = 279`: the write of `"ABC"` stops
in an out-of-bounds access instead of giving a file of length 1000003. -/
theorem hole_write_witness_fails : fault_of ex_hole_scenario = some Fault.oob := by
  decide

set_option maxRecDepth 1000000 in
/-- C8, failing input: the last close of a removed file that has a
double-indirect block.  The loop over the inner index blocks runs its index
up to `BLOCK_SECTOR_SIZE` (512) over the 128 entries of the block and stops in
an out-of-bounds access at entry 128, before the double-indirect block and the
inode sector are released. -/
theorem remove_then_close_fails : fault_of ex_remove_scenario = some Fault.oob := by
  decide

set_option maxRecDepth 1000000 in
/-- C11, failing input: block 266 is below 16522 and its inner slot is 128, not
below 128; resolving it with allocation on an empty inode stops at that slot. -/
theorem addressable_range_fails :
    266 < NUM_SECTORS ∧ (double_slots 266).2 = 128 ∧
    fault_of (inode_disk_block_to_sector ex_blank_fs zeros 266 zeros zeros true) =
      some Fault.oob := by
  decide

set_option maxRecDepth 1000000 in
/-- C17, failing input: a write inside the length into a block that is a hole
returns 0 and stores nothing: the first write of one byte at offset 1024
returns 1, the write of the byte 88 at offset 0 returns 0, and the read of
offset 0 returns one byte, 0. -/
theorem hole_not_filled : ex_fill_scenario.toOption = some [1, 0, 1, 0] := by
  decide

set_option maxRecDepth 1000000 in
/-- C19, failing input: a read of one byte at offset 136192 of a file of length
332801, whose block 266 is a hole, stops in an out-of-bounds access (inner slot
128) instead of returning one zero byte. -/
theorem read_count_fails : fault_of ex_read266_scenario = some Fault.oob := by
  decide

/-- C6: cache transparency under eviction.  From every state of the cache that
satisfies its invariant (the state after `cache_init` does, and there every
sector reads as the device holds it), take any sequence of `cache_read_at` and
`cache_write_at` calls over any sectors, with turns of the read-ahead thread
and calls of `cache_done` anywhere in between.  When the sequence returns, each
read has given the bytes a plain store of sectors would give, that is the
bytes last written to the sector, or its initial content, and allocation,
eviction, read-ahead and `cache_done` have left the content of every sector as
seen through the cache alone.  A sequence that does not return stops in the
endless loop of `cache_evict` and nowhere else.  It returns, with these
results, when before each read and each write fewer than 64 sectors can wait
for their load (`served`). -/
theorem cache_transparency (c : Cache) (ops : List CacheOp) (hi : CacheInv c)
    (hf : ∀ op ∈ ops, op.fits = true) :
    (∀ c1 rs, run_ops c ops = Except.ok (c1, rs) →
      rs = (store_ops (view c) ops).2 ∧ CacheInv c1 ∧
      ∀ s, view c1 s = (store_ops (view c) ops).1 s) ∧
    (∀ e, run_ops c ops = Except.error e → e = Fault.spin) ∧
    (∀ R, Waiting c R → served R ops = true →
      ∃ c1, run_ops c ops = Except.ok (c1, (store_ops (view c) ops).2) ∧ CacheInv c1 ∧
        ∀ s, view c1 s = (store_ops (view c) ops).1 s) := by
  refine ⟨?_, ?_, ?_⟩
  · intro c1 rs h
    obtain ⟨h1, h2, h3, _⟩ := run_ops_ok ops c c1 rs hi hf h
    exact ⟨h1, h2, h3⟩
  · intro e h
    exact run_ops_error ops c e hi hf h
  · intro R hw hs
    obtain ⟨p, h⟩ := run_ops_total ops c R hi hf hw hs
    obtain ⟨c1, rs⟩ := p
    obtain ⟨h1, h2, h3, _⟩ := run_ops_ok ops c c1 rs hi hf h
    subst h1
    exact ⟨c1, h, h2, h3⟩

/-- Witness of C6: after `cache_init`, reads of the 65 sectors 0 to 64, one more
than the cache has slots.  No slot waits for its load at the start, and never
more than one does before a read, so the sequence returns. -/
theorem cache_transparency_witness :
    CacheInv (cache_init ex_numbered_disk 4096) ∧
    Waiting (cache_init ex_numbered_disk 4096) [] ∧ served [] ex_reads65 = true ∧
    ∃ c1, run_ops (cache_init ex_numbered_disk 4096) ex_reads65 =
        Except.ok (c1, (store_ops (view (cache_init ex_numbered_disk 4096)) ex_reads65).2) ∧
      CacheInv c1 ∧
      ∀ s, view c1 s = (store_ops (view (cache_init ex_numbered_disk 4096)) ex_reads65).1 s :=
  ⟨cache_init_inv _ _, cache_init_waiting _ _, by decide,
   (cache_transparency (cache_init ex_numbered_disk 4096) ex_reads65 (cache_init_inv _ _)
    (by decide)).2.2 [] (cache_init_waiting _ _) (by decide)⟩

/-- C5: cache flush.  After `cache_write_at (s, data, ofs, size)` with
`ofs + size ≤ 512`, any further reads of any sector, writes of other sectors
and turns of the read-ahead thread, and then `cache_done`, the device sector
`s` holds `data` at `[ofs, ofs + size)` and elsewhere what the sector read as
before the write.  The calls before `cache_done` return when before each read
and each write fewer than 64 sectors can wait for their load (`served`). -/
theorem cache_flush (c : Cache) (s : Nat) (data : Buf) (ofs size : Nat) (ops : List CacheOp)
    (hi : CacheInv c) (hsz : ofs + size ≤ 512) (hf : ∀ op ∈ ops, op.fits = true)
    (hw : ∀ op ∈ ops, op.writes s = false) :
    (∀ c1 c2 rs, cache_write_at c s data ofs size = Except.ok c1 →
      run_ops c1 ops = Except.ok (c2, rs) →
      ∀ i, (cache_done c2).disk s i =
        if ofs ≤ i ∧ i < ofs + size then data (i - ofs) else view c s i) ∧
    (∀ R, Waiting c R → served R (CacheOp.write s data ofs size :: ops) = true →
      ∃ c1 c2 rs, cache_write_at c s data ofs size = Except.ok c1 ∧
        run_ops c1 ops = Except.ok (c2, rs)) := by
  constructor
  · intro c1 c2 rs h1 h2 i
    obtain ⟨i1, v1, _, _, _⟩ := cache_write_at_ok hi hsz h1
    obtain ⟨_, i2, v2, _⟩ := run_ops_ok ops c1 c2 rs i1 hf h2
    rw [(cache_done_spec i2).2 s, v2 s, store_ops_untouched s ops _ hw, v1]
    simp [memcpy]
  · intro R hR hs
    simp only [served, CacheOp.allocates, CacheOp.waiting, Bool.not_true, Bool.false_or,
      Bool.and_eq_true, decide_eq_true_eq] at hs
    obtain ⟨hs1, hs2⟩ := hs
    obtain ⟨c1, h1⟩ := cache_write_at_total (has_slot_of_waiting hi.uniq hR hs1) s data hsz
    obtain ⟨i1, _, _, _, w1, _⟩ := cache_write_at_ok hi hsz h1
    obtain ⟨p, h2⟩ := run_ops_total ops c1 _ i1 hf (w1 R hR) hs2
    obtain ⟨c2, rs⟩ := p
    exact ⟨c1, c2, rs, h1, h2⟩

/-- Witness of C5: after `cache_init`, four bytes written at offset 3 of sector
7, then the calls of `ex_after_write`, then `cache_done`. -/
theorem cache_flush_witness :
    CacheInv (cache_init ex_numbered_disk 4096) ∧ 3 + 4 ≤ 512 ∧
    Waiting (cache_init ex_numbered_disk 4096) [] ∧
    ∃ c1 c2 rs, cache_write_at (cache_init ex_numbered_disk 4096) 7 zeros 3 4 = Except.ok c1 ∧
      run_ops c1 ex_after_write = Except.ok (c2, rs) ∧
      ∀ i, (cache_done c2).disk 7 i =
        if 3 ≤ i ∧ i < 3 + 4 then zeros (i - 3)
        else view (cache_init ex_numbered_disk 4096) 7 i := by
  have h := cache_flush (cache_init ex_numbered_disk 4096) 7 zeros 3 4 ex_after_write
    (cache_init_inv _ _) (by decide) (by decide) (by decide)
  obtain ⟨c1, c2, rs, h1, h2⟩ := h.2 [] (cache_init_waiting _ _) (by decide)
  exact ⟨cache_init_inv _ _, by decide, cache_init_waiting _ _, c1, c2, rs, h1, h2,
    h.1 c1 c2 rs h1 h2⟩

theorem remove_loop_none (s : Nat) : ∀ (n k : Nat) (c : Cache),
    (∀ j, k ≤ j → j < k + n → holds c s j = false) → cache_remove_loop s n k c = c := by
  intro n
  induction n with
  | zero => intro k c _; rfl
  | succ n ih =>
    intro k c h
    unfold cache_remove_loop
    have hk := h k (le_refl _) (by omega)
    rw [← Bool.not_eq_true, holds_iff] at hk
    rw [if_neg (fun hc => hk ⟨hc.2.1, hc.2.2, hc.1⟩)]
    exact ih (k + 1) c (fun j h1 h2 => h j (by omega) (by omega))

theorem remove_loop_hit (s i : Nat) : ∀ (n k : Nat) (c : Cache),
    (∀ j, k ≤ j → j < i → holds c s j = false) → k ≤ i → i < k + n → holds c s i = true →
    cache_remove_loop s n k c =
      (c.block_write (c.cache i).sector zeros).set i
        { c.cache i with buffer := zeros, valid := false, loaded := false, dirty := false } := by
  intro n
  induction n with
  | zero => intro k c _ h1 h2 _; omega
  | succ n ih =>
    intro k c h h1 h2 hh
    unfold cache_remove_loop
    by_cases hki : k = i
    · subst hki
      obtain ⟨a1, a2, a3⟩ := (holds_iff c s k).1 hh
      rw [if_pos ⟨a3, a1, a2⟩]
    · have hk := h k (le_refl _) (by omega)
      rw [← Bool.not_eq_true, holds_iff] at hk
      rw [if_neg (fun hc => hk ⟨hc.2.1, hc.2.2, hc.1⟩)]
      exact ih (k + 1) c (fun j j1 j2 => h j (by omega) j2) (by omega) (by omega) hh

/-- C20 (amended): `cache_remove`.  When a valid, loaded slot `i` holds the
sector, after `cache_remove (sector)` the device sector is all zero, no valid
slot carries the sector, a later read of the sector returns zeros, every other
slot and every other device sector is unchanged, and the invariant of the
cache holds again.  When no valid loaded slot holds the sector, cache and
device are unchanged. -/
theorem cache_remove_effect (c : Cache) (s : Nat) (hi : CacheInv c) :
    (∀ i, i < 64 → holds c s i = true →
      (cache_remove c s).disk s = zeros ∧
      (∀ j, j < 64 → ¬ (((cache_remove c s).cache j).valid = true ∧
        ((cache_remove c s).cache j).sector = s)) ∧
      (∀ buffer ofs size, ofs + size ≤ 512 →
        ∃ c1, cache_read_at (cache_remove c s) s buffer ofs size =
          Except.ok (c1, memcpy buffer 0 zeros ofs size)) ∧
      (∀ j, j ≠ i → (cache_remove c s).cache j = c.cache j) ∧
      (∀ t, t ≠ s → (cache_remove c s).disk t = c.disk t) ∧
      CacheInv (cache_remove c s)) ∧
    ((∀ i, i < 64 → holds c s i = false) → cache_remove c s = c) := by
  constructor
  · intro i h64 hh
    obtain ⟨a1, a2, a3⟩ := (holds_iff c s i).1 hh
    have hfirst : ∀ j, 0 ≤ j → j < i → holds c s j = false := by
      intro j _ hj
      by_contra hc
      have hc' : holds c s j = true := by simpa using hc
      obtain ⟨b1, _, b3⟩ := (holds_iff c s j).1 hc'
      have := hi.uniq j i (by omega) h64 b1 a1 (b3.trans a3.symm)
      omega
    have he : cache_remove c s = (c.block_write (c.cache i).sector zeros).set i
        { c.cache i with buffer := zeros, valid := false, loaded := false, dirty := false } :=
      remove_loop_hit s i 64 0 c hfirst (Nat.zero_le _) (by omega) hh
    have hdisk : (cache_remove c s).disk s = zeros := by
      rw [he, ← a3]
      simp [Cache.set, Cache.block_write]
    have hother : ∀ j, j ≠ i → (cache_remove c s).cache j = c.cache j := by
      intro j hj
      rw [he, set_cache_other _ _ hj]
      rfl
    have hself : ((cache_remove c s).cache i).valid = false := by
      rw [he, set_cache_self]
    have hnone : ∀ j, j < 64 → ¬ (((cache_remove c s).cache j).valid = true ∧
        ((cache_remove c s).cache j).sector = s) := by
      intro j hj hc
      by_cases hji : j = i
      · rw [hji, hself] at hc
        cases hc.1
      · rw [hother j hji] at hc
        exact hji (hi.uniq j i hj h64 hc.1 a1 (hc.2.trans a3.symm))
    have hdt : ∀ t, t ≠ s → (cache_remove c s).disk t = c.disk t := by
      intro t ht
      rw [he, ← a3] at *
      simp [Cache.set, Cache.block_write, ht]
    have hinv : CacheInv (cache_remove c s) := by
      constructor
      · intro a b h1 h2 h3 h4 h5
        have ha : a ≠ i := fun h => by rw [h, hself] at h3; cases h3
        have hb : b ≠ i := fun h => by rw [h, hself] at h4; cases h4
        rw [hother a ha] at h3 h5
        rw [hother b hb] at h4 h5
        exact hi.uniq a b h1 h2 h3 h4 h5
      · intro a h1 h2 h3 h4
        have ha : a ≠ i := fun h => by rw [h, hself] at h2; cases h2
        rw [hother a ha] at h2 h3 h4 ⊢
        have hs : (c.cache a).sector ≠ s := by
          intro hs
          exact ha (hi.uniq a i h1 h64 h2 a1 (hs.trans a3.symm))
        rw [hdt _ hs]
        exact hi.clean a h1 h2 h3 h4
      · intro a h1 hx h2 h3
        have ha : a ≠ i := fun h => by rw [h, hself] at h2; cases h2
        rw [hother a ha] at h2 h3
        have : (cache_remove c s).read_queue = c.read_queue := by rw [he]; rfl
        rw [this]
        exact hi.queued a h1 hx h2 h3
      · intro a ha
        have : (cache_remove c s).read_queue = c.read_queue := by rw [he]; rfl
        rw [this] at ha
        exact hi.bound a ha
    refine ⟨hdisk, hnone, ?_, hother, hdt, hinv⟩
    intro buffer ofs size hsz
    obtain ⟨c1, h1, _⟩ := cache_read_at_spec hinv (has_slot_of_invalid h64 hself) s buffer hsz
    refine ⟨c1, ?_⟩
    rw [h1]
    have hv : view (cache_remove c s) s = zeros := by
      rw [← hdisk]
      apply view_of_none
      intro j hj
      rw [← Bool.not_eq_true, holds_iff]
      rintro ⟨b1, _, b3⟩
      exact hnone j hj ⟨b1, b3⟩
    rw [hv]
  · intro h
    exact remove_loop_none s 64 0 c (fun j _ hj => h j (by omega))

theorem ex_loaded_cache_inv : CacheInv ex_loaded_cache := by
  constructor
  · intro i j _ _ h1 h2 _
    have hi : i = 0 := by
      by_contra h
      simp [ex_loaded_cache, h] at h1
    have hj : j = 0 := by
      by_contra h
      simp [ex_loaded_cache, h] at h2
    rw [hi, hj]
  · intro i _ h1 _ _
    have hi : i = 0 := by
      by_contra h
      simp [ex_loaded_cache, h] at h1
    rw [hi]
    rfl
  · intro i _ _ h1 h2
    have hi : i = 0 := by
      by_contra h
      simp [ex_loaded_cache, h] at h1
    rw [hi] at h2
    simp [ex_loaded_cache] at h2
  · intro i h
    simp [ex_loaded_cache] at h

/-- Witness of C20: sector 4 loaded in slot 0. -/
theorem cache_remove_effect_witness :
    CacheInv ex_loaded_cache ∧ holds ex_loaded_cache 4 0 = true ∧
    (cache_remove ex_loaded_cache 4).disk 4 = zeros ∧
    (∀ j, j < 64 → ¬ (((cache_remove ex_loaded_cache 4).cache j).valid = true ∧
      ((cache_remove ex_loaded_cache 4).cache j).sector = 4)) ∧
    (∀ buffer ofs size, ofs + size ≤ 512 →
      ∃ c1, cache_read_at (cache_remove ex_loaded_cache 4) 4 buffer ofs size =
        Except.ok (c1, memcpy buffer 0 zeros ofs size)) :=
  have h := (cache_remove_effect ex_loaded_cache 4 ex_loaded_cache_inv).1 0 (by decide)
    (by decide)
  ⟨ex_loaded_cache_inv, by decide, h.1, h.2.1, h.2.2.1⟩

set_option maxRecDepth 1000000 in
/-- Counterexample to C20 as stated: sector 5 is resident in a valid slot that
read-ahead took and has not loaded; `cache_remove (5)` changes nothing, the
sector stays resident, the device sector keeps its bytes and a later read
returns the old contents 5, 6. -/
theorem cache_remove_unloaded : ex_remove_unloaded.toOption = some [1, 1, 5, 6] := by
  decide

theorem indirect_tail_rest {st st1 : FS} {d d1 : Buf} {k s : Nat} {ib : Buf} {create : Bool}
    (h : indirect_tail st d k ib create = Except.ok (st1, d1, s)) : st1.rest = st.rest := by
  simp only [indirect_tail, bind, Except.bind] at h
  repeat' split at h
  all_goals first | (cases h; rfl) | cases h

theorem double_tail_inner_rest {st st1 : FS} {d d1 : Buf} {inner k s : Nat} {ib dib : Buf}
    {create : Bool}
    (h : double_tail_inner st d inner k ib dib create = Except.ok (st1, d1, s)) :
    st1.rest = st.rest := by
  simp only [double_tail_inner, bind, Except.bind] at h
  repeat' split at h
  all_goals first | (cases h; rfl) | cases h

theorem double_tail_rest {st st1 : FS} {d d1 : Buf} {index s : Nat} {ib dib : Buf}
    {create : Bool}
    (h : double_tail st d index ib dib create = Except.ok (st1, d1, s)) :
    st1.rest = st.rest := by
  simp only [double_tail, bind, Except.bind] at h
  repeat' split at h
  all_goals first
    | (cases h; rfl)
    | exact (double_tail_inner_rest h).trans rfl
    | cases h

theorem resolve_rest {st st1 : FS} {d d1 : Buf} {k s : Nat} {ib dib : Buf} {create : Bool}
    (h : inode_disk_block_to_sector st d k ib dib create = Except.ok (st1, d1, s)) :
    st1.rest = st.rest := by
  unfold inode_disk_block_to_sector at h
  split at h
  · simp only [bind, Except.bind] at h
    repeat' split at h
    all_goals first | (cases h; rfl) | cases h
  · split at h
    · split at h
      · simp only [bind, Except.bind] at h
        split at h
        · cases h; rfl
        · split at h
          · cases h
          · exact (indirect_tail_rest h).trans rfl
      · split at h
        · cases h; rfl
        · exact indirect_tail_rest h
    · split at h
      · split at h
        · simp only [bind, Except.bind] at h
          split at h
          · cases h; rfl
          · split at h
            · cases h
            · exact (double_tail_rest h).trans rfl
        · split at h
          · cases h; rfl
          · exact double_tail_rest h
      · cases h

theorem block_to_sector_rest {st st1 : FS} {p k s : Nat} {ib dib : Buf} {create : Bool}
    (h : inode_block_to_sector st p k ib dib create = Except.ok (st1, s)) :
    st1.rest = st.rest := by
  unfold inode_block_to_sector at h
  simp only [bind, Except.bind] at h
  cases h1 : st.deref p with
  | error e => rw [h1] at h; cases h
  | ok ino =>
    rw [h1] at h
    simp only at h
    cases h2 : get_disk_inode st.cache ino.sector with
    | error e => rw [h2] at h; cases h
    | ok r =>
      obtain ⟨c1, d⟩ := r
      rw [h2] at h
      simp only at h
      cases h3 : inode_disk_block_to_sector { st with cache := c1 } d k ib dib create with
      | error e => rw [h3] at h; cases h
      | ok r =>
        obtain ⟨st2, d2, ret⟩ := r
        rw [h3] at h
        simp only at h
        have hr : st2.rest = st.rest := (resolve_rest h3).trans rfl
        split at h
        · cases h4 : cache_write_at st2.cache ino.sector d2 0 512 with
          | error e => rw [h4] at h; cases h
          | ok c3 =>
            rw [h4] at h
            cases h
            exact hr
        · cases h
          exact hr

theorem close_data_loop_rest : ∀ (n i : Nat) (st st1 : FS) (p : Nat),
    close_data_loop n i st p = Except.ok st1 → st1.rest = st.rest := by
  intro n
  induction n with
  | zero => intro i st st1 p h; cases h; rfl
  | succ n ih =>
    intro i st st1 p h
    unfold close_data_loop at h
    simp only [bind, Except.bind] at h
    cases h1 : inode_block_to_sector st p i zeros zeros false with
    | error e => rw [h1] at h; cases h
    | ok r =>
      obtain ⟨st2, sector⟩ := r
      rw [h1] at h
      simp only at h
      have hr := block_to_sector_rest h1
      split at h
      · exact (ih _ _ _ _ h).trans hr
      · exact (ih _ _ _ _ h).trans hr

theorem close_inner_loop_rest : ∀ (n i : Nat) (st st1 : FS) (ib : Buf),
    close_inner_loop n i st ib = Except.ok st1 → st1.rest = st.rest := by
  intro n
  induction n with
  | zero => intro i st st1 ib h; cases h; rfl
  | succ n ih =>
    intro i st st1 ib h
    unfold close_inner_loop at h
    simp only [bind, Except.bind] at h
    cases h1 : entry ib i with
    | error e => rw [h1] at h; cases h
    | ok s =>
      rw [h1] at h
      simp only at h
      split at h
      · exact (ih _ _ _ _ h).trans rfl
      · exact ih _ _ _ _ h

theorem close_kept_rest {st st1 : FS} {ino : inode} (h : close_kept st ino = Except.ok st1) :
    st1.rest = st.rest := by
  simp only [close_kept, get_disk_inode, bind, Except.bind] at h
  repeat' split at h
  all_goals first | (cases h; rfl) | cases h

theorem close_removed_rest {st st1 : FS} {p : Nat} {ino : inode}
    (h : close_removed st p ino = Except.ok st1) : st1.rest = st.rest := by
  unfold close_removed at h
  simp only [bind, Except.bind] at h
  cases h1 : close_data_loop (bytes_to_sectors ino.length) 0 st p with
  | error e => rw [h1] at h; cases h
  | ok st2 =>
    rw [h1] at h
    simp only at h
    have r1 := close_data_loop_rest _ _ _ _ _ h1
    cases h2 : get_disk_inode st2.cache ino.sector with
    | error e => rw [h2] at h; cases h
    | ok r =>
      obtain ⟨c2, d⟩ := r
      rw [h2] at h
      simp only at h
      split at h
      · rename_i hdbl
        cases h3 : cache_read_at
            (if inode_disk.indirect d ≠ 0 then
              ({ st2 with cache := cache_remove c2 (inode_disk.indirect d),
                          free_map := free_map_release st2.free_map (inode_disk.indirect d) } : FS)
            else { st2 with cache := c2 }).cache (inode_disk.double_indirect d) zeros 0 512 with
        | error e => rw [h3] at h; cases h
        | ok r =>
          obtain ⟨c4, ib⟩ := r
          rw [h3] at h
          simp only at h
          cases h4 : close_inner_loop BLOCK_SECTOR_SIZE 0
              { (if inode_disk.indirect d ≠ 0 then
                  ({ st2 with cache := cache_remove c2 (inode_disk.indirect d),
                              free_map := free_map_release st2.free_map (inode_disk.indirect d) }
                    : FS)
                else { st2 with cache := c2 }) with cache := c4 } ib with
          | error e => rw [h4] at h; cases h
          | ok st5 =>
            rw [h4] at h
            cases h
            have r4 := close_inner_loop_rest _ _ _ _ _ h4
            refine Eq.trans ?_ r1
            refine Eq.trans (b := st5.rest) rfl ?_
            rw [r4]
            split <;> rfl
      · cases h
        refine Eq.trans ?_ r1
        show FS.rest (if inode_disk.indirect d ≠ 0 then _ else _) = _
        split <;> rfl

theorem store_heap_self (st : FS) (p : Nat) (a : inode) : (st.store p a).heap p = some a := by
  simp [FS.store]

theorem store_heap_other (st : FS) {p q : Nat} (a : inode) (h : q ≠ p) :
    (st.store p a).heap q = st.heap q := by
  simp [FS.store, h]

/-- Rewriting an open inode in place keeps the invariant of the open list as
long as its sector stays and it keeps an opener. -/
theorem store_open_inv {st : FS} {p : Nat} {a b : inode} (hi : OpenInv st)
    (hp : st.heap p = some a) (hs : b.sector = a.sector) (ho : 1 ≤ b.open_cnt) :
    OpenInv (st.store p b) := by
  constructor
  · exact hi.nodup
  · intro q hq
    by_cases h : q = p
    · rw [h, store_heap_self]
      exact ⟨b, rfl, ho⟩
    · rw [store_heap_other st b h]
      exact hi.live q hq
  · intro q ino hq
    by_cases h : q = p
    · rw [h]
      exact hi.listed p a hp
    · rw [store_heap_other st b h] at hq
      exact hi.listed q ino hq
  · intro q r x y hq hr hxy
    have key : ∀ t z, (st.store p b).heap t = some z → ∃ w, st.heap t = some w ∧ w.sector = z.sector := by
      intro t z ht
      by_cases h : t = p
      · rw [h, store_heap_self] at ht
        cases ht
        exact ⟨a, by rw [h]; exact hp, hs.symm⟩
      · rw [store_heap_other st b h] at ht
        exact ⟨z, ht, rfl⟩
    obtain ⟨w1, e1, f1⟩ := key q x hq
    obtain ⟨w2, e2, f2⟩ := key r y hr
    exact hi.uniq q r w1 w2 e1 e2 (by rw [f1, f2, hxy])
  · exact hi.fresh
  · exact hi.nonnull
  · exact hi.brk_pos

theorem open_search_some (st : FS) (sector : Nat) : ∀ (l : List Nat) (p : Nat),
    open_search st sector l = Except.ok (some p) →
    p ∈ l ∧ ∃ ino, st.heap p = some ino ∧ ino.sector = sector := by
  intro l
  induction l with
  | nil => intro p h; simp [open_search, pure, Except.pure] at h
  | cons q l ih =>
    intro p h
    unfold open_search at h
    simp only [bind, Except.bind] at h
    cases hq : st.heap q with
    | none => simp [FS.deref, hq] at h
    | some ino =>
      simp only [FS.deref, hq, pure, Except.pure] at h
      by_cases hs : ino.sector = sector
      · simp only [hs, if_true, Except.ok.injEq, Option.some.injEq] at h
        subst h
        exact ⟨List.mem_cons_self _ _, ino, hq, hs⟩
      · simp only [hs, if_false] at h
        obtain ⟨h1, h2⟩ := ih p h
        exact ⟨List.mem_cons_of_mem _ h1, h2⟩

theorem open_search_none (st : FS) (sector : Nat) : ∀ (l : List Nat),
    open_search st sector l = Except.ok none →
    ∀ q, q ∈ l → ∀ ino, st.heap q = some ino → ino.sector ≠ sector := by
  intro l
  induction l with
  | nil => intro _ q hq; cases hq
  | cons r l ih =>
    intro h q hq ino hino
    unfold open_search at h
    simp only [bind, Except.bind] at h
    cases hr : st.heap r with
    | none => simp [FS.deref, hr] at h
    | some x =>
      simp only [FS.deref, hr, pure, Except.pure] at h
      by_cases hs : x.sector = sector
      · simp [hs] at h
      · simp only [hs, if_false] at h
        rcases List.mem_cons.1 hq with e | e
        · rw [e, hr] at hino
          cases hino
          exact hs
        · exact ih h q e ino hino

theorem open_search_total (st : FS) (sector : Nat) : ∀ (l : List Nat),
    (∀ q, q ∈ l → ∃ ino, st.heap q = some ino) → ∃ r, open_search st sector l = Except.ok r := by
  intro l
  induction l with
  | nil => intro _; exact ⟨none, rfl⟩
  | cons r l ih =>
    intro h
    obtain ⟨x, hx⟩ := h r (List.mem_cons_self _ _)
    unfold open_search
    simp only [bind, Except.bind, FS.deref, hx, pure, Except.pure]
    by_cases hs : x.sector = sector
    · simp only [hs, if_true]
      exact ⟨_, rfl⟩
    · simp only [hs, if_false]
      exact ih (fun q hq => h q (List.mem_cons_of_mem _ hq))

/-- `inode_open` of a sector that has an in-memory inode: that inode, one more
opener, whatever its `removed` flag. -/
theorem open_existing {st : FS} (hi : OpenInv st) {p : Nat} {ino : inode}
    (hp : st.heap p = some ino) :
    inode_open st ino.sector =
      Except.ok (st.store p { ino with open_cnt := ino.open_cnt + 1 }, p) := by
  obtain ⟨r, hr⟩ := open_search_total st ino.sector st.open_inodes
    (fun q hq => (hi.live q hq).imp (fun _ h => h.1))
  have hmem := hi.listed p ino hp
  cases r with
  | none =>
    exact absurd rfl (open_search_none st ino.sector _ hr p hmem ino hp)
  | some q =>
    obtain ⟨_, x, hx, hs⟩ := open_search_some st ino.sector _ q hr
    have hqp : q = p := hi.uniq q p x ino hx hp hs
    subst hqp
    have hne : q ≠ 0 := hi.nonnull q hmem
    unfold inode_open
    simp only [bind, Except.bind, hr, inode_reopen, hne, if_false, FS.deref, hp, pure,
      Except.pure]

/-- `inode_open` of a sector without in-memory inode, once the read of the
on-disk inode has returned: a new inode at the next address, filled from it. -/
theorem open_new_of_read {st : FS} (hi : OpenInv st) {sector : Nat}
    (hs : ∀ p ino, st.heap p = some ino → ino.sector ≠ sector) {c1 : Cache} {d : Buf}
    (h1 : cache_read_at st.cache sector zeros 0 512 = Except.ok (c1, d)) :
    inode_open st sector = Except.ok
      ({ st with
          cache := c1
          heap := fun q => if q = st.brk then some
            { sector := sector, open_cnt := 1, deny_write_cnt := 0, removed := false,
              length := inode_disk.length d,
              entry_cnt := inode_disk.entry_cnt d,
              isdir := inode_disk.isdir d }
            else st.heap q
          open_inodes := st.brk :: st.open_inodes
          brk := st.brk + 1 }, st.brk) := by
  obtain ⟨r, hr⟩ := open_search_total st sector st.open_inodes
    (fun q hq => (hi.live q hq).imp (fun _ h => h.1))
  cases r with
  | some q =>
    obtain ⟨_, x, hx, hsx⟩ := open_search_some st sector _ q hr
    exact absurd hsx (hs q x hx)
  | none =>
    unfold inode_open
    simp only [bind, Except.bind, hr, h1, pure, Except.pure]

/-- `inode_open` of a sector without in-memory inode: a new inode at the next
address, filled from the on-disk inode. -/
theorem open_new {st : FS} (hi : OpenInv st) (hc : CacheInv st.cache) {sector : Nat}
    (hs : ∀ p ino, st.heap p = some ino → ino.sector ≠ sector) :
    (has_slot st.cache = false ∧ inode_open st sector = Except.error Fault.spin) ∨
    ∃ c1, Transparent st.cache c1 ∧
      inode_open st sector = Except.ok
        ({ st with
            cache := c1
            heap := fun q => if q = st.brk then some
              { sector := sector, open_cnt := 1, deny_write_cnt := 0, removed := false,
                length := inode_disk.length (load_block zeros (view st.cache sector)),
                entry_cnt := inode_disk.entry_cnt (load_block zeros (view st.cache sector)),
                isdir := inode_disk.isdir (load_block zeros (view st.cache sector)) }
              else st.heap q
            open_inodes := st.brk :: st.open_inodes
            brk := st.brk + 1 }, st.brk) := by
  obtain ⟨r, hr⟩ := open_search_total st sector st.open_inodes
    (fun q hq => (hi.live q hq).imp (fun _ h => h.1))
  cases r with
  | some q =>
    obtain ⟨_, x, hx, hsx⟩ := open_search_some st sector _ q hr
    exact absurd hsx (hs q x hx)
  | none =>
    rcases read_block_alt hc sector zeros with ⟨hf, h1⟩ | ⟨c1, h1, t1⟩
    · left
      refine ⟨hf, ?_⟩
      unfold inode_open
      simp only [bind, Except.bind, hr, h1, pure, Except.pure]
    · right
      refine ⟨c1, t1, ?_⟩
      unfold inode_open
      simp only [bind, Except.bind, hr, h1, pure, Except.pure]

theorem heap_brk_none {st : FS} (hi : OpenInv st) : st.heap st.brk = none := by
  cases h : st.heap st.brk with
  | none => rfl
  | some ino =>
    have := hi.fresh _ (hi.listed _ ino h)
    omega

/-- Shape of a successful `inode_open`. -/
theorem open_cases {st st1 : FS} {sector q : Nat} (hi : OpenInv st)
    (h : inode_open st sector = Except.ok (st1, q)) :
    (∃ ino, st.heap q = some ino ∧ ino.sector = sector ∧
      st1 = st.store q { ino with open_cnt := ino.open_cnt + 1 }) ∨
    ((∀ p ino, st.heap p = some ino → ino.sector ≠ sector) ∧ q = st.brk ∧
      ∃ c1 d, cache_read_at st.cache sector zeros 0 512 = Except.ok (c1, d) ∧
        st1 = { st with
          cache := c1
          heap := fun r => if r = st.brk then some
            { sector := sector, open_cnt := 1, deny_write_cnt := 0, removed := false,
              length := inode_disk.length d, entry_cnt := inode_disk.entry_cnt d,
              isdir := inode_disk.isdir d }
            else st.heap r
          open_inodes := st.brk :: st.open_inodes
          brk := st.brk + 1 }) := by
  by_cases hex : ∃ p ino, st.heap p = some ino ∧ ino.sector = sector
  · obtain ⟨p, ino, hp, hs⟩ := hex
    subst hs
    have := open_existing hi hp
    rw [h] at this
    simp only [Except.ok.injEq, Prod.mk.injEq] at this
    obtain ⟨e1, e2⟩ := this
    subst e2
    exact Or.inl ⟨ino, hp, rfl, e1⟩
  · have hs : ∀ p ino, st.heap p = some ino → ino.sector ≠ sector :=
      fun p ino hp hsec => hex ⟨p, ino, hp, hsec⟩
    obtain ⟨r, hr⟩ := open_search_total st sector st.open_inodes
      (fun q hq => (hi.live q hq).imp (fun _ h => h.1))
    cases r with
    | some p =>
      obtain ⟨_, x, hx, hsx⟩ := open_search_some st sector _ p hr
      exact absurd hsx (hs p x hx)
    | none =>
      unfold inode_open at h
      simp only [bind, Except.bind, hr] at h
      cases hc : cache_read_at st.cache sector zeros 0 512 with
      | error e => rw [hc] at h; cases h
      | ok r =>
        obtain ⟨c1, d⟩ := r
        rw [hc] at h
        simp only [pure, Except.pure, Except.ok.injEq, Prod.mk.injEq] at h
        obtain ⟨e1, e2⟩ := h
        exact Or.inr ⟨hs, e2.symm, c1, d, rfl, e1.symm⟩

theorem open_keeps_inv {st st1 : FS} {sector q : Nat} (hi : OpenInv st)
    (h : inode_open st sector = Except.ok (st1, q)) : OpenInv st1 := by
  rcases open_cases hi h with ⟨ino, hp, _, e⟩ | ⟨hs, _, c1, d, _, e⟩
  · rw [e]
    obtain ⟨x, hx, ho⟩ := hi.live q (hi.listed q ino hp)
    rw [hp] at hx
    cases hx
    exact store_open_inv hi hp rfl (by show 1 ≤ ino.open_cnt + 1; omega)
  · rw [e]
    have hb := heap_brk_none hi
    constructor
    · show (st.brk :: st.open_inodes).Nodup
      refine List.nodup_cons.2 ⟨fun hm => ?_, hi.nodup⟩
      have := hi.fresh _ hm
      omega
    · intro p hp
      rcases List.mem_cons.1 hp with e1 | e1
      · exact ⟨_, if_pos e1, le_refl _⟩
      · obtain ⟨x, hx, ho⟩ := hi.live p e1
        have : p ≠ st.brk := fun e2 => by rw [e2, hb] at hx; cases hx
        exact ⟨x, (if_neg this).trans hx, ho⟩
    · intro p ino hp
      show p ∈ st.brk :: st.open_inodes
      by_cases e1 : p = st.brk
      · rw [e1]; exact List.mem_cons_self _ _
      · simp only [e1, if_false] at hp
        exact List.mem_cons_of_mem _ (hi.listed p ino hp)
    · intro p r a b hp hr hab
      simp only at hp hr
      by_cases e1 : p = st.brk
      · by_cases e2 : r = st.brk
        · rw [e1, e2]
        · simp only [e1, if_true, Option.some.injEq] at hp
          simp only [e2, if_false] at hr
          subst hp
          exact absurd hab.symm (hs r b hr)
      · by_cases e2 : r = st.brk
        · simp only [e2, if_true, Option.some.injEq] at hr
          simp only [e1, if_false] at hp
          subst hr
          exact absurd hab (hs p a hp)
        · simp only [e1, if_false] at hp
          simp only [e2, if_false] at hr
          exact hi.uniq p r a b hp hr hab
    · intro p hp
      show p < st.brk + 1
      rcases List.mem_cons.1 hp with e1 | e1
      · omega
      · have := hi.fresh p e1
        omega
    · intro p hp
      rcases List.mem_cons.1 hp with e1 | e1
      · have := hi.brk_pos
        omega
      · exact hi.nonnull p e1

    · show 1 ≤ st.brk + 1
      omega

/-- Shape of a successful `inode_close` on a non-null pointer. -/
theorem close_cases {st st1 : FS} {p : Nat} (hp0 : p ≠ 0)
    (h : inode_close st p = Except.ok st1) :
    ∃ ino, st.heap p = some ino ∧
      ((ino.open_cnt - 1 ≠ 0 ∧ st1 = st.store p { ino with open_cnt := ino.open_cnt - 1 }) ∨
       (ino.open_cnt - 1 = 0 ∧ st1.open_inodes = st.open_inodes.erase p ∧ st1.brk = st.brk ∧
        st1.heap = fun q => if q = p then none else st.heap q)) := by
  unfold inode_close at h
  rw [if_neg hp0] at h
  simp only [bind, Except.bind] at h
  cases hd : st.heap p with
  | none => simp [FS.deref, hd] at h
  | some ino =>
    refine ⟨ino, rfl, ?_⟩
    simp only [FS.deref, hd, pure, Except.pure] at h
    by_cases hz : ino.open_cnt - 1 = 0
    · right
      rw [if_pos hz] at h
      have key : ∀ st3 : FS, st3.rest =
          ({ st.store p { ino with open_cnt := ino.open_cnt - 1 } with
              open_inodes := (st.store p { ino with open_cnt := ino.open_cnt - 1 }).open_inodes.erase p } : FS).rest →
          (({ st3 with heap := fun q => if q = p then none else st3.heap q } : FS).open_inodes =
              st.open_inodes.erase p ∧
           ({ st3 with heap := fun q => if q = p then none else st3.heap q } : FS).brk = st.brk ∧
           ({ st3 with heap := fun q => if q = p then none else st3.heap q } : FS).heap =
              fun q => if q = p then none else st.heap q) := by
        intro st3 hr
        simp only [FS.rest, Prod.mk.injEq] at hr
        obtain ⟨r1, r2, r3⟩ := hr
        refine ⟨r2, r3, ?_⟩
        funext q
        by_cases hq : q = p
        · simp [hq]
        · simp only [hq, if_false, r1, FS.store]
      by_cases hrm : ino.removed = true
      · rw [if_pos hrm] at h
        cases h3 : close_removed _ p ino with
        | error e => rw [h3] at h; cases h
        | ok st3 =>
          rw [h3] at h
          cases h
          exact ⟨hz, key st3 (close_removed_rest h3)⟩
      · rw [if_neg hrm] at h
        cases h3 : close_kept _ ino with
        | error e => rw [h3] at h; cases h
        | ok st3 =>
          rw [h3] at h
          cases h
          exact ⟨hz, key st3 (close_kept_rest h3)⟩
    · left
      rw [if_neg hz] at h
      cases h
      exact ⟨hz, rfl⟩

theorem close_keeps_inv {st st1 : FS} {p : Nat} (hi : OpenInv st)
    (h : inode_close st p = Except.ok st1) : OpenInv st1 := by
  by_cases hp0 : p = 0
  · unfold inode_close at h
    rw [if_pos hp0] at h
    cases h
    exact hi
  · obtain ⟨ino, hp, hc⟩ := close_cases hp0 h
    obtain ⟨x, hx, ho⟩ := hi.live p (hi.listed p ino hp)
    rw [hp] at hx
    cases hx
    rcases hc with ⟨hz, e⟩ | ⟨_, e1, e2, e3⟩
    · rw [e]
      exact store_open_inv hi hp rfl (by show 1 ≤ ino.open_cnt - 1; omega)
    · have hmem : ∀ q, q ∈ st1.open_inodes ↔ q ∈ st.open_inodes ∧ q ≠ p := by
        intro q
        rw [e1, hi.nodup.mem_erase_iff]
        tauto
      constructor
      · rw [e1]
        exact hi.nodup.erase p
      · intro q hq
        obtain ⟨h1, h2⟩ := (hmem q).1 hq
        rw [e3]
        simp only [h2, if_false]
        exact hi.live q h1
      · intro q a hq
        rw [e3] at hq
        by_cases hqp : q = p
        · simp [hqp] at hq
        · simp only [hqp, if_false] at hq
          exact (hmem q).2 ⟨hi.listed q a hq, hqp⟩
      · intro q r a b hq hr hab
        rw [e3] at hq hr
        by_cases hqp : q = p
        · simp [hqp] at hq
        · by_cases hrp : r = p
          · simp [hrp] at hr
          · simp only [hqp, if_false] at hq
            simp only [hrp, if_false] at hr
            exact hi.uniq q r a b hq hr hab
      · intro q hq
        rw [e2]
        exact hi.fresh q ((hmem q).1 hq).1
      · intro q hq
        exact hi.nonnull q ((hmem q).1 hq).1
      · rw [e2]
        exact hi.brk_pos

theorem call_keeps_inv {st st1 : FS} {call : InodeCall} (hi : OpenInv st)
    (h : inode_call st call = Except.ok st1) : OpenInv st1 := by
  cases call with
  | do_open sector =>
    simp only [inode_call, Except.map] at h
    cases hr : inode_open st sector with
    | error e => rw [hr] at h; cases h
    | ok r =>
      obtain ⟨st2, q⟩ := r
      rw [hr] at h
      cases h
      exact open_keeps_inv hi hr
  | do_reopen p =>
    simp only [inode_call, inode_reopen, Except.map] at h
    by_cases hp0 : p = 0
    · simp only [hp0, if_true, pure, Except.pure] at h
      cases h
      exact hi
    · simp only [hp0, if_false, bind, Except.bind] at h
      cases hd : st.heap p with
      | none => simp [FS.deref, hd] at h
      | some ino =>
        simp only [FS.deref, hd, pure, Except.pure, Except.ok.injEq] at h
        subst h
        obtain ⟨x, hx, ho⟩ := hi.live p (hi.listed p ino hd)
        rw [hd] at hx
        cases hx
        exact store_open_inv hi hd rfl (by show 1 ≤ ino.open_cnt + 1; omega)
  | do_close p => exact close_keeps_inv hi h
  | do_remove p =>
    simp only [inode_call, inode_remove] at h
    by_cases hp0 : p = 0
    · simp [hp0] at h
    · simp only [hp0, if_false, bind, Except.bind] at h
      cases hd : st.heap p with
      | none => simp [FS.deref, hd] at h
      | some ino =>
        simp only [FS.deref, hd, pure, Except.pure, Except.ok.injEq] at h
        subst h
        obtain ⟨x, hx, ho⟩ := hi.live p (hi.listed p ino hd)
        rw [hd] at hx
        cases hx
        exact store_open_inv hi hd rfl ho
  | do_deny p =>
    simp only [inode_call, inode_deny_write, bind, Except.bind] at h
    cases hd : st.heap p with
    | none => simp [FS.deref, hd] at h
    | some ino =>
      simp only [FS.deref, hd, pure, Except.pure] at h
      split at h
      · cases h
        obtain ⟨x, hx, ho⟩ := hi.live p (hi.listed p ino hd)
        rw [hd] at hx
        cases hx
        exact store_open_inv hi hd rfl ho
      · cases h
  | do_allow p =>
    simp only [inode_call, inode_allow_write, bind, Except.bind] at h
    cases hd : st.heap p with
    | none => simp [FS.deref, hd] at h
    | some ino =>
      simp only [FS.deref, hd, pure, Except.pure] at h
      split at h
      · cases h
        obtain ⟨x, hx, ho⟩ := hi.live p (hi.listed p ino hd)
        rw [hd] at hx
        cases hx
        exact store_open_inv hi hd rfl ho
      · cases h

theorem calls_keep_inv : ∀ (l : List InodeCall) (st st1 : FS), OpenInv st →
    inode_calls st l = Except.ok st1 → OpenInv st1 := by
  intro l
  induction l with
  | nil => intro st st1 hi h; cases h; exact hi
  | cons call l ih =>
    intro st st1 hi h
    simp only [inode_calls, bind, Except.bind] at h
    cases hc : inode_call st call with
    | error e => rw [hc] at h; cases h
    | ok st2 =>
      rw [hc] at h
      exact ih st2 st1 (call_keeps_inv hi hc) h

theorem blank_open_inv : OpenInv ex_blank_fs := by
  constructor
  · exact List.nodup_nil
  · intro p hp; cases hp
  · intro p ino h; cases h
  · intro p q a b h; cases h
  · intro p hp; cases hp
  · intro p hp; cases hp
  · exact le_refl _

theorem shared_open_inv : OpenInv ex_shared_fs := by
  have hh : ∀ q x, ex_shared_fs.heap q = some x → q = 1 := by
    intro q x h
    by_contra hq
    simp [ex_shared_fs, hq] at h
  constructor
  · show [1].Nodup
    simp
  · intro p hp
    have : p = 1 := by simpa [ex_shared_fs] using hp
    rw [this]
    exact ⟨ex_shared_inode, rfl, by decide⟩
  · intro p ino h
    rw [hh p ino h]
    show 1 ∈ [1]
    simp
  · intro p q a b h1 h2 _
    rw [hh p a h1, hh q b h2]
  · intro p hp
    have : p = 1 := by simpa [ex_shared_fs] using hp
    rw [this]
    show 1 < 2
    norm_num
  · intro p hp
    have : p = 1 := by simpa [ex_shared_fs] using hp
    rw [this]
    norm_num
  · show 1 ≤ 2
    norm_num

/-- C12: single in-memory inode per sector.  From a state whose open list holds
each live inode once, no two of them with the same sector and each with
`open_cnt ≥ 1` (the empty list after `inode_init` is such a state), every
sequence of `inode_open`, `inode_reopen`, `inode_close`, `inode_remove` (and
deny/allow) calls that returns leads to such a state again.  `inode_open` of
the sector of an in-memory inode returns that inode with `open_cnt` increased
by one; `inode_open` of any other sector returns a new inode with
`open_cnt = 1`, `removed = false`, `deny_write_cnt = 0` and `length`,
`entry_cnt`, `isdir` read from the on-disk inode.  The read of the on-disk
inode goes through the cache: the call does not return when every slot of the
cache is valid and none is loaded and `cache_evict` loops for ever; with a slot
that is invalid or loaded (`has_slot`) it returns. -/
theorem single_inode_per_sector (st : FS) (hi : OpenInv st) (hc : CacheInv st.cache) :
    (∀ calls st1, inode_calls st calls = Except.ok st1 → OpenInv st1) ∧
    (∀ p ino, st.heap p = some ino →
      inode_open st ino.sector =
        Except.ok (st.store p { ino with open_cnt := ino.open_cnt + 1 }, p)) ∧
    (∀ sector, (∀ p ino, st.heap p = some ino → ino.sector ≠ sector) →
      (has_slot st.cache = false ∧ inode_open st sector = Except.error Fault.spin) ∨
      ∃ c1, Transparent st.cache c1 ∧
        inode_open st sector = Except.ok
          ({ st with
              cache := c1
              heap := fun q => if q = st.brk then some
                { sector := sector, open_cnt := 1, deny_write_cnt := 0, removed := false,
                  length := inode_disk.length (load_block zeros (view st.cache sector)),
                  entry_cnt := inode_disk.entry_cnt (load_block zeros (view st.cache sector)),
                  isdir := inode_disk.isdir (load_block zeros (view st.cache sector)) }
                else st.heap q
              open_inodes := st.brk :: st.open_inodes
              brk := st.brk + 1 }, st.brk)) :=
  ⟨fun calls st1 h => calls_keep_inv calls st st1 hi h,
   fun _ _ hp => open_existing hi hp,
   fun _ hs => open_new hi hc hs⟩

/-- Witness of C12: the volume with one inode (sector 2) open twice.  Opening
sector 2 returns that inode; opening sector 5, which has no inode in memory,
returns a new one at the next address. -/
theorem single_inode_per_sector_witness :
    OpenInv ex_shared_fs ∧ CacheInv ex_shared_fs.cache ∧
    (∀ calls st1, inode_calls ex_shared_fs calls = Except.ok st1 → OpenInv st1) ∧
    inode_open ex_shared_fs 2 =
      Except.ok (ex_shared_fs.store 1 { ex_shared_inode with open_cnt := 3 }, 1) ∧
    has_slot ex_shared_fs.cache = true ∧
    ∃ c1, Transparent ex_shared_fs.cache c1 ∧
      inode_open ex_shared_fs 5 = Except.ok
        ({ ex_shared_fs with
            cache := c1
            heap := fun q => if q = ex_shared_fs.brk then some
              { sector := 5, open_cnt := 1, deny_write_cnt := 0, removed := false,
                length := inode_disk.length (load_block zeros (view ex_shared_fs.cache 5)),
                entry_cnt := inode_disk.entry_cnt (load_block zeros (view ex_shared_fs.cache 5)),
                isdir := inode_disk.isdir (load_block zeros (view ex_shared_fs.cache 5)) }
              else ex_shared_fs.heap q
            open_inodes := ex_shared_fs.brk :: ex_shared_fs.open_inodes
            brk := ex_shared_fs.brk + 1 }, ex_shared_fs.brk) := by
  have h := single_inode_per_sector ex_shared_fs shared_open_inv (cache_init_inv _ _)
  have hfresh : ∀ p ino, ex_shared_fs.heap p = some ino → ino.sector ≠ 5 := by
    intro p ino hp
    by_cases h1 : p = 1
    · have e : ex_shared_fs.heap p = some ex_shared_inode := by simp [ex_shared_fs, h1]
      rw [e] at hp
      cases hp
      decide
    · simp [ex_shared_fs, h1] at hp
  have hslot : has_slot ex_shared_fs.cache = true := by decide
  refine ⟨shared_open_inv, cache_init_inv _ _, h.1, h.2.1 1 ex_shared_inode rfl, hslot, ?_⟩
  rcases h.2.2 5 hfresh with ⟨hx, _⟩ | hx
  · rw [hslot] at hx
    cases hx
  · exact hx

/-- C13 (amended): `inode_open` does not look at `removed`.  For an in-memory
inode that is marked removed and still open, `inode_open` of its sector
returns that same inode and increases its `open_cnt` by one, as for any other
open inode. -/
theorem open_removed_inode (st : FS) (p : Nat) (ino : inode) (hi : OpenInv st)
    (hp : st.heap p = some ino) (hr : ino.removed = true) :
    inode_open st ino.sector =
      Except.ok (st.store p { ino with open_cnt := ino.open_cnt + 1, removed := true }, p) := by
  have h := open_existing hi hp
  rw [h]
  cases ino
  simp only at hr
  subst hr
  rfl

theorem removed_open_inv : OpenInv ex_removed_fs :=
  store_open_inv shared_open_inv (a := ex_shared_inode) rfl rfl (by decide)

/-- Witness of C13: the removed inode of `ex_removed_fs`, open at address 1. -/
theorem open_removed_inode_witness :
    OpenInv ex_removed_fs ∧
    inode_open ex_removed_fs 2 =
      Except.ok (ex_removed_fs.store 1
        { ex_shared_inode with open_cnt := 3, removed := true }, 1) :=
  ⟨removed_open_inv,
   open_removed_inode ex_removed_fs 1 { ex_shared_inode with removed := true }
    removed_open_inv rfl rfl⟩

set_option maxRecDepth 1000000 in
/-- Counterexample to C13 as stated: a file is opened (address 1), marked
removed, and opened again: the second `inode_open` returns address 1 again and
the inode then has `open_cnt = 2`. -/
theorem open_removed_counterexample : ex_open_removed.toOption = some [1, 1, 2] := by
  decide

/-- C14 (amended): the deny-write counter invariant is kept by every call of
`inode_open`, `inode_reopen`, `inode_remove`, `inode_deny_write` and
`inode_allow_write`, and by every `inode_close` made by the last opener or
while `deny_write_cnt < open_cnt` (the closing opener has allowed writes
again).  It holds on the empty open list. -/
theorem deny_counter_invariant (st st1 : FS) (call : InodeCall) (hi : OpenInv st)
    (hd : DenyInv st)
    (hg : ∀ p ino, call = InodeCall.do_close p → st.heap p = some ino →
      ino.deny_write_cnt < ino.open_cnt ∨ ino.open_cnt = 1)
    (h : inode_call st call = Except.ok st1) : OpenInv st1 ∧ DenyInv st1 := by
  refine ⟨call_keeps_inv hi h, ?_⟩
  have hstore : ∀ p (a b : inode), st.heap p = some a → 0 ≤ b.deny_write_cnt →
      b.deny_write_cnt ≤ b.open_cnt → DenyInv (st.store p b) := by
    intro p a b _ h1 h2 q x hq
    by_cases hqp : q = p
    · rw [hqp, store_heap_self] at hq
      cases hq
      exact ⟨h1, h2⟩
    · rw [store_heap_other st b hqp] at hq
      exact hd q x hq
  cases call with
  | do_open sector =>
    simp only [inode_call, Except.map] at h
    cases hr : inode_open st sector with
    | error e => rw [hr] at h; cases h
    | ok r =>
      obtain ⟨st2, q⟩ := r
      rw [hr] at h
      cases h
      rcases open_cases hi hr with ⟨ino, hp, _, e⟩ | ⟨_, _, c1, d, _, e⟩
      · rw [e]
        have := hd q ino hp
        exact hstore q ino _ hp this.1 (by show ino.deny_write_cnt ≤ ino.open_cnt + 1; omega)
      · rw [e]
        intro r x hx
        simp only at hx
        by_cases hrb : r = st.brk
        · simp only [hrb, if_true, Option.some.injEq] at hx
          subst hx
          exact ⟨le_refl _, by show (0 : Int) ≤ 1; norm_num⟩
        · simp only [hrb, if_false] at hx
          exact hd r x hx
  | do_reopen p =>
    simp only [inode_call, inode_reopen, Except.map] at h
    by_cases hp0 : p = 0
    · simp only [hp0, if_true, pure, Except.pure] at h
      cases h
      exact hd
    · simp only [hp0, if_false, bind, Except.bind] at h
      cases hh : st.heap p with
      | none => simp [FS.deref, hh] at h
      | some ino =>
        simp only [FS.deref, hh, pure, Except.pure, Except.ok.injEq] at h
        subst h
        have := hd p ino hh
        exact hstore p ino _ hh this.1 (by show ino.deny_write_cnt ≤ ino.open_cnt + 1; omega)
  | do_close p =>
    by_cases hp0 : p = 0
    · simp only [inode_call, inode_close, hp0, if_true, pure, Except.pure] at h
      cases h
      exact hd
    · obtain ⟨ino, hp, hc⟩ := close_cases hp0 h
      have hdp := hd p ino hp
      rcases hc with ⟨hz, e⟩ | ⟨_, _, _, e3⟩
      · rw [e]
        have := hg p ino rfl hp
        exact hstore p ino _ hp hdp.1 (by show ino.deny_write_cnt ≤ ino.open_cnt - 1; omega)
      · intro q x hq
        rw [e3] at hq
        by_cases hqp : q = p
        · simp [hqp] at hq
        · simp only [hqp, if_false] at hq
          exact hd q x hq
  | do_remove p =>
    simp only [inode_call, inode_remove] at h
    by_cases hp0 : p = 0
    · simp [hp0] at h
    · simp only [hp0, if_false, bind, Except.bind] at h
      cases hh : st.heap p with
      | none => simp [FS.deref, hh] at h
      | some ino =>
        simp only [FS.deref, hh, pure, Except.pure, Except.ok.injEq] at h
        subst h
        have := hd p ino hh
        exact hstore p ino _ hh this.1 this.2
  | do_deny p =>
    simp only [inode_call, inode_deny_write, bind, Except.bind] at h
    cases hh : st.heap p with
    | none => simp [FS.deref, hh] at h
    | some ino =>
      simp only [FS.deref, hh, pure, Except.pure] at h
      split at h
      · rename_i hle
        cases h
        have := hd p ino hh
        exact hstore p ino _ hh (by show 0 ≤ ino.deny_write_cnt + 1; omega) hle
      · cases h
  | do_allow p =>
    simp only [inode_call, inode_allow_write, bind, Except.bind] at h
    cases hh : st.heap p with
    | none => simp [FS.deref, hh] at h
    | some ino =>
      simp only [FS.deref, hh, pure, Except.pure] at h
      split at h
      · rename_i hle
        cases h
        have := hd p ino hh
        exact hstore p ino _ hh (by show 0 ≤ ino.deny_write_cnt - 1; omega)
          (by show ino.deny_write_cnt - 1 ≤ ino.open_cnt; omega)
      · cases h

theorem denied_open_inv : OpenInv ex_denied_fs :=
  store_open_inv shared_open_inv (a := ex_shared_inode) rfl rfl (by decide)

theorem denied_deny_inv : DenyInv ex_denied_fs := by
  intro p ino h
  by_cases hp : p = 1
  · rw [hp] at h
    have : ino = { ex_shared_inode with deny_write_cnt := 1 } := by
      simpa [ex_denied_fs, FS.store] using h.symm
    rw [this]
    decide
  · simp [ex_denied_fs, ex_shared_fs, FS.store, hp] at h

/-- Witness of C14: one of two openers closes while one deny is outstanding
(`deny_write_cnt = 1 < open_cnt = 2`). -/
theorem deny_counter_invariant_witness :
    OpenInv ex_denied_fs ∧ DenyInv ex_denied_fs ∧
    OpenInv (ex_denied_fs.store 1 { ex_shared_inode with deny_write_cnt := 1, open_cnt := 1 }) ∧
    DenyInv (ex_denied_fs.store 1 { ex_shared_inode with deny_write_cnt := 1, open_cnt := 1 }) :=
  ⟨denied_open_inv, denied_deny_inv,
   deny_counter_invariant ex_denied_fs _ (InodeCall.do_close 1) denied_open_inv denied_deny_inv
    (fun p ino hc hp => by
      cases hc
      have : ino = { ex_shared_inode with deny_write_cnt := 1 } := by
        simpa [ex_denied_fs, FS.store] using hp.symm
      rw [this]
      left
      decide)
    rfl⟩

set_option maxRecDepth 1000000 in
/-- Counterexample to C14 as stated: two openers deny writes and one of them
closes without allowing writes again; the inode is left with `open_cnt = 1`
and `deny_write_cnt = 2`. -/
theorem deny_counter_counterexample : ex_close_denied.toOption = some [1, 2] := by
  decide

theorem contains_false (b : Bitmap) (start cnt : Nat) (v : Bool) :
    bitmap_contains b start cnt v = false ↔ ∀ k, k < cnt → b.bits (start + k) = !v := by
  unfold bitmap_contains
  rw [List.any_eq_false]
  constructor
  · intro h k hk
    have := h k (List.mem_range.2 hk)
    cases hb : b.bits (start + k) <;> cases v <;> simp_all
  · intro h k hk
    have := h k (List.mem_range.1 hk)
    cases hb : b.bits (start + k) <;> cases v <;> simp_all

theorem scan_loop_some (b : Bitmap) (cnt : Nat) (v : Bool) (n i idx : Nat)
    (h : bitmap_scan_loop b cnt v n i = some idx) :
    i ≤ idx ∧ idx < i + n ∧ bitmap_contains b idx cnt (!v) = false := by
  induction n generalizing i with
  | zero => simp [bitmap_scan_loop] at h
  | succ n ih =>
    unfold bitmap_scan_loop at h
    split at h
    · obtain ⟨a, b1, c⟩ := ih (i + 1) h
      exact ⟨by omega, by omega, c⟩
    · rename_i hc
      cases h
      exact ⟨le_refl _, by omega, by simpa using hc⟩

theorem scan_loop_total (b : Bitmap) (cnt : Nat) (v : Bool) (n i j : Nat)
    (h1 : i ≤ j) (h2 : j < i + n) (h3 : bitmap_contains b j cnt (!v) = false) :
    ∃ idx, bitmap_scan_loop b cnt v n i = some idx := by
  induction n generalizing i with
  | zero => omega
  | succ n ih =>
    unfold bitmap_scan_loop
    split
    · rename_i hc
      have : i ≠ j := by
        intro e
        subst e
        rw [h3] at hc
        cases hc
      exact ih (i + 1) (by omega) (by omega)
    · exact ⟨i, rfl⟩

theorem scan_some (b : Bitmap) (cnt : Nat) (v : Bool) (idx : Nat)
    (h : bitmap_scan b 0 cnt v = some idx) :
    idx + cnt ≤ b.size ∧ ∀ k, k < cnt → b.bits (idx + k) = v := by
  unfold bitmap_scan at h
  split at h
  · obtain ⟨_, b1, c⟩ := scan_loop_some _ _ _ _ _ _ h
    refine ⟨by omega, ?_⟩
    intro k hk
    have := (contains_false b idx cnt (!v)).1 c k hk
    simpa using this
  · cases h

theorem scan_total (b : Bitmap) (cnt : Nat) (v : Bool) (j : Nat)
    (h1 : j + cnt ≤ b.size) (h2 : ∀ k, k < cnt → b.bits (j + k) = v) :
    ∃ idx, bitmap_scan b 0 cnt v = some idx := by
  unfold bitmap_scan
  rw [if_pos (by omega)]
  apply scan_loop_total b cnt v _ 0 j (by omega) (by omega)
  rw [contains_false]
  intro k hk
  simpa using h2 k hk

theorem swap_out_loop_spec (frame : Buf) (index : Nat) (n i : Nat) (blk : Nat → Buf) (s : Nat) :
    swap_out_loop frame index n i blk s =
      if index + i ≤ s ∧ s < index + i + n then ptr_add frame ((s - index) * BLOCK_SECTOR_SIZE)
      else blk s := by
  induction n generalizing i blk with
  | zero =>
    unfold swap_out_loop
    rw [if_neg (by omega)]
  | succ n ih =>
    unfold swap_out_loop
    rw [ih]
    by_cases h1 : index + (i + 1) ≤ s ∧ s < index + (i + 1) + n
    · rw [if_pos h1, if_pos (by omega)]
    · rw [if_neg h1]
      by_cases h2 : s = index + i
      · rw [if_pos h2, if_pos (by omega)]
        have e : s - index = i := by omega
        rw [e]
      · rw [if_neg h2, if_neg (by omega)]

theorem swap_in_loop_spec (index : Nat) (n i : Nat) (sw : Swap) (frame : Buf)
    (h1 : index + i + n ≤ sw.swap_bitmap.size)
    (h2 : ∀ k, k < n → sw.swap_bitmap.bits (index + i + k) = true) :
    swap_in_loop index n i sw frame = Except.ok
      ({ sw with
          swap_bitmap :=
            { sw.swap_bitmap with
              bits := fun j =>
                if index + i ≤ j ∧ j < index + i + n then false else sw.swap_bitmap.bits j } },
       fun j => if i * 512 ≤ j ∧ j < (i + n) * 512
                then sw.swap_block (index + j / 512) (j % 512) else frame j) := by
  induction n generalizing i sw frame with
  | zero =>
    unfold swap_in_loop
    show Except.ok _ = Except.ok _
    rw [Except.ok.injEq, Prod.mk.injEq]
    constructor
    · cases sw with
      | mk bm blk =>
        cases bm
        simp only [Swap.mk.injEq, Bitmap.mk.injEq, and_true]
        funext j
        rw [if_neg (by omega)]
    · funext j
      rw [if_neg (by omega)]
  | succ n ih =>
    unfold swap_in_loop
    have hb : sw.swap_bitmap.bits (index + i) = true := h2 0 (by omega)
    simp only [bitmap_test, bitmap_set, bind, Except.bind, pure, Except.pure]
    rw [if_pos (by omega : index + i < sw.swap_bitmap.size)]
    dsimp only
    rw [if_neg (by rw [hb]; simp), if_pos (by omega : index + i < sw.swap_bitmap.size)]
    dsimp only
    rw [ih]
    · rw [Except.ok.injEq, Prod.mk.injEq]
      constructor
      · simp only [Swap.mk.injEq, Bitmap.mk.injEq, and_true]
        funext j
        by_cases a : index + (i + 1) ≤ j ∧ j < index + (i + 1) + n
        · rw [if_pos a, if_pos (by omega)]
        · rw [if_neg a]
          by_cases c : j = index + i
          · rw [if_pos c, if_pos (by omega)]
          · rw [if_neg c, if_neg (by omega)]
      · funext j
        by_cases a : (i + 1) * 512 ≤ j ∧ j < (i + 1 + n) * 512
        · rw [if_pos a, if_pos (by omega)]
        · rw [if_neg a]
          simp only [memcpy, BLOCK_SECTOR_SIZE]
          by_cases c : i * 512 ≤ j ∧ j < i * 512 + 512
          · rw [if_pos c, if_pos (by omega)]
            have e1 : j / 512 = i := by omega
            have e2 : j % 512 = j - i * 512 := by omega
            rw [e1, e2, Nat.zero_add]
          · rw [if_neg c, if_neg (by omega)]
    · show index + (i + 1) + n ≤ sw.swap_bitmap.size
      omega
    · intro k hk
      show (if index + (i + 1) + k = index + i then false else _) = true
      rw [if_neg (by omega)]
      have := h2 (k + 1) (by omega)
      rw [← this]
      congr 1
      omega

/-- C7 (swap round trip): whenever the swap bitmap has a free run of 8 sectors,
`swap_out` of a frame succeeds and marks the entry evicted, and `swap_in` with
the slot index stamped on the entry, into any frame, succeeds, leaves that frame
equal to the original content on all 4096 bytes and leaves the swap bitmap equal
to its state before `swap_out`. -/
theorem swap_round_trip (sw : Swap) (frame dst : Buf) (spte : SPT_entry)
    (hfree : ∃ j, j + 8 ≤ sw.swap_bitmap.size ∧ ∀ k, k < 8 → sw.swap_bitmap.bits (j + k) = false) :
    ∃ sw1 spte1 sw2 frame2,
      swap_out sw frame spte = Except.ok (sw1, spte1) ∧
      spte1.evicted = true ∧
      swap_in sw1 dst spte1.index = Except.ok (sw2, frame2) ∧
      (∀ j, j < 4096 → frame2 j = frame j) ∧
      (∀ j, 4096 ≤ j → frame2 j = dst j) ∧
      sw2.swap_bitmap = sw.swap_bitmap := by
  obtain ⟨j, hj1, hj2⟩ := hfree
  obtain ⟨idx, hidx⟩ := scan_total sw.swap_bitmap 8 false j hj1 hj2
  obtain ⟨hs1, hs2⟩ := scan_some _ _ _ _ hidx
  have hout : swap_out sw frame spte = Except.ok
      ({ swap_bitmap :=
          { sw.swap_bitmap with
            bits := fun j => if idx ≤ j ∧ j < idx + 8 then !false else sw.swap_bitmap.bits j }
         swap_block := swap_out_loop frame idx 8 0 sw.swap_block },
       { spte with index := idx, evicted := true }) := by
    simp only [swap_out, bitmap_scan_and_flip, hidx]
    rfl
  have hin := swap_in_loop_spec idx 8 0
    { swap_bitmap :=
        { sw.swap_bitmap with
          bits := fun j => if idx ≤ j ∧ j < idx + 8 then !false else sw.swap_bitmap.bits j }
      swap_block := swap_out_loop frame idx 8 0 sw.swap_block } dst hs1
    (by
      intro k hk
      show (if idx ≤ idx + 0 + k ∧ idx + 0 + k < idx + 8 then !false else _) = true
      rw [if_pos (by omega)]
      rfl)
  refine ⟨_, _, _, _, hout, rfl, hin, ?_, ?_, ?_⟩
  · intro j hj
    show (if 0 * 512 ≤ j ∧ j < (0 + 8) * 512
      then swap_out_loop frame idx 8 0 sw.swap_block (idx + j / 512) (j % 512) else dst j) = frame j
    rw [if_pos (by omega), swap_out_loop_spec, if_pos (by omega)]
    simp only [ptr_add, BLOCK_SECTOR_SIZE]
    congr 1
    omega
  · intro j hj
    show (if 0 * 512 ≤ j ∧ j < (0 + 8) * 512 then _ else dst j) = dst j
    rw [if_neg (by omega)]
  · cases sw with
    | mk bm blk =>
      cases bm with
      | mk bits size =>
        simp only [Bitmap.mk.injEq, and_true]
        funext j
        by_cases a : idx + 0 ≤ j ∧ j < idx + 0 + 8
        · rw [if_pos a]
          have := hs2 (j - idx) (by omega)
          simp only at this
          rw [← this]
          congr 1
          omega
        · rw [if_neg a]
          show (if idx ≤ j ∧ j < idx + 8 then !false else bits j) = bits j
          rw [if_neg (by omega)]

/-- Witness of C7: a 32-sector swap device whose first slot is taken, the frame
holding 0, 1, 2, ... (mod 251), swapped in over a zeroed frame. -/
theorem swap_round_trip_witness :
    (∃ j, j + 8 ≤ ex_swap.swap_bitmap.size ∧ ∀ k, k < 8 → ex_swap.swap_bitmap.bits (j + k) = false) ∧
    ∃ sw1 spte1 sw2 frame2,
      swap_out ex_swap ex_frame ex_spte = Except.ok (sw1, spte1) ∧
      spte1.evicted = true ∧
      swap_in sw1 zeros spte1.index = Except.ok (sw2, frame2) ∧
      (∀ j, j < 4096 → frame2 j = ex_frame j) ∧
      (∀ j, 4096 ≤ j → frame2 j = zeros j) ∧
      sw2.swap_bitmap = ex_swap.swap_bitmap :=
  have h : ∃ j, j + 8 ≤ ex_swap.swap_bitmap.size ∧
      ∀ k, k < 8 → ex_swap.swap_bitmap.bits (j + k) = false :=
    ⟨8, by decide, by
      intro k hk
      simp only [ex_swap, decide_eq_false_iff_not]
      omega⟩
  ⟨h, swap_round_trip ex_swap ex_frame zeros ex_spte h⟩

theorem find_erase {α : Type} (p q : α → Bool) (l : List α)
    (h : ∀ x, q x = true → p x = false) : (l.eraseP q).find? p = l.find? p := by
  induction l with
  | nil => rfl
  | cons x t ih =>
    by_cases hq : q x = true
    · rw [List.eraseP_cons_of_pos hq, List.find?_cons, h x hq]
    · rw [List.eraseP_cons_of_neg hq, List.find?_cons, List.find?_cons, ih]

theorem find_none_erase {α : Type} (p q : α → Bool) (l : List α)
    (h : l.find? p = none) : (l.eraseP q).find? p = none := by
  rw [List.find?_eq_none] at h ⊢
  intro x hx
  exact h x (List.mem_of_mem_eraseP hx)

theorem pg_round_down_aligned (pg : Nat) (h : pg % 4096 = 0) : pg_round_down pg = pg := by
  unfold pg_round_down PGSIZE
  omega

theorem lookup_some (st : VM) (t pg a : Nat) (h : SPT_lookup st t pg = a) (ha : a ≠ 0) :
    (st.SPT t).find? (spt_key_is st (pg_round_down pg)) = some a := by
  unfold SPT_lookup at h
  split at h
  · rename_i b hb
    rw [hb, h]
  · exact absurd h.symm ha

theorem key_is_page (st : VM) (page a : Nat) (e : SPT_entry) (h : st.spt_heap a = some e)
    (hk : spt_key_is st page a = true) : e.page = page := by
  unfold spt_key_is at hk
  rw [h] at hk
  simpa using hk

theorem fte_key_is_frame (st : VM) (frame a : Nat) (f : frame_table_entry)
    (h : st.fte_heap a = some f) (hk : fte_key_is st frame a = true) : f.frame = frame := by
  unfold fte_key_is at hk
  rw [h] at hk
  simpa using hk

theorem apply_write_spec (st : VM) (file buffer size ofs : Nat) :
    (file_write_at st file buffer size ofs).files =
      apply_write st.files
        { file := file, data := bytes (ptr_add st.mem buffer) size, ofs := ofs } := by
  funext g i
  simp only [file_write_at, apply_write, bytes, List.length_map, List.length_range]
  by_cases hg : g = file
  · subst hg
    rw [if_pos rfl]
    unfold memcpy
    by_cases hi : ofs ≤ i ∧ i < ofs + size
    · rw [if_pos hi, if_pos ⟨rfl, hi⟩]
      have : i - ofs < size := by omega
      simp [List.getD, this, ptr_add]
    · rw [if_neg hi, if_neg (fun h => hi h.2)]
  · rw [if_neg hg, if_neg (fun h => hg h.1)]


theorem munmap_page_dirty (st : VM) (pg : Nat) (e : SPT_entry) (f : Nat)
    (ha : SPT_lookup st st.cur pg ≠ 0)
    (he : st.spt_heap (SPT_lookup st st.cur pg) = some e)
    (hdirty : pagedir_is_dirty (st.pagedir st.cur) e.page = true)
    (hfr : e.frame ≠ 0)
    (hf : st.frame_table.find? (fte_key_is st e.frame) = some f) (hf0 : f ≠ 0)
    (hfh : st.fte_heap f =
      some { owner := st.cur, frame := e.frame, aux := SPT_lookup st st.cur pg }) :
    munmap_page st pg = Except.ok
      { st with
        files := (file_write_at st e.mmap_file e.frame e.mmap_read_bytes e.mmap_offset).files
        writes := st.writes ++
          [{ file := e.mmap_file, data := bytes (ptr_add st.mem e.frame) e.mmap_read_bytes,
             ofs := e.mmap_offset }]
        pagedir := fun u =>
          if u = st.cur then pagedir_clear_page (st.pagedir st.cur) e.page else st.pagedir u
        frame_table := st.frame_table.eraseP (fte_key_is st e.frame)
        free_pages := e.frame :: st.free_pages
        fte_heap := fun q => if q = f then none else st.fte_heap q
        SPT := fun u =>
          if u = st.cur then (st.SPT st.cur).eraseP (spt_key_is st e.page) else st.SPT u
        spt_heap := fun q => if q = SPT_lookup st st.cur pg then none else st.spt_heap q } := by
  unfold munmap_page
  simp only [VM.spte, he, bind, Except.bind, pure, Except.pure]
  rw [if_pos hdirty]
  simp only [fte_lookup, if_neg hfr, hf, pure, Except.pure, if_neg hf0]
  simp only [frame_remove, if_neg hf0, VM.fte, VM.spte, file_write_at, hfh, he, bind,
    Except.bind, pure, Except.pure, SPT_remove, if_neg ha]
  rfl

theorem munmap_page_clean (st : VM) (pg : Nat) (e : SPT_entry)
    (ha : SPT_lookup st st.cur pg ≠ 0)
    (he : st.spt_heap (SPT_lookup st st.cur pg) = some e)
    (hdirty : ¬ pagedir_is_dirty (st.pagedir st.cur) e.page = true) :
    munmap_page st pg = Except.ok
      { st with
        SPT := fun u =>
          if u = st.cur then (st.SPT st.cur).eraseP (spt_key_is st e.page) else st.SPT u
        spt_heap := fun q => if q = SPT_lookup st st.cur pg then none else st.spt_heap q } := by
  unfold munmap_page
  simp only [VM.spte, he, bind, Except.bind, pure, Except.pure]
  rw [if_neg hdirty]
  simp only [SPT_remove, if_neg ha, VM.spte, he, bind, Except.bind, pure, Except.pure]

theorem fte_key_other (st : VM) (f : Nat) (x : frame_table_entry) (fr : Nat)
    (hfh : st.fte_heap f = some x) (hne : x.frame ≠ fr) (h : Nat → Option frame_table_entry)
    (hh : h = fun q => if q = f then none else st.fte_heap q) :
    fte_key_is { st with fte_heap := h } fr = fte_key_is st fr := by
  funext y
  subst hh
  unfold fte_key_is
  by_cases hy : y = f
  · subst hy
    simp only [if_pos rfl, hfh]
    simpa using hne
  · simp only [if_neg hy]

theorem munmap_page_spec (st : VM) (pg : Nat) (hpg : pg % 4096 = 0) (hm : MappedPage st pg) :
    ∃ st1, munmap_page st pg = Except.ok st1 ∧
      PageGone st st1 pg (SPT_lookup st st.cur pg) ∧
      st1.writes = st.writes ++ (write_back_of st pg).toList ∧
      st1.files = (write_back_of st pg).toList.foldl apply_write st.files := by
  obtain ⟨e, ha, he, hd⟩ := hm
  have hfind := lookup_some st st.cur pg _ rfl ha
  rw [pg_round_down_aligned pg hpg] at hfind
  have hkey : e.page = pg := key_is_page st pg _ e he (List.find?_some hfind)
  by_cases hdirty : pagedir_is_dirty (st.pagedir st.cur) e.page = true
  · obtain ⟨hfr, f, hf, hf0, hfh⟩ := hd hdirty
    have hwb : write_back_of st pg = some
        { file := e.mmap_file, data := bytes (ptr_add st.mem e.frame) e.mmap_read_bytes,
          ofs := e.mmap_offset } := by
      unfold write_back_of
      rw [he]
      simp only [hdirty, if_true]
    refine ⟨_, munmap_page_dirty st pg e f ha he hdirty hfr hf hf0 hfh,
      ⟨rfl, rfl, rfl, ?_, ?_, ?_⟩, ?_, ?_⟩
    · show (if st.cur = st.cur then _ else _) = _
      rw [if_pos rfl, hkey]
    · intro p hp
      show (if st.cur = st.cur then pagedir_clear_page _ _ else _) p = _
      rw [if_pos rfl]
      unfold pagedir_clear_page
      rw [if_neg (by rw [hkey]; exact hp)]
    · intro fr f1 x h1 h2 h3
      have hff : f1 ≠ f := by
        intro h
        subst h
        rw [hfh] at h2
        cases h2
        exact h3 rfl
      have hfr1 : e.frame ≠ fr := by
        intro h
        subst h
        rw [hf] at h1
        cases h1
        exact hff rfl
      constructor
      · show List.find? (fte_key_is _ fr) (st.frame_table.eraseP (fte_key_is st e.frame)) = _
        have hk := fte_key_other st f _ fr hfh hfr1 _ rfl
        rw [← h1, ← find_erase (fte_key_is st fr) (fte_key_is st e.frame)]
        · apply find_congr
          intro y _
          have := congrFun hk y
          rw [← this]
          rfl
        · intro y hy
          unfold fte_key_is at hy ⊢
          cases hyh : st.fte_heap y with
          | none => rfl
          | some z =>
            rw [hyh] at hy
            simp only [beq_iff_eq] at hy
            simp only [beq_eq_false_iff_ne, ne_eq]
            rw [hy]
            exact hfr1
      · show (if f1 = f then none else st.fte_heap f1) = some x
        rw [if_neg hff, h2]
    · rw [hwb]
      rfl
    · rw [hwb]
      exact apply_write_spec st _ _ _ _
  · have hwb : write_back_of st pg = none := by
      unfold write_back_of
      rw [he]
      simp only [hdirty]
      rfl
    refine ⟨_, munmap_page_clean st pg e ha he hdirty,
      ⟨rfl, rfl, rfl, ?_, ?_, ?_⟩, ?_, ?_⟩
    · show (if st.cur = st.cur then _ else _) = _
      rw [if_pos rfl, hkey]
    · intro p _
      rfl
    · intro fr f1 x h1 h2 _
      exact ⟨h1, h2⟩
    · rw [hwb]
      simp
    · rw [hwb]
      rfl

theorem spt_key_other (st st1 : VM) (a : Nat) (e : SPT_entry) (pg1 : Nat)
    (he : st.spt_heap a = some e) (hne : e.page ≠ pg1)
    (hh : st1.spt_heap = fun q => if q = a then none else st.spt_heap q) :
    spt_key_is st1 pg1 = spt_key_is st pg1 := by
  funext y
  unfold spt_key_is
  rw [hh]
  by_cases hy : y = a
  · subst hy
    simp only [if_pos rfl, he]
    simpa using hne
  · simp only [if_neg hy]

theorem lookup_after (st st1 : VM) (pg a : Nat) (e : SPT_entry)
    (hg : PageGone st st1 pg a) (he : st.spt_heap a = some e) (hkey : e.page = pg)
    (pg1 : Nat) (hp1 : pg1 % 4096 = 0) (hne : pg1 ≠ pg) :
    SPT_lookup st1 st1.cur pg1 = SPT_lookup st st.cur pg1 := by
  obtain ⟨h1, _, h3, h4, _, _⟩ := hg
  unfold SPT_lookup
  rw [h1, h4, pg_round_down_aligned pg1 hp1,
    spt_key_other st st1 a e pg1 he (by rw [hkey]; exact fun h => hne h.symm) h3,
    find_erase]
  intro x hx
  unfold spt_key_is at hx ⊢
  cases hxh : st.spt_heap x with
  | none => rfl
  | some z =>
    rw [hxh] at hx
    simp only [beq_iff_eq] at hx
    simp only [beq_eq_false_iff_ne, ne_eq]
    rw [hx]
    exact fun h => hne h.symm

theorem mapped_after (st st1 : VM) (pg : Nat) (e : SPT_entry)
    (hg : PageGone st st1 pg (SPT_lookup st st.cur pg))
    (he : st.spt_heap (SPT_lookup st st.cur pg) = some e) (hkey : e.page = pg)
    (pg1 : Nat) (hp1 : pg1 % 4096 = 0) (hne : pg1 ≠ pg) (hm : MappedPage st pg1) :
    MappedPage st1 pg1 ∧ write_back_of st1 pg1 = write_back_of st pg1 := by
  have hl := lookup_after st st1 pg _ e hg he hkey pg1 hp1 hne
  obtain ⟨h1, h2, h3, h4, h5, h6⟩ := hg
  obtain ⟨e1, ha1, he1, hd1⟩ := hm
  have hfind1 := lookup_some st st.cur pg1 _ rfl ha1
  rw [pg_round_down_aligned pg1 hp1] at hfind1
  have hkey1 : e1.page = pg1 := key_is_page st pg1 _ e1 he1 (List.find?_some hfind1)
  have hane : SPT_lookup st st.cur pg1 ≠ SPT_lookup st st.cur pg := by
    intro h
    rw [h, he] at he1
    cases he1
    exact hne (hkey1.symm.trans hkey)
  have hheap : st1.spt_heap (SPT_lookup st st.cur pg1) = some e1 := by
    rw [h3]
    show (if _ then _ else _) = _
    rw [if_neg hane, he1]
  have hdir : pagedir_is_dirty (st1.pagedir st1.cur) e1.page =
      pagedir_is_dirty (st.pagedir st.cur) e1.page := by
    unfold pagedir_is_dirty
    rw [h1, h5 e1.page (by rw [hkey1]; exact hne)]
  constructor
  · refine ⟨e1, by rw [hl]; exact ha1, by rw [hl]; exact hheap, ?_⟩
    intro hd
    rw [hdir] at hd
    obtain ⟨hfr, f, hf, hf0, hfh⟩ := hd1 hd
    refine ⟨hfr, f, ?_, hf0, ?_⟩
    · exact (h6 e1.frame f _ hf hfh hane).1
    · rw [hl, h1]
      exact (h6 e1.frame f _ hf hfh hane).2
  · unfold write_back_of
    rw [hl, hheap, he1]
    dsimp only
    rw [hdir, h2]

theorem unmapped_after (st st1 : VM) (pg a : Nat) (e : SPT_entry)
    (hg : PageGone st st1 pg a) (he : st.spt_heap a = some e) (hkey : e.page = pg)
    (hmem : a ∈ st.SPT st.cur) (hdist : SPTDistinct st) :
    (st1.SPT st1.cur).find? (spt_key_is st1 pg) = none := by
  obtain ⟨h1, _, h3, h4, _, _⟩ := hg
  rw [h1, h4, List.find?_eq_none]
  intro x hx hk
  have hxm : x ∈ st.SPT st.cur := List.mem_of_mem_eraseP hx
  unfold spt_key_is at hk
  rw [h3] at hk
  by_cases hxa : x = a
  · simp [hxa] at hk
  · simp only [if_neg hxa] at hk
    cases hxh : st.spt_heap x with
    | none => simp [hxh] at hk
    | some z =>
      rw [hxh] at hk
      simp only [beq_iff_eq] at hk
      exact hxa (hdist x a z e hxm hmem hxh he (hk.trans hkey.symm))

theorem unmapped_kept (st st1 : VM) (pg a : Nat) (hg : PageGone st st1 pg a) (pg1 : Nat)
    (h : (st.SPT st.cur).find? (spt_key_is st pg1) = none) :
    (st1.SPT st1.cur).find? (spt_key_is st1 pg1) = none := by
  obtain ⟨h1, _, h3, h4, _, _⟩ := hg
  rw [h1, h4]
  rw [List.find?_eq_none] at h ⊢
  intro x hx hk
  apply h x (List.mem_of_mem_eraseP hx)
  unfold spt_key_is at hk ⊢
  rw [h3] at hk
  by_cases hxa : x = a
  · simp [hxa] at hk
  · simpa only [if_neg hxa] using hk

theorem distinct_after (st st1 : VM) (pg a : Nat) (hg : PageGone st st1 pg a)
    (hdist : SPTDistinct st) : SPTDistinct st1 := by
  obtain ⟨h1, _, h3, h4, _, _⟩ := hg
  intro x y ex ey hx hy hxh hyh hp
  rw [h1, h4] at hx hy
  rw [h3] at hxh hyh
  by_cases hxa : x = a
  · simp [hxa] at hxh
  · by_cases hya : y = a
    · simp [hya] at hyh
    · simp only [if_neg hxa] at hxh
      simp only [if_neg hya] at hyh
      exact hdist x y ex ey (List.mem_of_mem_eraseP hx) (List.mem_of_mem_eraseP hy) hxh hyh hp

theorem pages_from_mem (addr cnt pg : Nat) (h : pg ∈ pages_from addr cnt) :
    ∃ k, k < cnt ∧ pg = addr + 4096 * k := by
  induction cnt generalizing addr with
  | zero => simp [pages_from] at h
  | succ n ih =>
    unfold pages_from at h
    rcases List.mem_cons.1 h with h | h
    · exact ⟨0, by omega, by omega⟩
    · obtain ⟨k, hk, e⟩ := ih _ h
      refine ⟨k + 1, by omega, ?_⟩
      rw [e]
      unfold PGSIZE
      omega

theorem munmap_loop_spec (end_addr : Nat) (cnt : Nat) :
    ∀ (n addr : Nat) (st : VM), cnt ≤ n → addr % 4096 = 0 →
      addr + 4096 * cnt < 4294967296 → end_addr ≤ addr + 4096 * cnt →
      (∀ k, k < cnt → addr + 4096 * k < end_addr) →
      (∀ pg, pg ∈ pages_from addr cnt → MappedPage st pg) →
      ∃ st1, munmap_loop end_addr n addr st = Except.ok st1 ∧ st1.cur = st.cur ∧
        st1.writes = st.writes ++ (pages_from addr cnt).filterMap (write_back_of st) ∧
        st1.files =
          ((pages_from addr cnt).filterMap (write_back_of st)).foldl apply_write st.files ∧
        (∀ pg, (st.SPT st.cur).find? (spt_key_is st pg) = none →
          (st1.SPT st1.cur).find? (spt_key_is st1 pg) = none) ∧
        (SPTDistinct st → ∀ pg, pg ∈ pages_from addr cnt →
          (st1.SPT st1.cur).find? (spt_key_is st1 pg) = none) := by
  induction cnt with
  | zero =>
    intro n addr st _ _ _ hend _ _
    have hge : ¬ addr < end_addr := by omega
    refine ⟨st, ?_, rfl, ?_, ?_, fun _ h => h, ?_⟩
    · cases n with
      | zero =>
        unfold munmap_loop
        rw [if_neg hge]
        rfl
      | succ m =>
        unfold munmap_loop
        rw [if_neg hge]
        rfl
    · simp [pages_from]
    · simp [pages_from]
    · intro _ pg hpg
      simp [pages_from] at hpg
  | succ c ih =>
    intro n addr st hn hal hwrap hend hlo hmap
    cases n with
    | zero => omega
    | succ m =>
      have hlt : addr < end_addr := by
        have := hlo 0 (by omega)
        omega
      have hm0 : MappedPage st addr := hmap addr (by unfold pages_from; exact List.mem_cons_self _ _)
      obtain ⟨st1, hrun, hg, hw, hf⟩ := munmap_page_spec st addr hal hm0
      obtain ⟨e, ha, he, _⟩ := hm0
      have hfind := lookup_some st st.cur addr _ rfl ha
      rw [pg_round_down_aligned addr hal] at hfind
      have hkey : e.page = addr := key_is_page st addr _ e he (List.find?_some hfind)
      have hamem : SPT_lookup st st.cur addr ∈ st.SPT st.cur := List.mem_of_find?_eq_some hfind
      have hafter : ∀ pg, pg ∈ pages_from (addr + PGSIZE) c →
          MappedPage st1 pg ∧ write_back_of st1 pg = write_back_of st pg := by
        intro pg hpg
        obtain ⟨k, hk, ek⟩ := pages_from_mem _ _ _ hpg
        unfold PGSIZE at ek
        apply mapped_after st st1 addr e hg he hkey pg (by omega) (by omega)
        exact hmap pg (by unfold pages_from; exact List.mem_cons_of_mem _ hpg)
      have hnext : (addr + PGSIZE) % 4294967296 = addr + PGSIZE := by
        unfold PGSIZE
        omega
      obtain ⟨st2, hrun2, hc2, hw2, hf2, hk2, hu2⟩ := ih m (addr + PGSIZE) st1 (by omega)
        (by unfold PGSIZE; omega) (by unfold PGSIZE; omega) (by unfold PGSIZE; omega)
        (by
          intro k hk
          have := hlo (k + 1) (by omega)
          unfold PGSIZE
          omega)
        (fun pg hpg => (hafter pg hpg).1)
      have hcongr : (pages_from (addr + PGSIZE) c).filterMap (write_back_of st1) =
          (pages_from (addr + PGSIZE) c).filterMap (write_back_of st) := by
        apply List.filterMap_congr
        intro pg hpg
        exact (hafter pg hpg).2
      have hsplit : (pages_from addr (c + 1)).filterMap (write_back_of st) =
          (write_back_of st addr).toList ++
            (pages_from (addr + PGSIZE) c).filterMap (write_back_of st) := by
        show (addr :: pages_from (addr + PGSIZE) c).filterMap _ = _
        cases hwb : write_back_of st addr with
        | none => simp [List.filterMap_cons, hwb]
        | some w => simp [List.filterMap_cons, hwb]
      refine ⟨st2, ?_, ?_, ?_, ?_, ?_, ?_⟩
      · unfold munmap_loop
        rw [if_pos hlt, hrun]
        show munmap_loop end_addr m ((addr + PGSIZE) % 4294967296) st1 = _
        rw [hnext, hrun2]
      · rw [hc2, hg.1]
      · rw [hw2, hw, hcongr, hsplit, List.append_assoc]
      · rw [hf2, hf, hcongr, hsplit, List.foldl_append]
      · intro pg hpg
        exact hk2 pg (unmapped_kept st st1 addr _ hg pg hpg)
      · intro hdist pg hpg
        unfold pages_from at hpg
        rcases List.mem_cons.1 hpg with h | h
        · rw [h]
          exact hk2 addr (unmapped_after st st1 addr _ e hg he hkey hamem hdist)
        · exact hu2 (distinct_after st st1 addr _ hg hdist) pg h

/-- `munmap` while every dirty page of the mapping is resident: for a mapping
inside user space whose pages all have an entry in the table of the running
thread, each dirty one with its frame in the frame table, `munmap` returns; the
calls of `file_write_at` it adds are, in page order, exactly those of the pages
that the page table has dirty, each to the file of the entry at its
`mmap_offset` with the first `mmap_read_bytes` bytes of its frame, and none for
a clean or never-faulted page; the files change by these writes only; and
afterwards no page of the range has an entry. -/
theorem munmap_write_back (st : VM) (mapping : Int) (me : mmap_entry)
    (hme : mapid_to_mmap_entry st mapping = some me)
    (hal : me.addr % PGSIZE = 0)
    (hrange : me.addr + me.length ≤ PHYS_BASE)
    (hmap : ∀ pg, pg ∈ mmap_pages me → MappedPage st pg)
    (hdist : SPTDistinct st) :
    ∃ st1, munmap st mapping = Except.ok st1 ∧
      st1.writes = st.writes ++ (mmap_pages me).filterMap (write_back_of st) ∧
      st1.files = ((mmap_pages me).filterMap (write_back_of st)).foldl apply_write st.files ∧
      ∀ pg, pg ∈ mmap_pages me → SPT_lookup st1 st1.cur pg = 0 := by
  unfold PGSIZE at hal
  unfold PHYS_BASE at hrange
  have hcnt : (me.length + (PGSIZE - 1)) / PGSIZE = (me.length + 4095) / 4096 := rfl
  obtain ⟨st1, hrun, hc, hw, hf, _, hu⟩ := munmap_loop_spec ((me.addr + me.length) % 4294967296)
    ((me.length + 4095) / 4096) 1048577 me.addr st (by omega) hal (by omega) (by omega)
    (by intro k hk; omega) (by
      intro pg hpg
      apply hmap
      unfold mmap_pages
      rw [hcnt]
      exact hpg)
  refine ⟨{ st1 with
      mmap_list := fun u =>
        if u = st1.cur then (st1.mmap_list st1.cur).erase me else st1.mmap_list u
      open_files := st1.open_files.erase me.file }, ?_, ?_, ?_, ?_⟩
  · unfold munmap
    rw [hme]
    simp only [bind, Except.bind, pure, Except.pure, hrun]
  · unfold mmap_pages
    rw [hcnt]
    exact hw
  · unfold mmap_pages
    rw [hcnt]
    exact hf
  · intro pg hpg
    unfold mmap_pages at hpg
    rw [hcnt] at hpg
    obtain ⟨k, _, ek⟩ := pages_from_mem _ _ _ hpg
    have := hu hdist pg hpg
    unfold SPT_lookup
    rw [pg_round_down_aligned pg (by omega)]
    show (match (st1.SPT st1.cur).find? (spt_key_is st1 pg) with
      | some a => a
      | none => 0) = 0
    rw [this]

/-- The 3-page file of which only page 1 is dirty and resident: `munmap` writes
page 1 and leaves pages 0 and 2 of the file alone. -/
theorem munmap_write_back_witness :
    (mapid_to_mmap_entry ex_vm 0 = some ex_mapping ∧ ex_mapping.addr % PGSIZE = 0 ∧
      ex_mapping.addr + ex_mapping.length ≤ PHYS_BASE ∧
      (∀ pg, pg ∈ mmap_pages ex_mapping → MappedPage ex_vm pg) ∧ SPTDistinct ex_vm) ∧
    (mmap_pages ex_mapping).filterMap (write_back_of ex_vm) =
      [{ file := 3, data := bytes (ptr_add ex_vm.mem 0xc0100000) 4096, ofs := 4096 }] ∧
    ∃ st1, munmap ex_vm 0 = Except.ok st1 ∧
      st1.writes = ex_vm.writes ++ (mmap_pages ex_mapping).filterMap (write_back_of ex_vm) ∧
      st1.files =
        ((mmap_pages ex_mapping).filterMap (write_back_of ex_vm)).foldl apply_write
          ex_vm.files ∧
      ∀ pg, pg ∈ mmap_pages ex_mapping → SPT_lookup st1 st1.cur pg = 0 :=
  have h1 : mapid_to_mmap_entry ex_vm 0 = some ex_mapping := by decide
  have h2 : ex_mapping.addr % PGSIZE = 0 := by decide
  have h3 : ex_mapping.addr + ex_mapping.length ≤ PHYS_BASE := by decide
  have h4 : ∀ pg, pg ∈ mmap_pages ex_mapping → MappedPage ex_vm pg := by
    intro pg hpg
    have hp : mmap_pages ex_mapping = [0x10000000, 0x10001000, 0x10002000] := by decide
    rw [hp] at hpg
    simp only [List.mem_cons, List.mem_singleton, List.not_mem_nil, or_false] at hpg
    rcases hpg with h | h | h
    · subst h
      exact ⟨ex_mmap_spte 0 0, by decide, by decide, fun h => absurd h (by decide)⟩
    · subst h
      exact ⟨ex_mmap_spte 1 0xc0100000, by decide, by decide,
        fun _ => ⟨by decide, 200, by decide, by decide, by decide⟩⟩
    · subst h
      exact ⟨ex_mmap_spte 2 0, by decide, by decide, fun h => absurd h (by decide)⟩
  have h5 : SPTDistinct ex_vm := by
    intro a b ea eb ha hb hea heb hp
    have hl : ex_vm.SPT ex_vm.cur = [100, 101, 102] := by decide
    rw [hl] at ha hb
    simp only [List.mem_cons, List.mem_singleton, List.not_mem_nil, or_false] at ha hb
    rcases ha with ha | ha | ha <;> rcases hb with hb | hb | hb <;> subst ha <;> subst hb <;>
      first
      | rfl
      | (exfalso
         have e1 := Option.some.inj hea
         have e2 := Option.some.inj heb
         rw [← e1, ← e2] at hp
         revert hp
         decide)
  ⟨⟨h1, h2, h3, h4, h5⟩, by rfl, munmap_write_back ex_vm 0 ex_mapping h1 h2 h3 h4 h5⟩

set_option maxRecDepth 1000000 in
/-- C9 at a failing input: page 1 of the mapped file is dirty, is evicted by
`frame_alloc` (its 4096 bytes 0x42 are written back to offset 4096 of the file)
and its frame is reused for the zeroed page 0x20000000.  At the `munmap` page 1
is not resident (its frame in the page table is 0), so the claim has `munmap`
write nothing for it.  `munmap` tests the dirty bit alone, which the eviction
left set, and looks the frame of the entry up, which the eviction left in the
entry: it writes the 4096 bytes of the reused frame, all 0, to offset 4096 of
the file, over the bytes 0x42, and removes the frame from under page
0x20000000. -/
theorem munmap_writes_evicted_page :
    ex_stale_munmap.toOption =
      some ([[3, 4096, 4096, 0x42, 0x42], [3, 4096, 4096, 0, 0]],
        [0, 1, 0xc0100000, 0x42, 0x42, 0, 0, 0]) := by
  decide!

/-- C26 (on-disk inode size): the members of `struct inode_disk` lie at the
offsets 0, 4, 44, 48, 52, 56, 60 and 64, the 1-byte `isdir` being padded to 4
bytes by the alignment of `entry_cnt`, and `sizeof (struct inode_disk)` is
exactly `BLOCK_SECTOR_SIZE` = 512, so the size assertion of `inode_create`
holds. -/
theorem inode_disk_size :
    struct_sizeof inode_disk_fields = BLOCK_SECTOR_SIZE ∧
    (struct_offsets 0 inode_disk_fields).1 = [0, 4, 44, 48, 52, 56, 60, 64] ∧
    4 + 4 * NUM_DIRECT + 4 + 4 + 4 + 4 + 4 + 4 * 112 = BLOCK_SECTOR_SIZE := by
  decide

theorem scan_loop_first (b : Bitmap) (cnt : Nat) (v : Bool) (n i idx : Nat)
    (h : bitmap_scan_loop b cnt v n i = some idx) :
    ∀ j, i ≤ j → j < idx → bitmap_contains b j cnt (!v) = true := by
  induction n generalizing i with
  | zero => simp [bitmap_scan_loop] at h
  | succ n ih =>
    unfold bitmap_scan_loop at h
    split at h
    · rename_i hc
      intro j h1 h2
      by_cases e : j = i
      · rw [e]
        exact hc
      · exact ih (i + 1) h j (by omega) h2
    · cases h
      intro j h1 h2
      omega

theorem scan_first (b : Bitmap) (cnt : Nat) (v : Bool) (idx : Nat)
    (h : bitmap_scan b 0 cnt v = some idx) :
    ∀ j, j < idx → ∃ k, k < cnt ∧ b.bits (j + k) = !v := by
  unfold bitmap_scan at h
  split at h
  · intro j hj
    have := scan_loop_first _ _ _ _ _ _ h j (Nat.zero_le _) hj
    unfold bitmap_contains at this
    rw [List.any_eq_true] at this
    obtain ⟨k, hk, hb⟩ := this
    exact ⟨k, List.mem_range.1 hk, by simpa using hb⟩
  · cases h

theorem swap_delete_loop_spec (index : Nat) (n i : Nat) (bm : Bitmap)
    (h1 : index + i + n ≤ bm.size) :
    swap_delete_loop index n i bm = Except.ok
      { bm with bits := fun j => if index + i ≤ j ∧ j < index + i + n then false else bm.bits j } := by
  induction n generalizing i bm with
  | zero =>
    unfold swap_delete_loop
    show Except.ok _ = Except.ok _
    rw [Except.ok.injEq]
    cases bm
    simp only [Bitmap.mk.injEq, and_true]
    funext j
    rw [if_neg (by omega)]
  | succ n ih =>
    unfold swap_delete_loop
    simp only [bitmap_set, bind, Except.bind, pure, Except.pure]
    rw [if_pos (by omega : index + i < bm.size)]
    dsimp only
    rw [ih]
    · rw [Except.ok.injEq]
      simp only [Bitmap.mk.injEq, and_true]
      funext j
      by_cases a : index + (i + 1) ≤ j ∧ j < index + (i + 1) + n
      · rw [if_pos a, if_pos (by omega)]
      · rw [if_neg a]
        by_cases c : j = index + i
        · rw [if_pos c, if_pos (by omega)]
        · rw [if_neg c, if_neg (by omega)]
    · show index + (i + 1) + n ≤ bm.size
      omega

theorem swap_init_inv (blk : Nat → Buf) (size : Nat) :
    SwapInv ⟨swap_init blk size, [], []⟩ := by
  constructor
  · intro idx h
    cases h
  · intro idx h
    cases h
  · exact List.nodup_nil
  · intro j
    simp [swap_init]

theorem swap_out_inv (t : SwapTrace) (frame : Buf) (spte : SPT_entry) (sw1 : Swap)
    (e : SPT_entry) (hi : SwapInv t) (h : swap_out t.sw frame spte = Except.ok (sw1, e)) :
    SwapInv { sw := sw1, held := e.index :: t.held, returned := e.index :: t.returned } := by
  unfold swap_out bitmap_scan_and_flip at h
  cases hs : bitmap_scan t.sw.swap_bitmap 0 8 false with
  | none =>
    rw [hs] at h
    cases h
  | some idx =>
    rw [hs] at h
    simp only [pure, Except.pure, Except.ok.injEq, Prod.mk.injEq] at h
    obtain ⟨h1, h2⟩ := h
    subst h1
    subst h2
    obtain ⟨hs1, hs2⟩ := scan_some _ _ _ _ hs
    have hfirst := scan_first _ _ _ _ hs
    have hal : idx % 8 = 0 := by
      by_contra hne
      obtain ⟨k, hk, hb⟩ := hfirst (idx - idx % 8) (by omega)
      simp only [Bool.not_false] at hb
      obtain ⟨i0, hi0, h3, h4⟩ := (hi.bits _).1 hb
      have hi0a := (hi.inside i0 hi0).1
      have hset : t.sw.swap_bitmap.bits idx = true := by
        apply (hi.bits idx).2
        exact ⟨i0, hi0, by omega, by omega⟩
      have := hs2 0 (by omega)
      rw [Nat.add_zero] at this
      rw [this] at hset
      cases hset
    have hnot : idx ∉ t.held := by
      intro hm
      have : t.sw.swap_bitmap.bits idx = true := (hi.bits idx).2 ⟨idx, hm, le_refl _, by omega⟩
      have h0 := hs2 0 (by omega)
      rw [Nat.add_zero] at h0
      rw [h0] at this
      cases this
    constructor
    · intro i hmem
      rcases List.mem_cons.1 hmem with h | h
      · rw [h]
        exact hal
      · exact hi.aligned i h
    · intro i hmem
      rcases List.mem_cons.1 hmem with h | h
      · rw [h]
        exact ⟨hal, hs1⟩
      · exact hi.inside i h
    · exact List.nodup_cons.2 ⟨hnot, hi.nodup⟩
    · intro j
      show (if idx ≤ j ∧ j < idx + 8 then !false else t.sw.swap_bitmap.bits j) = true ↔ _
      by_cases hj : idx ≤ j ∧ j < idx + 8
      · rw [if_pos hj]
        simp only [Bool.not_false, true_iff]
        exact ⟨idx, List.mem_cons_self _ _, hj.1, hj.2⟩
      · rw [if_neg hj, hi.bits j]
        constructor
        · rintro ⟨i, hm, a, b⟩
          exact ⟨i, List.mem_cons_of_mem _ hm, a, b⟩
        · rintro ⟨i, hm, a, b⟩
          rcases List.mem_cons.1 hm with h | h
          · subst h
            exact absurd ⟨a, b⟩ hj
          · exact ⟨i, h, a, b⟩

theorem swap_free_inv (t : SwapTrace) (index : Nat) (sw1 : Swap) (hi : SwapInv t)
    (hm : index ∈ t.held) (hsz : sw1.swap_bitmap.size = t.sw.swap_bitmap.size)
    (hb : sw1.swap_bitmap.bits =
      fun j => if index ≤ j ∧ j < index + 8 then false else t.sw.swap_bitmap.bits j) :
    SwapInv { t with sw := sw1, held := t.held.erase index } := by
  constructor
  · exact hi.aligned
  · intro i hmem
    show i % 8 = 0 ∧ i + 8 ≤ sw1.swap_bitmap.size
    rw [hsz]
    exact hi.inside i (List.mem_of_mem_erase hmem)
  · exact hi.nodup.erase index
  · intro j
    show sw1.swap_bitmap.bits j = true ↔ ∃ idx ∈ t.held.erase index, idx ≤ j ∧ j < idx + 8
    rw [hb]
    have ha := (hi.inside index hm).1
    by_cases hj : index ≤ j ∧ j < index + 8
    · simp only [if_pos hj, Bool.false_eq_true, false_iff]
      rintro ⟨i, hmem, a, b⟩
      have hne : i ≠ index := fun h => by
        rw [h] at hmem
        exact (List.Nodup.not_mem_erase hi.nodup) hmem
      have hia := (hi.inside i (List.mem_of_mem_erase hmem)).1
      omega
    · simp only [if_neg hj]
      rw [hi.bits j]
      constructor
      · rintro ⟨i, hmem, a, b⟩
        refine ⟨i, (List.mem_erase_of_ne ?_).2 hmem, a, b⟩
        intro h
        subst h
        exact hj ⟨a, b⟩
      · rintro ⟨i, hmem, a, b⟩
        exact ⟨i, List.mem_of_mem_erase hmem, a, b⟩

theorem swap_ops_inv (ops : List SwapOp) : ∀ (t t1 : SwapTrace), SwapInv t →
    swap_ops t ops = some t1 → SwapInv t1 := by
  induction ops with
  | nil =>
    intro t t1 hi h
    simp only [swap_ops, Option.some.injEq] at h
    rw [← h]
    exact hi
  | cons op ops ih =>
    intro t t1 hi h
    cases op with
    | out frame spte =>
      unfold swap_ops at h
      split at h
      · rename_i sw1 e heq
        exact ih _ t1 (swap_out_inv t frame spte sw1 e hi heq) h
      · cases h
    | read_in index =>
      unfold swap_ops at h
      split at h
      · rename_i hm
        have hin := swap_in_loop_spec index 8 0 t.sw zeros (hi.inside index hm).2
          (fun k hk => (hi.bits _).2 ⟨index, hm, by omega, by omega⟩)
        unfold swap_in at h
        rw [hin] at h
        refine ih _ t1 ?_ h
        refine swap_free_inv t index _ hi hm ?_ ?_
        · rfl
        · funext j
          show (if index + 0 ≤ j ∧ j < index + 0 + 8 then false else _) = _
          rw [Nat.add_zero]
      · cases h
    | delete index =>
      unfold swap_ops at h
      split at h
      · rename_i hm
        have hdel := swap_delete_loop_spec index 8 0 t.sw.swap_bitmap (hi.inside index hm).2
        unfold swap_delete at h
        simp only [hdel, bind, Except.bind, pure, Except.pure] at h
        refine ih _ t1 ?_ h
        refine swap_free_inv t index _ hi hm ?_ ?_
        · rfl
        · funext j
          show (if index + 0 ≤ j ∧ j < index + 0 + 8 then false else _) = _
          rw [Nat.add_zero]
      · cases h

/-- C23 (swap slot alignment): in every state reached from `swap_init` by calls
of `swap_out`, and of `swap_in` and `swap_delete` on indices that are still
held, every index `swap_out` has stamped is a multiple of 8, and the set bits of
the swap bitmap are exactly the sectors of the held slots, each of which is an
8-aligned group of 8 sectors inside the device. -/
theorem swap_slot_alignment (blk : Nat → Buf) (size : Nat) (ops : List SwapOp) (t : SwapTrace)
    (h : swap_ops ⟨swap_init blk size, [], []⟩ ops = some t) :
    (∀ idx ∈ t.returned, idx % 8 = 0) ∧
    (∀ idx ∈ t.held, idx % 8 = 0 ∧ idx + 8 ≤ t.sw.swap_bitmap.size) ∧
    (∀ j, t.sw.swap_bitmap.bits j = true ↔ ∃ idx ∈ t.held, idx ≤ j ∧ j < idx + 8) := by
  have hi := swap_ops_inv ops _ t (swap_init_inv blk size) h
  exact ⟨hi.aligned, hi.inside, hi.bits⟩

/-- Witness of C23: six calls on a device of 30 sectors, after which the slots
0 and 16 are held. -/
theorem swap_slot_alignment_witness :
    (swap_ops ⟨swap_init (fun _ => zeros) 30, [], []⟩ ex_swap_ops).map
      (fun t => (t.held, t.returned)) = some ([0, 16], [0, 16, 8, 0]) ∧
    ∃ t, swap_ops ⟨swap_init (fun _ => zeros) 30, [], []⟩ ex_swap_ops = some t ∧
      (∀ idx ∈ t.returned, idx % 8 = 0) ∧
      (∀ idx ∈ t.held, idx % 8 = 0 ∧ idx + 8 ≤ t.sw.swap_bitmap.size) ∧
      (∀ j, t.sw.swap_bitmap.bits j = true ↔ ∃ idx ∈ t.held, idx ≤ j ∧ j < idx + 8) :=
  have hs : (swap_ops ⟨swap_init (fun _ => zeros) 30, [], []⟩ ex_swap_ops).isSome = true := by
    decide
  have h := (Option.some_get hs).symm
  ⟨by decide, _, h, swap_slot_alignment (fun _ => zeros) 30 ex_swap_ops _ h⟩

theorem pg_round_down_idem (a : Nat) : pg_round_down (pg_round_down a) = pg_round_down a := by
  unfold pg_round_down PGSIZE
  omega

theorem pg_round_down_in_page (upage a : Nat) (hal : upage % 4096 = 0) (h1 : upage ≤ a)
    (h2 : a < upage + 4096) : pg_round_down a = upage := by
  unfold pg_round_down PGSIZE
  omega

theorem spt_key_fresh (st : VM) (e : SPT_entry) (upage x : Nat) (hx : x ≠ st.brk) :
    spt_key_is { st with
        spt_heap := fun q => if q = st.brk then some e else st.spt_heap q, brk := st.brk + 1 }
      upage x = spt_key_is st upage x := by
  unfold spt_key_is
  simp only [if_neg hx]

theorem spt_key_new (st : VM) (e : SPT_entry) (upage : Nat) (he : e.page = upage) :
    spt_key_is { st with
        spt_heap := fun q => if q = st.brk then some e else st.spt_heap q, brk := st.brk + 1 }
      upage st.brk = true := by
  unfold spt_key_is
  simp [he]

/-- C24 (SPT insert/lookup): for a page-aligned, non-null `upage` whose key no
entry of the running thread's table has, `SPT_insert (upage, kpage, writable)`
returns an entry with `page = upage`, `frame = kpage`, the given `writable`,
`evicted = false`, `is_mmap = false` and `index = 0`, and afterwards
`SPT_lookup` of every address in `[upage, upage + 4096)` returns that entry;
and in every state `SPT_lookup (a)` equals `SPT_lookup` of `a` rounded down to
a multiple of 4096. -/
theorem spt_insert_lookup (st : VM) (upage kpage : Nat) (writable : Bool)
    (hal : upage % PGSIZE = 0) (hnz : upage ≠ 0)
    (hfree : (st.SPT st.cur).find? (spt_key_is st upage) = none) :
    (∃ st1 p, SPT_insert st upage kpage writable = Except.ok (st1, p) ∧
      st1.spt_heap p = some
        { page := upage, frame := kpage, index := 0, evicted := false, writable := writable,
          is_mmap := false, mmap_read_bytes := 0, mmap_zero_bytes := 0, mmap_offset := 0,
          mmap_file := 0 } ∧
      ∀ a, upage ≤ a → a < upage + PGSIZE → SPT_lookup st1 st1.cur a = p) ∧
    ∀ (s : VM) (t a : Nat), SPT_lookup s t a = SPT_lookup s t (pg_round_down a) := by
  constructor
  · unfold PGSIZE at hal
    unfold SPT_insert
    rw [if_neg hnz]
    dsimp only
    split
    · rename_i x hx
      have hkx := List.find?_some hx
      have hxm := List.mem_of_find?_eq_some hx
      have hxp : x = st.brk := by
        by_contra hne
        rw [spt_key_fresh st _ upage x hne] at hkx
        rw [List.find?_eq_none] at hfree
        exact hfree x hxm hkx
      refine ⟨_, _, rfl, ?_, ?_⟩
      · show (if st.brk = st.brk then _ else _) = _
        rw [if_pos rfl]
      · intro a h1 h2
        unfold SPT_lookup
        rw [pg_round_down_in_page upage a hal h1 h2]
        show (match List.find? _ (st.SPT st.cur) with
          | some a => a
          | none => 0) = st.brk
        rw [hx, hxp]
    · refine ⟨_, _, rfl, ?_, ?_⟩
      · show (if st.brk = st.brk then _ else _) = _
        rw [if_pos rfl]
      · intro a h1 h2
        unfold SPT_lookup
        rw [pg_round_down_in_page upage a hal h1 h2]
        show (match List.find? _ (if st.cur = st.cur then st.brk :: st.SPT st.cur
            else st.SPT st.cur) with
          | some a => a
          | none => 0) = st.brk
        rw [if_pos rfl, List.find?_cons_of_pos]
        unfold spt_key_is
        simp
  · intro s t a
    unfold SPT_lookup
    rw [pg_round_down_idem]

/-- Witness of C24: a writable page inserted at 0x20000000 for the frame at
0xc0200000 in the example state. -/
theorem spt_insert_lookup_witness :
    (0x20000000 % PGSIZE = 0 ∧ (0x20000000 : Nat) ≠ 0 ∧
      (ex_vm.SPT ex_vm.cur).find? (spt_key_is ex_vm 0x20000000) = none) ∧
    (∃ st1 p, SPT_insert ex_vm 0x20000000 0xc0200000 true = Except.ok (st1, p) ∧
      st1.spt_heap p = some
        { page := 0x20000000, frame := 0xc0200000, index := 0, evicted := false,
          writable := true, is_mmap := false, mmap_read_bytes := 0, mmap_zero_bytes := 0,
          mmap_offset := 0, mmap_file := 0 } ∧
      ∀ a, 0x20000000 ≤ a → a < 0x20000000 + PGSIZE → SPT_lookup st1 st1.cur a = p) ∧
    ∀ (s : VM) (t a : Nat), SPT_lookup s t a = SPT_lookup s t (pg_round_down a) :=
  ⟨⟨by decide, by decide, by decide⟩,
    spt_insert_lookup ex_vm 0x20000000 0xc0200000 true (by decide) (by decide) (by decide)⟩

/-- C21 at a failing input: in the example state the pages at 0x10000000 and
0x10001000 have entries, yet `mmap` of the 3-page file at 0x0ffff000, whose
first page is free, returns the mapping id 1 and inserts an entry. -/
theorem mmap_overlap_accepted :
    SPT_lookup ex_vm 1 0x10000000 = 100 ∧ SPT_lookup ex_vm 1 0x0ffff000 = 0 ∧
    (mmap ex_vm 2 0x0ffff000).toOption.map (fun r => (r.2, r.1.SPT 1)) =
      some (1, [300, 100, 101, 102]) := by
  decide

theorem find_append_none {α : Type} (p : α → Bool) (l1 l2 : List α)
    (h : ∀ x ∈ l1, p x = false) : (l1 ++ l2).find? p = l2.find? p := by
  induction l1 with
  | nil => rfl
  | cons x t ih =>
    rw [List.cons_append, List.find?_cons, h x (List.mem_cons_self _ _)]
    exact ih (fun y hy => h y (List.mem_cons_of_mem _ hy))

theorem range_brk_shift (b c : Nat) (old : List Nat) :
    ((List.range (c + 1)).map (fun k => b + k)).reverse ++ old =
      ((List.range c).map (fun k => b + 1 + k)).reverse ++ (b :: old) := by
  rw [List.range_succ_eq_map, List.map_cons, List.reverse_cons, List.append_assoc,
    List.map_map]
  simp only [List.singleton_append, Nat.add_zero]
  congr 3
  funext k
  simp only [Function.comp, Nat.succ_eq_add_one]
  omega

theorem spt_insert_fresh (st : VM) (upage kpage : Nat) (writable : Bool) (hnz : upage ≠ 0)
    (hfree : (st.SPT st.cur).find? (spt_key_is st upage) = none)
    (hfresh : ∀ a ∈ st.SPT st.cur, a < st.brk) :
    SPT_insert st upage kpage writable = Except.ok
      ({ st with
          spt_heap := fun q =>
            if q = st.brk then some
              { page := upage, frame := kpage, index := 0, evicted := false,
                writable := writable, is_mmap := false, mmap_read_bytes := 0,
                mmap_zero_bytes := 0, mmap_offset := 0, mmap_file := 0 }
            else st.spt_heap q
          brk := st.brk + 1
          SPT := fun u => if u = st.cur then st.brk :: st.SPT st.cur else st.SPT u },
        st.brk) := by
  unfold SPT_insert
  rw [if_neg hnz]
  dsimp only
  have : (st.SPT st.cur).find? (spt_key_is { st with
      spt_heap := fun q =>
        if q = st.brk then some
          { page := upage, frame := kpage, index := 0, evicted := false,
            writable := writable, is_mmap := false, mmap_read_bytes := 0,
            mmap_zero_bytes := 0, mmap_offset := 0, mmap_file := 0 }
        else st.spt_heap q
      brk := st.brk + 1 } upage) = none := by
    rw [← hfree]
    apply find_congr
    intro a ha
    unfold spt_key_is
    have : a ≠ st.brk := Nat.ne_of_lt (hfresh a ha)
    simp only [if_neg this]
  rw [this]
  rfl

theorem mmap_loop_step (file m : Nat) (st : VM) (length : Int) (len offset addr : Nat)
    (hp : 0 < length) (hnz : addr ≠ 0)
    (hrb : (if length < 4096 then length.toNat else PGSIZE) = min 4096 len)
    (hfree : (st.SPT st.cur).find? (spt_key_is st addr) = none)
    (hfresh : ∀ a ∈ st.SPT st.cur, a < st.brk) :
    mmap_loop file (m + 1) st length offset addr =
      mmap_loop file m
        { st with
          spt_heap := fun q =>
            if q = st.brk then some (mmap_spte file addr offset len 0) else st.spt_heap q
          brk := st.brk + 1
          SPT := fun u => if u = st.cur then st.brk :: st.SPT st.cur else st.SPT u }
        (length - 4096) (offset + PGSIZE) ((addr + PGSIZE) % 4294967296) := by
  rw [mmap_loop]
  rw [if_pos hp, spt_insert_fresh st addr 0 true hnz hfree hfresh]
  simp only [bind, Except.bind, VM.spte, if_pos, pure, Except.pure, hrb]
  congr 1
  simp only [VM.mk.injEq, true_and, and_true]
  funext q
  by_cases hq : q = st.brk
  · simp [hq, mmap_spte, PGSIZE]
  · simp [hq]

theorem mmap_spte_shift (file addr offset len j : Nat) :
    mmap_spte file (addr + 4096) (offset + PGSIZE) (len - 4096) j =
      mmap_spte file addr offset len (j + 1) := by
  unfold mmap_spte PGSIZE
  have e1 : len - 4096 - 4096 * j = len - 4096 * (j + 1) := by omega
  have e2 : addr + 4096 + 4096 * j = addr + 4096 * (j + 1) := by omega
  have e3 : offset + 4096 + 4096 * j = offset + 4096 * (j + 1) := by omega
  rw [e1, e2, e3]

theorem mmap_loop_spec (file : Nat) (cnt : Nat) :
    ∀ (n : Nat) (st : VM) (length : Int) (len offset addr : Nat),
      cnt = (len + 4095) / 4096 → (length = (len : Int) ∨ (len = 0 ∧ length ≤ 0)) →
      cnt ≤ n → addr % 4096 = 0 → 0 < addr → addr + 4096 * cnt < 4294967296 →
      (∀ k, k < cnt → (st.SPT st.cur).find? (spt_key_is st (addr + 4096 * k)) = none) →
      (∀ a ∈ st.SPT st.cur, a < st.brk) →
      ∃ st1, mmap_loop file n st length offset addr = Except.ok st1 ∧ st1.cur = st.cur ∧
        st1.brk = st.brk + cnt ∧
        st1.SPT st1.cur =
          ((List.range cnt).map (fun k => st.brk + k)).reverse ++ st.SPT st.cur ∧
        (∀ q, q < st.brk → st1.spt_heap q = st.spt_heap q) ∧
        (∀ k, k < cnt →
          st1.spt_heap (st.brk + k) = some (mmap_spte file addr offset len k)) ∧
        (∀ k, k < cnt →
          (st1.SPT st1.cur).find? (spt_key_is st1 (addr + 4096 * k)) = some (st.brk + k)) := by
  induction cnt with
  | zero =>
    intro n st length len offset addr hc hl _ _ _ _ _ _
    have hlen : len = 0 := by omega
    have hnp : ¬ (0 < length) := by
      rcases hl with h | h
      · rw [h, hlen]
        simp
      · omega
    refine ⟨st, ?_, rfl, rfl, ?_, fun _ _ => rfl, ?_, ?_⟩
    · cases n with
      | zero =>
        unfold mmap_loop
        rw [if_neg hnp]
        rfl
      | succ m =>
        unfold mmap_loop
        rw [if_neg hnp]
        rfl
    · simp
    · intro k hk
      omega
    · intro k hk
      omega
  | succ c ih =>
    intro n st length len offset addr hc hl hn hal hpos hwrap hfree hfresh
    cases n with
    | zero => omega
    | succ m =>
      have hlen : 0 < len := by omega
      have hlength : length = (len : Int) := by
        rcases hl with h | h
        · exact h
        · omega
      have hp : 0 < length := by
        rw [hlength]
        exact_mod_cast hlen
      have hrb : (if length < 4096 then length.toNat else PGSIZE) = min 4096 len := by
        rw [hlength]
        unfold PGSIZE
        split
        · rename_i h
          have : len < 4096 := by exact_mod_cast h
          simp only [Int.toNat_ofNat]
          omega
        · rename_i h
          have : ¬ len < 4096 := fun h1 => h (by exact_mod_cast h1)
          omega
      have hfree0 : (st.SPT st.cur).find? (spt_key_is st addr) = none := by
        have := hfree 0 (by omega)
        rwa [Nat.mul_zero, Nat.add_zero] at this
      rw [mmap_loop_step file m st length len offset addr hp (by omega) hrb hfree0 hfresh]
      have hnext : (addr + PGSIZE) % 4294967296 = addr + 4096 := by
        unfold PGSIZE
        omega
      rw [hnext]
      obtain ⟨st1, hrun, hcur, hbrk, hspt, hold, hnew, hlook⟩ := ih m
        { st with
          spt_heap := fun q =>
            if q = st.brk then some (mmap_spte file addr offset len 0) else st.spt_heap q
          brk := st.brk + 1
          SPT := fun u => if u = st.cur then st.brk :: st.SPT st.cur else st.SPT u }
        (length - 4096) (len - 4096) (offset + PGSIZE) (addr + 4096) (by omega)
        (by
          by_cases h : 4096 ≤ len
          · left
            rw [hlength]
            omega
          · right
            constructor
            · omega
            · rw [hlength]
              omega)
        (by omega) (by omega) (by omega) (by omega)
        (by
          intro k hk
          show List.find? _ (if st.cur = st.cur then st.brk :: st.SPT st.cur else _) = none
          rw [if_pos rfl, List.find?_cons]
          have hk0 : spt_key_is { st with
              spt_heap := fun q =>
                if q = st.brk then some (mmap_spte file addr offset len 0) else st.spt_heap q
              brk := st.brk + 1
              SPT := fun u => if u = st.cur then st.brk :: st.SPT st.cur else st.SPT u }
              (addr + 4096 + 4096 * k) st.brk = false := by
            unfold spt_key_is
            simp [mmap_spte]
            omega
          rw [hk0]
          have := hfree (k + 1) (by omega)
          rw [show addr + 4096 * (k + 1) = addr + 4096 + 4096 * k by omega] at this
          rw [← this]
          apply find_congr
          intro a ha
          unfold spt_key_is
          have hne : a ≠ st.brk := Nat.ne_of_lt (hfresh a ha)
          simp only [if_neg hne])
        (by
          intro a ha
          have ha1 : a ∈ st.brk :: st.SPT st.cur := by
            have : (if st.cur = st.cur then st.brk :: st.SPT st.cur else st.SPT st.cur) =
                st.brk :: st.SPT st.cur := if_pos rfl
            rw [← this]
            exact ha
          show a < st.brk + 1
          rcases List.mem_cons.1 ha1 with h | h
          · omega
          · have := hfresh a h
            omega)
      have hS2 : (if st.cur = st.cur then st.brk :: st.SPT st.cur else st.SPT st.cur) =
          st.brk :: st.SPT st.cur := if_pos rfl
      have hcur1 : st1.cur = st.cur := hcur
      have hspt1 : st1.SPT st1.cur =
          ((List.range c).map (fun k => st.brk + 1 + k)).reverse ++ (st.brk :: st.SPT st.cur) := by
        rw [hspt]
        show _ ++ (if st.cur = st.cur then st.brk :: st.SPT st.cur else st.SPT st.cur) = _
        rw [hS2]
      have hheap0 : st1.spt_heap st.brk = some (mmap_spte file addr offset len 0) := by
        have := hold st.brk (by show st.brk < st.brk + 1; omega)
        rw [this]
        show (if st.brk = st.brk then _ else _) = _
        rw [if_pos rfl]
      have hnew1 : ∀ k, k < c → st1.spt_heap (st.brk + 1 + k) =
          some (mmap_spte file addr offset len (k + 1)) := by
        intro k hk
        rw [← mmap_spte_shift]
        exact hnew k hk
      refine ⟨st1, hrun, hcur1, ?_, ?_, ?_, ?_, ?_⟩
      · rw [hbrk]
        show st.brk + 1 + c = _
        omega
      · rw [hspt1, range_brk_shift]
      · intro q hq
        rw [hold q (by show q < st.brk + 1; omega)]
        show (if q = st.brk then _ else _) = _
        rw [if_neg (by omega)]
      · intro k hk
        cases k with
        | zero => exact hheap0
        | succ j =>
          have := hnew1 j (by omega)
          rw [show st.brk + (j + 1) = st.brk + 1 + j by omega]
          exact this
      · intro k hk
        cases k with
        | zero =>
          rw [hspt1, find_append_none]
          · rw [List.find?_cons_of_pos]
            · rfl
            · unfold spt_key_is
              rw [hheap0]
              simp [mmap_spte]
          · intro x hx
            rw [List.mem_reverse, List.mem_map] at hx
            obtain ⟨i, hi, hxi⟩ := hx
            rw [List.mem_range] at hi
            unfold spt_key_is
            rw [← hxi, hnew1 i hi]
            simp [mmap_spte]
        | succ j =>
          have := hlook j (by omega)
          rw [show addr + 4096 * (j + 1) = addr + 4096 + 4096 * j by omega,
            show st.brk + (j + 1) = st.brk + 1 + j by omega]
          exact this

theorem read_bytes_sum (c : Nat) : ∀ L, c = (L + 4095) / 4096 →
    ((List.range c).map (fun k => min 4096 (L - 4096 * k))).sum = L := by
  induction c with
  | zero =>
    intro L h
    simp only [List.range_zero, List.map_nil, List.sum_nil]
    omega
  | succ c ih =>
    intro L h
    rw [List.range_succ_eq_map, List.map_cons, List.sum_cons, List.map_map]
    have e : ((fun k => min 4096 (L - 4096 * k)) ∘ Nat.succ) =
        fun k => min 4096 (L - 4096 - 4096 * k) := by
      funext k
      simp only [Function.comp, Nat.succ_eq_add_one]
      have e1 : L - 4096 * (k + 1) = L - 4096 - 4096 * k := by omega
      rw [e1]
    rw [e, ih (L - 4096) (by omega)]
    omega

/-- C22 (mmap page descriptors): for a descriptor of a regular file of length
`L > 0` and a page-aligned, non-null `addr` with `addr + L` inside user space
and no entry for any page of the range (and fresh memory from the allocator),
`mmap` returns the thread's next mapping id and inserts exactly `ceil (L / 4096)`
entries; `SPT_lookup` of `addr + 4096 * k` finds the `k`-th, which has that page
as key, is marked `is_mmap` and writable and not evicted, and has
`mmap_offset = 4096 * k`, `mmap_read_bytes = min (4096, L - 4096 * k)` and
`mmap_zero_bytes = 4096 - mmap_read_bytes`; the read bytes sum to `L`. -/
theorem mmap_descriptors (st : VM) (fd : Int) (addr : Nat)
    (hfd : fd ≠ 1 ∧ fd ≠ 0) (hfile : fd_to_file st fd ≠ 0)
    (hdir : st.file_isdir (fd_to_file st fd) = false)
    (hlen : 0 < st.file_length (fd_to_file st fd))
    (hal : addr % PGSIZE = 0) (hnz : addr ≠ 0)
    (hrange : addr + st.file_length (fd_to_file st fd) ≤ PHYS_BASE)
    (hfree : ∀ k, k < (st.file_length (fd_to_file st fd) + 4095) / 4096 →
      (st.SPT st.cur).find? (spt_key_is st (addr + 4096 * k)) = none)
    (hexec : execpage_lookup st st.cur addr = none)
    (hfresh : ∀ a ∈ st.SPT st.cur, a < st.brk) :
    ∃ st1, mmap st fd addr = Except.ok (st1, st.mapid st.cur) ∧
      st1.SPT st1.cur =
        ((List.range ((st.file_length (fd_to_file st fd) + 4095) / 4096)).map
          (fun k => st.brk + k)).reverse ++ st.SPT st.cur ∧
      (∀ k, k < (st.file_length (fd_to_file st fd) + 4095) / 4096 →
        SPT_lookup st1 st1.cur (addr + 4096 * k) = st.brk + k ∧
        st1.spt_heap (st.brk + k) =
          some (mmap_spte (fd_to_file st fd) addr 0 (st.file_length (fd_to_file st fd)) k)) ∧
      ((List.range ((st.file_length (fd_to_file st fd) + 4095) / 4096)).map
        (fun k => (mmap_spte (fd_to_file st fd) addr 0
          (st.file_length (fd_to_file st fd)) k).mmap_read_bytes)).sum =
        st.file_length (fd_to_file st fd) := by
  unfold PGSIZE at hal
  unfold PHYS_BASE at hrange
  obtain ⟨st3, hrun, hcur, _, hspt, _, hnew, hlook⟩ :=
    mmap_loop_spec (fd_to_file st fd) ((st.file_length (fd_to_file st fd) + 4095) / 4096) 1048577
      { st with
        open_files := fd_to_file st fd :: st.open_files
        mapid := fun u => if u = st.cur then st.mapid st.cur + 1 else st.mapid u }
      (st.file_length (fd_to_file st fd) : Int) (st.file_length (fd_to_file st fd)) 0 addr rfl
      (Or.inl rfl) (by omega) hal (by omega) (by omega) hfree hfresh
  have hlk : SPT_lookup st st.cur addr = 0 := by
    unfold SPT_lookup
    rw [pg_round_down_aligned addr hal]
    have := hfree 0 (by omega)
    rw [Nat.mul_zero, Nat.add_zero] at this
    rw [this]
  refine ⟨{ st3 with
      mmap_list := fun u =>
        if u = st3.cur then st3.mmap_list st3.cur ++
          [{ mapid := st.mapid st.cur, file := fd_to_file st fd, addr := addr,
             length := st.file_length (fd_to_file st fd) }]
        else st3.mmap_list u }, ?_, hspt, ?_, ?_⟩
  · unfold mmap
    dsimp only
    rw [if_neg (by rintro (h | h); exact hfd.1 h; exact hfd.2 h)]
    simp only [isdir, if_neg hfile, hdir, bind, Except.bind, pure, Except.pure]
    rw [if_neg (by simp), if_neg, if_neg, if_neg (by omega)]
    · simp only [hrun]
    · rw [hlk, hexec]
      simp
    · rw [pg_round_down_aligned addr hal]
      simp only [is_user_vaddr, PHYS_BASE]
      have : addr < 3221225472 := by omega
      simp [this, hfile, hnz]
  · intro k hk
    refine ⟨?_, hnew k hk⟩
    unfold SPT_lookup
    rw [pg_round_down_aligned _ (by omega)]
    show (match List.find? (spt_key_is st3 (addr + 4096 * k)) (st3.SPT st3.cur) with
      | some a => a
      | none => 0) = _
    rw [hlook k hk]
  · exact read_bytes_sum _ _ rfl

/-- Witness of C22: the 3-page file of descriptor 2 mapped at 0x30000000 in the
example state. -/
theorem mmap_descriptors_witness :
    (((2 : Int) ≠ 1 ∧ (2 : Int) ≠ 0) ∧ fd_to_file ex_vm 2 ≠ 0 ∧
      ex_vm.file_isdir (fd_to_file ex_vm 2) = false ∧
      0 < ex_vm.file_length (fd_to_file ex_vm 2) ∧ 0x30000000 % PGSIZE = 0 ∧
      (0x30000000 : Nat) ≠ 0 ∧
      0x30000000 + ex_vm.file_length (fd_to_file ex_vm 2) ≤ PHYS_BASE ∧
      (∀ k, k < (ex_vm.file_length (fd_to_file ex_vm 2) + 4095) / 4096 →
        (ex_vm.SPT ex_vm.cur).find? (spt_key_is ex_vm (0x30000000 + 4096 * k)) = none) ∧
      execpage_lookup ex_vm ex_vm.cur 0x30000000 = none ∧
      ∀ a ∈ ex_vm.SPT ex_vm.cur, a < ex_vm.brk) ∧
    ∃ st1, mmap ex_vm 2 0x30000000 = Except.ok (st1, 1) ∧
      st1.SPT st1.cur = [302, 301, 300, 100, 101, 102] ∧
      (∀ k, k < 3 →
        SPT_lookup st1 st1.cur (0x30000000 + 4096 * k) = 300 + k ∧
        st1.spt_heap (300 + k) = some (mmap_spte 3 0x30000000 0 12288 k)) ∧
      ((List.range 3).map (fun k => (mmap_spte 3 0x30000000 0 12288 k).mmap_read_bytes)).sum =
        12288 :=
  have h1 : (2 : Int) ≠ 1 ∧ (2 : Int) ≠ 0 := by decide
  have h2 : fd_to_file ex_vm 2 ≠ 0 := by decide
  have h3 : ex_vm.file_isdir (fd_to_file ex_vm 2) = false := by decide
  have h4 : 0 < ex_vm.file_length (fd_to_file ex_vm 2) := by decide
  have h5 : 0x30000000 % PGSIZE = 0 := by decide
  have h6 : (0x30000000 : Nat) ≠ 0 := by decide
  have h7 : 0x30000000 + ex_vm.file_length (fd_to_file ex_vm 2) ≤ PHYS_BASE := by decide
  have h8 : ∀ k, k < (ex_vm.file_length (fd_to_file ex_vm 2) + 4095) / 4096 →
      (ex_vm.SPT ex_vm.cur).find? (spt_key_is ex_vm (0x30000000 + 4096 * k)) = none := by
    decide
  have h9 : execpage_lookup ex_vm ex_vm.cur 0x30000000 = none := by decide
  have h10 : ∀ a ∈ ex_vm.SPT ex_vm.cur, a < ex_vm.brk := by decide
  ⟨⟨h1, h2, h3, h4, h5, h6, h7, h8, h9, h10⟩,
    mmap_descriptors ex_vm 2 0x30000000 h1 h2 h3 h4 h5 h6 h7 h8 h9 h10⟩

/-- C28 at a failing input: a written stack page is swapped out, brought back
by `swap_in` and `reclaim_page` and not written since; its first byte is 0x42
again and its mapping is clean, so the next `frame_alloc` removes its frame and
its entry without swap: afterwards the page has no entry, no swap slot is in
use, the page is not mapped and it has no executable-page entry, so its backing
source is the zero page, which does not reproduce the byte 0x42. -/
theorem clean_eviction_loses_page :
    ex_lost_page_scenario.toOption = some [1, 0, 0x42, 0xc0100000, 0, 0, 0, 0] := by
  decide!

/-- C29 at a failing input: page 1 of the example mapping is resident and
clean; `munmap` removes its entry and frees it but leaves its frame in the frame
table, with a back-pointer to the freed entry. -/
theorem munmap_leaves_frame :
    pagedir_is_dirty (ex_vm_clean.pagedir 1) 0x10001000 = false ∧
    pagedir_get_page (ex_vm_clean.pagedir 1) 0x10001000 = 0xc0100000 ∧
    (munmap ex_vm_clean 0).toOption.map
        (fun r => (r.frame_table, (r.fte_heap 200).map (fun f => f.aux),
          (r.spt_heap 101).isSome, r.SPT 1)) =
      some ([200], some 101, false, []) := by
  decide!

/-- Counterexample to C27 as stated: the victim of `frame_alloc` in the example
state is page 1 of the mapping, which is mmap'd and not dirty; its contents are
written to the file all the same and its entry stays in the table, where the
claim's case split removes the entry without a write. -/
theorem victim_resolution_counterexample :
    ex_vm_clean.free_pages = [] ∧
    pagedir_is_dirty (ex_vm_clean.pagedir 1) 0x10001000 = false ∧
    (ex_vm_clean.spt_heap 101).map (fun e => (e.page, e.is_mmap)) =
      some (0x10001000, true) ∧
    (choose_victim ex_vm_clean).toOption.map (fun r => r.2) = some 200 ∧
    (ex_vm_clean.fte_heap 200).map (fun f => f.aux) = some 101 ∧
    (frame_alloc ex_vm_clean false).toOption.map
        (fun r => (r.1.writes.map (fun w => (w.file, w.ofs, w.data.length)),
          SPT_lookup r.1 1 0x10001000, r.1.SPT 1)) =
      some ([(3, 4096, 4096)], 101, [100, 101, 102]) := by
  decide!

theorem frame_remove_spec (st : VM) (v : Nat) (f : frame_table_entry) (e : SPT_entry)
    (hv : v ≠ 0) (hf : st.fte_heap v = some f) (he : st.spt_heap f.aux = some e) :
    frame_remove st v = Except.ok
      { st with
        pagedir := fun u =>
          if u = f.owner then pagedir_clear_page (st.pagedir f.owner) e.page else st.pagedir u
        frame_table := st.frame_table.eraseP (fte_key_is st f.frame)
        free_pages := f.frame :: st.free_pages
        fte_heap := fun q => if q = v then none else st.fte_heap q } := by
  simp only [frame_remove, if_neg hv, VM.fte, VM.spte, hf, he, bind, Except.bind, pure,
    Except.pure]

theorem swap_out_ok (sw : Swap) (frame : Buf) (spte : SPT_entry)
    (hfree : ∃ j, j + 8 ≤ sw.swap_bitmap.size ∧ ∀ k, k < 8 → sw.swap_bitmap.bits (j + k) = false) :
    ∃ sw1 idx, swap_out sw frame spte =
      Except.ok (sw1, { spte with index := idx, evicted := true }) := by
  obtain ⟨j, hj1, hj2⟩ := hfree
  obtain ⟨idx, hidx⟩ := scan_total sw.swap_bitmap 8 false j hj1 hj2
  refine ⟨⟨{ sw.swap_bitmap with
      bits := fun j => if idx ≤ j ∧ j < idx + 8 then !false else sw.swap_bitmap.bits j },
    swap_out_loop frame idx 8 0 sw.swap_block⟩, idx, ?_⟩
  simp only [swap_out, bitmap_scan_and_flip, hidx]
  rfl

/-- C27, amended (victim resolution in `frame_alloc`): the branch of
`frame_alloc` that resolves the victim removes its frame from the frame table
and frees its entry there, and (1) if the SPT entry is mmap'd, dirty or not, it
writes the first `mmap_read_bytes` bytes of the frame to the file at
`mmap_offset`, uses no swap slot and keeps the SPT entry; (2) else if the page
is dirty it swaps the frame out, the SPT entry staying in the table with
`evicted = true` and `index` the slot; (3) else it removes the SPT entry from
the owner's table and frees it, with no write and no swap slot. -/
theorem victim_resolution (st : VM) (v : Nat) (f : frame_table_entry) (e : SPT_entry)
    (hv : v ≠ 0) (hf : st.fte_heap v = some f) (ha : f.aux ≠ 0)
    (he : st.spt_heap f.aux = some e)
    (hfree : ∃ j, j + 8 ≤ st.swap.swap_bitmap.size ∧
      ∀ k, k < 8 → st.swap.swap_bitmap.bits (j + k) = false) :
    ∃ st1, frame_alloc_evict st v = Except.ok st1 ∧
      st1.frame_table = st.frame_table.eraseP (fte_key_is st f.frame) ∧
      st1.fte_heap v = none ∧
      (e.is_mmap = true →
        st1.writes = st.writes ++
          [{ file := e.mmap_file, data := bytes (ptr_add st.mem e.frame) e.mmap_read_bytes,
             ofs := e.mmap_offset }] ∧
        st1.swap = st.swap ∧ st1.spt_heap f.aux = some e ∧ st1.SPT = st.SPT) ∧
      (e.is_mmap = false → pagedir_is_dirty (st.pagedir f.owner) e.page = true →
        st1.writes = st.writes ∧ st1.SPT = st.SPT ∧
        ∃ sw e1, swap_out st.swap (ptr_add st.mem f.frame) e = Except.ok (sw, e1) ∧
          st1.swap = sw ∧ st1.spt_heap f.aux = some e1 ∧ e1.evicted = true ∧
          e1 = { e with index := e1.index, evicted := true }) ∧
      (e.is_mmap = false → pagedir_is_dirty (st.pagedir f.owner) e.page = false →
        st1.writes = st.writes ∧ st1.swap = st.swap ∧ st1.spt_heap f.aux = none ∧
        st1.SPT f.owner = (st.SPT f.owner).eraseP (spt_key_is st e.page) ∧
        ∀ u, u ≠ f.owner → st1.SPT u = st.SPT u) := by
  by_cases hm : e.is_mmap = true
  · have hfr := frame_remove_spec
      (file_write_at st e.mmap_file e.frame e.mmap_read_bytes e.mmap_offset) v f e hv hf he
    have hrun : frame_alloc_evict st v = frame_remove
        (file_write_at st e.mmap_file e.frame e.mmap_read_bytes e.mmap_offset) v := by
      unfold frame_alloc_evict
      simp only [VM.fte, VM.spte, hf, he, bind, Except.bind, pure, Except.pure]
      rw [if_pos hm]
    refine ⟨_, hrun.trans hfr, ?_, ?_, ?_, ?_, ?_⟩
    · rfl
    · show (if v = v then none else _) = none
      rw [if_pos rfl]
    · intro _
      exact ⟨rfl, rfl, he, rfl⟩
    · intro h
      rw [h] at hm
      cases hm
    · intro h
      rw [h] at hm
      cases hm
  · have hm' : e.is_mmap = false := by
      cases h : e.is_mmap
      · rfl
      · exact absurd h hm
    by_cases hd : pagedir_is_dirty (st.pagedir f.owner) e.page = true
    · obtain ⟨sw, idx, hout⟩ := swap_out_ok st.swap (ptr_add st.mem f.frame) e hfree
      have hso : vm_swap_out st v = Except.ok
          { st with
            swap := sw
            spt_heap := fun q =>
              if q = f.aux then some { e with index := idx, evicted := true }
              else st.spt_heap q } := by
        simp only [vm_swap_out, if_neg hv, VM.fte, VM.spte, hf, he, bind, Except.bind, pure,
          Except.pure, if_neg ha, hout]
      have hfr := frame_remove_spec
        { st with
          swap := sw
          spt_heap := fun q =>
            if q = f.aux then some { e with index := idx, evicted := true }
            else st.spt_heap q } v f { e with index := idx, evicted := true } hv hf
        (by show (if f.aux = f.aux then _ else _) = _; rw [if_pos rfl])
      have hrun : frame_alloc_evict st v = frame_remove
          { st with
            swap := sw
            spt_heap := fun q =>
              if q = f.aux then some { e with index := idx, evicted := true }
              else st.spt_heap q } v := by
        unfold frame_alloc_evict
        simp only [VM.fte, VM.spte, hf, he, bind, Except.bind, pure, Except.pure]
        rw [if_neg hm, if_pos hd, hso]
      refine ⟨_, hrun.trans hfr, ?_, ?_, ?_, ?_, ?_⟩
      · rfl
      · show (if v = v then none else _) = none
        rw [if_pos rfl]
      · intro h
        exact absurd h hm
      · intro _ _
        refine ⟨rfl, rfl, sw, _, hout, rfl, ?_, rfl, rfl⟩
        show (if f.aux = f.aux then _ else _) = _
        rw [if_pos rfl]
      · intro _ h
        rw [h] at hd
        cases hd
    · have hd' : pagedir_is_dirty (st.pagedir f.owner) e.page = false := by
        cases h : pagedir_is_dirty (st.pagedir f.owner) e.page
        · rfl
        · exact absurd h hd
      have hfr := frame_remove_spec st v f e hv hf he
      have hrun : frame_alloc_evict st v = Except.ok
          { st with
            pagedir := fun u =>
              if u = f.owner then pagedir_clear_page (st.pagedir f.owner) e.page
              else st.pagedir u
            frame_table := st.frame_table.eraseP (fte_key_is st f.frame)
            free_pages := f.frame :: st.free_pages
            fte_heap := fun q => if q = v then none else st.fte_heap q
            SPT := fun u =>
              if u = f.owner then (st.SPT f.owner).eraseP (spt_key_is st e.page) else st.SPT u
            spt_heap := fun q => if q = f.aux then none else st.spt_heap q } := by
        unfold frame_alloc_evict
        simp only [VM.fte, VM.spte, hf, he, bind, Except.bind, pure, Except.pure]
        rw [if_neg hm, if_neg hd, hfr]
        simp only [SPT_remove, if_neg ha, VM.spte, he, bind, Except.bind, pure, Except.pure]
        rfl
      refine ⟨_, hrun, ?_, ?_, ?_, ?_, ?_⟩
      · rfl
      · show (if v = v then none else _) = none
        rw [if_pos rfl]
      · intro h
        exact absurd h hm
      · intro _ h
        exact absurd h hd
      · intro _ _
        refine ⟨rfl, rfl, ?_, ?_, ?_⟩
        · show (if f.aux = f.aux then none else _) = none
          rw [if_pos rfl]
        · show (if f.owner = f.owner then _ else _) = _
          rw [if_pos rfl]
        · intro u hu
          show (if u = f.owner then _ else _) = _
          rw [if_neg hu]

/-- Witness of C27: the three cases at the frame of the example states: the
clean mmap'd page, the dirty mmap'd page and the dirty stack page. -/
theorem victim_resolution_witness :
    ((200 : Nat) ≠ 0 ∧
      ex_vm_clean.fte_heap 200 = some { owner := 1, frame := 0xc0100000, aux := 101 } ∧
      (101 : Nat) ≠ 0 ∧ ex_vm_clean.spt_heap 101 = some (ex_mmap_spte 1 0xc0100000) ∧
      ∃ j, j + 8 ≤ ex_vm_clean.swap.swap_bitmap.size ∧
        ∀ k, k < 8 → ex_vm_clean.swap.swap_bitmap.bits (j + k) = false) ∧
    ∃ st1, frame_alloc_evict ex_vm_clean 200 = Except.ok st1 ∧
      st1.frame_table = [] ∧ st1.fte_heap 200 = none ∧
      st1.writes = [{ file := 3, data := bytes (ptr_add ex_vm_clean.mem 0xc0100000) 4096,
                      ofs := 4096 }] ∧
      st1.swap = ex_vm_clean.swap ∧ st1.spt_heap 101 = some (ex_mmap_spte 1 0xc0100000) ∧
      st1.SPT = ex_vm_clean.SPT :=
  have h1 : (200 : Nat) ≠ 0 := by decide
  have h2 : ex_vm_clean.fte_heap 200 = some { owner := 1, frame := 0xc0100000, aux := 101 } := by
    decide
  have h3 : (101 : Nat) ≠ 0 := by decide
  have h4 : ex_vm_clean.spt_heap 101 = some (ex_mmap_spte 1 0xc0100000) := by decide
  have h5 : ∃ j, j + 8 ≤ ex_vm_clean.swap.swap_bitmap.size ∧
      ∀ k, k < 8 → ex_vm_clean.swap.swap_bitmap.bits (j + k) = false :=
    ⟨8, by decide, by
      intro k hk
      show decide (8 + k < 8) = false
      simp⟩
  match victim_resolution ex_vm_clean 200 _ _ h1 h2 h3 h4 h5 with
  | ⟨st1, hrun, hft, hfh, hmm, _, _⟩ =>
    ⟨⟨h1, h2, h3, h4, h5⟩, st1, hrun, by rw [hft]; decide, hfh, (hmm rfl).1, (hmm rfl).2.1,
      (hmm rfl).2.2.1, (hmm rfl).2.2.2⟩

theorem flag_set {c : Cache} (hi : FlagInv c) (i : Nat) (e : cache_entry)
    (h1 : e.loaded = true → e.valid = true)
    (h2 : (c.cache i).valid = true → e.valid = true) : FlagInv (c.set i e) := by
  constructor
  · intro j hj
    by_cases hji : j = i
    · subst hji
      rw [set_cache_self] at hj ⊢
      exact h1 hj
    · rw [set_cache_other c e hji] at hj ⊢
      exact hi.flags j hj
  · intro j hj
    have hv := hi.queue j hj
    by_cases hji : j = i
    · subst hji
      rw [set_cache_self]
      exact h2 hv
    · rw [set_cache_other c e hji]
      exact hv

theorem flag_similar {c c1 : Cache} (hs : Similar c c1) (hi : FlagInv c) : FlagInv c1 := by
  constructor
  · intro j hj
    rw [hs.loaded] at hj
    rw [hs.valid]
    exact hi.flags j hj
  · intro j hj
    rw [hs.queue] at hj
    rw [hs.valid]
    exact hi.queue j hj

theorem flag_wb {c : Cache} (hi : FlagInv c) (v : Nat) : FlagInv (wb c v) := by
  constructor
  · intro j hj
    rw [wb_cache] at hj ⊢
    exact hi.flags j hj
  · intro j hj
    rw [wb_queue] at hj
    rw [wb_cache]
    exact hi.queue j hj

theorem flag_load {c : Cache} (hi : FlagInv c) (i : Nat) (hv : (c.cache i).valid = true) :
    FlagInv (cache_load c i) := by
  unfold cache_load
  exact flag_set hi i _ (fun _ => hv) (fun h => h)

theorem flag_load_if {c : Cache} (hi : FlagInv c) (i : Nat) (hv : (c.cache i).valid = true) :
    FlagInv (if (c.cache i).loaded then c else cache_load c i) := by
  split
  · exact hi
  · exact flag_load hi i hv

theorem load_if_valid (c : Cache) (i j : Nat) :
    ((if (c.cache i).loaded then c else cache_load c i).cache j).valid = (c.cache j).valid := by
  split
  · rfl
  · unfold cache_load
    by_cases h : j = i
    · subst h
      rw [set_cache_self]
    · rw [set_cache_other c _ h]

theorem flag_queue {c : Cache} (hi : FlagInv c) (q : List Nat)
    (hq : ∀ i ∈ q, (c.cache i).valid = true) : FlagInv { c with read_queue := q } :=
  ⟨hi.flags, hq⟩

theorem flag_read_ahead_loop : ∀ (q : List Nat) (c : Cache), FlagInv c →
    (∀ i ∈ q, (c.cache i).valid = true) → FlagInv (read_ahead_loop q c) := by
  intro q
  induction q with
  | nil =>
    intro c hi _
    unfold read_ahead_loop
    exact flag_queue hi [] (fun i h => by cases h)
  | cons a t ih =>
    intro c hi hq
    unfold read_ahead_loop
    apply ih
    · exact flag_load_if hi a (hq a (List.mem_cons_self _ _))
    · intro i hmem
      rw [load_if_valid]
      exact hq i (List.mem_cons_of_mem _ hmem)

theorem flag_read_ahead {c : Cache} (hi : FlagInv c) : FlagInv (read_ahead c) :=
  flag_read_ahead_loop c.read_queue c hi hi.queue

theorem flag_read_ahead_step {c : Cache} (hi : FlagInv c) : FlagInv (read_ahead_step c) := by
  unfold read_ahead_step
  cases hq : c.read_queue with
  | nil => exact hi
  | cons a t =>
    have h1 : FlagInv { c with read_queue := t } := by
      apply flag_queue hi
      intro i hmem
      apply hi.queue
      rw [hq]
      exact List.mem_cons_of_mem _ hmem
    have hv : (c.cache a).valid = true := by
      apply hi.queue
      rw [hq]
      exact List.mem_cons_self _ _
    exact @flag_load_if { c with read_queue := t } h1 a hv

theorem flag_rounds {r : Nat} {c c1 : Cache} {o : Option Nat} (hi : FlagInv c)
    (h : evict_rounds r c = Except.ok (c1, o)) : FlagInv c1 := by
  cases o with
  | none => exact flag_similar (rounds_none _ _ _ h) hi
  | some v =>
    obtain ⟨_, _, _, hs⟩ := rounds_some _ _ _ _ h
    exact flag_similar hs (flag_wb hi v)

theorem flag_evict {c c1 : Cache} {v : Nat} (hi : FlagInv c)
    (h : cache_evict c = Except.ok (c1, v)) : FlagInv c1 := by
  unfold cache_evict at h
  cases h1 : evict_rounds 3 c with
  | error e =>
    rw [h1] at h
    cases h
  | ok p =>
    obtain ⟨c2, o⟩ := p
    rw [h1] at h
    have hi2 := flag_rounds hi h1
    cases o with
    | some w =>
      simp only [pure, Except.pure, Except.ok.injEq, Prod.mk.injEq] at h
      rw [← h.1]
      exact hi2
    | none => cases h

theorem flag_allocate {c c1 : Cache} {s idx : Nat} (hi : FlagInv c)
    (h : cache_allocate c s = Except.ok (c1, idx)) :
    FlagInv c1 ∧ (c1.cache idx).valid = true := by
  unfold cache_allocate at h
  cases hsc : allocate_scan c s 64 0 none with
  | inl i =>
    rw [hsc] at h
    simp only [pure, Except.pure, Except.ok.injEq, Prod.mk.injEq] at h
    obtain ⟨e1, e2⟩ := h
    subst e1 e2
    exact ⟨hi, (scan_inl c s _ _ _ _ hsc).2.2.1⟩
  | inr r =>
    rw [hsc] at h
    simp only at h
    cases r with
    | some k =>
      simp only [pure, Except.pure, Except.ok.injEq, Prod.mk.injEq] at h
      obtain ⟨e1, e2⟩ := h
      subst e1 e2
      exact ⟨flag_set hi k _ (fun h => by cases h) (fun _ => rfl), by rw [set_cache_self]⟩
    | none =>
      simp only at h
      cases he : cache_evict c with
      | error e =>
        rw [he] at h
        cases h
      | ok p =>
        obtain ⟨c2, k⟩ := p
        rw [he] at h
        simp only [pure, Except.pure, Except.ok.injEq, Prod.mk.injEq] at h
        obtain ⟨e1, e2⟩ := h
        subst e1 e2
        exact ⟨flag_set (flag_evict hi he) k _ (fun h => by cases h) (fun _ => rfl),
          by rw [set_cache_self]⟩

theorem flag_write {c c1 : Cache} {s : Nat} {b : Buf} {ofs size : Nat} (hi : FlagInv c)
    (h : cache_write_at c s b ofs size = Except.ok c1) : FlagInv c1 := by
  unfold cache_write_at at h
  cases ha : cache_allocate c s with
  | error e =>
    rw [ha] at h
    cases h
  | ok p =>
    obtain ⟨c2, idx⟩ := p
    rw [ha] at h
    simp only at h
    obtain ⟨hi2, hv⟩ := flag_allocate hi ha
    split at h
    · cases h
    · simp only [pure, Except.pure, Except.ok.injEq] at h
      rw [← h]
      have hi3 := flag_load_if hi2 idx hv
      have hv3 := (load_if_valid c2 idx idx).trans hv
      exact flag_set hi3 idx _ (fun _ => hv3) (fun h => h)

theorem flag_read {c c1 : Cache} {s : Nat} {b out : Buf} {ofs size : Nat} (hi : FlagInv c)
    (h : cache_read_at c s b ofs size = Except.ok (c1, out)) : FlagInv c1 := by
  unfold cache_read_at at h
  cases ha : cache_allocate c s with
  | error e =>
    rw [ha] at h
    cases h
  | ok p =>
    obtain ⟨c2, idx⟩ := p
    rw [ha] at h
    dsimp only at h
    obtain ⟨hi2, hv⟩ := flag_allocate hi ha
    have hi3 := flag_load_if hi2 idx hv
    have hv3 := (load_if_valid c2 idx idx).trans hv
    generalize (if (c2.cache idx).loaded = true then c2 else cache_load c2 idx) = c3
      at h hi3 hv3
    have hi4 : FlagInv (c3.set idx { c3.cache idx with accessed := true }) :=
      flag_set hi3 idx _ (fun _ => hv3) (fun h => h)
    generalize c3.set idx { c3.cache idx with accessed := true } = c4 at h hi4
    by_cases hb : 512 < ofs + size
    · rw [if_pos hb] at h
      cases h
    · rw [if_neg hb] at h
      by_cases hd : (s + 1) % 4294967296 < c4.dev_size
      · rw [if_pos hd] at h
        cases hn : cache_allocate c4 ((s + 1) % 4294967296) with
        | error e =>
          rw [hn] at h
          cases h
        | ok p2 =>
          obtain ⟨c5, next⟩ := p2
          rw [hn] at h
          dsimp only at h
          obtain ⟨hi5, hv5⟩ := flag_allocate hi4 hn
          by_cases hl : (c5.cache next).loaded = true
          · rw [if_pos hl] at h
            simp only [pure, Except.pure, Except.ok.injEq, Prod.mk.injEq] at h
            rw [← h.1]
            exact hi5
          · rw [if_neg hl] at h
            simp only [pure, Except.pure, Except.ok.injEq, Prod.mk.injEq] at h
            rw [← h.1]
            apply flag_queue hi5
            intro i hmem
            rcases List.mem_append.1 hmem with h1 | h1
            · exact hi5.queue i h1
            · rw [List.mem_singleton.1 h1]
              exact hv5
      · rw [if_neg hd] at h
        simp only [pure, Except.pure, Except.ok.injEq, Prod.mk.injEq] at h
        rw [← h.1]
        exact hi4

theorem flag_block_write {c : Cache} (hi : FlagInv c) (s : Nat) (b : Buf) :
    FlagInv (c.block_write s b) :=
  ⟨hi.flags, hi.queue⟩

theorem flag_done_loop : ∀ (n i : Nat) (c : Cache), FlagInv c → FlagInv (cache_done_loop n i c) := by
  intro n
  induction n with
  | zero =>
    intro i c hi
    exact hi
  | succ n ih =>
    intro i c hi
    unfold cache_done_loop
    split
    · apply ih
      exact flag_set (flag_block_write hi _ _) i _ (fun h => hi.flags i h) (fun h => h)
    · exact ih _ _ hi

theorem flag_remove_loop (s : Nat) : ∀ (n i : Nat) (c : Cache), FlagInv c →
    (∀ j, (c.cache j).sector = s → (c.cache j).valid = true → (c.cache j).loaded = true →
      i ≤ j → j < i + n → j ∉ c.read_queue) →
    FlagInv (cache_remove_loop s n i c) := by
  intro n
  induction n with
  | zero =>
    intro i c hi _
    exact hi
  | succ n ih =>
    intro i c hi hg
    unfold cache_remove_loop
    split
    · rename_i hm
      have hnq := hg i hm.1 hm.2.1 hm.2.2 (le_refl _) (by omega)
      constructor
      · intro j hj
        by_cases hji : j = i
        · subst hji
          rw [set_cache_self] at hj
          cases hj
        · rw [set_cache_other _ _ hji] at hj ⊢
          exact hi.flags j hj
      · intro j hj
        have hji : j ≠ i := fun h => hnq (h ▸ hj)
        rw [set_cache_other _ _ hji]
        exact hi.queue j hj
    · apply ih _ _ hi
      intro j a b d e f
      exact hg j a b d (by omega) (by omega)

theorem flag_remove {c : Cache} {s : Nat} (hi : FlagInv c) (hg : remove_guard c s = true) :
    FlagInv (cache_remove c s) := by
  unfold cache_remove
  apply flag_remove_loop s 64 0 c hi
  intro j a b d _ hj hq
  unfold remove_guard at hg
  rw [List.all_eq_true] at hg
  have := hg j (List.mem_range.2 (by omega))
  simp only [a, b, d, decide_True, Bool.and_self, Bool.not_true, Bool.false_or,
    Bool.not_eq_true', List.contains_eq_any_beq, List.any_eq_false, beq_iff_eq] at this
  exact this j hq rfl

theorem flag_init (disk : Nat → Buf) (dev_size : Nat) : FlagInv (cache_init disk dev_size) := by
  constructor
  · intro i h
    cases h
  · intro i h
    cases h

theorem flag_calls : ∀ (calls : List CacheCall) (c c1 : Cache), FlagInv c →
    guarded c calls = true → cache_calls c calls = Except.ok c1 → FlagInv c1 := by
  intro calls
  induction calls with
  | nil =>
    intro c c1 hi _ h
    simp only [cache_calls, pure, Except.pure, Except.ok.injEq] at h
    rw [← h]
    exact hi
  | cons call calls ih =>
    intro c c1 hi hg h
    unfold cache_calls at h
    unfold guarded at hg
    rw [Bool.and_eq_true] at hg
    cases hc : cache_call c call with
    | error e =>
      rw [hc] at h
      cases h
    | ok c2 =>
      rw [hc] at h
      have hg2 : guarded c2 calls = true := by
        have := hg.2
        rw [hc] at this
        exact this
      refine ih c2 c1 ?_ hg2 h
      cases call with
      | remove s =>
        simp only [cache_call, pure, Except.pure, Except.ok.injEq] at hc
        rw [← hc]
        exact flag_remove hi hg.1
      | op o =>
        cases o with
        | read s ofs size =>
          simp only [cache_call] at hc
          cases hr : cache_read_at c s zeros ofs size with
          | error e =>
            rw [hr] at hc
            cases hc
          | ok p =>
            rw [hr] at hc
            simp only [pure, Except.pure, Except.ok.injEq] at hc
            rw [← hc]
            exact flag_read hi hr
        | write s data ofs size =>
          simp only [cache_call] at hc
          exact flag_write hi hc
        | ahead =>
          simp only [cache_call, pure, Except.pure, Except.ok.injEq] at hc
          rw [← hc]
          exact flag_read_ahead_step hi
        | done =>
          simp only [cache_call, pure, Except.pure, Except.ok.injEq] at hc
          rw [← hc]
          exact flag_done_loop 64 0 c hi

/-- C30, amended (cache flag invariant): in every state reached from
`cache_init` by calls of `cache_read_at`, `cache_write_at` and `cache_done`,
turns of the read-ahead thread, and calls of `cache_remove` for a sector whose
slot is not waiting in the read-ahead queue, every slot whose loaded flag is set
has its valid flag set. -/
theorem cache_flag_invariant (disk : Nat → Buf) (dev_size : Nat) (calls : List CacheCall)
    (c : Cache) (hg : guarded (cache_init disk dev_size) calls = true)
    (h : cache_calls (cache_init disk dev_size) calls = Except.ok c) :
    ∀ i, (c.cache i).loaded = true → (c.cache i).valid = true :=
  (flag_calls calls _ c (flag_init disk dev_size) hg h).flags

/-- Witness of C30: the run with the queue served before `cache_remove`. -/
theorem cache_flag_invariant_witness :
    guarded (cache_init ex_numbered_disk 8) ex_drained_queue = true ∧
    ∃ c, cache_calls (cache_init ex_numbered_disk 8) ex_drained_queue = Except.ok c ∧
      ∀ i, (c.cache i).loaded = true → (c.cache i).valid = true := by
  have hg : guarded (cache_init ex_numbered_disk 8) ex_drained_queue = true := by decide!
  refine ⟨hg, ?_⟩
  cases h : cache_calls (cache_init ex_numbered_disk 8) ex_drained_queue with
  | error e =>
    have hf : fault_of (cache_calls (cache_init ex_numbered_disk 8) ex_drained_queue) = none := by
      decide!
    rw [h] at hf
    cases hf
  | ok c => exact ⟨c, rfl, cache_flag_invariant ex_numbered_disk 8 ex_drained_queue c hg h⟩

/-- Counterexample to C30 as stated: after `cache_read_at` of sectors 0 and 1,
`cache_remove (1)` and one turn of the read-ahead thread, which serves the
entry queued for the slot of sector 1, slot 62 is loaded and not valid. -/
theorem cache_flag_counterexample :
    (cache_calls (cache_init ex_numbered_disk 8) ex_stale_queue).toOption.map
      (fun c => ((c.cache 62).loaded, (c.cache 62).valid)) = some (true, false) := by
  decide!

theorem frame_erase_kept (st st1 : VM) (v : Nat) (f : frame_table_entry)
    (hf : st.fte_heap v = some f)
    (hlook : st.frame_table.find? (fte_key_is st f.frame) = some v)
    (hft : st1.frame_table = st.frame_table.eraseP (fte_key_is st f.frame))
    (hh : st1.fte_heap = fun q => if q = v then none else st.fte_heap q) :
    (∀ fr f1 x1, st.frame_table.find? (fte_key_is st fr) = some f1 →
      st.fte_heap f1 = some x1 → f1 ≠ v →
      st1.frame_table.find? (fte_key_is st1 fr) = some f1 ∧ st1.fte_heap f1 = some x1) ∧
    (∀ fr, st.frame_table.find? (fte_key_is st fr) = none →
      st1.frame_table.find? (fte_key_is st1 fr) = none) ∧
    (FTDistinct st → FTDistinct st1) ∧
    (FTDistinct st → st1.frame_table.find? (fte_key_is st1 f.frame) = none) := by
  have hsub : ∀ fr y, fte_key_is st1 fr y = true → fte_key_is st fr y = true ∧ y ≠ v := by
    intro fr y hy
    unfold fte_key_is at hy ⊢
    rw [hh] at hy
    by_cases hyv : y = v
    · simp [hyv] at hy
    · simp only [if_neg hyv] at hy
      exact ⟨hy, hyv⟩
  refine ⟨?_, ?_, ?_, ?_⟩
  · intro fr f1 x1 h1 h2 hne
    have hfr : f.frame ≠ fr := by
      intro h
      rw [h] at hlook
      rw [hlook] at h1
      exact hne (Option.some.inj h1).symm
    constructor
    · rw [hft, ← h1, ← find_erase (fte_key_is st fr) (fte_key_is st f.frame)]
      · apply find_congr
        intro y _
        unfold fte_key_is
        rw [hh]
        by_cases hy : y = v
        · subst hy
          simp only [if_pos rfl, hf]
          simpa using hfr
        · simp only [if_neg hy]
      · intro y hy
        unfold fte_key_is at hy ⊢
        cases hyh : st.fte_heap y with
        | none => rfl
        | some z =>
          rw [hyh] at hy
          simp only [beq_iff_eq] at hy
          simp only [beq_eq_false_iff_ne, ne_eq]
          rw [hy]
          exact hfr
    · rw [hh]
      show (if f1 = v then none else st.fte_heap f1) = some x1
      rw [if_neg hne, h2]
  · intro fr h
    rw [List.find?_eq_none] at h ⊢
    intro y hy hk
    rw [hft] at hy
    exact h y (List.mem_of_mem_eraseP hy) (hsub fr y hk).1
  · intro hd a b x y ha hb hxa hxb hxy
    rw [hft] at ha hb
    rw [hh] at hxa hxb
    by_cases hav : a = v
    · simp [hav] at hxa
    · by_cases hbv : b = v
      · simp [hbv] at hxb
      · simp only [if_neg hav] at hxa
        simp only [if_neg hbv] at hxb
        exact hd a b x y (List.mem_of_mem_eraseP ha) (List.mem_of_mem_eraseP hb) hxa hxb hxy
  · intro hd
    rw [List.find?_eq_none]
    intro y hy hk
    rw [hft] at hy
    obtain ⟨hk1, hne⟩ := hsub _ y hk
    unfold fte_key_is at hk1
    cases hyh : st.fte_heap y with
    | none => simp [hyh] at hk1
    | some z =>
      rw [hyh] at hk1
      simp only [beq_iff_eq] at hk1
      exact hne (hd y v z f (List.mem_of_mem_eraseP hy) (List.mem_of_find?_eq_some hlook)
        hyh hf hk1)

theorem destructor_spec (st : VM) (a : Nat) (e : SPT_entry) (he : st.spt_heap a = some e)
    (hr : DestroyReady st a) :
    ∃ st1, destructor_ st a = Except.ok st1 ∧ st1.cur = st.cur ∧ st1.SPT = st.SPT ∧
      Destroyed st st1 a e := by
  obtain ⟨e0, he0, hsw, hfr⟩ := hr
  rw [he] at he0
  cases he0
  by_cases hev : e.evicted = true
  · have hdel := swap_delete_loop_spec e.index 8 0 st.swap.swap_bitmap (hsw hev)
    have hrun : destructor_ st a = Except.ok
        { st with
          swap := { st.swap with
            swap_bitmap := { st.swap.swap_bitmap with
              bits := fun j =>
                if e.index + 0 ≤ j ∧ j < e.index + 0 + 8 then false
                else st.swap.swap_bitmap.bits j } }
          spt_heap := fun q => if q = a then none else st.spt_heap q } := by
      unfold destructor_
      simp only [VM.spte, he, bind, Except.bind, pure, Except.pure, if_pos hev, swap_delete, hdel]
    refine ⟨_, hrun, rfl, rfl, ⟨rfl, rfl, ?_, ?_, ?_, ?_, ?_⟩⟩
    · intro j
      show (if e.index + 0 ≤ j ∧ j < e.index + 0 + 8 then false
        else st.swap.swap_bitmap.bits j) = true ↔ _
      by_cases hj : e.index + 0 ≤ j ∧ j < e.index + 0 + 8
      · rw [if_pos hj]
        simp only [Bool.false_eq_true, false_iff]
        intro h
        exact h.2 ⟨hev, by omega, by omega⟩
      · rw [if_neg hj]
        constructor
        · intro h
          exact ⟨h, fun hc => hj ⟨by omega, by omega⟩⟩
        · intro h
          exact h.1
    · intro fr f1 x1 h1 h2 _
      exact ⟨h1, h2⟩
    · intro fr h
      exact h
    · intro h
      exact h
    · intro _ h
      rw [h] at hev
      cases hev
  · have hev' : e.evicted = false := by
      cases h : e.evicted
      · rfl
      · exact absurd h hev
    have hbits : ∀ j, st.swap.swap_bitmap.bits j = true ↔
        st.swap.swap_bitmap.bits j = true ∧
          ¬ (e.evicted = true ∧ e.index ≤ j ∧ j < e.index + 8) :=
      fun j => ⟨fun h => ⟨h, fun hc => hev hc.1⟩, fun h => h.1⟩
    by_cases hm : e.is_mmap = false
    · obtain ⟨hnz, f, x, hlook, hf0, hfh, hax⟩ := hfr hev' hm
      have hxf : x.frame = e.frame := fte_key_is_frame st e.frame f x hfh (List.find?_some hlook)
      have hea : st.spt_heap x.aux = some e := by
        rw [hax]
        exact he
      have hfrm := frame_remove_spec st f x e hf0 hfh hea
      have hrun : destructor_ st a = Except.ok
          { st with
            pagedir := fun u =>
              if u = x.owner then pagedir_clear_page (st.pagedir x.owner) e.page
              else st.pagedir u
            frame_table := st.frame_table.eraseP (fte_key_is st x.frame)
            free_pages := x.frame :: st.free_pages
            fte_heap := fun q => if q = f then none else st.fte_heap q
            spt_heap := fun q => if q = a then none else st.spt_heap q } := by
        unfold destructor_
        simp only [VM.spte, he, bind, Except.bind, pure, Except.pure, if_neg hev, hm,
          fte_lookup, if_neg hnz, hlook, if_neg hf0, hfrm, if_true]
      have hlook' : st.frame_table.find? (fte_key_is st x.frame) = some f := by
        rw [hxf]
        exact hlook
      obtain ⟨k1, k2, k3, k4⟩ := frame_erase_kept st
        { st with
          pagedir := fun u =>
            if u = x.owner then pagedir_clear_page (st.pagedir x.owner) e.page
            else st.pagedir u
          frame_table := st.frame_table.eraseP (fte_key_is st x.frame)
          free_pages := x.frame :: st.free_pages
          fte_heap := fun q => if q = f then none else st.fte_heap q
          spt_heap := fun q => if q = a then none else st.spt_heap q } f x hfh hlook' rfl rfl
      refine ⟨_, hrun, rfl, rfl, ⟨rfl, rfl, hbits, ?_, k2, k3, ?_⟩⟩
      · intro fr f1 x1 h1 h2 hne
        apply k1 fr f1 x1 h1 h2
        intro h
        rw [h, hfh] at h2
        cases h2
        exact hne hax
      · intro hd _ _
        rw [← hxf]
        exact k4 hd
    · have hrun : destructor_ st a = Except.ok
          { st with spt_heap := fun q => if q = a then none else st.spt_heap q } := by
        unfold destructor_
        simp only [VM.spte, he, bind, Except.bind, pure, Except.pure, if_neg hev, hm]
        rfl
      refine ⟨_, hrun, rfl, rfl, ⟨rfl, rfl, hbits, ?_, ?_, ?_, ?_⟩⟩
      · intro fr f1 x1 h1 h2 _
        exact ⟨h1, h2⟩
      · intro fr h
        exact h
      · intro h
        exact h
      · intro _ _ h
        exact absurd h hm

theorem destroy_loop_spec : ∀ (l : List Nat) (st : VM), l.Nodup →
    (∀ a ∈ l, DestroyReady st a) →
    ∃ st1, destroy_loop l st = Except.ok st1 ∧ st1.cur = st.cur ∧ st1.SPT = st.SPT ∧
      (∀ q, q ∉ l → st1.spt_heap q = st.spt_heap q) ∧
      (∀ a ∈ l, st1.spt_heap a = none) ∧
      st1.swap.swap_bitmap.size = st.swap.swap_bitmap.size ∧
      (∀ j, st1.swap.swap_bitmap.bits j = true ↔
        st.swap.swap_bitmap.bits j = true ∧
          ¬ ∃ a ∈ l, ∃ e, st.spt_heap a = some e ∧ e.evicted = true ∧ e.index ≤ j ∧
            j < e.index + 8) ∧
      (∀ fr, st.frame_table.find? (fte_key_is st fr) = none →
        st1.frame_table.find? (fte_key_is st1 fr) = none) ∧
      (FTDistinct st → ∀ a ∈ l, ∀ e, st.spt_heap a = some e → e.evicted = false →
        e.is_mmap = false → st1.frame_table.find? (fte_key_is st1 e.frame) = none) := by
  intro l
  induction l with
  | nil =>
    intro st _ _
    refine ⟨st, rfl, rfl, rfl, fun _ _ => rfl, ?_, rfl, ?_, fun _ h => h, ?_⟩
    · intro a h
      cases h
    · intro j
      constructor
      · intro h
        refine ⟨h, ?_⟩
        rintro ⟨a, ha, _⟩
        cases ha
      · intro h
        exact h.1
    · intro _ a h
      cases h
  | cons a t ih =>
    intro st hnd hr
    obtain ⟨hat, hndt⟩ := List.nodup_cons.1 hnd
    have hra := hr a (List.mem_cons_self _ _)
    obtain ⟨e, he, _, _⟩ := id hra
    obtain ⟨st2, hrun, hcur, hspt, hD⟩ := destructor_spec st a e he hra
    have hheap2 : ∀ b, b ≠ a → st2.spt_heap b = st.spt_heap b := by
      intro b hb
      rw [hD.heap]
      show (if b = a then none else _) = _
      rw [if_neg hb]
    have hr2 : ∀ b ∈ t, DestroyReady st2 b := by
      intro b hb
      have hba : b ≠ a := fun h => hat (h ▸ hb)
      obtain ⟨eb, heb, hsw, hfr⟩ := hr b (List.mem_cons_of_mem _ hb)
      refine ⟨eb, (hheap2 b hba).trans heb, ?_, ?_⟩
      · intro h
        rw [hD.size]
        exact hsw h
      · intro h1 h2
        obtain ⟨hnz, f, x, hl, hf0, hfh, hax⟩ := hfr h1 h2
        obtain ⟨k1, k2⟩ := hD.kept eb.frame f x hl hfh (by rw [hax]; exact hba)
        exact ⟨hnz, f, x, k1, hf0, k2, hax⟩
    obtain ⟨st1, hrun1, hcur1, hspt1, hq1, hn1, hs1, hb1, hg1, hrm1⟩ := ih st2 hndt hr2
    refine ⟨st1, ?_, hcur1.trans hcur, hspt1.trans hspt, ?_, ?_, hs1.trans hD.size, ?_, ?_, ?_⟩
    · unfold destroy_loop
      simp only [hrun, bind, Except.bind]
      exact hrun1
    · intro q hq
      have hqa : q ≠ a := fun h => hq (h ▸ List.mem_cons_self _ _)
      have hqt : q ∉ t := fun h => hq (List.mem_cons_of_mem _ h)
      rw [hq1 q hqt, hheap2 q hqa]
    · intro b hb
      rcases List.mem_cons.1 hb with h | h
      · rw [h, hq1 a hat, hD.heap]
        show (if a = a then none else _) = none
        rw [if_pos rfl]
      · exact hn1 b h
    · intro j
      rw [hb1 j, hD.bits j]
      constructor
      · rintro ⟨⟨h1, h2⟩, h3⟩
        refine ⟨h1, ?_⟩
        rintro ⟨b, hb, eb, heb, c1, c2, c3⟩
        rcases List.mem_cons.1 hb with h | h
        · rw [h, he] at heb
          cases heb
          exact h2 ⟨c1, c2, c3⟩
        · have hba : b ≠ a := fun h' => hat (h' ▸ h)
          exact h3 ⟨b, h, eb, (hheap2 b hba).trans heb, c1, c2, c3⟩
      · rintro ⟨h1, h2⟩
        refine ⟨⟨h1, ?_⟩, ?_⟩
        · intro hc
          exact h2 ⟨a, List.mem_cons_self _ _, e, he, hc⟩
        · rintro ⟨b, hb, eb, heb, c1, c2, c3⟩
          have hba : b ≠ a := fun h' => hat (h' ▸ hb)
          exact h2 ⟨b, List.mem_cons_of_mem _ hb, eb, (hheap2 b hba).symm.trans heb, c1, c2, c3⟩
    · intro fr h
      exact hg1 fr (hD.gone fr h)
    · intro hd b hb eb heb h1 h2
      rcases List.mem_cons.1 hb with h | h
      · rw [h, he] at heb
        cases heb
        exact hg1 _ (hD.removed hd h1 h2)
      · have hba : b ≠ a := fun h' => hat (h' ▸ h)
        exact hrm1 (hD.distinct hd) b h eb ((hheap2 b hba).trans heb) h1 h2

/-- C25 (SPT destruction reclaims resources): when the entries of the running
thread's table are distinct and allocated, each evicted one with its slot inside
the swap device and each resident non-mmap one with its frame in the frame table
pointing back at it, and the frame table has no key twice, `SPT_destroy`
returns; afterwards the table is empty and its entries are freed, a bit of the
swap bitmap is set exactly if it was set before and lies in none of the 8-sector
slots of the evicted entries, and the frame of every resident non-mmap entry is
no longer in the frame table. -/
theorem spt_destroy_reclaims (st : VM) (hnd : (st.SPT st.cur).Nodup)
    (hr : ∀ a ∈ st.SPT st.cur, DestroyReady st a) (hd : FTDistinct st) :
    ∃ st1, SPT_destroy st = Except.ok st1 ∧ st1.SPT st1.cur = [] ∧
      (∀ a ∈ st.SPT st.cur, st1.spt_heap a = none) ∧
      (∀ j, st1.swap.swap_bitmap.bits j = true ↔
        st.swap.swap_bitmap.bits j = true ∧
          ¬ ∃ a ∈ st.SPT st.cur, ∃ e, st.spt_heap a = some e ∧ e.evicted = true ∧
            e.index ≤ j ∧ j < e.index + 8) ∧
      (∀ a ∈ st.SPT st.cur, ∀ e, st.spt_heap a = some e → e.evicted = false →
        e.is_mmap = false → st1.frame_table.find? (fte_key_is st1 e.frame) = none) := by
  obtain ⟨st1, hrun, hcur, _, _, hn, _, hb, _, hrm⟩ :=
    destroy_loop_spec (st.SPT st.cur) st hnd hr
  refine ⟨{ st1 with SPT := fun u => if u = st.cur then [] else st1.SPT u }, ?_, ?_, hn, hb,
    hrm hd⟩
  · unfold SPT_destroy
    simp only [hrun, bind, Except.bind, pure, Except.pure]
  · show (if st1.cur = st.cur then [] else st1.SPT st1.cur) = []
    rw [if_pos hcur]

/-- Witness of C25: the example table with an evicted stack page (slot 0), a
resident stack page and the three pages of the mapping. -/
theorem spt_destroy_reclaims_witness :
    ((ex_vm_swapped.SPT ex_vm_swapped.cur).Nodup ∧
      (∀ a ∈ ex_vm_swapped.SPT ex_vm_swapped.cur, DestroyReady ex_vm_swapped a) ∧
      FTDistinct ex_vm_swapped) ∧
    ∃ st1, SPT_destroy ex_vm_swapped = Except.ok st1 ∧ st1.SPT st1.cur = [] ∧
      (∀ a ∈ ex_vm_swapped.SPT ex_vm_swapped.cur, st1.spt_heap a = none) ∧
      (∀ j, st1.swap.swap_bitmap.bits j = true ↔
        ex_vm_swapped.swap.swap_bitmap.bits j = true ∧
          ¬ ∃ a ∈ ex_vm_swapped.SPT ex_vm_swapped.cur, ∃ e,
            ex_vm_swapped.spt_heap a = some e ∧ e.evicted = true ∧ e.index ≤ j ∧
              j < e.index + 8) ∧
      (∀ a ∈ ex_vm_swapped.SPT ex_vm_swapped.cur, ∀ e, ex_vm_swapped.spt_heap a = some e →
        e.evicted = false → e.is_mmap = false →
        st1.frame_table.find? (fte_key_is st1 e.frame) = none) :=
  have h1 : (ex_vm_swapped.SPT ex_vm_swapped.cur).Nodup := by decide
  have hl : ex_vm_swapped.SPT ex_vm_swapped.cur = [103, 104, 100, 101, 102] := by decide
  have h2 : ∀ a ∈ ex_vm_swapped.SPT ex_vm_swapped.cur, DestroyReady ex_vm_swapped a := by
    intro a ha
    rw [hl] at ha
    simp only [List.mem_cons, List.mem_singleton, List.not_mem_nil, or_false] at ha
    rcases ha with h | h | h | h | h
    · subst h
      refine ⟨_, rfl, ?_, ?_⟩
      · intro _
        decide
      · intro h
        cases h
    · subst h
      refine ⟨_, rfl, ?_, ?_⟩
      · intro h
        cases h
      · intro _ _
        exact ⟨by decide, 201, { owner := 1, frame := 0xc0200000, aux := 104 }, by decide,
          by decide, by decide, rfl⟩
    · subst h
      refine ⟨ex_mmap_spte 0 0, by decide, ?_, ?_⟩
      · intro h
        cases h
      · intro _ h
        cases h
    · subst h
      refine ⟨ex_mmap_spte 1 0xc0100000, by decide, ?_, ?_⟩
      · intro h
        cases h
      · intro _ h
        cases h
    · subst h
      refine ⟨ex_mmap_spte 2 0, by decide, ?_, ?_⟩
      · intro h
        cases h
      · intro _ h
        cases h
  have h3 : FTDistinct ex_vm_swapped := by
    intro a b x y ha hb hx hy hxy
    have hf : ex_vm_swapped.frame_table = [200, 201] := rfl
    rw [hf] at ha hb
    simp only [List.mem_cons, List.mem_singleton, List.not_mem_nil, or_false] at ha hb
    rcases ha with ha | ha <;> rcases hb with hb | hb <;> subst ha <;> subst hb <;>
      first
      | rfl
      | (exfalso
         have e1 := Option.some.inj hx
         have e2 := Option.some.inj hy
         rw [← e1, ← e2] at hxy
         revert hxy
         decide)
  ⟨⟨h1, h2, h3⟩, spt_destroy_reclaims ex_vm_swapped h1 h2 h3⟩

theorem block_to_sector_false {st : FS} (hi : CacheInv st.cache) {p : Nat} {ino : inode}
    (hp : st.heap p = some ino) (k : Nat) :
    Agrees st 3 (inode_block_to_sector st p k zeros zeros false)
      (store_block_to_sector (view st.cache) ino.sector k) := by
  unfold inode_block_to_sector store_block_to_sector
  rcases read_block_cases hi ino.sector zeros with ⟨h1, hn⟩ | ⟨c1, h1, t1, r1⟩
  · simp only [FS.deref, hp, get_disk_inode, h1, bind, Except.bind, pure, Except.pure]
    exact agrees_spin _ (fun hr => hn (room_mono hr (by norm_num)))
  · have hr := @resolve_false { st with cache := c1 } t1.inv
      (load_block zeros (view st.cache ino.sector)) k zeros zeros
    have hv : view c1 = view st.cache := funext t1.view
    simp only [FS.deref, hp, get_disk_inode, h1, bind, Except.bind, pure, Except.pure]
    change Agrees { st with cache := c1 } 2 _
      ((store_resolve (view c1) _ k zeros zeros).map _) at hr
    rw [hv] at hr
    have hr3 := agrees_after (sameFS_cache t1) r1 hr
    cases hx : inode_disk_block_to_sector { st with cache := c1 }
        (load_block zeros (view st.cache ino.sector)) k zeros zeros false with
    | error e =>
      rw [hx] at hr3
      rcases hr3 with ⟨e1, e2⟩ | hq
      · exact Or.inl ⟨e1, e2⟩
      · right
        cases hy : store_resolve (view st.cache) (load_block zeros (view st.cache ino.sector)) k
            zeros zeros with
        | error e1 =>
          rw [hy] at hq
          simp only [Except.map, Except.error.injEq] at hq
          rw [hq]
        | ok s =>
          rw [hy] at hq
          simp [Except.map] at hq
    | ok r =>
      obtain ⟨st2, d2, ret⟩ := r
      rw [hx] at hr3
      obtain ⟨hq, hsame, hroom⟩ := hr3
      simp only [Bool.false_eq_true, if_false]
      refine ⟨?_, hsame, hroom⟩
      cases hy : store_resolve (view st.cache) (load_block zeros (view st.cache ino.sector)) k
          zeros zeros with
      | error e1 =>
        rw [hy] at hq
        simp [Except.map] at hq
      | ok s =>
        rw [hy] at hq
        simp only [Except.map, Except.ok.injEq, Prod.mk.injEq] at hq
        rw [hq.2]

theorem ptr_store_memcpy (buffer : Buf) (br : Nat) (src : Buf) (ofs n : Nat) :
    ptr_store buffer br (memcpy (ptr_add buffer br) 0 src ofs n) = memcpy buffer br src ofs n := by
  funext i
  unfold ptr_store memcpy ptr_add
  by_cases h : i < br
  · rw [if_pos h, if_neg (by omega)]
  · rw [if_neg h]
    by_cases h2 : br ≤ i ∧ i < br + n
    · rw [if_pos (by omega), if_pos h2]
      congr 1
    · rw [if_neg (by omega), if_neg h2]
      congr 1
      omega

/-- A chunk of a read takes its bytes from one sector: the rest of the read
takes them from one sector less. -/
theorem read_chunks_step (length : Int) (size offset : Nat) (cs : Int) (h0 : 0 < cs)
    (h1 : cs ≤ size) (h2 : cs ≤ length - offset) (h3 : cs ≤ 512 - ((offset % 512 : Nat) : Int))
    (h4 : cs = size ∨ cs = length - offset ∨ cs = 512 - ((offset % 512 : Nat) : Int)) :
    read_chunks length (size - cs.toNat) (offset + cs.toNat) + 1 ≤
      read_chunks length size offset := by
  have hm : offset % 512 < 512 := Nat.mod_lt _ (by norm_num)
  have hc : ((cs.toNat : Nat) : Int) = cs := Int.toNat_of_nonneg (by omega)
  have hR : read_chunks length size offset =
      (offset % 512 +
        (if (size : Int) ≤ length - (offset : Int) then size
          else (length - (offset : Int)).toNat) + 511) / 512 := by
    unfold read_chunks
    rw [if_neg (show ¬ (size = 0 ∨ length ≤ (offset : Int)) by omega)]
  rw [hR]
  by_cases hz : size - cs.toNat = 0 ∨ length ≤ ((offset + cs.toNat : Nat) : Int)
  · have hL : read_chunks length (size - cs.toNat) (offset + cs.toNat) = 0 := by
      unfold read_chunks
      rw [if_pos hz]
    rw [hL]
    split <;> omega
  · have hL : read_chunks length (size - cs.toNat) (offset + cs.toNat) =
        ((offset + cs.toNat) % 512 +
          (if ((size - cs.toNat : Nat) : Int) ≤ length - ((offset + cs.toNat : Nat) : Int)
            then size - cs.toNat
            else (length - ((offset + cs.toNat : Nat) : Int)).toNat) + 511) / 512 := by
      unfold read_chunks
      rw [if_neg hz]
    rw [hL]
    have hz1 : ¬ size - cs.toNat = 0 := fun h => hz (Or.inl h)
    have hz2 : ¬ length ≤ ((offset + cs.toNat : Nat) : Int) := fun h => hz (Or.inr h)
    have h5 : cs = 512 - ((offset % 512 : Nat) : Int) := by
      rcases h4 with h | h | h
      · omega
      · push_cast at hz2
        omega
      · exact h
    have hmod : (offset + cs.toNat) % 512 = 0 := by omega
    rw [hmod]
    split <;> split <;> push_cast at * <;> omega

theorem read_loop_agrees : ∀ (fuel : Nat) (st : FS) (p : Nat) (ino : inode)
    (buffer : Buf) (size offset bytes_read : Nat),
    CacheInv st.cache → st.heap p = some ino →
    Agrees st (4 * read_chunks ino.length size offset)
      (read_loop fuel st p buffer size offset bytes_read)
      (store_read_loop (view st.cache) ino.sector ino.length fuel buffer size offset
        bytes_read) := by
  intro fuel
  induction fuel with
  | zero =>
    intro st p ino buffer size offset bytes_read hi _
    simp only [read_loop, store_read_loop, pure, Except.pure]
    exact agrees_mono (agrees_pure hi _) (Nat.zero_le _)
  | succ fuel ih =>
    intro st p ino buffer size offset bytes_read hi hp
    unfold read_loop store_read_loop
    by_cases hs : size = 0
    · simp only [hs, if_true, pure, Except.pure]
      exact agrees_mono (agrees_pure hi _) (Nat.zero_le _)
    · simp only [hs, if_false, FS.deref, hp, bind, Except.bind, pure, Except.pure]
      have hcsdef : ∀ cs : Int, (if (size : Int) <
          (if ino.length - (offset : Int) < (BLOCK_SECTOR_SIZE : Int) -
              ((offset % BLOCK_SECTOR_SIZE : Nat) : Int)
            then ino.length - (offset : Int)
            else (BLOCK_SECTOR_SIZE : Int) - ((offset % BLOCK_SECTOR_SIZE : Nat) : Int))
          then (size : Int)
          else (if ino.length - (offset : Int) < (BLOCK_SECTOR_SIZE : Int) -
              ((offset % BLOCK_SECTOR_SIZE : Nat) : Int)
            then ino.length - (offset : Int)
            else (BLOCK_SECTOR_SIZE : Int) - ((offset % BLOCK_SECTOR_SIZE : Nat) : Int))) = cs →
          cs ≤ size ∧ cs ≤ ino.length - offset ∧ cs ≤ 512 - ((offset % 512 : Nat) : Int) ∧
          (cs = size ∨ cs = ino.length - offset ∨ cs = 512 - ((offset % 512 : Nat) : Int)) := by
        intro cs h
        have h512 : (BLOCK_SECTOR_SIZE : Int) = 512 := rfl
        have hb512 : BLOCK_SECTOR_SIZE = 512 := rfl
        rw [h512, hb512] at h
        rw [← h]
        split <;> split <;> omega
      generalize hcs : (if (size : Int) <
          (if ino.length - (offset : Int) < (BLOCK_SECTOR_SIZE : Int) -
              ((offset % BLOCK_SECTOR_SIZE : Nat) : Int)
            then ino.length - (offset : Int)
            else (BLOCK_SECTOR_SIZE : Int) - ((offset % BLOCK_SECTOR_SIZE : Nat) : Int))
          then (size : Int)
          else (if ino.length - (offset : Int) < (BLOCK_SECTOR_SIZE : Int) -
              ((offset % BLOCK_SECTOR_SIZE : Nat) : Int)
            then ino.length - (offset : Int)
            else (BLOCK_SECTOR_SIZE : Int) - ((offset % BLOCK_SECTOR_SIZE : Nat) : Int))) = cs
      obtain ⟨g1, g2, g3, g4⟩ := hcsdef cs hcs
      by_cases hc : cs ≤ 0
      · simp only [hc, if_true]
        exact agrees_mono (agrees_pure hi _) (Nat.zero_le _)
      · simp only [hc, if_false]
        have hstep := read_chunks_step ino.length size offset cs (by omega) g1 g2 g3 g4
        have hb := block_to_sector_false hi hp (offset / BLOCK_SECTOR_SIZE)
        cases hx : inode_block_to_sector st p (offset / BLOCK_SECTOR_SIZE) zeros zeros false with
        | error e =>
          rw [hx] at hb
          rcases hb with ⟨e1, e2⟩ | hq
          · exact Or.inl ⟨e1, fun hr => e2 (room_mono hr (by omega))⟩
          · right
            rw [hq]
        | ok r =>
          obtain ⟨st1, sector_idx⟩ := r
          rw [hx] at hb
          obtain ⟨hq, hsame, hroom⟩ := hb
          rw [hq]
          have hi1 : CacheInv st1.cache := hsame.cache.inv
          have hp1 : st1.heap p = some ino := by rw [hsame.heap]; exact hp
          have hv1 : view st1.cache = view st.cache := sameFS_view hsame
          simp only
          by_cases hz : sector_idx = 0 ∧ ino.length - (offset : Int) > 0
          · rw [if_pos hz, if_pos hz]
            have := ih st1 p ino (memcpy buffer bytes_read zeros 0 cs.toNat)
              (size - cs.toNat) (offset + cs.toNat) (bytes_read + cs.toNat) hi1 hp1
            rw [hv1] at this
            exact agrees_mono (agrees_after hsame hroom this) (by omega)
          · rw [if_neg hz, if_neg hz]
            by_cases hz2 : sector_idx = 0
            · rw [if_pos hz2, if_pos hz2]
              exact ⟨rfl, hsame, fun n hr => hroom n (room_mono hr (by omega))⟩
            · rw [if_neg hz2, if_neg hz2]
              have hcs_le : (offset % BLOCK_SECTOR_SIZE) + cs.toNat ≤ 512 := by
                have hb512 : BLOCK_SECTOR_SIZE = 512 := rfl
                rw [hb512]
                omega
              rcases read_cases hi1 sector_idx (ptr_add buffer bytes_read) hcs_le with
                ⟨hrd, hn⟩ | ⟨c2, hrd, t2, r2⟩
              · rw [hrd]
                exact Or.inl ⟨rfl, fun hr => hn (hroom 1 (room_mono hr (by omega)))⟩
              · rw [hrd]
                simp only
                rw [ptr_store_memcpy]
                have := ih { st1 with cache := c2 } p ino
                  (memcpy buffer bytes_read (view st1.cache sector_idx) (offset % BLOCK_SECTOR_SIZE)
                    cs.toNat)
                  (size - cs.toNat) (offset + cs.toNat) (bytes_read + cs.toNat) t2.inv hp1
                have hv2 : view c2 = view st1.cache := funext t2.view
                change Agrees { st1 with cache := c2 } _ _
                  (store_read_loop (view c2) _ _ _ _ _ _ _) at this
                rw [hv2, hv1] at this
                rw [hv1]
                have hroom4 : ∀ n, Room st.cache (n + 4) → Room c2 n := fun n hr =>
                  r2 n (hroom (n + 1) hr)
                exact agrees_mono
                  (@agrees_after _ _ { st1 with cache := c2 } _ _ _ _
                    (sameFS_trans hsame (sameFS_cache t2)) hroom4 this) (by omega)

/-- The close of an inode that stays on disk, from a cache with room for two
more waiting slots. -/
theorem close_kept_spec {c : Cache} (hi : CacheInv c) (ino : inode) {n : Nat}
    (hroom : Room c (n + 2)) :
    ∃ c2, (∀ st : FS, st.cache = c → close_kept st ino = Except.ok { st with cache := c2 }) ∧
      CacheInv c2 ∧
      view c2 ino.sector = memcpy (view c ino.sector) 0
        (inode_disk.set_isdir (inode_disk.set_entry_cnt
          (inode_disk.set_length (load_block zeros (view c ino.sector)) ino.length)
          ino.entry_cnt) ino.isdir) 0 512 ∧
      (∀ t, t ≠ ino.sector → view c2 t = view c t) ∧ Room c2 (n + 1) := by
  obtain ⟨c1, h1, t1⟩ := read_block_spec hi (room_has_slot (n := n + 1) hi hroom)
    ino.sector zeros
  have hr1 : Room c1 (n + 1) := read_room hi (by norm_num) h1 hroom
  obtain ⟨c2, h2, i2, v2, o2, _⟩ := cache_write_at_spec t1.inv (room_has_slot t1.inv hr1)
    ino.sector
    (inode_disk.set_isdir (inode_disk.set_entry_cnt
      (inode_disk.set_length (load_block zeros (view c ino.sector)) ino.length)
      ino.entry_cnt) ino.isdir) (show 0 + 512 ≤ 512 by norm_num)
  refine ⟨c2, ?_, i2, ?_, ?_, write_room t1.inv (by norm_num) h2 hr1⟩
  · intro st hst
    subst hst
    simp only [close_kept, get_disk_inode, h1, h2, bind, Except.bind, pure, Except.pure]
  · rw [v2, t1.view]
  · intro t ht
    rw [o2 t ht, t1.view]

theorem close_last_spec {st : FS} (hi : CacheInv st.cache) {p : Nat} {ino : inode}
    (hp0 : p ≠ 0) (hp : st.heap p = some ino) (h1 : ino.open_cnt = 1)
    (hr : ino.removed = false) {n : Nat} (hroom : Room st.cache (n + 2)) :
    ∃ c2, inode_close st p = Except.ok
        { st with
          cache := c2
          open_inodes := st.open_inodes.erase p
          heap := fun q => if q = p then none else st.heap q } ∧
      CacheInv c2 ∧
      view c2 ino.sector = memcpy (view st.cache ino.sector) 0
        (inode_disk.set_isdir (inode_disk.set_entry_cnt
          (inode_disk.set_length (load_block zeros (view st.cache ino.sector)) ino.length)
          ino.entry_cnt) ino.isdir) 0 512 ∧
      (∀ t, t ≠ ino.sector → view c2 t = view st.cache t) ∧ Room c2 (n + 1) := by
  obtain ⟨c2, hk, i2, v2, o2, r2⟩ := close_kept_spec hi ino hroom
  refine ⟨c2, ?_, i2, v2, o2, r2⟩
  unfold inode_close
  rw [if_neg hp0]
  simp only [FS.deref, hp, bind, Except.bind, pure, Except.pure]
  rw [if_pos (by rw [h1]; norm_num)]
  simp only [hr, Bool.false_eq_true, if_false]
  rw [hk _ (by rfl)]
  simp only [FS.store, Except.ok.injEq, FS.mk.injEq, true_and, and_true]
  funext q
  by_cases hq : q = p
  · simp [hq]
  · simp [hq]

theorem store_entry_same {V V2 : Nat → Buf} {s t : Nat} (hV : ∀ u, u ≠ s → V2 u = V u)
    (ht : t ≠ s) (k : Nat) (b : Buf) : store_entry V2 t k b = store_entry V t k b := by
  unfold store_entry
  rw [hV t ht]

set_option maxRecDepth 100000 in
theorem store_block_same {V V2 : Nat → Buf} {s : Nat} (hV : ∀ u, u ≠ s → V2 u = V u)
    (hw : ∀ ofs, 4 ≤ ofs → ofs + 4 ≤ 52 → get32 (V2 s) ofs = get32 (V s) ofs)
    (hs : SelfFree V s) (k : Nat) :
    store_block_to_sector V2 s k = store_block_to_sector V s k := by
  obtain ⟨s1, s2, _⟩ := hs
  have hw2 : ∀ ofs, 4 ≤ ofs → ofs + 4 ≤ 52 →
      get32 (load_block zeros (V2 s)) ofs = get32 (load_block zeros (V s)) ofs := by
    intro ofs h1 h2
    rw [get32_load_block _ _ (by omega), get32_load_block _ _ (by omega), hw ofs h1 h2]
  have hI : inode_disk.indirect (load_block zeros (V2 s)) =
      inode_disk.indirect (load_block zeros (V s)) := hw2 44 (by norm_num) (by norm_num)
  have hD : inode_disk.double_indirect (load_block zeros (V2 s)) =
      inode_disk.double_indirect (load_block zeros (V s)) := hw2 48 (by norm_num) (by norm_num)
  have hI0 : inode_disk.indirect (load_block zeros (V s)) = inode_disk.indirect (V s) :=
    get32_load_block _ _ (by norm_num)
  have hD0 : inode_disk.double_indirect (load_block zeros (V s)) =
      inode_disk.double_indirect (V s) := get32_load_block _ _ (by norm_num)
  unfold store_block_to_sector store_resolve
  by_cases h1 : k < NUM_DIRECT
  · rw [if_pos h1, if_pos h1]
    unfold NUM_DIRECT at h1
    have := hw2 (4 + 4 * k) (by omega) (by omega)
    unfold inode_disk.direct
    rw [this]
  · rw [if_neg h1, if_neg h1]
    by_cases h2 : k < NUM_DIRECT + 128
    · rw [if_pos h2, if_pos h2, hI]
      by_cases h3 : inode_disk.indirect (load_block zeros (V s)) = 0
      · rw [if_pos h3, if_pos h3]
      · rw [if_neg h3, if_neg h3]
        exact store_entry_same hV (by rw [hI0]; exact s1 (by rw [← hI0]; exact h3)) _ _
    · rw [if_neg h2, if_neg h2]
      by_cases h3 : k < NUM_SECTORS
      · rw [if_pos h3, if_pos h3, hD]
        by_cases h4 : inode_disk.double_indirect (load_block zeros (V s)) = 0
        · rw [if_pos h4, if_pos h4]
        · rw [if_neg h4, if_neg h4]
          unfold store_double
          obtain ⟨s2a, s3⟩ := s2 (by rw [← hD0]; exact h4)
          rw [hD, store_entry_same hV (by rw [hD0]; exact s2a)]
          cases ho : store_entry V (inode_disk.double_indirect (load_block zeros (V s)))
              ((k - (NUM_DIRECT + 128)) / BLOCK_SECTOR_SIZE) zeros with
          | error e => rfl
          | ok outer =>
            simp only [bind, Except.bind]
            by_cases h5 : outer = 0
            · rw [if_pos h5, if_pos h5]
            · rw [if_neg h5, if_neg h5]
              rw [hD0] at ho
              exact store_entry_same hV (s3 _ _ ho h5) _ _
      · rw [if_neg h3, if_neg h3]

theorem store_read_same {V V2 : Nat → Buf} {s : Nat} (hV : ∀ u, u ≠ s → V2 u = V u)
    (hw : ∀ ofs, 4 ≤ ofs → ofs + 4 ≤ 52 → get32 (V2 s) ofs = get32 (V s) ofs)
    (hs : SelfFree V s) (length : Int) : ∀ (fuel : Nat) (buffer : Buf)
      (size offset bytes_read : Nat),
    store_read_loop V2 s length fuel buffer size offset bytes_read =
      store_read_loop V s length fuel buffer size offset bytes_read := by
  intro fuel
  induction fuel with
  | zero =>
    intro buffer size offset bytes_read
    rfl
  | succ fuel ih =>
    intro buffer size offset bytes_read
    unfold store_read_loop
    by_cases h0 : size = 0
    · rw [if_pos h0, if_pos h0]
    · rw [if_neg h0, if_neg h0]
      dsimp only
      generalize (if (size : Int) <
          (if length - (offset : Int) < (BLOCK_SECTOR_SIZE : Int) -
              ((offset % BLOCK_SECTOR_SIZE : Nat) : Int)
            then length - (offset : Int)
            else (BLOCK_SECTOR_SIZE : Int) - ((offset % BLOCK_SECTOR_SIZE : Nat) : Int))
          then (size : Int)
          else (if length - (offset : Int) < (BLOCK_SECTOR_SIZE : Int) -
              ((offset % BLOCK_SECTOR_SIZE : Nat) : Int)
            then length - (offset : Int)
            else (BLOCK_SECTOR_SIZE : Int) - ((offset % BLOCK_SECTOR_SIZE : Nat) : Int))) = cs
      by_cases hc : cs ≤ 0
      · rw [if_pos hc, if_pos hc]
      · rw [if_neg hc, if_neg hc]
        rw [store_block_same hV hw hs]
        cases hb : store_block_to_sector V s (offset / BLOCK_SECTOR_SIZE) with
        | error e => rfl
        | ok t =>
          simp only [bind, Except.bind]
          by_cases hz : t = 0 ∧ length - (offset : Int) > 0
          · rw [if_pos hz, if_pos hz]
            exact ih _ _ _ _
          · rw [if_neg hz, if_neg hz]
            by_cases hz2 : t = 0
            · rw [if_pos hz2, if_pos hz2]
            · rw [if_neg hz2, if_neg hz2]
              have hts : t ≠ s := hs.2.2 _ _ hb hz2
              rw [hV t hts]
              exact ih _ _ _ _

theorem memcpy_block_lt (b d : Buf) {i : Nat} (h : i < 512) : memcpy b 0 d 0 512 i = d i := by
  simp [memcpy, h]

theorem closed_length (D : Buf) (len cnt : Int) (dir : Bool)
    (h1 : -2147483648 ≤ len) (h2 : len < 2147483648) :
    inode_disk.length (inode_disk.set_isdir (inode_disk.set_entry_cnt
      (inode_disk.set_length D len) cnt) dir) = len := by
  unfold inode_disk.length
  have e : get32 (inode_disk.set_isdir (inode_disk.set_entry_cnt
      (inode_disk.set_length D len) cnt) dir) 0 =
      get32 (inode_disk.set_entry_cnt (inode_disk.set_length D len) cnt) 0 := by
    apply get32_congr
    intro i _ hi
    unfold inode_disk.set_isdir
    rw [if_neg (by omega)]
  rw [e]
  unfold inode_disk.set_entry_cnt
  rw [get32_put32_other _ _ _ _ (by omega)]
  unfold inode_disk.set_length
  rw [get32_put32_same]
  exact to_int32_of_int32 len h1 h2

theorem closed_entry_cnt (D : Buf) (len cnt : Int) (dir : Bool)
    (h1 : -2147483648 ≤ cnt) (h2 : cnt < 2147483648) :
    inode_disk.entry_cnt (inode_disk.set_isdir (inode_disk.set_entry_cnt
      (inode_disk.set_length D len) cnt) dir) = cnt := by
  unfold inode_disk.entry_cnt
  have e : get32 (inode_disk.set_isdir (inode_disk.set_entry_cnt
      (inode_disk.set_length D len) cnt) dir) 56 =
      get32 (inode_disk.set_entry_cnt (inode_disk.set_length D len) cnt) 56 := by
    apply get32_congr
    intro i _ hi
    unfold inode_disk.set_isdir
    rw [if_neg (by omega)]
  rw [e]
  unfold inode_disk.set_entry_cnt
  rw [get32_put32_same]
  exact to_int32_of_int32 cnt h1 h2

theorem closed_isdir (D : Buf) (dir : Bool) :
    inode_disk.isdir (inode_disk.set_isdir D dir) = dir := by
  unfold inode_disk.isdir inode_disk.set_isdir
  cases dir <;> simp

theorem closed_pointers (D : Buf) (len cnt : Int) (dir : Bool) (ofs : Nat) (h1 : 4 ≤ ofs)
    (h2 : ofs + 4 ≤ 52) :
    get32 (inode_disk.set_isdir (inode_disk.set_entry_cnt
      (inode_disk.set_length D len) cnt) dir) ofs = get32 D ofs := by
  have e : get32 (inode_disk.set_isdir (inode_disk.set_entry_cnt
      (inode_disk.set_length D len) cnt) dir) ofs =
      get32 (inode_disk.set_entry_cnt (inode_disk.set_length D len) cnt) ofs := by
    apply get32_congr
    intro i _ hi
    unfold inode_disk.set_isdir
    rw [if_neg (by omega)]
  rw [e]
  unfold inode_disk.set_entry_cnt inode_disk.set_length
  rw [get32_put32_other _ _ _ _ (by omega), get32_put32_other _ _ _ _ (by omega)]

theorem length_load_block (b s : Buf) :
    inode_disk.length (load_block b s) = inode_disk.length s := by
  unfold inode_disk.length
  rw [get32_load_block _ _ (by norm_num)]

theorem entry_cnt_load_block (b s : Buf) :
    inode_disk.entry_cnt (load_block b s) = inode_disk.entry_cnt s := by
  unfold inode_disk.entry_cnt
  rw [get32_load_block _ _ (by norm_num)]

theorem isdir_load_block (b s : Buf) :
    inode_disk.isdir (load_block b s) = inode_disk.isdir s := by
  unfold inode_disk.isdir
  rw [load_block_lt _ _ (by norm_num)]

theorem read_at_end {st : FS} {q : Nat} {ino : inode} (hq : st.heap q = some ino)
    (hlen : 0 ≤ ino.length) (buffer : Buf) (size : Nat) :
    inode_read_at st q buffer size ino.length.toNat = Except.ok (st, buffer, 0) := by
  unfold inode_read_at
  cases size with
  | zero => rfl
  | succ n =>
    unfold read_loop
    rw [if_neg (by omega)]
    simp only [FS.deref, hq, bind, Except.bind, pure, Except.pure]
    have h0 : ino.length - ((ino.length.toNat : Nat) : Int) = 0 := by
      rw [Int.toNat_of_nonneg hlen]
      omega
    rw [h0]
    have hm : ino.length.toNat % BLOCK_SECTOR_SIZE < 512 := Nat.mod_lt _ (by decide)
    have h512 : (BLOCK_SECTOR_SIZE : Int) = 512 := rfl
    have hpos : (0 : Int) < (BLOCK_SECTOR_SIZE : Int) -
        ((ino.length.toNat % BLOCK_SECTOR_SIZE : Nat) : Int) := by omega
    rw [if_pos hpos]
    have hn : ¬ (((n + 1 : Nat) : Int) < 0) := by omega
    rw [if_neg hn]
    rw [if_pos (le_refl _)]

/-- C3: closing the last opener of an inode that is not removed and opening its
sector again gives an inode with the length, entry count and directory flag held
in memory at the close.  A read of the new inode gives what `store_read_at`
gives on the content of the sectors at the close, byte for byte, and so does the
same read before the close; the only other outcome of either read is the
endless loop of `cache_evict`, and the read of the new inode does not end there
when the cache has room for the four slots each of its chunks can hand to
read-ahead.  A read at offset `length` returns 0 bytes.  The length and the
entry count are values of an `int` with the length not negative, no pointer of
the file names the sector of its own inode (`SelfFree`), and the cache has room
for the two slots that the close and the open can hand to read-ahead. -/
theorem close_reopen (st : FS) (p : Nat) (ino : inode) (n : Nat)
    (hc : CacheInv st.cache) (ho : OpenInv st) (hp : st.heap p = some ino)
    (h1 : ino.open_cnt = 1) (hr : ino.removed = false)
    (hlen : 0 ≤ ino.length ∧ ino.length < 2147483648)
    (hcnt : -2147483648 ≤ ino.entry_cnt ∧ ino.entry_cnt < 2147483648)
    (hself : SelfFree (view st.cache) ino.sector) (hroom : Room st.cache (n + 2)) :
    ∃ st1 st2 q, inode_close st p = Except.ok st1 ∧
      inode_open st1 ino.sector = Except.ok (st2, q) ∧
      st2.heap q = some
        { sector := ino.sector, open_cnt := 1, removed := false, deny_write_cnt := 0,
          length := ino.length, isdir := ino.isdir, entry_cnt := ino.entry_cnt } ∧
      Room st2.cache n ∧
      (∀ buffer size offset,
        (fault_of (inode_read_at st2 q buffer size offset) = some Fault.spin ∨
          (inode_read_at st2 q buffer size offset).map Prod.snd =
            store_read_at (view st.cache) ino.sector ino.length buffer size offset) ∧
        (fault_of (inode_read_at st p buffer size offset) = some Fault.spin ∨
          (inode_read_at st p buffer size offset).map Prod.snd =
            store_read_at (view st.cache) ino.sector ino.length buffer size offset) ∧
        (Room st2.cache (4 * read_chunks ino.length size offset) →
          (inode_read_at st2 q buffer size offset).map Prod.snd =
            store_read_at (view st.cache) ino.sector ino.length buffer size offset)) ∧
      (∀ buffer size, (inode_read_at st2 q buffer size ino.length.toNat).map Prod.snd =
        Except.ok (buffer, 0)) := by
  have hp0 : p ≠ 0 := ho.nonnull p (ho.listed p ino hp)
  obtain ⟨c2, hclose, hi2, hv2, hoth, hroom2⟩ := close_last_spec hc hp0 hp h1 hr hroom
  have ho1 := close_keeps_inv ho hclose
  have hs : ∀ q ino1, (fun q => if q = p then none else st.heap q) q = some ino1 →
      ino1.sector ≠ ino.sector := by
    intro q ino1 hq
    by_cases hqp : q = p
    · simp [hqp] at hq
    · simp only [if_neg hqp] at hq
      intro hsec
      exact hqp (ho.uniq q p ino1 ino hq hp hsec)
  have hslot2 : has_slot c2 = true := room_has_slot hi2 hroom2
  obtain ⟨c3, hrd3, ht3⟩ := read_block_spec hi2 hslot2 ino.sector zeros
  have hroom3 : Room c3 n := read_room hi2 (by norm_num) hrd3 hroom2
  have hopen := open_new_of_read ho1 hs hrd3
  dsimp only at hopen
  have hblock : view c2 ino.sector = load_block (view st.cache ino.sector)
      (inode_disk.set_isdir (inode_disk.set_entry_cnt (inode_disk.set_length
        (load_block zeros (view st.cache ino.sector)) ino.length) ino.entry_cnt) ino.isdir) := hv2
  have elen : inode_disk.length (load_block zeros (view c2 ino.sector)) = ino.length := by
    rw [length_load_block, hblock, length_load_block]
    exact closed_length _ _ _ _ (by omega) hlen.2
  have ecnt : inode_disk.entry_cnt (load_block zeros (view c2 ino.sector)) = ino.entry_cnt := by
    rw [entry_cnt_load_block, hblock, entry_cnt_load_block]
    exact closed_entry_cnt _ _ _ _ hcnt.1 hcnt.2
  have edir : inode_disk.isdir (load_block zeros (view c2 ino.sector)) = ino.isdir := by
    rw [isdir_load_block, hblock, isdir_load_block]
    exact closed_isdir _ _
  rw [elen, ecnt, edir] at hopen
  have hsame : ∀ (buffer : Buf) (size offset : Nat),
      store_read_loop (view c3) ino.sector ino.length size buffer size offset 0 =
        store_read_at (view st.cache) ino.sector ino.length buffer size offset := by
    intro buffer size offset
    unfold store_read_at
    apply store_read_same _ _ hself
    · intro u hu
      rw [ht3.view, hoth u hu]
    · intro ofs ho1 ho2
      rw [ht3.view, hblock, get32_load_block _ _ (by omega), closed_pointers _ _ _ _ _ ho1 ho2,
        get32_load_block _ _ (by omega)]
  refine ⟨_, _, _, hclose, hopen, ?_, hroom3, ?_, ?_⟩
  · dsimp only
    rw [if_pos rfl]
  · intro buffer size offset
    have a2 := read_loop_agrees size
      { st with
        cache := c3
        heap := fun q => if q = st.brk then some
          { sector := ino.sector, open_cnt := 1, deny_write_cnt := 0, removed := false,
            length := ino.length, entry_cnt := ino.entry_cnt, isdir := ino.isdir }
          else (if q = p then none else st.heap q)
        open_inodes := st.brk :: st.open_inodes.erase p
        brk := st.brk + 1 } st.brk
      { sector := ino.sector, open_cnt := 1, removed := false, deny_write_cnt := 0,
        length := ino.length, isdir := ino.isdir, entry_cnt := ino.entry_cnt }
      buffer size offset 0 ht3.inv (if_pos rfl)
    dsimp only at a2
    rw [hsame] at a2
    refine ⟨agrees_snd a2, agrees_snd (read_loop_agrees size st p ino buffer size offset 0 hc hp),
      ?_⟩
    intro hrm
    exact agrees_room a2 hrm
  · intro buffer size
    have hq : ∀ (st2 : FS) (i2 : inode), i2.length = ino.length → st2.heap st.brk = some i2 →
        (inode_read_at st2 st.brk buffer size ino.length.toNat).map Prod.snd =
          Except.ok (buffer, 0) := by
      intro st2 i2 hl h2
      rw [← hl, read_at_end h2 (by rw [hl]; exact hlen.1)]
      rfl
    refine hq _ _ ?_ (if_pos rfl)
    rfl

theorem file_open_inv : OpenInv ex_file_fs := by
  have hh : ∀ q x, ex_file_fs.heap q = some x → q = 1 := by
    intro q x h
    by_contra hq
    simp [ex_file_fs, hq] at h
  constructor
  · show [1].Nodup
    simp
  · intro p hp
    have : p = 1 := by simpa [ex_file_fs] using hp
    rw [this]
    exact ⟨ex_file_inode, rfl, by decide⟩
  · intro p ino h
    rw [hh p ino h]
    show 1 ∈ [1]
    simp
  · intro p q a b h1 h2 _
    rw [hh p a h1, hh q b h2]
  · intro p hp
    have : p = 1 := by simpa [ex_file_fs] using hp
    rw [this]
    show 1 < 2
    norm_num
  · intro p hp
    have : p = 1 := by simpa [ex_file_fs] using hp
    rw [this]
    norm_num
  · show 1 ≤ 2
    norm_num

theorem file_self_free : SelfFree (view ex_file_fs.cache) 2 := by
  have hv : view ex_file_fs.cache = ex_file_disk := funext (cache_init_view _ _)
  rw [hv]
  have hi : inode_disk.indirect (load_block zeros (ex_file_disk 2)) = 0 := by decide
  have hd : inode_disk.double_indirect (load_block zeros (ex_file_disk 2)) = 0 := by decide
  have hi0 : inode_disk.indirect (ex_file_disk 2) = 0 := by decide
  have hd0 : inode_disk.double_indirect (ex_file_disk 2) = 0 := by decide
  refine ⟨fun h => absurd hi0 h, fun h => absurd hd0 h, ?_⟩
  intro k t h
  unfold store_block_to_sector store_resolve at h
  rw [hi, hd] at h
  by_cases h1 : k < NUM_DIRECT
  · rw [if_pos h1] at h
    cases h
    have h10 : k < 10 := h1
    intro _
    interval_cases k <;> decide
  · rw [if_neg h1] at h
    by_cases h2 : k < NUM_DIRECT + 128
    · rw [if_pos h2, if_pos rfl] at h
      cases h
      decide
    · rw [if_neg h2] at h
      by_cases h3 : k < NUM_SECTORS
      · rw [if_pos h3, if_pos rfl] at h
        cases h
        decide
      · rw [if_neg h3] at h
        cases h

theorem file_room : Room ex_file_fs.cache (0 + 2) :=
  ⟨[], cache_init_waiting _ _, by decide⟩

set_option maxRecDepth 1000000 in
/-- Witness of C3: the example file of length 600, filled with 0x41, its inode
open once at address 1.  After close and reopen the inode has length 600, the
600 bytes read back as 0x41 and a read at offset 600 returns 0 bytes. -/
theorem close_reopen_witness :
    ex_reopen_scenario.toOption = some (600, List.replicate 600 65, 600, 0) ∧
    SelfFree (view ex_file_fs.cache) 2 ∧ Room ex_file_fs.cache (0 + 2) ∧
    ∃ st1 st2 q, inode_close ex_file_fs 1 = Except.ok st1 ∧
      inode_open st1 2 = Except.ok (st2, q) ∧
      st2.heap q = some
        { sector := 2, open_cnt := 1, removed := false, deny_write_cnt := 0,
          length := 600, isdir := false, entry_cnt := 0 } ∧
      Room st2.cache 0 ∧
      (∀ buffer size offset,
        (fault_of (inode_read_at st2 q buffer size offset) = some Fault.spin ∨
          (inode_read_at st2 q buffer size offset).map Prod.snd =
            store_read_at (view ex_file_fs.cache) 2 600 buffer size offset) ∧
        (fault_of (inode_read_at ex_file_fs 1 buffer size offset) = some Fault.spin ∨
          (inode_read_at ex_file_fs 1 buffer size offset).map Prod.snd =
            store_read_at (view ex_file_fs.cache) 2 600 buffer size offset) ∧
        (Room st2.cache (4 * read_chunks 600 size offset) →
          (inode_read_at st2 q buffer size offset).map Prod.snd =
            store_read_at (view ex_file_fs.cache) 2 600 buffer size offset)) ∧
      (∀ buffer size, (inode_read_at st2 q buffer size 600).map Prod.snd =
        Except.ok (buffer, 0)) :=
  ⟨by decide!, file_self_free, file_room,
    close_reopen ex_file_fs 1 ex_file_inode 0 (cache_init_inv _ _) file_open_inv rfl rfl
      rfl (by decide) (by decide) file_self_free file_room⟩

theorem held_pairwise {l : List Nat} (hn : l.Nodup) (ha : ∀ idx ∈ l, idx % 8 = 0) :
    l.Pairwise (fun a b => a + 8 ≤ b ∨ b + 8 ≤ a) := by
  induction l with
  | nil => exact List.Pairwise.nil
  | cons x t ih =>
    rw [List.nodup_cons] at hn
    refine List.Pairwise.cons ?_ (ih hn.2 (fun idx h => ha idx (List.mem_cons_of_mem _ h)))
    intro b hb
    have h1 := ha x (List.mem_cons_self _ _)
    have h2 := ha b (List.mem_cons_of_mem _ hb)
    have hne : x ≠ b := fun e => hn.1 (e ▸ hb)
    omega

/-- C38 (swap slots never overlap): in every state reached from `swap_init` by
calls of `swap_out`, and of `swap_in` and `swap_delete` on indices that are still
held, the 8-sector ranges of any two held slots are disjoint, every sector of a
held slot lies inside the device and is marked used in the bitmap, and `swap_in`
of a held slot returns: none of its assertions fails. -/
theorem swap_slots_disjoint (blk : Nat → Buf) (size : Nat) (ops : List SwapOp) (t : SwapTrace)
    (h : swap_ops ⟨swap_init blk size, [], []⟩ ops = some t) :
    t.held.Pairwise (fun a b => a + 8 ≤ b ∨ b + 8 ≤ a) ∧
    (∀ idx ∈ t.held, ∀ k, k < 8 →
      idx + k < t.sw.swap_bitmap.size ∧ t.sw.swap_bitmap.bits (idx + k) = true) ∧
    (∀ idx ∈ t.held, ∀ frame, ∃ r, swap_in t.sw frame idx = Except.ok r) := by
  have hi := swap_ops_inv ops _ t (swap_init_inv blk size) h
  have hbits : ∀ idx ∈ t.held, ∀ k, k < 8 → t.sw.swap_bitmap.bits (idx + k) = true := by
    intro idx hm k hk
    exact (hi.bits (idx + k)).2 ⟨idx, hm, by omega, by omega⟩
  refine ⟨held_pairwise hi.nodup (fun idx hm => (hi.inside idx hm).1), ?_, ?_⟩
  · intro idx hm k hk
    exact ⟨by have := (hi.inside idx hm).2; omega, hbits idx hm k hk⟩
  · intro idx hm frame
    refine ⟨_, swap_in_loop_spec idx 8 0 t.sw frame (by have := (hi.inside idx hm).2; omega) ?_⟩
    intro k hk
    exact hbits idx hm k hk

/-- Witness of C38: six calls on a device of 30 sectors, after which the slots
0 and 16 are held. -/
theorem swap_slots_disjoint_witness :
    (swap_ops ⟨swap_init (fun _ => zeros) 30, [], []⟩ ex_swap_ops).map
      (fun t => t.held) = some [0, 16] ∧
    ∃ t, swap_ops ⟨swap_init (fun _ => zeros) 30, [], []⟩ ex_swap_ops = some t ∧
      t.held.Pairwise (fun a b => a + 8 ≤ b ∨ b + 8 ≤ a) ∧
      (∀ idx ∈ t.held, ∀ k, k < 8 →
        idx + k < t.sw.swap_bitmap.size ∧ t.sw.swap_bitmap.bits (idx + k) = true) ∧
      (∀ idx ∈ t.held, ∀ frame, ∃ r, swap_in t.sw frame idx = Except.ok r) :=
  have hs : (swap_ops ⟨swap_init (fun _ => zeros) 30, [], []⟩ ex_swap_ops).isSome = true := by
    decide
  have h := (Option.some_get hs).symm
  ⟨by decide, _, h, swap_slots_disjoint (fun _ => zeros) 30 ex_swap_ops _ h⟩

/-- C39 at a failing input: the page 0x10000000 has the entry at address 100;
`SPT_insert` for that page returns the new entry at address 300, which is not
put into the table, and `SPT_lookup` returns the entry at 100.  In `mmap` of a
file over that page the descriptor goes to the entry `SPT_insert` returned (at
301, offset 4096), while a later lookup finds the entry at 100 with the
descriptor it had before (offset 0). -/
theorem insert_not_found_by_lookup :
    ex_insert_twice.toOption = some (300, 100, [100, 101, 102]) ∧
    ex_mmap_orphan.toOption = some (100, [(true, 0), (true, 4096)]) := by
  decide!

set_option maxRecDepth 1000000 in
/-- C18 at a failing input: an empty file on a volume with three free sectors,
1024 bytes written at offset 135680.  The first chunk (block 265) takes the
three sectors: written alone it returns 512 with length 136192 and leaves no
free sector.  In the write of both chunks the second chunk is block 266, inner
slot `(266 - 138) % 512 = 128`: the run stops in an out-of-bounds access of the
128-entry index block instead of returning 512. -/
theorem short_write_block266 :
    ex_short_write_first.toOption = some (512, 136192, none) ∧
    fault_of ex_short_write_scenario = some Fault.oob := by
  decide!

set_option maxRecDepth 1000000 in
/-- C36 at a failing input: on a volume whose free sectors are 3, 4 and 5,
`inode_create` of a 4-block file returns false after it has allocated the three
sectors, and they stay marked used: no sector is free afterwards. -/
theorem failed_create_leaks :
    free_scan ex_tiny_fs.free_map.used ex_tiny_fs.free_map.size 0 = some 3 ∧
    ex_failed_create.toOption = some (false, none, [true, true, true]) := by
  decide!

theorem inner_loop_oob (ib : Buf) : ∀ (n i : Nat) (st : FS), i ≤ 128 → 128 < i + n →
    close_inner_loop n i st ib = Except.error Fault.oob := by
  intro n
  induction n with
  | zero => intro i st h1 h2; omega
  | succ n ih =>
    intro i st h1 h2
    unfold close_inner_loop
    by_cases h : i = 128
    · subst h
      rfl
    · have hlt : i < 128 := by omega
      simp only [entry, if_pos hlt, bind, Except.bind, pure, Except.pure]
      split
      · exact ih _ _ (by omega) (by omega)
      · exact ih _ _ (by omega) (by omega)

/-- C37 fails on the code: the loop of `inode_close` over the double-indirect
block runs `BLOCK_SECTOR_SIZE` = 512 turns over a block of 128 entries.  For
every state and every content of the block it reads the entries 0 to 127 and
then entry 128, outside the block, where the run stops. -/
theorem close_inner_loop_out_of_bounds (st : FS) (ib : Buf) :
    close_inner_loop BLOCK_SECTOR_SIZE 0 st ib = Except.error Fault.oob ∧
    entry ib 127 = Except.ok (get32 ib 508) ∧ entry ib 128 = Except.error Fault.oob :=
  ⟨inner_loop_oob ib BLOCK_SECTOR_SIZE 0 st (by omega) (by decide), rfl, rfl⟩

theorem scan_all_valid (c : Cache) (s : Nat) : ∀ (n i : Nat) (idx : Option Nat),
    (∀ j, i ≤ j → j < i + n → (c.cache j).valid = true ∧ (c.cache j).sector ≠ s) →
    allocate_scan c s n i idx = Sum.inr idx := by
  intro n
  induction n with
  | zero => intro i idx _; rfl
  | succ n ih =>
    intro i idx h
    unfold allocate_scan
    have hi := h i (le_refl _) (by omega)
    rw [if_neg (fun hh => hi.2 hh.1), if_neg (by simp [hi.1])]
    exact ih _ _ (fun j h1 h2 => h j (by omega) (by omega))

theorem scan_miss_last (c : Cache) (s m : Nat) : ∀ (n i : Nat) (idx : Option Nat),
    (∀ j, i ≤ j → j < i + n → (c.cache j).valid = true → (c.cache j).sector ≠ s) →
    i ≤ m → m < i + n → (c.cache m).valid = false →
    (∀ j, m < j → j < i + n → (c.cache j).valid = true) →
    allocate_scan c s n i idx = Sum.inr (some m) := by
  intro n
  induction n with
  | zero => intro i idx _ h1 h2; omega
  | succ n ih =>
    intro i idx hmiss h1 h2 hm hlast
    unfold allocate_scan
    by_cases hv : (c.cache i).valid = true
    · have hne : i ≠ m := by
        intro e
        rw [e, hm] at hv
        cases hv
      rw [if_neg (fun hh => hmiss i (le_refl _) (by omega) hv hh.1), if_neg (by simp [hv])]
      exact ih _ _ (fun j a b => hmiss j (by omega) (by omega)) (by omega) (by omega) hm
        (fun j a b => hlast j a (by omega))
    · have hv2 : (c.cache i).valid = false := by
        cases h : (c.cache i).valid
        · rfl
        · exact absurd h hv
      rw [if_neg (fun hh => hv hh.2), if_pos hv2]
      by_cases e : i = m
      · subst e
        apply scan_all_valid
        intro j a b
        have hj := hlast j (by omega) (by omega)
        exact ⟨hj, hmiss j (by omega) (by omega) hj⟩
      · exact ih _ _ (fun j a b => hmiss j (by omega) (by omega)) (by omega) (by omega) hm
          (fun j a b => hlast j a (by omega))

/-- C31 (amended): when no valid slot holds the requested sector and some slot
is invalid, `cache_allocate` takes the last invalid slot, the one with the
highest index: its loop overwrites the remembered index at every invalid slot.
The slot gets the sector with `valid` set and the other flags and counters
cleared; no other slot, nor the clock hand, nor the device changes, so no
eviction runs. -/
theorem allocate_last_invalid (c : Cache) (sector m : Nat)
    (hmiss : ∀ j, j < 64 → (c.cache j).valid = true → (c.cache j).sector ≠ sector)
    (hm : m < 64) (hinv : (c.cache m).valid = false)
    (hlast : ∀ j, m < j → j < 64 → (c.cache j).valid = true) :
    cache_allocate c sector = Except.ok
      (c.set m { c.cache m with
        sector := sector, valid := true, dirty := false, accessed := false,
        read_cnt := 0, write_cnt := 0, loaded := false }, m) := by
  unfold cache_allocate
  rw [scan_miss_last c sector m 64 0 none (fun j _ b => hmiss j (by omega)) (Nat.zero_le _)
    (by omega) hinv (fun j a b => hlast j a (by omega))]
  rfl

/-- Witness of C31 (amended): right after `cache_init` every slot is invalid and
`cache_allocate` takes slot 63. -/
theorem allocate_last_invalid_witness :
    cache_allocate (cache_init (fun _ => zeros) 4096) 7 = Except.ok
      ((cache_init (fun _ => zeros) 4096).set 63
        { (cache_init (fun _ => zeros) 4096).cache 63 with
          sector := 7, valid := true, dirty := false, accessed := false,
          read_cnt := 0, write_cnt := 0, loaded := false }, 63) :=
  allocate_last_invalid (cache_init (fun _ => zeros) 4096) 7 63
    (fun j _ h => by simp [cache_init] at h) (by norm_num) rfl (fun j a b => by omega)

/-- Counterexample to C31 as stated: right after `cache_init` no valid slot holds
sector 7 and the first invalid slot is slot 0, yet `cache_allocate (7)` returns
slot 63. -/
theorem allocate_first_counterexample :
    ((cache_init (fun _ => zeros) 4096).cache 0).valid = false ∧
    (cache_allocate (cache_init (fun _ => zeros) 4096) 7).toOption.map Prod.snd = some 63 := by
  decide

theorem same_refl (c : Cache) : SameSlots c c := fun _ => ⟨rfl, rfl⟩

theorem same_trans {a b c : Cache} (h1 : SameSlots a b) (h2 : SameSlots b c) : SameSlots a c :=
  fun j => ⟨(h2 j).1.trans (h1 j).1, (h2 j).2.trans (h1 j).2⟩

theorem uniq_same {c c1 : Cache} (hs : SameSlots c c1) (hu : SlotsUnique c) : SlotsUnique c1 := by
  intro i j hi hj vi vj e
  rw [(hs i).2] at vi
  rw [(hs j).2] at vj
  rw [(hs i).1, (hs j).1] at e
  exact hu i j hi hj vi vj e

theorem same_of_similar {c c1 : Cache} (hs : Similar c c1) : SameSlots c c1 :=
  fun j => ⟨hs.sector j, hs.valid j⟩

theorem same_of_cache {c c1 : Cache} (h : c1.cache = c.cache) : SameSlots c c1 := by
  intro j
  rw [h]
  exact ⟨rfl, rfl⟩

theorem same_set (c : Cache) (i : Nat) (e : cache_entry) (h1 : e.sector = (c.cache i).sector)
    (h2 : e.valid = (c.cache i).valid) : SameSlots c (c.set i e) := by
  intro j
  by_cases h : j = i
  · subst h
    rw [set_cache_self]
    exact ⟨h1, h2⟩
  · rw [set_cache_other c e h]
    exact ⟨rfl, rfl⟩

theorem same_load (c : Cache) (i : Nat) : SameSlots c (cache_load c i) := by
  unfold cache_load
  exact same_set c i _ rfl rfl

theorem same_load_if (c : Cache) (i : Nat) :
    SameSlots c (if (c.cache i).loaded then c else cache_load c i) := by
  split
  · exact same_refl c
  · exact same_load c i

theorem same_read_ahead_loop : ∀ (q : List Nat) (c : Cache), SameSlots c (read_ahead_loop q c) := by
  intro q
  induction q with
  | nil =>
    intro c
    unfold read_ahead_loop
    exact same_of_cache rfl
  | cons a t ih =>
    intro c
    unfold read_ahead_loop
    exact same_trans (same_load_if c a) (ih _)

theorem same_read_ahead_step (c : Cache) : SameSlots c (read_ahead_step c) := by
  unfold read_ahead_step
  cases hq : c.read_queue with
  | nil => exact same_refl c
  | cons a t =>
    have h1 : SameSlots c { c with read_queue := t } := same_of_cache rfl
    exact same_trans h1 (same_load_if { c with read_queue := t } a)

theorem same_rounds {r : Nat} {c c1 : Cache} {o : Option Nat}
    (h : evict_rounds r c = Except.ok (c1, o)) : SameSlots c c1 := by
  cases o with
  | none => exact same_of_similar (rounds_none _ _ _ h)
  | some v =>
    obtain ⟨_, _, _, hs⟩ := rounds_some _ _ _ _ h
    exact same_trans (same_of_cache (wb_cache c v)) (same_of_similar hs)

theorem same_evict {c c1 : Cache} {v : Nat} (h : cache_evict c = Except.ok (c1, v)) :
    SameSlots c c1 := by
  unfold cache_evict at h
  cases h1 : evict_rounds 3 c with
  | error e =>
    rw [h1] at h
    cases h
  | ok p =>
    obtain ⟨c2, o⟩ := p
    rw [h1] at h
    have s2 := same_rounds h1
    cases o with
    | some w =>
      simp only [pure, Except.pure, Except.ok.injEq, Prod.mk.injEq] at h
      rw [← h.1]
      exact s2
    | none => cases h

theorem uniq_take {c : Cache} (hu : SlotsUnique c) (k s : Nat) (e : cache_entry)
    (hs : e.sector = s)
    (hmiss : ∀ j, j < 64 → ¬ ((c.cache j).sector = s ∧ (c.cache j).valid = true)) :
    SlotsUnique (c.set k e) := by
  intro i j hi hj vi vj es
  by_cases h1 : i = k
  · by_cases h2 : j = k
    · rw [h1, h2]
    · exfalso
      rw [h1, set_cache_self, set_cache_other c e h2] at es
      rw [set_cache_other c e h2] at vj
      exact hmiss j hj ⟨by rw [← es, hs], vj⟩
  · by_cases h2 : j = k
    · exfalso
      rw [h2, set_cache_self, set_cache_other c e h1] at es
      rw [set_cache_other c e h1] at vi
      exact hmiss i hi ⟨by rw [es, hs], vi⟩
    · rw [set_cache_other c e h1] at vi es
      rw [set_cache_other c e h2] at vj es
      exact hu i j hi hj vi vj es

theorem uniq_allocate {c c1 : Cache} {s idx : Nat} (hu : SlotsUnique c)
    (h : cache_allocate c s = Except.ok (c1, idx)) : SlotsUnique c1 := by
  unfold cache_allocate at h
  cases hsc : allocate_scan c s 64 0 none with
  | inl i =>
    rw [hsc] at h
    simp only [pure, Except.pure, Except.ok.injEq, Prod.mk.injEq] at h
    rw [← h.1]
    exact hu
  | inr r =>
    rw [hsc] at h
    simp only at h
    have hmiss := (scan_inr c s _ _ _ _ hsc).1
    cases r with
    | some k =>
      simp only [pure, Except.pure, Except.ok.injEq, Prod.mk.injEq] at h
      rw [← h.1]
      exact uniq_take hu k s _ rfl (fun j hj => hmiss j (Nat.zero_le _) (by omega))
    | none =>
      simp only at h
      cases he : cache_evict c with
      | error e =>
        rw [he] at h
        cases h
      | ok p =>
        obtain ⟨c2, k⟩ := p
        rw [he] at h
        simp only [pure, Except.pure, Except.ok.injEq, Prod.mk.injEq] at h
        rw [← h.1]
        have hs := same_evict he
        apply uniq_take (uniq_same hs hu) k s _ rfl
        intro j hj
        rw [(hs j).1, (hs j).2]
        exact hmiss j (Nat.zero_le _) (by omega)

theorem uniq_write {c c1 : Cache} {s : Nat} {b : Buf} {ofs size : Nat} (hu : SlotsUnique c)
    (h : cache_write_at c s b ofs size = Except.ok c1) : SlotsUnique c1 := by
  unfold cache_write_at at h
  cases ha : cache_allocate c s with
  | error e =>
    rw [ha] at h
    cases h
  | ok p =>
    obtain ⟨c2, idx⟩ := p
    rw [ha] at h
    simp only at h
    have hu2 := uniq_allocate hu ha
    split at h
    · cases h
    · simp only [pure, Except.pure, Except.ok.injEq] at h
      rw [← h]
      exact uniq_same (same_trans (same_load_if c2 idx) (same_set _ idx _ rfl rfl)) hu2

theorem uniq_read {c c1 : Cache} {s : Nat} {b out : Buf} {ofs size : Nat} (hu : SlotsUnique c)
    (h : cache_read_at c s b ofs size = Except.ok (c1, out)) : SlotsUnique c1 := by
  unfold cache_read_at at h
  cases ha : cache_allocate c s with
  | error e =>
    rw [ha] at h
    cases h
  | ok p =>
    obtain ⟨c2, idx⟩ := p
    rw [ha] at h
    simp only at h
    have hu2 := uniq_allocate hu ha
    have hu3 : SlotsUnique ((if (c2.cache idx).loaded then c2 else cache_load c2 idx).set idx
        { (if (c2.cache idx).loaded then c2 else cache_load c2 idx).cache idx with
          accessed := true }) :=
      uniq_same (same_trans (same_load_if c2 idx) (same_set _ idx _ rfl rfl)) hu2
    generalize (if (c2.cache idx).loaded then c2 else cache_load c2 idx).set idx
        { (if (c2.cache idx).loaded then c2 else cache_load c2 idx).cache idx with
          accessed := true } = c3 at h hu3
    by_cases h5 : 512 < ofs + size
    · rw [if_pos h5] at h
      cases h
    · rw [if_neg h5] at h
      by_cases h6 : (s + 1) % 4294967296 < c3.dev_size
      · rw [if_pos h6] at h
        cases hb : cache_allocate c3 ((s + 1) % 4294967296) with
        | error e =>
          rw [hb] at h
          cases h
        | ok p2 =>
          obtain ⟨c4, next⟩ := p2
          rw [hb] at h
          simp only at h
          have hu4 := uniq_allocate hu3 hb
          by_cases h7 : (c4.cache next).loaded = true
          · rw [if_pos h7] at h
            simp only [pure, Except.pure, Except.ok.injEq, Prod.mk.injEq] at h
            rw [← h.1]
            exact hu4
          · rw [if_neg h7] at h
            simp only [pure, Except.pure, Except.ok.injEq, Prod.mk.injEq] at h
            rw [← h.1]
            exact hu4
      · rw [if_neg h6] at h
        simp only [pure, Except.pure, Except.ok.injEq, Prod.mk.injEq] at h
        rw [← h.1]
        exact hu3

theorem same_done_loop : ∀ (n i : Nat) (c : Cache), SameSlots c (cache_done_loop n i c) := by
  intro n
  induction n with
  | zero => intro i c; exact same_refl c
  | succ n ih =>
    intro i c
    unfold cache_done_loop
    split
    · refine same_trans ?_ (ih _ _)
      have h1 : SameSlots c (c.block_write (c.cache i).sector (c.cache i).buffer) :=
        same_of_cache rfl
      exact same_trans h1 (same_set _ i _ rfl rfl)
    · exact ih _ _

theorem uniq_remove_loop (s : Nat) : ∀ (n i : Nat) (c : Cache), SlotsUnique c →
    SlotsUnique (cache_remove_loop s n i c) := by
  intro n
  induction n with
  | zero => intro i c hu; exact hu
  | succ n ih =>
    intro i c hu
    unfold cache_remove_loop
    split
    · intro a b ha hb va vb es
      have h1 : a ≠ i := by
        intro e
        rw [e, set_cache_self] at va
        cases va
      have h2 : b ≠ i := by
        intro e
        rw [e, set_cache_self] at vb
        cases vb
      rw [set_cache_other _ _ h1] at va es
      rw [set_cache_other _ _ h2] at vb es
      exact hu a b ha hb va vb es
    · exact ih _ _ hu

theorem uniq_init (disk : Nat → Buf) (dev_size : Nat) : SlotsUnique (cache_init disk dev_size) := by
  intro i j _ _ vi
  cases vi

theorem uniq_calls : ∀ (calls : List CacheCall) (c c1 : Cache), SlotsUnique c →
    cache_calls c calls = Except.ok c1 → SlotsUnique c1 := by
  intro calls
  induction calls with
  | nil =>
    intro c c1 hu h
    simp only [cache_calls, pure, Except.pure, Except.ok.injEq] at h
    rw [← h]
    exact hu
  | cons call calls ih =>
    intro c c1 hu h
    unfold cache_calls at h
    cases hc : cache_call c call with
    | error e =>
      rw [hc] at h
      cases h
    | ok c2 =>
      rw [hc] at h
      simp only at h
      refine ih c2 c1 ?_ h
      cases call with
      | remove s =>
        simp only [cache_call, pure, Except.pure, Except.ok.injEq] at hc
        rw [← hc]
        exact uniq_remove_loop s 64 0 c hu
      | op o =>
        cases o with
        | read s ofs size =>
          simp only [cache_call] at hc
          cases hr : cache_read_at c s zeros ofs size with
          | error e =>
            rw [hr] at hc
            cases hc
          | ok p =>
            obtain ⟨c3, out⟩ := p
            rw [hr] at hc
            simp only [pure, Except.pure, Except.ok.injEq] at hc
            rw [← hc]
            exact uniq_read hu hr
        | write s data ofs size =>
          simp only [cache_call] at hc
          exact uniq_write hu hc
        | ahead =>
          simp only [cache_call, pure, Except.pure, Except.ok.injEq] at hc
          rw [← hc]
          exact uniq_same (same_read_ahead_step c) hu
        | done =>
          simp only [cache_call, pure, Except.pure, Except.ok.injEq] at hc
          rw [← hc]
          exact uniq_same (same_done_loop 64 0 c) hu

/-- C35 (cache slot uniqueness): in every state reached from `cache_init` by
calls of `cache_read_at` (with its read-ahead allocation of the next sector),
`cache_write_at`, `cache_remove` and `cache_done` and by turns of the read-ahead
thread, no two valid slots hold the same sector number. -/
theorem cache_slot_uniqueness (disk : Nat → Buf) (dev_size : Nat) (calls : List CacheCall)
    (c : Cache) (h : cache_calls (cache_init disk dev_size) calls = Except.ok c) :
    ∀ i j, i < 64 → j < 64 → (c.cache i).valid = true → (c.cache j).valid = true →
      (c.cache i).sector = (c.cache j).sector → i = j :=
  uniq_calls calls _ c (uniq_init disk dev_size) h

/-- Witness of C35: reads of sectors 0 and 1, `cache_remove (1)` with the slot
still queued, and a turn of the read-ahead thread. -/
theorem cache_slot_uniqueness_witness :
    ∃ c, cache_calls (cache_init ex_numbered_disk 8) ex_stale_queue = Except.ok c ∧
      ∀ i j, i < 64 → j < 64 → (c.cache i).valid = true → (c.cache j).valid = true →
        (c.cache i).sector = (c.cache j).sector → i = j := by
  cases h : cache_calls (cache_init ex_numbered_disk 8) ex_stale_queue with
  | error e =>
    have hf : fault_of (cache_calls (cache_init ex_numbered_disk 8) ex_stale_queue) = none := by
      decide!
    rw [h] at hf
    cases hf
  | ok c => exact ⟨c, rfl, cache_slot_uniqueness ex_numbered_disk 8 ex_stale_queue c h⟩

theorem with_accessed_self (c : Cache) :
    with_accessed c (fun j => (c.cache j).accessed) c.iter_idx = c := rfl

theorem with_accessed_clear (c : Cache) (acc : Nat → Bool) (k i : Nat) :
    (with_accessed c acc k).set i { (with_accessed c acc k).cache i with accessed := false } =
      with_accessed c (fun j => if j = i then false else acc j) k := by
  unfold with_accessed Cache.set
  congr 1
  funext j
  by_cases h : j = i
  · subst h
    simp
  · simp [h]

theorem sweep_walk (c : Cache) : ∀ (n i : Nat) (acc : Nat → Bool) (k : Nat),
    (∀ j, i ≤ j → j < i + n → (c.cache j).valid = true) →
    evict_sweep n i (with_accessed c acc k) = Except.ok
      (match clock_walk (fun j => (c.cache j).loaded) (List.range' i n) acc with
        | (acc1, some v) => (clock_result c acc1 v, some v)
        | (acc1, none) => (with_accessed c acc1 k, none)) := by
  intro n
  induction n with
  | zero => intro i acc k _; rfl
  | succ n ih =>
    intro i acc k hv
    have hvi : (c.cache i).valid = true := hv i (le_refl _) (by omega)
    have hrest : ∀ j, i + 1 ≤ j → j < i + 1 + n → (c.cache j).valid = true :=
      fun j a b => hv j (by omega) (by omega)
    rw [List.range'_succ]
    unfold evict_sweep clock_walk
    rw [if_neg (by show ¬ ((c.cache i).valid = false); simp [hvi])]
    by_cases ha : acc i = true
    · rw [if_pos (show ((with_accessed c acc k).cache i).accessed = true from ha), if_pos ha,
        with_accessed_clear]
      exact ih _ _ _ hrest
    · rw [if_neg (show ¬ ((with_accessed c acc k).cache i).accessed = true from ha), if_neg ha]
      by_cases hl : (c.cache i).loaded = true
      · rw [if_pos (show ((with_accessed c acc k).cache i).loaded = true from hl), if_pos hl]
        rfl
      · rw [if_neg (show ¬ ((with_accessed c acc k).cache i).loaded = true from hl), if_neg hl]
        exact ih _ _ _ hrest

theorem clock_walk_cons (L : Nat → Bool) (i : Nat) (rest : List Nat) (acc : Nat → Bool) :
    clock_walk L (i :: rest) acc =
      if acc i then clock_walk L rest (fun j => if j = i then false else acc j)
      else if L i then (acc, some i)
      else clock_walk L rest acc := rfl

theorem walk_append (L : Nat → Bool) : ∀ (l1 l2 : List Nat) (acc : Nat → Bool),
    clock_walk L (l1 ++ l2) acc =
      match clock_walk L l1 acc with
      | (acc1, some v) => (acc1, some v)
      | (acc1, none) => clock_walk L l2 acc1 := by
  intro l1
  induction l1 with
  | nil => intro l2 acc; rfl
  | cons i t ih =>
    intro l2 acc
    rw [List.cons_append, clock_walk_cons, clock_walk_cons]
    by_cases ha : acc i = true
    · rw [if_pos ha, if_pos ha]
      exact ih _ _
    · rw [if_neg ha, if_neg ha]
      by_cases hl : L i = true
      · rw [if_pos hl, if_pos hl]
      · rw [if_neg hl, if_neg hl]
        exact ih _ _

theorem walk_none_clears (L : Nat → Bool) : ∀ (l : List Nat) (acc acc1 : Nat → Bool),
    clock_walk L l acc = (acc1, none) → ∀ j ∈ l, L j = true → acc1 j = false := by
  have mono : ∀ (l : List Nat) (acc acc1 : Nat → Bool) (o : Option Nat),
      clock_walk L l acc = (acc1, o) → ∀ j, acc j = false → acc1 j = false := by
    intro l
    induction l with
    | nil =>
      intro acc acc1 o h j hj
      simp only [clock_walk, Prod.mk.injEq] at h
      rw [← h.1]
      exact hj
    | cons i t ih =>
      intro acc acc1 o h j hj
      rw [clock_walk_cons] at h
      by_cases ha : acc i = true
      · rw [if_pos ha] at h
        apply ih _ _ _ h
        by_cases e : j = i
        · simp [e]
        · simp [e, hj]
      · rw [if_neg ha] at h
        by_cases hl : L i = true
        · rw [if_pos hl] at h
          simp only [Prod.mk.injEq] at h
          rw [← h.1]
          exact hj
        · rw [if_neg hl] at h
          exact ih _ _ _ h j hj
  intro l
  induction l with
  | nil => intro acc acc1 _ j hj; cases hj
  | cons i t ih =>
    intro acc acc1 h j hj hlj
    rw [clock_walk_cons] at h
    by_cases ha : acc i = true
    · rw [if_pos ha] at h
      rcases List.mem_cons.1 hj with e | hmem
      · apply mono _ _ _ _ h
        simp [e]
      · exact ih _ _ h j hmem hlj
    · rw [if_neg ha] at h
      by_cases hl : L i = true
      · rw [if_pos hl] at h
        cases h
      · rw [if_neg hl] at h
        rcases List.mem_cons.1 hj with e | hmem
        · rw [e] at hlj
          exact absurd hlj hl
        · exact ih _ _ h j hmem hlj

theorem walk_some_spec (L : Nat → Bool) : ∀ (l : List Nat) (acc acc1 : Nat → Bool) (v : Nat),
    clock_walk L l acc = (acc1, some v) →
    ∃ pre post, l = pre ++ v :: post ∧ clock_walk L pre acc = (acc1, none) ∧
      acc1 v = false ∧ L v = true := by
  intro l
  induction l with
  | nil => intro acc acc1 v h; simp [clock_walk] at h
  | cons i t ih =>
    intro acc acc1 v h
    rw [clock_walk_cons] at h
    by_cases ha : acc i = true
    · rw [if_pos ha] at h
      obtain ⟨pre, post, e, hw, h1, h2⟩ := ih _ _ _ h
      refine ⟨i :: pre, post, by rw [e]; rfl, ?_, h1, h2⟩
      rw [clock_walk_cons, if_pos ha]
      exact hw
    · rw [if_neg ha] at h
      by_cases hl : L i = true
      · rw [if_pos hl] at h
        simp only [Prod.mk.injEq, Option.some.injEq] at h
        obtain ⟨e1, e2⟩ := h
        subst e1 e2
        refine ⟨[], t, rfl, rfl, ?_, hl⟩
        cases hb : acc i
        · rfl
        · exact absurd hb ha
      · rw [if_neg hl] at h
        obtain ⟨pre, post, e, hw, h1, h2⟩ := ih _ _ _ h
        refine ⟨i :: pre, post, by rw [e]; rfl, ?_, h1, h2⟩
        rw [clock_walk_cons, if_neg ha, if_neg hl]
        exact hw

theorem walk_finds (L : Nat → Bool) (m : Nat) (hl : L m = true) :
    ∀ (l : List Nat) (acc : Nat → Bool), m ∈ l → acc m = false →
    ∃ acc1 v, clock_walk L l acc = (acc1, some v) := by
  intro l
  induction l with
  | nil => intro acc h; cases h
  | cons i t ih =>
    intro acc hm ham
    rw [clock_walk_cons]
    by_cases ha : acc i = true
    · rw [if_pos ha]
      have hne : m ≠ i := by
        intro e
        rw [e, ha] at ham
        cases ham
      have hmem : m ∈ t := by
        rcases List.mem_cons.1 hm with e | h
        · exact absurd e hne
        · exact h
      exact ih _ hmem (by simp [hne, ham])
    · rw [if_neg ha]
      by_cases hli : L i = true
      · rw [if_pos hli]
        exact ⟨_, _, rfl⟩
      · rw [if_neg hli]
        have hne : m ≠ i := by
          intro e
          rw [e] at hl
          exact hli hl
        have hmem : m ∈ t := by
          rcases List.mem_cons.1 hm with e | h
          · exact absurd e hne
          · exact h
        exact ih _ hmem ham

theorem walk_two_visits (L : Nat → Bool) (m : Nat) (hl : L m = true) (l1 l2 : List Nat)
    (acc : Nat → Bool) (h1 : m ∈ l1) (h2 : m ∈ l2) :
    ∃ acc1 v, clock_walk L (l1 ++ l2) acc = (acc1, some v) := by
  rw [walk_append]
  cases hw : clock_walk L l1 acc with
  | mk acc1 o =>
    cases o with
    | some v => exact ⟨_, _, rfl⟩
    | none => exact walk_finds L m hl l2 acc1 h2 (walk_none_clears L l1 acc acc1 hw m h1 hl)

theorem walk_append_some (L : Nat → Bool) {l1 : List Nat} {acc acc1 : Nat → Bool} {v : Nat}
    (h : clock_walk L l1 acc = (acc1, some v)) (l2 : List Nat) :
    clock_walk L (l1 ++ l2) acc = (acc1, some v) := by
  rw [walk_append, h]

theorem range_split (k : Nat) (hk : k ≤ 64) :
    List.range 64 = List.range k ++ List.range' k (64 - k) := by
  rw [List.range_eq_range', List.range_eq_range']
  have := List.range'_append 0 k (64 - k) 1
  simp only [Nat.zero_add, Nat.one_mul] at this
  rw [this]
  congr 1
  omega

/-- The walk finds its victim before any slot is visited a third time: within
the slots `k` to 63, then 0 to 63, then 0 to `k - 1`. -/
theorem walk_within (L : Nat → Bool) (k m : Nat) (hk : k ≤ 64) (hm : m < 64) (hl : L m = true)
    (acc : Nat → Bool) :
    ∃ acc1 v, clock_walk L (List.range' k (64 - k) ++ (List.range 64 ++ List.range k)) acc =
      (acc1, some v) := by
  have hm2 : m ∈ List.range 64 := List.mem_range.2 hm
  by_cases h : k ≤ m
  · have hm1 : m ∈ List.range' k (64 - k) := by
      rw [List.mem_range']
      exact ⟨m - k, by omega, by omega⟩
    obtain ⟨acc1, v, hw⟩ := walk_two_visits L m hl _ _ acc hm1 hm2
    refine ⟨acc1, v, ?_⟩
    rw [← List.append_assoc]
    exact walk_append_some L hw _
  · have hm3 : m ∈ List.range k := List.mem_range.2 (by omega)
    rw [walk_append]
    cases hw : clock_walk L (List.range' k (64 - k)) acc with
    | mk acc1 o =>
      cases o with
      | some v => exact ⟨_, _, rfl⟩
      | none => exact walk_two_visits L m hl _ _ acc1 hm2 hm3

theorem clock_order_split (k : Nat) (hk : k ≤ 64) :
    clock_order k = (List.range' k (64 - k) ++ (List.range 64 ++ List.range k)) ++
      List.range' k (64 - k) := by
  unfold clock_order
  rw [List.append_assoc, List.append_assoc, ← range_split k hk]

theorem count_visits (k j : Nat) :
    (List.range' k (64 - k) ++ (List.range 64 ++ List.range k)).count j ≤ 2 := by
  rw [List.count_append, List.count_append]
  have n1 : (List.range' k (64 - k)).count j ≤ 1 :=
    List.nodup_iff_count_le_one.1 (List.nodup_range' k (64 - k)) j
  have n2 : (List.range 64).count j ≤ 1 :=
    List.nodup_iff_count_le_one.1 (List.nodup_range 64) j
  have n3 : (List.range k).count j ≤ 1 :=
    List.nodup_iff_count_le_one.1 (List.nodup_range k) j
  by_cases h : j < k
  · have z : (List.range' k (64 - k)).count j = 0 := by
      apply List.count_eq_zero_of_not_mem
      rw [List.mem_range']
      rintro ⟨i, _, e⟩
      omega
    omega
  · have z : (List.range k).count j = 0 := by
      apply List.count_eq_zero_of_not_mem
      rw [List.mem_range]
      exact h
    omega

theorem evict_rounds_succ (r : Nat) (c : Cache) :
    evict_rounds (r + 1) c =
      match evict_sweep (64 - c.iter_idx) c.iter_idx c with
      | Except.error e => Except.error e
      | Except.ok (c1, some i) => pure (c1, some i)
      | Except.ok (c1, none) => evict_rounds r { c1 with iter_idx := 0 } := rfl

theorem round_step (c : Cache) (hv : ∀ j, j < 64 → (c.cache j).valid = true) (r k : Nat)
    (acc : Nat → Bool) (hk : k ≤ 64) :
    evict_rounds (r + 1) (with_accessed c acc k) =
      match clock_walk (fun j => (c.cache j).loaded) (List.range' k (64 - k)) acc with
      | (acc1, some v) => Except.ok (clock_result c acc1 v, some v)
      | (acc1, none) => evict_rounds r (with_accessed c acc1 0) := by
  rw [evict_rounds_succ]
  show (match evict_sweep (64 - k) k (with_accessed c acc k) with
    | Except.error e => Except.error e
    | Except.ok (c1, some i) => pure (c1, some i)
    | Except.ok (c1, none) => evict_rounds r { c1 with iter_idx := 0 }) = _
  rw [sweep_walk c (64 - k) k acc k (fun j _ b => hv j (by omega))]
  cases clock_walk (fun j => (c.cache j).loaded) (List.range' k (64 - k)) acc with
  | mk acc1 o =>
    cases o with
    | some v => rfl
    | none => rfl

theorem rounds_walk (c : Cache) (hv : ∀ j, j < 64 → (c.cache j).valid = true) (k : Nat)
    (acc : Nat → Bool) (hk : k ≤ 64) :
    evict_rounds 3 (with_accessed c acc k) = Except.ok
      (match clock_walk (fun j => (c.cache j).loaded) (clock_order k) acc with
        | (acc1, some v) => (clock_result c acc1 v, some v)
        | (acc1, none) => (with_accessed c acc1 0, none)) := by
  unfold clock_order
  rw [round_step c hv 2 k acc hk, walk_append]
  cases clock_walk (fun j => (c.cache j).loaded) (List.range' k (64 - k)) acc with
  | mk acc1 o =>
    cases o with
    | some v => rfl
    | none =>
      simp only
      rw [round_step c hv 1 0 acc1 (by omega), walk_append, List.range_eq_range']
      cases clock_walk (fun j => (c.cache j).loaded) (List.range' 0 64) acc1 with
      | mk acc2 o2 =>
        cases o2 with
        | some v => rfl
        | none =>
          simp only
          rw [round_step c hv 0 0 acc2 (by omega)]
          cases clock_walk (fun j => (c.cache j).loaded) (List.range' 0 64) acc2 with
          | mk acc3 o3 =>
            cases o3 with
            | some v => rfl
            | none => rfl

theorem evict_of_rounds {c c1 : Cache} {v : Nat}
    (h : evict_rounds 3 c = Except.ok (c1, some v)) : cache_evict c = Except.ok (c1, v) := by
  unfold cache_evict
  rw [h]
  rfl

theorem order_lt (k v : Nat) (h : v ∈ clock_order k) : v < 64 := by
  unfold clock_order at h
  rw [List.mem_append, List.mem_append, List.mem_range, List.mem_range'] at h
  rcases h with ⟨i, h1, h2⟩ | h | h
  · omega
  · exact h
  · exact h

theorem clock_result_iter (c : Cache) (acc : Nat → Bool) (v : Nat) :
    (clock_result c acc v).iter_idx = v + 1 := by
  unfold clock_result
  split <;> rfl

theorem clock_result_disk (c : Cache) (acc : Nat → Bool) (v : Nat) :
    (clock_result c acc v).disk =
      if (c.cache v).dirty then
        fun t => if t = (c.cache v).sector then (c.cache v).buffer else c.disk t
      else c.disk := by
  unfold clock_result
  split <;> rfl

theorem clock_result_cache (c : Cache) (acc : Nat → Bool) (v j : Nat) :
    (clock_result c acc v).cache j = { c.cache j with accessed := acc j } := by
  unfold clock_result
  split <;> rfl

/-- C32 (clock eviction): in a cache with all 64 slots valid, the hand at `k`
and some slot loaded, `cache_evict` returns the victim of the walk of the
specification over the slots `k` to 63, 0 to 63, 0 to 63: the first slot
visited with the accessed bit clear and the loaded flag set, where every slot
passed over with its accessed bit set has the bit cleared.  The accessed bits
afterwards are those the walk leaves, the victim's buffer is on the device at
its sector if the victim was dirty, the hand is at victim + 1, and nothing else
in the slots changes. -/
theorem clock_eviction (c : Cache) (hv : ∀ j, j < 64 → (c.cache j).valid = true)
    (hk : c.iter_idx ≤ 64) (m : Nat) (hm : m < 64) (hl : (c.cache m).loaded = true) :
    ∃ acc v,
      clock_walk (fun j => (c.cache j).loaded) (clock_order c.iter_idx)
        (fun j => (c.cache j).accessed) = (acc, some v) ∧
      cache_evict c = Except.ok (clock_result c acc v, v) ∧
      v < 64 ∧ (c.cache v).loaded = true ∧ acc v = false ∧
      (clock_result c acc v).iter_idx = v + 1 ∧
      (∀ j, (clock_result c acc v).cache j = { c.cache j with accessed := acc j }) ∧
      (clock_result c acc v).disk =
        if (c.cache v).dirty then
          fun t => if t = (c.cache v).sector then (c.cache v).buffer else c.disk t
        else c.disk := by
  obtain ⟨acc, v, hw⟩ := walk_within (fun j => (c.cache j).loaded) c.iter_idx m hk hm hl
    (fun j => (c.cache j).accessed)
  have hw2 : clock_walk (fun j => (c.cache j).loaded) (clock_order c.iter_idx)
      (fun j => (c.cache j).accessed) = (acc, some v) := by
    rw [clock_order_split _ hk]
    exact walk_append_some _ hw _
  have hr := rounds_walk c hv c.iter_idx (fun j => (c.cache j).accessed) hk
  rw [with_accessed_self, hw2] at hr
  obtain ⟨pre, post, e, _, h1, h2⟩ := walk_some_spec _ _ _ _ _ hw2
  have hmem : v ∈ clock_order c.iter_idx := by
    rw [e]
    exact List.mem_append_right _ (List.mem_cons_self _ _)
  exact ⟨acc, v, hw2, evict_of_rounds hr, order_lt _ _ hmem, h2, h1, clock_result_iter c acc v,
    clock_result_cache c acc v, clock_result_disk c acc v⟩

/-- Witness of C32: in the example cache the hand is at slot 2, whose accessed
bit is set; slot 3 is the victim, dirty, and its buffer of bytes 7 goes to
sector 3 of the device. -/
theorem clock_eviction_witness :
    (cache_evict ex_full_cache).toOption.map
      (fun r => (r.2, r.1.iter_idx, (r.1.cache 2).accessed, r.1.disk 3 0)) =
      some (3, 4, false, 7) ∧
    ∃ acc v,
      clock_walk (fun j => (ex_full_cache.cache j).loaded) (clock_order ex_full_cache.iter_idx)
        (fun j => (ex_full_cache.cache j).accessed) = (acc, some v) ∧
      cache_evict ex_full_cache = Except.ok (clock_result ex_full_cache acc v, v) ∧
      v < 64 ∧ (ex_full_cache.cache v).loaded = true ∧ acc v = false ∧
      (clock_result ex_full_cache acc v).iter_idx = v + 1 ∧
      (∀ j, (clock_result ex_full_cache acc v).cache j =
        { ex_full_cache.cache j with accessed := acc j }) ∧
      (clock_result ex_full_cache acc v).disk =
        if (ex_full_cache.cache v).dirty then
          fun t => if t = (ex_full_cache.cache v).sector then (ex_full_cache.cache v).buffer
            else ex_full_cache.disk t
        else ex_full_cache.disk :=
  ⟨by decide!, clock_eviction ex_full_cache (fun _ _ => rfl) (by decide) 0 (by norm_num) rfl⟩

/-- Eviction with a loaded slot: in a cache with all 64 slots valid and some slot loaded,
`cache_evict` returns a victim within three sweeps of its loop, with no other
thread changing the cache: the slots visited are `pre` and then the victim `v`,
an initial part of the clock order from the hand, and no slot is visited more
than twice. -/
theorem eviction_terminates (c : Cache) (hv : ∀ j, j < 64 → (c.cache j).valid = true)
    (hk : c.iter_idx ≤ 64) (m : Nat) (hm : m < 64) (hl : (c.cache m).loaded = true) :
    ∃ c1 v pre post,
      evict_rounds 3 c = Except.ok (c1, some v) ∧ cache_evict c = Except.ok (c1, v) ∧
      clock_order c.iter_idx = pre ++ v :: post ∧
      (clock_walk (fun j => (c.cache j).loaded) pre (fun j => (c.cache j).accessed)).2 = none ∧
      (c.cache v).loaded = true ∧
      ∀ j, (pre ++ [v]).count j ≤ 2 := by
  obtain ⟨acc, v, hw⟩ := walk_within (fun j => (c.cache j).loaded) c.iter_idx m hk hm hl
    (fun j => (c.cache j).accessed)
  have hw2 : clock_walk (fun j => (c.cache j).loaded) (clock_order c.iter_idx)
      (fun j => (c.cache j).accessed) = (acc, some v) := by
    rw [clock_order_split _ hk]
    exact walk_append_some _ hw _
  have hr := rounds_walk c hv c.iter_idx (fun j => (c.cache j).accessed) hk
  rw [with_accessed_self, hw2] at hr
  obtain ⟨pre, post, e, hpre, _, h2⟩ := walk_some_spec _ _ _ _ _ hw
  refine ⟨_, v, pre, post ++ List.range' c.iter_idx (64 - c.iter_idx), hr, evict_of_rounds hr,
    ?_, ?_, h2, ?_⟩
  · rw [clock_order_split _ hk, e]
    simp
  · rw [hpre]
  · intro j
    have hc := count_visits c.iter_idx j
    rw [e] at hc
    have : pre ++ v :: post = (pre ++ [v]) ++ post := by simp
    rw [this, List.count_append] at hc
    omega

/-- The example cache, all slots valid and loaded, has a victim. -/
theorem eviction_terminates_witness :
    ∃ c1 v pre post,
      evict_rounds 3 ex_full_cache = Except.ok (c1, some v) ∧
      cache_evict ex_full_cache = Except.ok (c1, v) ∧
      clock_order ex_full_cache.iter_idx = pre ++ v :: post ∧
      (clock_walk (fun j => (ex_full_cache.cache j).loaded) pre
        (fun j => (ex_full_cache.cache j).accessed)).2 = none ∧
      (ex_full_cache.cache v).loaded = true ∧
      ∀ j, (pre ++ [v]).count j ≤ 2 :=
  eviction_terminates ex_full_cache (fun _ _ => rfl) (by decide) 0 (by norm_num) rfl

set_option maxRecDepth 1000000 in
/-- C33 at a failing input: the cache after `cache_init` and reads of the 64
even sectors 0 to 126, with no turn of the read-ahead thread in between.  Each
read loads the slot of its sector and hands a slot to the next sector; from the
33rd read on both slots are taken from loaded ones.  After the 64 reads all 64
slots are valid, none is accessed and none is loaded, and 64 entries wait in the
read-ahead queue.  All slots are un-accessed and unlocked, so the claim has
`cache_evict` return a victim; the loop takes loaded slots only and goes round
for ever, and so does the next `cache_read_at` of a sector that has no slot. -/
theorem eviction_spins_after_reads :
    ex_spin_scenario.toOption =
      some (List.replicate 64 (true, false, false), 64, true, true) := by
  decide!

/-- The calls of the indirect branch when it allocates a data sector, in the
order of the code: the index block is read, the block with the new pointer is
written, and only then are the zeros written to the new sector.  Between the
two writes the index block names the sector while the sector reads as before. -/
theorem indirect_tail_order {st : FS} (hi : CacheInv st.cache) (d ib : Buf) (k s : Nat)
    (fm : FreeMap) (hk : k < 128)
    (hz : get32 (view st.cache (inode_disk.indirect d)) (4 * k) = 0)
    (ha : free_map_allocate st.free_map = some (fm, s)) (hs : s < 4294967296)
    (hne : s ≠ inode_disk.indirect d) (hroom : Room st.cache 2) :
    ∃ c1 c2 c3,
      cache_read_at st.cache (inode_disk.indirect d) ib 0 512 =
        Except.ok (c1, load_block ib (view st.cache (inode_disk.indirect d))) ∧
      cache_write_at c1 (inode_disk.indirect d)
        (put32 (load_block ib (view st.cache (inode_disk.indirect d))) (4 * k) s) 0 512 =
        Except.ok c2 ∧
      cache_write_at c2 s zeros 0 512 = Except.ok c3 ∧
      indirect_tail st d k ib true = Except.ok ({ st with cache := c3, free_map := fm }, d, s) ∧
      get32 (view c2 (inode_disk.indirect d)) (4 * k) = s ∧
      view c2 s = view st.cache s ∧
      view c3 s = load_block (view st.cache s) zeros := by
  obtain ⟨c1, h1, t1⟩ := read_block_spec hi (room_has_slot (n := 1) hi hroom)
    (inode_disk.indirect d) ib
  have hr1 : Room c1 1 := read_room (n := 1) hi (by norm_num) h1 hroom
  obtain ⟨c2, h2, i2, v2, o2, _⟩ := cache_write_at_spec t1.inv (room_has_slot (n := 0) t1.inv hr1)
    (inode_disk.indirect d)
    (put32 (load_block ib (view st.cache (inode_disk.indirect d))) (4 * k) s)
    (show 0 + 512 ≤ 512 by norm_num)
  have hf2 : has_slot c2 = true :=
    (cache_write_at_ok t1.inv (show 0 + 512 ≤ 512 by norm_num) h2).2.2.2.2.2
  obtain ⟨c3, h3, i3, v3, o3, _⟩ := cache_write_at_spec i2 hf2 s zeros
    (show 0 + 512 ≤ 512 by norm_num)
  have e1 : entry (load_block ib (view st.cache (inode_disk.indirect d))) k = Except.ok 0 := by
    unfold entry
    rw [if_pos hk, get32_load_block _ _ (by omega), hz]
    rfl
  have e2 : entry (put32 (load_block ib (view st.cache (inode_disk.indirect d))) (4 * k) s) k =
      Except.ok s := by
    unfold entry
    rw [if_pos hk, get32_put32_same, Nat.mod_eq_of_lt hs]
    rfl
  refine ⟨c1, c2, c3, h1, h2, h3, ?_, ?_, ?_, ?_⟩
  · unfold indirect_tail
    simp only [bind, Except.bind, h1, e1, ha, set_entry, if_pos hk, pure, Except.pure, h2, e2,
      h3, true_and, if_true]
  · rw [v2]
    show get32 (load_block _ _) (4 * k) = s
    rw [get32_load_block _ _ (by omega), get32_put32_same, Nat.mod_eq_of_lt hs]
  · rw [o2 s hne, t1.view]
  · rw [v3, o2 s hne, t1.view]
    rfl

theorem link_fs_inv : CacheInv ex_link_fs.cache := cache_init_inv _ _

/-- C34 at a failing input: block 10, the first block behind the direct ones,
of an inode whose index block (sector 3) is empty, with sector 4 the next free
sector, still holding bytes 0xAA.  `inode_disk_block_to_sector` with
`create == true` makes these cache calls in this order: it reads the index
block, writes the index block with the pointer 4 in slot 0, and writes the zeros
to sector 4.  After the second call the index block names sector 4 while
sector 4 still reads 0xAA; only the third call zeroes it. -/
theorem link_before_zero :
    ∃ fm c1 c2 c3,
      free_map_allocate ex_link_fs.free_map = some (fm, 4) ∧
      cache_read_at ex_link_fs.cache 3 zeros 0 512 =
        Except.ok (c1, load_block zeros (view ex_link_fs.cache 3)) ∧
      cache_write_at c1 3 (put32 (load_block zeros (view ex_link_fs.cache 3)) 0 4) 0 512 =
        Except.ok c2 ∧
      cache_write_at c2 4 zeros 0 512 = Except.ok c3 ∧
      inode_disk_block_to_sector ex_link_fs ex_link_inode 10 zeros zeros true =
        Except.ok ({ ex_link_fs with cache := c3, free_map := fm }, ex_link_inode, 4) ∧
      get32 (view c2 3) 0 = 4 ∧ view c2 4 0 = 0xAA ∧ view c3 4 0 = 0 := by
  have hI : inode_disk.indirect ex_link_inode = 3 := by decide
  have hv : view ex_link_fs.cache = ex_link_disk := funext (cache_init_view _ _)
  obtain ⟨c1, c2, c3, h1, h2, h3, h4, h5, h6, h7⟩ :=
    indirect_tail_order link_fs_inv ex_link_inode zeros 0 4
      { ex_link_fs.free_map with
        used := fun t => if t = 4 then true else ex_link_fs.free_map.used t }
      (by norm_num) (by rw [hI, hv]; decide) rfl (by norm_num) (by rw [hI]; norm_num)
      ⟨[], cache_init_waiting _ _, by decide⟩
  rw [hI] at h1 h2 h5
  refine ⟨_, c1, c2, c3, rfl, h1, h2, h3, ?_, h5, ?_, ?_⟩
  · rw [← h4]
    unfold inode_disk_block_to_sector
    rw [if_neg (by decide), if_pos (by decide), if_neg (by rw [hI]; simp),
      if_neg (by rw [hI]; norm_num)]
    rfl
  · rw [h6, hv]
    rfl
  · rw [h7]
    rfl

theorem free_scan_some (used : Nat → Bool) : ∀ (n i s : Nat), free_scan used n i = some s →
    i ≤ s ∧ s < i + n ∧ used s = false := by
  intro n
  induction n with
  | zero => intro i s h; simp [free_scan] at h
  | succ n ih =>
    intro i s h
    unfold free_scan at h
    by_cases hu : used i = false
    · rw [if_pos hu] at h
      cases h
      exact ⟨le_refl _, by omega, hu⟩
    · rw [if_neg hu] at h
      obtain ⟨a, b, c⟩ := ih _ _ h
      exact ⟨by omega, by omega, c⟩

theorem free_scan_none (used : Nat → Bool) : ∀ (n i : Nat), free_scan used n i = none →
    ∀ j, i ≤ j → j < i + n → used j = true := by
  intro n
  induction n with
  | zero => intro i _ j h1 h2; omega
  | succ n ih =>
    intro i h j h1 h2
    unfold free_scan at h
    by_cases hu : used i = false
    · rw [if_pos hu] at h
      cases h
    · rw [if_neg hu] at h
      by_cases e : j = i
      · rw [e]
        cases hb : used i
        · exact absurd hb hu
        · rfl
      · exact ih _ h j (by omega) (by omega)

theorem countP_update (p q : Nat → Bool) (s : Nat) (hp : p s = true) (hq : q s = false)
    (hpq : ∀ t, t ≠ s → q t = p t) : ∀ l : List Nat, l.Nodup → s ∈ l →
    l.countP q + 1 = l.countP p := by
  have hout : ∀ l : List Nat, s ∉ l → l.countP q = l.countP p := by
    intro l
    induction l with
    | nil => intro _; rfl
    | cons a t ih =>
      intro hn
      have hne : a ≠ s := fun e => hn (e ▸ List.mem_cons_self _ _)
      rw [List.countP_cons, List.countP_cons, hpq a hne,
        ih (fun h => hn (List.mem_cons_of_mem _ h))]
  intro l
  induction l with
  | nil => intro _ h; cases h
  | cons a t ih =>
    intro hn hm
    rw [List.nodup_cons] at hn
    rw [List.countP_cons, List.countP_cons]
    by_cases e : a = s
    · subst e
      rw [hp, hq, hout t hn.1]
      simp
    · have hmt : s ∈ t := by
        rcases List.mem_cons.1 hm with h | h
        · exact absurd h.symm e
        · exact h
      rw [hpq a e, ← ih hn.2 hmt]
      omega

theorem allocate_some (fm : FreeMap) (h0 : fm.used 0 = true) (hc : 1 ≤ free_count fm) :
    ∃ s, free_map_allocate fm =
        some ({ fm with used := fun t => if t = s then true else fm.used t }, s) ∧
      s ≠ 0 ∧ s < fm.size ∧
      free_count { fm with used := fun t => if t = s then true else fm.used t } + 1 =
        free_count fm := by
  unfold free_map_allocate
  cases hs : free_scan fm.used fm.size 0 with
  | none =>
    exfalso
    have hall := free_scan_none fm.used fm.size 0 hs
    have : free_count fm = 0 := by
      unfold free_count
      rw [List.countP_eq_zero]
      intro t ht
      rw [List.mem_range] at ht
      simp [hall t (Nat.zero_le _) (by omega)]
    omega
  | some s =>
    obtain ⟨_, h2, h3⟩ := free_scan_some fm.used fm.size 0 s hs
    refine ⟨s, rfl, ?_, by omega, ?_⟩
    · intro e
      rw [e, h0] at h3
      cases h3
    · unfold free_count
      apply countP_update _ _ s
      · simp [h3]
      · simp
      · intro t ht
        simp [ht]
      · exact List.nodup_range _
      · exact List.mem_range.2 (show s < fm.size by omega)

theorem allocate_fresh (fm : FreeMap) (h0 : fm.used 0 = true) (hc : 1 ≤ free_count fm) :
    ∃ s, free_map_allocate fm =
        some ({ fm with used := fun t => if t = s then true else fm.used t }, s) ∧
      s ≠ 0 ∧ s < fm.size ∧ fm.used s = false ∧
      free_count { fm with used := fun t => if t = s then true else fm.used t } + 1 =
        free_count fm := by
  obtain ⟨s, h1, h2, h3, h4⟩ := allocate_some fm h0 hc
  refine ⟨s, h1, h2, h3, ?_, h4⟩
  unfold free_map_allocate at h1
  cases hs : free_scan fm.used fm.size 0 with
  | none =>
    rw [hs] at h1
    cases h1
  | some t =>
    rw [hs] at h1
    simp only [Option.some.injEq, Prod.mk.injEq] at h1
    obtain ⟨_, _, h5⟩ := free_scan_some fm.used fm.size 0 t hs
    rw [← h1.2]
    exact h5

theorem count_after {a b n : Nat} (h : a + 1 = b) (hn : n + 1 ≤ b) : n ≤ a := by omega

theorem get32_zeros (ofs : Nat) : get32 zeros ofs = 0 := by
  simp [get32, zeros]

/-- A write of a whole sector from a cache with a slot to give. -/
theorem write_block_ok {c : Cache} (hi : CacheInv c) (hf : has_slot c = true) (s : Nat)
    (buf : Buf) :
    ∃ c1, cache_write_at c s buf 0 512 = Except.ok c1 ∧ CacheInv c1 ∧ has_slot c1 = true ∧
      view c1 s = load_block (view c s) buf ∧ (∀ t, t ≠ s → view c1 t = view c t) ∧
      ∀ R, Waiting c R → Waiting c1 R := by
  obtain ⟨c1, h⟩ := cache_write_at_total hf s buf (show 0 + 512 ≤ 512 by norm_num)
  obtain ⟨r1, r2, r3, _, r5, r6⟩ := cache_write_at_ok hi (show 0 + 512 ≤ 512 by norm_num) h
  exact ⟨c1, h, r1, r6, r2, r3, fun R hw =>
    waiting_mono (r5 R hw) (fun x hx => (List.mem_filter.1 hx).1)⟩

/-- A read of a whole sector from a cache with a slot to give. -/
theorem read_block_ok {c : Cache} (hi : CacheInv c) (hf : has_slot c = true) (s : Nat)
    (b : Buf) :
    ∃ c1, cache_read_at c s b 0 512 = Except.ok (c1, load_block b (view c s)) ∧ CacheInv c1 ∧
      (∀ t, view c1 t = view c t) ∧
      ∀ R, Waiting c R → Waiting c1 (next_sector s :: R) := by
  obtain ⟨p, h⟩ := cache_read_at_total hi hf s b (show 0 + 512 ≤ 512 by norm_num)
  obtain ⟨c1, out⟩ := p
  obtain ⟨r1, r2, r3⟩ := cache_read_at_ok hi (show 0 + 512 ≤ 512 by norm_num) h
  subst r1
  refine ⟨c1, h, r2.inv, r2.view, fun R hw => waiting_mono (r3 R hw) ?_⟩
  intro x hx
  rcases List.mem_cons.1 hx with e | e
  · rw [e]
    exact List.mem_cons_self _ _
  · exact List.mem_cons_of_mem _ (List.mem_filter.1 e).1

/-- An entry that is 0 stays 0 when some sector is overwritten with zeros. -/
theorem zero_write_entry {c c1 : Cache} {s x j : Nat} (hj : j < 128)
    (hs : view c1 s = load_block (view c s) zeros) (ho : ∀ t, t ≠ s → view c1 t = view c t)
    (h : get32 (view c x) (4 * j) = 0) : get32 (view c1 x) (4 * j) = 0 := by
  by_cases e : x = s
  · rw [e, hs, get32_load_block _ _ (by omega), get32_zeros]
  · rw [ho x e]
    exact h

/-- The indirect branch with `create == true` on slot `k` of an index block
whose slots from `k` on are 0, followed by the zeroing of the new block in
`inode_create`: the slot gets a fresh sector and the slots behind it stay 0. -/
theorem indirect_tail_fresh {st : FS} (hg : GoodFS st) (d ib : Buf) (k : Nat) (hk : k < 128)
    (hz : ∀ j, k ≤ j → j < 128 → get32 (view st.cache (inode_disk.indirect d)) (4 * j) = 0)
    (hw : Waiting st.cache [next_sector (inode_disk.indirect d)])
    (hc : 1 ≤ free_count st.free_map) :
    ∃ fm s c3 c4, indirect_tail st d k ib true =
        Except.ok ({ st with cache := c3, free_map := fm }, d, s) ∧ s ≠ 0 ∧
      cache_write_at c3 s zeros 0 512 = Except.ok c4 ∧ CacheInv c4 ∧
      fm.used 0 = true ∧ fm.size = st.free_map.size ∧
      (∀ t, st.free_map.used t = true → fm.used t = true) ∧
      free_count st.free_map ≤ free_count fm + 1 ∧
      (∀ j, k + 1 ≤ j → j < 128 → get32 (view c4 (inode_disk.indirect d)) (4 * j) = 0) ∧
      Waiting c4 [next_sector (inode_disk.indirect d)] := by
  have hf0 : has_slot st.cache = true := has_slot_of_waiting hg.cache.uniq hw (by simp)
  obtain ⟨c1, h1, i1, v1, w1⟩ := read_block_ok hg.cache hf0 (inode_disk.indirect d) ib
  have hw1 : Waiting c1 [next_sector (inode_disk.indirect d)] :=
    waiting_mono (w1 _ hw) (by
      intro x hx
      simp only [List.mem_cons, List.mem_singleton, List.not_mem_nil, or_false, or_self] at hx ⊢
      exact hx)
  have hf1 := has_slot_of_waiting i1.uniq hw1 (by simp)
  have hz0 : get32 (load_block ib (view st.cache (inode_disk.indirect d))) (4 * k) = 0 := by
    rw [get32_load_block _ _ (by omega)]
    exact hz k (le_refl _) hk
  obtain ⟨s, ha, hs0, hss, hfresh, hcnt⟩ := allocate_fresh st.free_map hg.zero hc
  have hsz := hg.size
  have e2 : get32 (put32 (load_block ib (view st.cache (inode_disk.indirect d))) (4 * k) s)
      (4 * k) = s := by
    rw [get32_put32_same, Nat.mod_eq_of_lt (by omega)]
  obtain ⟨c2, h2, i2, f2, v2, o2, w2⟩ := write_block_ok i1 hf1 (inode_disk.indirect d)
    (put32 (load_block ib (view st.cache (inode_disk.indirect d))) (4 * k) s)
  obtain ⟨c3, h3, i3, f3, v3, o3, w3⟩ := write_block_ok i2 f2 s zeros
  obtain ⟨c4, h4, i4, f4, v4, o4, w4⟩ := write_block_ok i3 f3 s zeros
  refine ⟨{ st.free_map with used := fun t => if t = s then true else st.free_map.used t },
    s, c3, c4, ?_, hs0, h4, i4, by simp [hg.zero], rfl, ?_, le_of_eq hcnt.symm, ?_,
    w4 _ (w3 _ (w2 _ hw1))⟩
  · unfold indirect_tail
    simp only [bind, Except.bind, h1, entry, if_pos hk, pure, Except.pure, and_true]
    rw [if_pos hz0, ha]
    simp only [set_entry, if_pos hk, pure, Except.pure, h2, e2, h3]
  · intro t ht
    show (if t = s then true else st.free_map.used t) = true
    split
    · rfl
    · exact ht
  · intro j hj1 hj2
    apply zero_write_entry hj2 v4 o4
    apply zero_write_entry hj2 v3 o3
    rw [v2, get32_load_block _ _ (by omega), get32_put32_other _ _ _ _ (by omega),
      get32_load_block _ _ (by omega)]
    exact hz j (by omega) hj2

/-- The inner step of the double-indirect branch with `create == true` on slot
`k` of the inner block `O`, whose slots from `k` on are 0, followed by the
zeroing of the new block in `inode_create`: the slot gets a fresh sector, the
slots behind it stay 0, and the double-indirect block holds what `ib` holds. -/
theorem inner_fresh {st : FS} (hg : GoodFS st) (d ib dib : Buf) (O k : Nat) (hk : k < 128)
    (hD : st.free_map.used (inode_disk.double_indirect d) = true)
    (hOD : O ≠ inode_disk.double_indirect d)
    (hz : ∀ j, k ≤ j → j < 128 → get32 (view st.cache O) (4 * j) = 0)
    (hw : Waiting st.cache [next_sector O, next_sector (inode_disk.double_indirect d),
      next_sector (inode_disk.indirect d)])
    (hc : 1 ≤ free_count st.free_map) :
    ∃ fm s c4 c5, double_tail_inner st d O k ib dib true =
        Except.ok ({ st with cache := c4, free_map := fm }, d, s) ∧ s ≠ 0 ∧
      cache_write_at c4 s zeros 0 512 = Except.ok c5 ∧ CacheInv c5 ∧
      fm.used 0 = true ∧ fm.size = st.free_map.size ∧
      (∀ t, st.free_map.used t = true → fm.used t = true) ∧
      free_count st.free_map ≤ free_count fm + 1 ∧
      get32 (view c5 (inode_disk.double_indirect d)) 0 = get32 ib 0 ∧
      (∀ j, k + 1 ≤ j → j < 128 → get32 (view c5 O) (4 * j) = 0) ∧
      Waiting c5 [next_sector O, next_sector (inode_disk.double_indirect d),
        next_sector (inode_disk.indirect d)] := by
  have hf0 : has_slot st.cache = true := has_slot_of_waiting hg.cache.uniq hw (by simp)
  obtain ⟨c1, h1, i1, v1, w1⟩ := read_block_ok hg.cache hf0 O dib
  have hw1 : Waiting c1 [next_sector O, next_sector (inode_disk.double_indirect d),
      next_sector (inode_disk.indirect d)] :=
    waiting_mono (w1 _ hw) (by
      intro x hx
      rcases List.mem_cons.1 hx with e | e
      · rw [e]
        exact List.mem_cons_self _ _
      · exact e)
  have hf1 := has_slot_of_waiting i1.uniq hw1 (by simp)
  have hz0 : get32 (load_block dib (view st.cache O)) (4 * k) = 0 := by
    rw [get32_load_block _ _ (by omega)]
    exact hz k (le_refl _) hk
  obtain ⟨s, ha, hs0, hss, hfresh, hcnt⟩ := allocate_fresh st.free_map hg.zero hc
  have hsz := hg.size
  have hsD : s ≠ inode_disk.double_indirect d := by
    intro e
    rw [e, hD] at hfresh
    cases hfresh
  have e2 : get32 (put32 (load_block dib (view st.cache O)) (4 * k) s) (4 * k) = s := by
    rw [get32_put32_same, Nat.mod_eq_of_lt (by omega)]
  obtain ⟨c2, h2, i2, f2, v2, o2, w2⟩ := write_block_ok i1 hf1 O
    (put32 (load_block dib (view st.cache O)) (4 * k) s)
  obtain ⟨c3, h3, i3, f3, v3, o3, w3⟩ := write_block_ok i2 f2 (inode_disk.double_indirect d) ib
  obtain ⟨c4, h4, i4, f4, v4, o4, w4⟩ := write_block_ok i3 f3 s zeros
  obtain ⟨c5, h5, i5, f5, v5, o5, w5⟩ := write_block_ok i4 f4 s zeros
  refine ⟨{ st.free_map with used := fun t => if t = s then true else st.free_map.used t },
    s, c4, c5, ?_, hs0, h5, i5, by simp [hg.zero], rfl, ?_, le_of_eq hcnt.symm, ?_, ?_,
    w5 _ (w4 _ (w3 _ (w2 _ hw1)))⟩
  · unfold double_tail_inner
    simp only [bind, Except.bind, h1, entry, if_pos hk, pure, Except.pure, and_true]
    rw [if_pos hz0, ha]
    simp only [set_entry, if_pos hk, pure, Except.pure, h2, h3, e2, h4]
  · intro t ht
    show (if t = s then true else st.free_map.used t) = true
    split
    · rfl
    · exact ht
  · rw [o5 _ (Ne.symm hsD), o4 _ (Ne.symm hsD), v3, get32_load_block _ _ (by norm_num)]
  · intro j hj1 hj2
    apply zero_write_entry hj2 v5 o5
    apply zero_write_entry hj2 v4 o4
    rw [o3 O hOD, v2, get32_load_block _ _ (by omega), get32_put32_other _ _ _ _ (by omega),
      get32_load_block _ _ (by omega)]
    exact hz j (by omega) hj2

/-- A direct block of a new file: `inode_disk_block_to_sector` with
`create == true` and the zeroing of the block in `inode_create`. -/
theorem step_direct {st : FS} {d : Buf} {i : Nat} (hb : Building st d i) (hi : i < 10)
    (hc : 1 ≤ free_count st.free_map) :
    ∃ st1 d1 res c2, inode_disk_block_to_sector st d i zeros zeros true =
        Except.ok (st1, d1, res) ∧ res ≠ 0 ∧
      cache_write_at st1.cache res zeros 0 512 = Except.ok c2 ∧
      Building { st1 with cache := c2 } d1 (i + 1) ∧
      free_count st.free_map ≤ free_count st1.free_map + 3 := by
  have hg := hb.good
  have hsz := hg.size
  have hN : NUM_DIRECT = 10 := rfl
  obtain ⟨hI0, hw0⟩ := hb.ind0 (by omega)
  obtain ⟨hD0, _⟩ := hb.dbl0 (by omega)
  have hz : inode_disk.direct d i = 0 := hb.direct i (le_refl _) hi
  obtain ⟨s, ha, hs0, hss, hfresh, hcnt⟩ := allocate_fresh st.free_map hg.zero hc
  have e2 : inode_disk.direct (inode_disk.set_direct d i s) i = s := by
    unfold inode_disk.direct inode_disk.set_direct
    rw [get32_put32_same, Nat.mod_eq_of_lt (by omega)]
  obtain ⟨c1, h1, i1, f1, v1, o1, w1⟩ := write_block_ok hg.cache
    (has_slot_of_waiting hg.cache.uniq hw0 (by simp)) s zeros
  obtain ⟨c2, h2, i2, f2, v2, o2, w2⟩ := write_block_ok i1 f1 s zeros
  refine ⟨{ st with
      cache := c1
      free_map := { st.free_map with
        used := fun t => if t = s then true else st.free_map.used t } },
    inode_disk.set_direct d i s, s, c2, ?_, hs0, h2, ?_, ?_⟩
  · unfold inode_disk_block_to_sector
    rw [if_pos (show i < NUM_DIRECT by omega)]
    simp only [and_true]
    rw [if_pos hz, ha]
    simp only [e2, bind, Except.bind, h1, pure, Except.pure]
  · constructor
    · exact ⟨i2, by simp [hg.zero], hg.size⟩
    · intro j hj1 hj2
      unfold inode_disk.direct inode_disk.set_direct
      rw [get32_put32_other _ _ _ _ (by omega)]
      exact hb.direct j (by omega) hj2
    · intro _
      refine ⟨?_, w2 _ (w1 _ hw0)⟩
      unfold inode_disk.indirect inode_disk.set_direct
      rw [get32_put32_other _ _ _ _ (by omega)]
      exact hI0
    · intro h
      omega
    · intro _
      refine ⟨?_, fun h => by omega⟩
      unfold inode_disk.double_indirect inode_disk.set_direct
      rw [get32_put32_other _ _ _ _ (by omega)]
      exact hD0
    · intro h
      omega
  · exact le_trans (le_of_eq hcnt.symm) (Nat.add_le_add_left (by norm_num) _)

/-- A block of a new file behind the indirect block: the first of them gets
the index block, zeroed, and every one a fresh sector in its slot. -/
theorem step_indirect {st : FS} {d : Buf} {i : Nat} (hb : Building st d i) (h1 : 10 ≤ i)
    (h2 : i < 138) (hc : 2 ≤ free_count st.free_map) :
    ∃ st1 d1 res c2, inode_disk_block_to_sector st d i zeros zeros true =
        Except.ok (st1, d1, res) ∧ res ≠ 0 ∧
      cache_write_at st1.cache res zeros 0 512 = Except.ok c2 ∧
      Building { st1 with cache := c2 } d1 (i + 1) ∧
      free_count st.free_map ≤ free_count st1.free_map + 3 := by
  have hg := hb.good
  have hsz := hg.size
  have hN : NUM_DIRECT = 10 := rfl
  have hk : i - NUM_DIRECT < 128 := by omega
  obtain ⟨hD0, hwI⟩ := hb.dbl0 (by omega)
  by_cases hz : inode_disk.indirect d = 0
  · have hi10 : i = 10 := by
      by_contra hne
      exact (hb.ind (by omega)).1 hz
    obtain ⟨_, hw0⟩ := hb.ind0 (by omega)
    obtain ⟨s, ha, hs0, hss, hfresh, hcnt⟩ := allocate_fresh st.free_map hg.zero (by omega)
    have e2 : inode_disk.indirect (inode_disk.set_indirect d s) = s := by
      unfold inode_disk.indirect inode_disk.set_indirect
      rw [get32_put32_same, Nat.mod_eq_of_lt (by omega)]
    obtain ⟨c1, hw, i1, f1, v1, o1, w1⟩ := write_block_ok hg.cache
      (has_slot_of_waiting hg.cache.uniq hw0 (by simp)) s zeros
    have hg1 : GoodFS { st with
        cache := c1
        free_map := { st.free_map with
          used := fun t => if t = s then true else st.free_map.used t } } :=
      ⟨i1, by simp [hg.zero], hg.size⟩
    obtain ⟨fm, s2, c3, c4, hr, hs20, h4, i4, z4, sz4, u4, cnt4, ent4, w4⟩ :=
      indirect_tail_fresh hg1 (inode_disk.set_indirect d s) zeros (i - NUM_DIRECT) hk
        (by
          intro j _ hj
          show get32 (view c1 (inode_disk.indirect (inode_disk.set_indirect d s))) (4 * j) = 0
          rw [e2, v1, get32_load_block _ _ (by omega), get32_zeros])
        (waiting_mono (w1 _ hw0) (by
          intro x hx
          cases hx))
        (count_after hcnt hc)
    refine ⟨{ st with cache := c3, free_map := fm }, inode_disk.set_indirect d s, s2, c4, ?_,
      hs20, h4, ?_, ?_⟩
    · unfold inode_disk_block_to_sector
      rw [if_neg (by omega), if_pos (by omega)]
      simp only [true_and]
      rw [if_pos hz, ha]
      simp only [e2, bind, Except.bind, hw]
      exact hr
    · constructor
      · exact ⟨i4, z4, by rw [sz4]; exact hg.size⟩
      · intro j hj1 hj2
        omega
      · intro h
        omega
      · intro _
        refine ⟨by rw [e2]; exact hs0, fun k hk1 hk2 => ent4 k (by omega) hk2⟩
      · intro _
        refine ⟨?_, fun _ => w4⟩
        unfold inode_disk.double_indirect inode_disk.set_indirect
        rw [get32_put32_other _ _ _ _ (by omega)]
        exact hD0
      · intro h
        omega
    · show free_count st.free_map ≤ free_count fm + 3
      have cnt4' : free_count { st.free_map with
          used := fun t => if t = s then true else st.free_map.used t } ≤ free_count fm + 1 := cnt4
      exact le_trans (le_of_eq hcnt.symm)
        (le_trans (Nat.add_le_add_right cnt4' 1) (by omega))
  · have hi10 : 10 < i := by
      by_contra hne
      exact hz (hb.ind0 (by omega)).1
    obtain ⟨_, hent⟩ := hb.ind hi10
    obtain ⟨fm, s2, c3, c4, hr, hs20, h4, i4, z4, sz4, u4, cnt4, ent4, w4⟩ :=
      indirect_tail_fresh hg d zeros (i - NUM_DIRECT) hk
        (fun j a b => hent j (by omega) b) (hwI hi10) (by omega)
    refine ⟨{ st with cache := c3, free_map := fm }, d, s2, c4, ?_, hs20, h4, ?_, ?_⟩
    · unfold inode_disk_block_to_sector
      rw [if_neg (by omega), if_pos (by omega)]
      simp only [true_and]
      rw [if_neg hz, if_neg hz]
      exact hr
    · constructor
      · exact ⟨i4, z4, by rw [sz4]; exact hg.size⟩
      · intro j hj1 hj2
        omega
      · intro h
        omega
      · intro _
        exact ⟨hz, fun k hk1 hk2 => ent4 k (by omega) hk2⟩
      · intro _
        exact ⟨hD0, fun _ => w4⟩
      · intro h
        omega
    · show free_count st.free_map ≤ free_count fm + 3
      exact le_trans cnt4 (by omega)

/-- The double-indirect branch of a new file when the double-indirect block has
no inner block yet: the inner block is allocated and zeroed, then its slot
`index` is filled. -/
theorem double_tail_new {st : FS} (hg : GoodFS st) (d : Buf) (index : Nat) (hx : index < 128)
    (hD : st.free_map.used (inode_disk.double_indirect d) = true)
    (hO : get32 (view st.cache (inode_disk.double_indirect d)) 0 = 0)
    (hw : Waiting st.cache [next_sector (inode_disk.double_indirect d),
      next_sector (inode_disk.indirect d)])
    (hc : 2 ≤ free_count st.free_map) :
    ∃ fm s c4 c5 O, double_tail st d index zeros zeros true =
        Except.ok ({ st with cache := c4, free_map := fm }, d, s) ∧ s ≠ 0 ∧
      cache_write_at c4 s zeros 0 512 = Except.ok c5 ∧ CacheInv c5 ∧
      fm.used 0 = true ∧ fm.size = st.free_map.size ∧
      (∀ t, st.free_map.used t = true → fm.used t = true) ∧
      free_count st.free_map ≤ free_count fm + 2 ∧
      get32 (view c5 (inode_disk.double_indirect d)) 0 = O ∧ O ≠ 0 ∧
      O ≠ inode_disk.double_indirect d ∧
      (∀ j, index + 1 ≤ j → j < 128 → get32 (view c5 O) (4 * j) = 0) ∧
      Waiting c5 [next_sector O, next_sector (inode_disk.double_indirect d),
        next_sector (inode_disk.indirect d)] := by
  have hsz := hg.size
  have hq : index / BLOCK_SECTOR_SIZE = 0 := by
    unfold BLOCK_SECTOR_SIZE
    omega
  have hm : index % BLOCK_SECTOR_SIZE = index := by
    unfold BLOCK_SECTOR_SIZE
    omega
  have h0 : (0 : Nat) < 128 := by norm_num
  have hf0 : has_slot st.cache = true := has_slot_of_waiting hg.cache.uniq hw (by simp)
  obtain ⟨c1, h1, i1, v1, w1⟩ := read_block_ok hg.cache hf0 (inode_disk.double_indirect d) zeros
  have hw1 : Waiting c1 [next_sector (inode_disk.double_indirect d),
      next_sector (inode_disk.indirect d)] :=
    waiting_mono (w1 _ hw) (by
      intro x hx
      rcases List.mem_cons.1 hx with e | e
      · rw [e]
        exact List.mem_cons_self _ _
      · exact e)
  have hf1 := has_slot_of_waiting i1.uniq hw1 (by simp)
  have houter : get32 (load_block zeros (view st.cache (inode_disk.double_indirect d)))
      (4 * 0) = 0 := by
    rw [get32_load_block _ _ (by norm_num)]
    exact hO
  obtain ⟨s, ha, hs0, hss, hfresh, hcnt⟩ := allocate_fresh st.free_map hg.zero (by omega)
  have hsD : s ≠ inode_disk.double_indirect d := by
    intro e
    rw [e, hD] at hfresh
    cases hfresh
  have e2 : get32 (put32 (load_block zeros (view st.cache (inode_disk.double_indirect d)))
      (4 * 0) s) (4 * 0) = s := by
    rw [get32_put32_same, Nat.mod_eq_of_lt (by omega)]
  obtain ⟨c2, h2, i2, f2, v2, o2, w2⟩ := write_block_ok i1 hf1 s zeros
  obtain ⟨c3, h3, i3, f3, v3, o3, w3⟩ := write_block_ok i2 f2 (inode_disk.double_indirect d)
    (put32 (load_block zeros (view st.cache (inode_disk.double_indirect d))) (4 * 0) s)
  have hg3 : GoodFS { st with
      cache := c3
      free_map := { st.free_map with
        used := fun t => if t = s then true else st.free_map.used t } } :=
    ⟨i3, by simp [hg.zero], hg.size⟩
  obtain ⟨fm, s3, c4, c5, hr, hs30, h5, i5, z5, sz5, u5, cnt5, hd5, ent5, w5⟩ :=
    inner_fresh hg3 d
      (put32 (load_block zeros (view st.cache (inode_disk.double_indirect d))) (4 * 0) s)
      zeros s index hx
      (by
        show (if inode_disk.double_indirect d = s then true
          else st.free_map.used (inode_disk.double_indirect d)) = true
        rw [if_neg (Ne.symm hsD)]
        exact hD)
      hsD
      (by
        intro j _ hj
        show get32 (view c3 s) (4 * j) = 0
        rw [o3 s hsD, v2, get32_load_block _ _ (by omega), get32_zeros])
      (waiting_mono (w3 _ (w2 _ hw1)) (fun x hx => List.mem_cons_of_mem _ hx))
      (count_after hcnt hc)
  refine ⟨fm, s3, c4, c5, s, ?_, hs30, h5, i5, z5, sz5, ?_, ?_, ?_, hs0, hsD, ent5, w5⟩
  · unfold double_tail
    simp only [bind, Except.bind, h1, entry, hq, hm, if_pos h0, pure, Except.pure, true_and]
    rw [if_pos houter, ha]
    simp only [set_entry, if_pos h0, pure, Except.pure, e2, h2, h3]
    exact hr
  · intro t ht
    apply u5
    show (if t = s then true else st.free_map.used t) = true
    split
    · rfl
    · exact ht
  · exact le_trans (le_of_eq hcnt.symm) (Nat.add_le_add_right cnt5 1)
  · rw [hd5]
    exact e2

/-- The double-indirect branch of a new file when the inner block `O` exists
and its slots from `index` on are 0. -/
theorem double_tail_old {st : FS} (hg : GoodFS st) (d : Buf) (index : Nat) (hx : index < 128)
    (hD : st.free_map.used (inode_disk.double_indirect d) = true)
    (hO0 : get32 (view st.cache (inode_disk.double_indirect d)) 0 ≠ 0)
    (hOD : get32 (view st.cache (inode_disk.double_indirect d)) 0 ≠
      inode_disk.double_indirect d)
    (hz : ∀ j, index ≤ j → j < 128 →
      get32 (view st.cache (get32 (view st.cache (inode_disk.double_indirect d)) 0)) (4 * j) = 0)
    (hw : Waiting st.cache
      [next_sector (get32 (view st.cache (inode_disk.double_indirect d)) 0),
        next_sector (inode_disk.double_indirect d), next_sector (inode_disk.indirect d)])
    (hc : 1 ≤ free_count st.free_map) :
    ∃ fm s c4 c5 O, double_tail st d index zeros zeros true =
        Except.ok ({ st with cache := c4, free_map := fm }, d, s) ∧ s ≠ 0 ∧
      cache_write_at c4 s zeros 0 512 = Except.ok c5 ∧ CacheInv c5 ∧
      fm.used 0 = true ∧ fm.size = st.free_map.size ∧
      (∀ t, st.free_map.used t = true → fm.used t = true) ∧
      free_count st.free_map ≤ free_count fm + 2 ∧
      get32 (view c5 (inode_disk.double_indirect d)) 0 = O ∧ O ≠ 0 ∧
      O ≠ inode_disk.double_indirect d ∧
      (∀ j, index + 1 ≤ j → j < 128 → get32 (view c5 O) (4 * j) = 0) ∧
      Waiting c5 [next_sector O, next_sector (inode_disk.double_indirect d),
        next_sector (inode_disk.indirect d)] := by
  have hq : index / BLOCK_SECTOR_SIZE = 0 := by
    unfold BLOCK_SECTOR_SIZE
    omega
  have hm : index % BLOCK_SECTOR_SIZE = index := by
    unfold BLOCK_SECTOR_SIZE
    omega
  have h0 : (0 : Nat) < 128 := by norm_num
  have hf0 : has_slot st.cache = true := has_slot_of_waiting hg.cache.uniq hw (by simp)
  obtain ⟨c1, h1, i1, v1, w1⟩ := read_block_ok hg.cache hf0 (inode_disk.double_indirect d) zeros
  have hw1 : Waiting c1
      [next_sector (get32 (view st.cache (inode_disk.double_indirect d)) 0),
        next_sector (inode_disk.double_indirect d), next_sector (inode_disk.indirect d)] :=
    waiting_mono (w1 _ hw) (by
      intro x hx
      rcases List.mem_cons.1 hx with e | e
      · rw [e]
        exact List.mem_cons_of_mem _ (List.mem_cons_self _ _)
      · exact e)
  have eo : get32 (load_block zeros (view st.cache (inode_disk.double_indirect d))) (4 * 0) =
      get32 (view st.cache (inode_disk.double_indirect d)) 0 :=
    get32_load_block _ _ (by norm_num)
  have houter : ¬ get32 (load_block zeros (view st.cache (inode_disk.double_indirect d)))
      (4 * 0) = 0 := by
    rw [eo]
    exact hO0
  have hg1 : GoodFS { st with cache := c1 } := ⟨i1, hg.zero, hg.size⟩
  obtain ⟨fm, s3, c4, c5, hr, hs30, h5, i5, z5, sz5, u5, cnt5, hd5, ent5, w5⟩ :=
    inner_fresh hg1 d
      (load_block zeros (view st.cache (inode_disk.double_indirect d)))
      zeros (get32 (view st.cache (inode_disk.double_indirect d)) 0) index hx hD hOD
      (by
        intro j hj1 hj2
        show get32 (view c1 _) (4 * j) = 0
        rw [v1]
        exact hz j hj1 hj2)
      hw1 hc
  refine ⟨fm, s3, c4, c5, get32 (view st.cache (inode_disk.double_indirect d)) 0, ?_, hs30, h5,
    i5, z5, sz5, u5, le_trans cnt5 (by omega), ?_, hO0, hOD, ent5, w5⟩
  · unfold double_tail
    simp only [bind, Except.bind, h1, entry, hq, hm, if_pos h0, pure, Except.pure, true_and]
    rw [if_neg houter, if_neg houter, eo]
    exact hr
  · rw [hd5]
    exact eo

/-- A block of a new file behind the double-indirect block, below block 266:
the first of them gets the double-indirect block and the first inner block,
and every one a fresh sector in its slot of the inner block. -/
theorem step_double {st : FS} {d : Buf} {i : Nat} (hb : Building st d i) (h1 : 138 ≤ i)
    (h2 : i < 266) (hc : 3 ≤ free_count st.free_map) :
    ∃ st1 d1 res c2, inode_disk_block_to_sector st d i zeros zeros true =
        Except.ok (st1, d1, res) ∧ res ≠ 0 ∧
      cache_write_at st1.cache res zeros 0 512 = Except.ok c2 ∧
      Building { st1 with cache := c2 } d1 (i + 1) ∧
      free_count st.free_map ≤ free_count st1.free_map + 3 := by
  have hg := hb.good
  have hsz := hg.size
  have hN : NUM_DIRECT = 10 := rfl
  have hS : NUM_SECTORS = 16522 := rfl
  have hx : i - (NUM_DIRECT + 128) < 128 := by omega
  have hx1 : i - (NUM_DIRECT + 128) + 1 = i + 1 - 138 := by omega
  obtain ⟨hI, _⟩ := hb.ind (by omega)
  by_cases hz : inode_disk.double_indirect d = 0
  · have hi138 : i = 138 := by
      by_contra hne
      obtain ⟨_, _, hD, _⟩ := hb.dbl (by omega)
      exact hD hz
    obtain ⟨_, hwI⟩ := hb.dbl0 (by omega)
    have hw0 := hwI (by omega)
    obtain ⟨s, ha, hs0, hss, hfresh, hcnt⟩ := allocate_fresh st.free_map hg.zero (by omega)
    have e2 : inode_disk.double_indirect (inode_disk.set_double_indirect d s) = s := by
      unfold inode_disk.double_indirect inode_disk.set_double_indirect
      rw [get32_put32_same, Nat.mod_eq_of_lt (by omega)]
    have e3 : inode_disk.indirect (inode_disk.set_double_indirect d s) =
        inode_disk.indirect d := by
      unfold inode_disk.indirect inode_disk.set_double_indirect
      rw [get32_put32_other _ _ _ _ (by omega)]
    obtain ⟨c1, hw, i1, f1, v1, o1, w1⟩ := write_block_ok hg.cache
      (has_slot_of_waiting hg.cache.uniq hw0 (by simp)) s zeros
    have hg1 : GoodFS { st with
        cache := c1
        free_map := { st.free_map with
          used := fun t => if t = s then true else st.free_map.used t } } :=
      ⟨i1, by simp [hg.zero], hg.size⟩
    obtain ⟨fm, s3, c4, c5, O, hr, hs30, h5, i5, z5, sz5, u5, cnt5, hd5, hO0, hOD, ent5, w5⟩ :=
      double_tail_new hg1 (inode_disk.set_double_indirect d s) (i - (NUM_DIRECT + 128)) hx
        (by
          show (if inode_disk.double_indirect (inode_disk.set_double_indirect d s) = s then true
            else st.free_map.used _) = true
          rw [if_pos e2])
        (by
          show get32 (view c1 (inode_disk.double_indirect (inode_disk.set_double_indirect d s)))
            0 = 0
          rw [e2, v1, get32_load_block _ _ (by norm_num), get32_zeros])
        (waiting_mono (w1 _ hw0) (by
          intro x hx
          rw [e3]
          exact List.mem_cons_of_mem _ hx))
        (count_after hcnt hc)
    refine ⟨{ st with cache := c4, free_map := fm }, inode_disk.set_double_indirect d s, s3, c5,
      ?_, hs30, h5, ?_, ?_⟩
    · unfold inode_disk_block_to_sector
      rw [if_neg (by omega), if_neg (by omega), if_pos (by omega)]
      simp only [true_and]
      rw [if_pos hz, ha]
      simp only [e2, bind, Except.bind, hw]
      exact hr
    · constructor
      · exact ⟨i5, z5, by rw [sz5]; exact hg.size⟩
      · intro j hj1 hj2
        omega
      · intro h
        omega
      · intro _
        refine ⟨by rw [e3]; exact hI, fun k hk1 hk2 => by omega⟩
      · intro h
        omega
      · intro _
        refine ⟨O, hd5, by rw [e2]; exact hs0, ?_, hO0, hOD, ?_, w5⟩
        · apply u5
          show (if inode_disk.double_indirect (inode_disk.set_double_indirect d s) = s then true
            else st.free_map.used _) = true
          rw [if_pos e2]
        · intro k hk1 hk2
          exact ent5 k (by omega) hk2
    · show free_count st.free_map ≤ free_count fm + 3
      have cnt5' : free_count { st.free_map with
          used := fun t => if t = s then true else st.free_map.used t } ≤ free_count fm + 2 := cnt5
      exact le_trans (le_of_eq hcnt.symm)
        (le_trans (Nat.add_le_add_right cnt5' 1) (by omega))
  · have hi138 : 138 < i := by
      by_contra hne
      exact hz (hb.dbl0 (by omega)).1
    obtain ⟨O, hO, hD, hDu, hO0, hOD, hent, hw⟩ := hb.dbl hi138
    subst hO
    obtain ⟨fm, s3, c4, c5, O, hr, hs30, h5, i5, z5, sz5, u5, cnt5, hd5, hO0', hOD', ent5, w5⟩ :=
      double_tail_old hg d (i - (NUM_DIRECT + 128)) hx hDu hO0 hOD
        (fun j a b => hent j (by omega) b) hw (by omega)
    refine ⟨{ st with cache := c4, free_map := fm }, d, s3, c5, ?_, hs30, h5, ?_, ?_⟩
    · unfold inode_disk_block_to_sector
      rw [if_neg (by omega), if_neg (by omega), if_pos (by omega)]
      simp only [true_and]
      rw [if_neg hz, if_neg hz]
      exact hr
    · constructor
      · exact ⟨i5, z5, by rw [sz5]; exact hg.size⟩
      · intro j hj1 hj2
        omega
      · intro h
        omega
      · intro _
        exact ⟨hI, fun k hk1 hk2 => by omega⟩
      · intro h
        omega
      · intro _
        exact ⟨O, hd5, hD, u5 _ hDu, hO0', hOD', fun k hk1 hk2 => ent5 k (by omega) hk2, w5⟩
    · show free_count st.free_map ≤ free_count fm + 3
      exact le_trans cnt5 (by omega)

/-- Every block below 266 of a new file is created and zeroed, at the cost of
at most three sectors. -/
theorem block_step {st : FS} {d : Buf} {i : Nat} (hb : Building st d i) (hi : i < 266)
    (hc : 3 ≤ free_count st.free_map) :
    ∃ st1 d1 res c2, inode_disk_block_to_sector st d i zeros zeros true =
        Except.ok (st1, d1, res) ∧ res ≠ 0 ∧
      cache_write_at st1.cache res zeros 0 512 = Except.ok c2 ∧
      Building { st1 with cache := c2 } d1 (i + 1) ∧
      free_count st.free_map ≤ free_count st1.free_map + 3 := by
  by_cases h1 : i < 10
  · exact step_direct hb h1 (by omega)
  · by_cases h2 : i < 138
    · exact step_indirect hb (by omega) h2 (by omega)
    · exact step_double hb (by omega) hi hc

/-- Block 266 with `create == true` in a new file: the double-indirect block and
its first inner block are there, the run reaches slot `(266 - 138) % 512 = 128`
of the inner block and stops there. -/
theorem resolve_266_oob {st : FS} {d : Buf} (hb : Building st d 266) :
    inode_disk_block_to_sector st d 266 zeros zeros true = Except.error Fault.oob := by
  have hg := hb.good
  obtain ⟨O, hO, hD, hDu, hO0, hOD, hent, hw⟩ := hb.dbl (by norm_num)
  subst hO
  have hf0 : has_slot st.cache = true := has_slot_of_waiting hg.cache.uniq hw (by simp)
  obtain ⟨c1, h1, i1, v1, w1⟩ := read_block_ok hg.cache hf0 (inode_disk.double_indirect d) zeros
  have hf1 : has_slot c1 = true := has_slot_of_waiting i1.uniq (w1 _ hw) (by simp)
  obtain ⟨c2, h2, _⟩ := read_block_ok i1 hf1
    (get32 (view st.cache (inode_disk.double_indirect d)) 0) zeros
  have eo : get32 (load_block zeros (view st.cache (inode_disk.double_indirect d))) (4 * 0) =
      get32 (view st.cache (inode_disk.double_indirect d)) 0 :=
    get32_load_block _ _ (by norm_num)
  have houter : ¬ get32 (load_block zeros (view st.cache (inode_disk.double_indirect d)))
      (4 * 0) = 0 := by
    rw [eo]
    exact hO0
  have hq : 128 / BLOCK_SECTOR_SIZE = 0 := by decide
  have hm : 128 % BLOCK_SECTOR_SIZE = 128 := by decide
  have h0 : (0 : Nat) < 128 := by norm_num
  have hx : 266 - (NUM_DIRECT + 128) = 128 := by decide
  unfold inode_disk_block_to_sector
  rw [if_neg (by decide), if_neg (by decide), if_pos (by decide)]
  simp only [true_and, hx]
  rw [if_neg hD, if_neg hD]
  unfold double_tail
  simp only [bind, Except.bind, h1, entry, hq, hm, if_pos h0, pure, Except.pure, true_and]
  rw [if_neg houter, if_neg houter, eo]
  unfold double_tail_inner
  simp only [bind, Except.bind, h2, entry]
  rfl

/-- The loop of `inode_create` over more than 266 blocks of a new file, with
free sectors for all of the first 266 (at most three each): the blocks below
266 are created and block 266 stops in the out-of-bounds access. -/
theorem create_loop_oob : ∀ (n i : Nat) (st : FS) (d : Buf), Building st d i → i ≤ 266 →
    266 < i + n → 3 * (266 - i) + 2 ≤ free_count st.free_map →
    create_loop n i st d = Except.error Fault.oob := by
  intro n
  induction n with
  | zero => intro i st d _ h1 h2; omega
  | succ n ih =>
    intro i st d hb h1 h2 hc
    unfold create_loop
    by_cases e : i = 266
    · subst e
      rw [resolve_266_oob hb]
      rfl
    · obtain ⟨st1, d1, res, c2, hr, hres, hw, hb1, hcnt⟩ :=
        block_step hb (by omega) (by omega)
      rw [hr]
      simp only [bind, Except.bind, if_neg hres, hw]
      exact ih (i + 1) { st1 with cache := c2 } d1 hb1 (by omega) (by omega)
        (by
          show 3 * (266 - (i + 1)) + 2 ≤ free_count st1.free_map
          omega)

/-- The on-disk inode that `inode_create` starts from has no block pointer. -/
theorem new_inode_word (length : Int) (isdir : Bool) (ofs : Nat) (h1 : 4 ≤ ofs)
    (h2 : ofs + 4 ≤ 52) :
    get32 (inode_disk.set_entry_cnt (inode_disk.set_isdir (inode_disk.set_magic
      (inode_disk.set_length zeros length) INODE_MAGIC) isdir) 0) ofs = 0 := by
  unfold inode_disk.set_entry_cnt
  rw [get32_put32_other _ _ _ _ (by omega)]
  have e : get32 (inode_disk.set_isdir (inode_disk.set_magic
      (inode_disk.set_length zeros length) INODE_MAGIC) isdir) ofs =
      get32 (inode_disk.set_magic (inode_disk.set_length zeros length) INODE_MAGIC) ofs := by
    apply get32_congr
    intro i _ hi
    unfold inode_disk.set_isdir
    rw [if_neg (by omega)]
  rw [e]
  unfold inode_disk.set_magic inode_disk.set_length
  rw [get32_put32_other _ _ _ _ (by omega), get32_put32_other _ _ _ _ (by omega), get32_zeros]

/-- `inode_create` of more than 266 blocks, on a file system with a consistent
cache in which no slot waits for its load, with sector 0 in use and 800 free
sectors: the call stops in the out-of-bounds access of block 266. -/
theorem create_oob {st : FS} (hg : GoodFS st) (hw : Waiting st.cache []) (sector : Nat)
    (length : Int) (isdir : Bool) (h0 : 0 ≤ length) (hn : 266 < bytes_to_sectors length)
    (hc : 800 ≤ free_count st.free_map) :
    inode_create st sector length isdir = Except.error Fault.oob := by
  have hb : Building st (inode_disk.set_entry_cnt (inode_disk.set_isdir (inode_disk.set_magic
      (inode_disk.set_length zeros length) INODE_MAGIC) isdir) 0) 0 := by
    constructor
    · exact hg
    · intro j _ hj
      exact new_inode_word length isdir (4 + 4 * j) (by omega) (by omega)
    · intro _
      exact ⟨new_inode_word length isdir 44 (by norm_num) (by norm_num), hw⟩
    · intro h
      omega
    · intro _
      exact ⟨new_inode_word length isdir 48 (by norm_num) (by norm_num), fun h => by omega⟩
    · intro h
      omega
  unfold inode_create
  rw [if_neg (by omega)]
  simp only
  rw [create_loop_oob (bytes_to_sectors length) 0 st _ hb (by omega) (by omega) (by omega)]


theorem blank_good : GoodFS ex_blank_fs := ⟨cache_init_inv _ _, rfl, by decide⟩

theorem blank_free_count : free_count ex_blank_fs.free_map = 4093 := by
  decide!

set_option maxRecDepth 100000 in
/-- C15 at a failing input: `inode_create` of a file of 136193 bytes, 267
blocks, on the blank 4096-sector volume, which has 4093 free sectors.  The
blocks 0 to 265 are created; block 266 has the inner slot
`(266 - 138) % 512 = 128`, outside the 128-entry index block, and the run stops
there: no call returns true with 267 blocks resolved and zeroed. -/
theorem create_block266 :
    bytes_to_sectors 136193 = 267 ∧ free_count ex_blank_fs.free_map = 4093 ∧
    inode_create ex_blank_fs 2 136193 false = Except.error Fault.oob :=
  ⟨by decide, blank_free_count,
    create_oob blank_good (cache_init_waiting _ _) 2 136193 false (by norm_num) (by decide)
      (by rw [blank_free_count]; norm_num)⟩

set_option maxRecDepth 100000 in
/-- C16 at a failing input: `inode_create` of a file of 2150400 bytes, 4200
blocks, on the blank 4096-sector volume, whose 4093 free sectors cannot supply
them.  The call does not return false: before the free map runs out it reaches
block 266 and stops in the out-of-bounds access of slot 128. -/
theorem create_out_of_space_block266 :
    bytes_to_sectors 2150400 = 4200 ∧ free_count ex_blank_fs.free_map = 4093 ∧
    inode_create ex_blank_fs 2 2150400 false = Except.error Fault.oob :=
  ⟨by decide, blank_free_count,
    create_oob blank_good (cache_init_waiting _ _) 2 2150400 false (by norm_num) (by decide)
      (by rw [blank_free_count]; norm_num)⟩

/-! ### The inode that `inode_create` builds names its own sector nowhere -/

theorem allocate_result {fm fm1 : FreeMap} {s : Nat} (h : free_map_allocate fm = some (fm1, s)) :
    fm1 = { fm with used := fun t => if t = s then true else fm.used t } ∧ s < fm.size ∧
      fm.used s = false := by
  unfold free_map_allocate at h
  cases hs : free_scan fm.used fm.size 0 with
  | none =>
    rw [hs] at h
    cases h
  | some t =>
    rw [hs] at h
    simp only [Option.some.injEq, Prod.mk.injEq] at h
    obtain ⟨_, h2, h3⟩ := free_scan_some fm.used fm.size 0 t hs
    obtain ⟨h4, h5⟩ := h
    subst h5
    exact ⟨h4.symm, by omega, h3⟩

theorem block0_zeros (F : Nat → Prop) : Block0 F zeros := fun k _ =>
  Or.inl (get32_zeros (4 * k))

theorem block0_load {F : Nat → Prop} (b : Buf) {v : Buf} (h : Block0 F v) :
    Block0 F (load_block b v) := by
  intro k hk
  rw [get32_load_block b v (by omega)]
  exact h k hk

theorem block0_put {F : Nat → Prop} {b : Buf} {k v : Nat} (hv : v < 4294967296)
    (h : Block0 F b) (hF : F v) : Block0 F (put32 b (4 * k) v) := by
  intro j hj
  by_cases e : j = k
  · subst e
    rw [get32_put32_same, Nat.mod_eq_of_lt hv]
    exact Or.inr hF
  · rw [get32_put32_other _ _ _ _ (by omega)]
    exact h j hj

theorem word0_mono {F G : Nat → Prop} (hFG : ∀ x, F x → G x) {v : Nat} (h : Word0 F v) :
    Word0 G v := h.imp id (hFG v)

theorem block0_mono {F G : Nat → Prop} (hFG : ∀ x, F x → G x) {b : Buf} (h : Block0 F b) :
    Block0 G b := fun k hk => word0_mono hFG (h k hk)

/-- A write of a whole index block whose entries have the property `F`. -/
theorem blocks_write {F P : Nat → Prop} {c c1 : Cache} {y : Nat} {buf : Buf}
    (hi : CacheInv c) (h : cache_write_at c y buf 0 512 = Except.ok c1) (hb : Block0 F buf)
    (hP : ∀ x, F x → P x → Block0 F (view c x)) :
    CacheInv c1 ∧ ∀ x, F x → (P x ∨ x = y) → Block0 F (view c1 x) := by
  obtain ⟨r1, r2, r3, _⟩ := cache_write_at_ok hi (show 0 + 512 ≤ 512 by norm_num) h
  refine ⟨r1, fun x hx hp => ?_⟩
  by_cases e : x = y
  · rw [e, r2]
    exact block0_load _ hb
  · rw [r3 x e]
    rcases hp with hp | hp
    · exact hP x hx hp
    · exact absurd hp e

/-- A read of a whole sector into a block. -/
theorem block_read {c c1 : Cache} {y : Nat} {b out : Buf} (hi : CacheInv c)
    (h : cache_read_at c y b 0 512 = Except.ok (c1, out)) :
    out = load_block b (view c y) ∧ CacheInv c1 ∧ ∀ t, view c1 t = view c t := by
  obtain ⟨r1, r2, _⟩ := cache_read_at_ok hi (show 0 + 512 ≤ 512 by norm_num) h
  exact ⟨r1, r2.inv, r2.view⟩

/-- What a sector taken from the free map adds to the sectors handed out. -/
theorem created_grow {used0 : Nat → Bool} {st : FS} {d : Buf} {fm : FreeMap} {s : Nat}
    (hc : Created used0 st d) (ha : free_map_allocate st.free_map = some (fm, s)) :
    s < 4294967296 ∧ fm.size ≤ 4294967296 ∧ Fresh used0 fm.used s ∧
      (∀ x, used0 x = true → fm.used x = true) ∧
      (∀ x, Fresh used0 st.free_map.used x → Fresh used0 fm.used x) ∧
      (∀ x, Fresh used0 fm.used x → Fresh used0 st.free_map.used x ∨ x = s) ∧
      (∀ x, Fresh used0 fm.used x → Fresh used0 st.free_map.used x →
        Block0 (Fresh used0 fm.used) (view st.cache x)) := by
  obtain ⟨h1, h2, h3⟩ := allocate_result ha
  have hs0 : used0 s = false := by
    cases hu : used0 s with
    | false => rfl
    | true =>
      rw [hc.mono s hu] at h3
      cases h3
  have hm : ∀ x, Fresh used0 st.free_map.used x → Fresh used0 fm.used x := by
    intro x hx
    refine ⟨hx.1, ?_⟩
    rw [h1]
    show (if x = s then true else st.free_map.used x) = true
    split
    · rfl
    · exact hx.2
  refine ⟨lt_of_lt_of_le h2 hc.size, by rw [h1]; exact hc.size, ⟨hs0, ?_⟩, ?_, hm, ?_, ?_⟩
  · rw [h1]
    show (if s = s then true else st.free_map.used s) = true
    rw [if_pos rfl]
  · intro x hx
    rw [h1]
    show (if x = s then true else st.free_map.used x) = true
    split
    · rfl
    · exact hc.mono x hx
  · intro x hx
    by_cases e : x = s
    · exact Or.inr e
    · left
      refine ⟨hx.1, ?_⟩
      have := hx.2
      rw [h1] at this
      change (if x = s then true else st.free_map.used x) = true at this
      rwa [if_neg e] at this
  · intro x _ hx
    exact block0_mono hm (hc.blocks x hx)

/-- A read through the cache leaves the blocks of the file as they are. -/
theorem created_read {used0 : Nat → Bool} {st : FS} {d : Buf} {c1 : Cache}
    (hc : Created used0 st d) (hi : CacheInv c1) (hv : ∀ t, view c1 t = view st.cache t) :
    Created used0 { st with cache := c1 } d :=
  ⟨hi, hc.size, hc.mono, hc.direct, hc.indirect, hc.double, fun x hx => by
    show Block0 _ (view c1 x)
    rw [hv x]
    exact hc.blocks x hx⟩

theorem entry_ok {b : Buf} {k v : Nat} (h : entry b k = Except.ok v) :
    k < 128 ∧ v = get32 b (4 * k) := by
  unfold entry at h
  split at h
  · cases h
    exact ⟨by assumption, rfl⟩
  · cases h

theorem set_entry_ok {b b1 : Buf} {k v : Nat} (h : set_entry b k v = Except.ok b1) :
    k < 128 ∧ b1 = put32 b (4 * k) v := by
  unfold set_entry at h
  split at h
  · cases h
    exact ⟨by assumption, rfl⟩
  · cases h

/-- The indirect branch with `create == true`, when it returns: the new data
sector, if any, is one handed out, and so is every entry of the index block. -/
theorem indirect_tail_created {used0 : Nat → Bool} {st st1 : FS} {d d1 ib : Buf} {k res : Nat}
    (hc : Created used0 st d) (hI : Fresh used0 st.free_map.used (inode_disk.indirect d))
    (h : indirect_tail st d k ib true = Except.ok (st1, d1, res)) :
    Created used0 st1 d1 ∧ Word0 (Fresh used0 st1.free_map.used) res := by
  unfold indirect_tail at h
  simp only [bind, Except.bind] at h
  cases hr : cache_read_at st.cache (inode_disk.indirect d) ib 0 512 with
  | error e => rw [hr] at h; cases h
  | ok p =>
    obtain ⟨c1, ib1⟩ := p
    rw [hr] at h
    simp only at h
    obtain ⟨e1, i1, v1⟩ := block_read hc.inv hr
    have hb1 : Block0 (Fresh used0 st.free_map.used) ib1 := by
      rw [e1]
      exact block0_load _ (hc.blocks _ hI)
    cases he : entry ib1 k with
    | error e => rw [he] at h; cases h
    | ok sector =>
      rw [he] at h
      simp only at h
      obtain ⟨hk, hsec⟩ := entry_ok he
      by_cases hz : sector = 0
      · rw [if_pos ⟨hz, trivial⟩] at h
        cases ha : free_map_allocate st.free_map with
        | none =>
          rw [ha] at h
          cases h
          exact ⟨created_read hc i1 v1, Or.inl rfl⟩
        | some q =>
          obtain ⟨fm, s⟩ := q
          rw [ha] at h
          simp only at h
          obtain ⟨g1, g2, g3, g4, g5, g6, g7⟩ := created_grow hc ha
          cases hs : set_entry ib1 k s with
          | error e => rw [hs] at h; cases h
          | ok ib2 =>
            rw [hs] at h
            simp only at h
            obtain ⟨_, hib2⟩ := set_entry_ok hs
            have hb2 : Block0 (Fresh used0 fm.used) ib2 := by
              rw [hib2]
              exact block0_put g1 (block0_mono g5 hb1) g3
            cases hw1 : cache_write_at c1 (inode_disk.indirect d) ib2 0 512 with
            | error e => rw [hw1] at h; cases h
            | ok c2 =>
              rw [hw1] at h
              simp only at h
              cases he2 : entry ib2 k with
              | error e => rw [he2] at h; cases h
              | ok r =>
                rw [he2] at h
                simp only at h
                obtain ⟨_, hr2⟩ := entry_ok he2
                have hrs : r = s := by
                  rw [hr2, hib2, get32_put32_same, Nat.mod_eq_of_lt g1]
                subst hrs
                cases hw2 : cache_write_at c2 r zeros 0 512 with
                | error e => rw [hw2] at h; cases h
                | ok c3 =>
                  rw [hw2] at h
                  cases h
                  obtain ⟨i2, b2⟩ := blocks_write i1 hw1 hb2 (fun x hx hp => by
                    rw [v1 x]
                    exact g7 x hx hp)
                  obtain ⟨i3, b3⟩ := blocks_write i2 hw2 (block0_zeros _) b2
                  refine ⟨⟨i3, g2, g4, fun j hj => word0_mono g5 (hc.direct j hj),
                    word0_mono g5 hc.indirect, word0_mono g5 hc.double, fun x hx => ?_⟩,
                    Or.inr g3⟩
                  rcases g6 x hx with hp | hp
                  · exact b3 x hx (Or.inl (Or.inl hp))
                  · exact b3 x hx (Or.inr hp)
      · rw [if_neg (fun hh => hz hh.1)] at h
        cases h
        refine ⟨created_read hc i1 v1, ?_⟩
        rw [hsec]
        exact hb1 k hk

/-- The double-indirect branch below the inner index block, with
`create == true`, when it returns. -/
theorem double_tail_inner_created {used0 : Nat → Bool} {st st1 : FS} {d d1 ib dib : Buf}
    {inner k res : Nat} (hc : Created used0 st d)
    (hN : Fresh used0 st.free_map.used inner)
    (hib : Block0 (Fresh used0 st.free_map.used) ib)
    (h : double_tail_inner st d inner k ib dib true = Except.ok (st1, d1, res)) :
    Created used0 st1 d1 ∧ Word0 (Fresh used0 st1.free_map.used) res := by
  unfold double_tail_inner at h
  simp only [bind, Except.bind] at h
  cases hr : cache_read_at st.cache inner dib 0 512 with
  | error e => rw [hr] at h; cases h
  | ok p =>
    obtain ⟨c1, dib1⟩ := p
    rw [hr] at h
    simp only at h
    obtain ⟨e1, i1, v1⟩ := block_read hc.inv hr
    have hb1 : Block0 (Fresh used0 st.free_map.used) dib1 := by
      rw [e1]
      exact block0_load _ (hc.blocks _ hN)
    cases he : entry dib1 k with
    | error e => rw [he] at h; cases h
    | ok sector =>
      rw [he] at h
      simp only at h
      obtain ⟨hk, hsec⟩ := entry_ok he
      by_cases hz : sector = 0
      · rw [if_pos ⟨hz, trivial⟩] at h
        cases ha : free_map_allocate st.free_map with
        | none =>
          rw [ha] at h
          cases h
          exact ⟨created_read hc i1 v1, Or.inl rfl⟩
        | some q =>
          obtain ⟨fm, s⟩ := q
          rw [ha] at h
          simp only at h
          obtain ⟨g1, g2, g3, g4, g5, g6, g7⟩ := created_grow hc ha
          cases hs : set_entry dib1 k s with
          | error e => rw [hs] at h; cases h
          | ok dib2 =>
            rw [hs] at h
            simp only at h
            obtain ⟨_, hdib2⟩ := set_entry_ok hs
            have hb2 : Block0 (Fresh used0 fm.used) dib2 := by
              rw [hdib2]
              exact block0_put g1 (block0_mono g5 hb1) g3
            cases hw1 : cache_write_at c1 inner dib2 0 512 with
            | error e => rw [hw1] at h; cases h
            | ok c2 =>
              rw [hw1] at h
              simp only at h
              cases hw2 : cache_write_at c2 (inode_disk.double_indirect d) ib 0 512 with
              | error e => rw [hw2] at h; cases h
              | ok c3 =>
                rw [hw2] at h
                simp only at h
                cases he2 : entry dib2 k with
                | error e => rw [he2] at h; cases h
                | ok r =>
                  rw [he2] at h
                  simp only at h
                  obtain ⟨_, hr2⟩ := entry_ok he2
                  have hrs : r = s := by
                    rw [hr2, hdib2, get32_put32_same, Nat.mod_eq_of_lt g1]
                  subst hrs
                  cases hw3 : cache_write_at c3 r zeros 0 512 with
                  | error e => rw [hw3] at h; cases h
                  | ok c4 =>
                    rw [hw3] at h
                    cases h
                    obtain ⟨i2, b2⟩ := blocks_write i1 hw1 hb2 (fun x hx hp => by
                      rw [v1 x]
                      exact g7 x hx hp)
                    obtain ⟨i3, b3⟩ := blocks_write i2 hw2 (block0_mono g5 hib) b2
                    obtain ⟨i4, b4⟩ := blocks_write i3 hw3 (block0_zeros _) b3
                    refine ⟨⟨i4, g2, g4, fun j hj => word0_mono g5 (hc.direct j hj),
                      word0_mono g5 hc.indirect, word0_mono g5 hc.double, fun x hx => ?_⟩,
                      Or.inr g3⟩
                    rcases g6 x hx with hp | hp
                    · exact b4 x hx (Or.inl (Or.inl (Or.inl hp)))
                    · exact b4 x hx (Or.inr hp)
      · rw [if_neg (fun hh => hz hh.1)] at h
        cases h
        refine ⟨created_read hc i1 v1, ?_⟩
        rw [hsec]
        exact hb1 k hk

/-- The double-indirect branch with `create == true`, when it returns. -/
theorem double_tail_created {used0 : Nat → Bool} {st st1 : FS} {d d1 ib dib : Buf}
    {index res : Nat} (hc : Created used0 st d)
    (hD : Fresh used0 st.free_map.used (inode_disk.double_indirect d))
    (hdib : ∀ F : Nat → Prop, Block0 F dib)
    (h : double_tail st d index ib dib true = Except.ok (st1, d1, res)) :
    Created used0 st1 d1 ∧ Word0 (Fresh used0 st1.free_map.used) res := by
  unfold double_tail at h
  simp only [bind, Except.bind] at h
  cases hr : cache_read_at st.cache (inode_disk.double_indirect d) ib 0 512 with
  | error e => rw [hr] at h; cases h
  | ok p =>
    obtain ⟨c1, ib1⟩ := p
    rw [hr] at h
    simp only at h
    obtain ⟨e1, i1, v1⟩ := block_read hc.inv hr
    have hb1 : Block0 (Fresh used0 st.free_map.used) ib1 := by
      rw [e1]
      exact block0_load _ (hc.blocks _ hD)
    cases he : entry ib1 (index / BLOCK_SECTOR_SIZE) with
    | error e => rw [he] at h; cases h
    | ok outer =>
      rw [he] at h
      simp only at h
      obtain ⟨hk, hsec⟩ := entry_ok he
      by_cases hz : outer = 0
      · rw [if_pos ⟨trivial, hz⟩] at h
        cases ha : free_map_allocate st.free_map with
        | none =>
          rw [ha] at h
          cases h
          exact ⟨created_read hc i1 v1, Or.inl rfl⟩
        | some q =>
          obtain ⟨fm, s⟩ := q
          rw [ha] at h
          simp only at h
          obtain ⟨g1, g2, g3, g4, g5, g6, g7⟩ := created_grow hc ha
          cases hs : set_entry ib1 (index / BLOCK_SECTOR_SIZE) s with
          | error e => rw [hs] at h; cases h
          | ok ib2 =>
            rw [hs] at h
            simp only at h
            obtain ⟨_, hib2⟩ := set_entry_ok hs
            have hb2 : Block0 (Fresh used0 fm.used) ib2 := by
              rw [hib2]
              exact block0_put g1 (block0_mono g5 hb1) g3
            cases he2 : entry ib2 (index / BLOCK_SECTOR_SIZE) with
            | error e => rw [he2] at h; cases h
            | ok inner =>
              rw [he2] at h
              simp only at h
              obtain ⟨_, hr2⟩ := entry_ok he2
              have hrs : inner = s := by
                rw [hr2, hib2, get32_put32_same, Nat.mod_eq_of_lt g1]
              subst hrs
              cases hw1 : cache_write_at c1 inner dib 0 512 with
              | error e => rw [hw1] at h; cases h
              | ok c2 =>
                rw [hw1] at h
                simp only at h
                cases hw2 : cache_write_at c2 (inode_disk.double_indirect d) ib2 0 512 with
                | error e => rw [hw2] at h; cases h
                | ok c3 =>
                  rw [hw2] at h
                  simp only at h
                  obtain ⟨i2, b2⟩ := blocks_write i1 hw1 (hdib _) (fun x hx hp => by
                    rw [v1 x]
                    exact g7 x hx hp)
                  obtain ⟨i3, b3⟩ := blocks_write i2 hw2 hb2 b2
                  have hc3 : Created used0 { st with cache := c3, free_map := fm } d :=
                    ⟨i3, g2, g4, fun j hj => word0_mono g5 (hc.direct j hj),
                      word0_mono g5 hc.indirect, word0_mono g5 hc.double, fun x hx => by
                        rcases g6 x hx with hp | hp
                        · exact b3 x hx (Or.inl (Or.inl hp))
                        · exact b3 x hx (Or.inl (Or.inr hp))⟩
                  exact double_tail_inner_created hc3 g3 hb2 h
      · rw [if_neg (fun hh => hz hh.2), if_neg hz] at h
        have ho : Fresh used0 st.free_map.used outer := by
          have := hb1 _ hk
          rw [← hsec] at this
          exact this.resolve_left hz
        exact double_tail_inner_created (created_read hc i1 v1) ho hb1 h

/-- The function `inode_disk_block_to_sector` with `create == true` and cleared
scratch blocks, when it returns: the pointers of the inode and the entries of
the index blocks are still 0 or sectors handed out, and so is the result. -/
theorem resolve_created {used0 : Nat → Bool} {st st1 : FS} {d d1 : Buf} {i res : Nat}
    (hc : Created used0 st d)
    (h : inode_disk_block_to_sector st d i zeros zeros true = Except.ok (st1, d1, res)) :
    Created used0 st1 d1 ∧ Word0 (Fresh used0 st1.free_map.used) res := by
  unfold inode_disk_block_to_sector at h
  by_cases h1 : i < NUM_DIRECT
  · rw [if_pos h1] at h
    have h1n : i < 10 := h1
    simp only at h
    by_cases hz : inode_disk.direct d i = 0
    · rw [if_pos ⟨hz, trivial⟩] at h
      cases ha : free_map_allocate st.free_map with
      | none =>
        rw [ha] at h
        cases h
        exact ⟨hc, Or.inl rfl⟩
      | some q =>
        obtain ⟨fm, s⟩ := q
        rw [ha] at h
        simp only [bind, Except.bind] at h
        obtain ⟨g1, g2, g3, g4, g5, g6, g7⟩ := created_grow hc ha
        have hds : inode_disk.direct (inode_disk.set_direct d i s) i = s := by
          unfold inode_disk.direct inode_disk.set_direct
          rw [get32_put32_same, Nat.mod_eq_of_lt g1]
        rw [hds] at h
        cases hw1 : cache_write_at st.cache s zeros 0 512 with
        | error e => rw [hw1] at h; cases h
        | ok c1 =>
          rw [hw1] at h
          cases h
          obtain ⟨i2, b2⟩ := blocks_write hc.inv hw1 (block0_zeros _) g7
          refine ⟨⟨i2, g2, g4, fun j hj => ?_, ?_, ?_, fun x hx => b2 x hx (g6 x hx)⟩,
            Or.inr g3⟩
          · by_cases e : j = i
            · rw [e, hds]
              exact Or.inr g3
            · have : inode_disk.direct (inode_disk.set_direct d i res) j =
                  inode_disk.direct d j := by
                unfold inode_disk.direct inode_disk.set_direct
                exact get32_put32_other _ _ _ _ (by omega)
              rw [this]
              exact word0_mono g5 (hc.direct j hj)
          · have : inode_disk.indirect (inode_disk.set_direct d i res) =
                inode_disk.indirect d := by
              unfold inode_disk.indirect inode_disk.set_direct
              exact get32_put32_other _ _ _ _ (by omega)
            rw [this]
            exact word0_mono g5 hc.indirect
          · have : inode_disk.double_indirect (inode_disk.set_direct d i res) =
                inode_disk.double_indirect d := by
              unfold inode_disk.double_indirect inode_disk.set_direct
              exact get32_put32_other _ _ _ _ (by omega)
            rw [this]
            exact word0_mono g5 hc.double
    · rw [if_neg (fun hh => hz hh.1)] at h
      cases h
      exact ⟨hc, hc.direct i h1n⟩
  · rw [if_neg h1] at h
    by_cases h2 : i < NUM_DIRECT + 128
    · rw [if_pos h2] at h
      by_cases hz : inode_disk.indirect d = 0
      · rw [if_pos ⟨rfl, hz⟩] at h
        cases ha : free_map_allocate st.free_map with
        | none =>
          rw [ha] at h
          cases h
          exact ⟨hc, Or.inl rfl⟩
        | some q =>
          obtain ⟨fm, s⟩ := q
          rw [ha] at h
          simp only [bind, Except.bind] at h
          obtain ⟨g1, g2, g3, g4, g5, g6, g7⟩ := created_grow hc ha
          have hds : inode_disk.indirect (inode_disk.set_indirect d s) = s := by
            unfold inode_disk.indirect inode_disk.set_indirect
            rw [get32_put32_same, Nat.mod_eq_of_lt g1]
          rw [hds] at h
          cases hw1 : cache_write_at st.cache s zeros 0 512 with
          | error e => rw [hw1] at h; cases h
          | ok c1 =>
            rw [hw1] at h
            simp only at h
            obtain ⟨i2, b2⟩ := blocks_write hc.inv hw1 (block0_zeros _) g7
            have hc1 : Created used0 { st with cache := c1, free_map := fm }
                (inode_disk.set_indirect d s) := by
              refine ⟨i2, g2, g4, fun j hj => ?_, ?_, ?_, fun x hx => b2 x hx (g6 x hx)⟩
              · have : inode_disk.direct (inode_disk.set_indirect d s) j =
                    inode_disk.direct d j := by
                  unfold inode_disk.direct inode_disk.set_indirect
                  exact get32_put32_other _ _ _ _ (by omega)
                rw [this]
                exact word0_mono g5 (hc.direct j hj)
              · rw [hds]
                exact Or.inr g3
              · have : inode_disk.double_indirect (inode_disk.set_indirect d s) =
                    inode_disk.double_indirect d := by
                  unfold inode_disk.double_indirect inode_disk.set_indirect
                  exact get32_put32_other _ _ _ _ (by omega)
                rw [this]
                exact word0_mono g5 hc.double
            exact indirect_tail_created hc1 (by rw [hds]; exact g3) h
      · rw [if_neg (fun hh => hz hh.2), if_neg hz] at h
        exact indirect_tail_created hc (hc.indirect.resolve_left hz) h
    · rw [if_neg h2] at h
      by_cases h3 : i < NUM_SECTORS
      · rw [if_pos h3] at h
        by_cases hz : inode_disk.double_indirect d = 0
        · rw [if_pos ⟨rfl, hz⟩] at h
          cases ha : free_map_allocate st.free_map with
          | none =>
            rw [ha] at h
            cases h
            exact ⟨hc, Or.inl rfl⟩
          | some q =>
            obtain ⟨fm, s⟩ := q
            rw [ha] at h
            simp only [bind, Except.bind] at h
            obtain ⟨g1, g2, g3, g4, g5, g6, g7⟩ := created_grow hc ha
            have hds : inode_disk.double_indirect (inode_disk.set_double_indirect d s) = s := by
              unfold inode_disk.double_indirect inode_disk.set_double_indirect
              rw [get32_put32_same, Nat.mod_eq_of_lt g1]
            rw [hds] at h
            cases hw1 : cache_write_at st.cache s zeros 0 512 with
            | error e => rw [hw1] at h; cases h
            | ok c1 =>
              rw [hw1] at h
              simp only at h
              obtain ⟨i2, b2⟩ := blocks_write hc.inv hw1 (block0_zeros _) g7
              have hc1 : Created used0 { st with cache := c1, free_map := fm }
                  (inode_disk.set_double_indirect d s) := by
                refine ⟨i2, g2, g4, fun j hj => ?_, ?_, ?_, fun x hx => b2 x hx (g6 x hx)⟩
                · have : inode_disk.direct (inode_disk.set_double_indirect d s) j =
                      inode_disk.direct d j := by
                    unfold inode_disk.direct inode_disk.set_double_indirect
                    exact get32_put32_other _ _ _ _ (by omega)
                  rw [this]
                  exact word0_mono g5 (hc.direct j hj)
                · have : inode_disk.indirect (inode_disk.set_double_indirect d s) =
                      inode_disk.indirect d := by
                    unfold inode_disk.indirect inode_disk.set_double_indirect
                    exact get32_put32_other _ _ _ _ (by omega)
                  rw [this]
                  exact word0_mono g5 hc.indirect
                · rw [hds]
                  exact Or.inr g3
              exact double_tail_created hc1 (by rw [hds]; exact g3) block0_zeros h
        · rw [if_neg (fun hh => hz hh.2), if_neg hz] at h
          exact double_tail_created hc (hc.double.resolve_left hz) block0_zeros h
      · rw [if_neg h3] at h
        cases h

/-- The loop of `inode_create`, when it returns. -/
theorem create_loop_created {used0 : Nat → Bool} : ∀ (n i : Nat) (st st1 : FS) (d d1 : Buf)
    (res : Bool), Created used0 st d →
    create_loop n i st d = Except.ok (st1, d1, res) → Created used0 st1 d1 := by
  intro n
  induction n with
  | zero =>
    intro i st st1 d d1 res hc h
    unfold create_loop at h
    cases h
    exact hc
  | succ n ih =>
    intro i st st1 d d1 res hc h
    unfold create_loop at h
    simp only [bind, Except.bind] at h
    cases hr : inode_disk_block_to_sector st d i zeros zeros true with
    | error e => rw [hr] at h; cases h
    | ok p =>
      obtain ⟨st2, d2, r⟩ := p
      rw [hr] at h
      simp only at h
      obtain ⟨hc2, hw⟩ := resolve_created hc hr
      by_cases hz : r = 0
      · rw [if_pos hz] at h
        cases h
        exact hc2
      · rw [if_neg hz] at h
        cases hw1 : cache_write_at st2.cache r zeros 0 512 with
        | error e => rw [hw1] at h; cases h
        | ok c2 =>
          rw [hw1] at h
          simp only at h
          obtain ⟨i2, b2⟩ := blocks_write hc2.inv hw1 (block0_zeros _)
            (fun x hx (_ : True) => hc2.blocks x hx)
          have hc3 : Created used0 { st2 with cache := c2 } d2 :=
            ⟨i2, hc2.size, hc2.mono, hc2.direct, hc2.indirect, hc2.double,
              fun x hx => b2 x hx (Or.inl trivial)⟩
          exact ih _ _ _ _ _ _ hc3 h

/-- An entry of an index block that was handed out during the construction,
read from contents `V` that differ from the cache in the sector `sector`
only, a sector in use before the construction began. -/
theorem entry_created {used0 : Nat → Bool} {st : FS} {d : Buf} {V : Nat → Buf}
    {sector x j t : Nat} {b : Buf} (hc : Created used0 st d) (hu : used0 sector = true)
    (hV : ∀ y, y ≠ sector → V y = view st.cache y)
    (hx : Fresh used0 st.free_map.used x) (h : store_entry V x j b = Except.ok t) :
    Word0 (Fresh used0 st.free_map.used) t := by
  have hne : x ≠ sector := by
    intro e
    rw [e] at hx
    rw [hx.1] at hu
    cases hu
  unfold store_entry at h
  obtain ⟨hj, ht⟩ := entry_ok h
  rw [ht, get32_load_block _ _ (by omega), hV x hne]
  exact hc.blocks x hx j hj

/-- The inode that `inode_create` builds in a sector marked in use names its
own sector nowhere: neither as an index block nor as a data block. -/
theorem created_self_free {st st1 : FS} {sector : Nat} {length : Int} {isdir : Bool}
    (hi : CacheInv st.cache) (hsz : st.free_map.size ≤ 4294967296)
    (hu : st.free_map.used sector = true)
    (h : inode_create st sector length isdir = Except.ok (st1, true)) :
    SelfFree (view st1.cache) sector := by
  unfold inode_create at h
  by_cases hl : length < 0
  · rw [if_pos hl] at h
    cases h
  · rw [if_neg hl] at h
    simp only at h
    have hc0 : Created st.free_map.used st (inode_disk.set_entry_cnt (inode_disk.set_isdir
        (inode_disk.set_magic (inode_disk.set_length zeros length) INODE_MAGIC) isdir) 0) := by
      refine ⟨hi, hsz, fun _ hx => hx, fun j hj => Or.inl ?_, Or.inl ?_, Or.inl ?_, ?_⟩
      · exact new_inode_word length isdir (4 + 4 * j) (by omega) (by omega)
      · exact new_inode_word length isdir 44 (by norm_num) (by norm_num)
      · exact new_inode_word length isdir 48 (by norm_num) (by norm_num)
      · intro x hx
        have := hx.1
        rw [hx.2] at this
        cases this
    cases hr : create_loop (bytes_to_sectors length) 0 st (inode_disk.set_entry_cnt
        (inode_disk.set_isdir (inode_disk.set_magic (inode_disk.set_length zeros length)
          INODE_MAGIC) isdir) 0) with
    | error e => rw [hr] at h; cases h
    | ok p =>
      obtain ⟨st2, d1, res⟩ := p
      rw [hr] at h
      have hc := create_loop_created _ _ _ _ _ _ _ hc0 hr
      cases res with
      | false => cases h
      | true =>
        simp only at h
        cases hw : cache_write_at st2.cache sector d1 0 512 with
        | error e => rw [hw] at h; cases h
        | ok c2 =>
          rw [hw] at h
          cases h
          obtain ⟨_, r2, r3, _⟩ :=
            cache_write_at_ok hc.inv (show 0 + 512 ≤ 512 by norm_num) hw
          have hS : view c2 sector = load_block (view st2.cache sector) d1 := r2
          have hne : ∀ x, Fresh st.free_map.used st2.free_map.used x → x ≠ sector := by
            intro x hx e
            rw [e] at hx
            rw [hx.1] at hu
            cases hu
          have hI : inode_disk.indirect (view c2 sector) = inode_disk.indirect d1 := by
            rw [hS]
            exact get32_load_block _ _ (by norm_num)
          have hD : inode_disk.double_indirect (view c2 sector) =
              inode_disk.double_indirect d1 := by
            rw [hS]
            exact get32_load_block _ _ (by norm_num)
          have hw0 : ∀ t, Word0 (Fresh st.free_map.used st2.free_map.used) t → t ≠ 0 →
              t ≠ sector := fun t ht h0 => hne t (ht.resolve_left h0)
          refine ⟨?_, ?_, ?_⟩
          · show inode_disk.indirect (view c2 sector) ≠ 0 →
              inode_disk.indirect (view c2 sector) ≠ sector
            rw [hI]
            exact hw0 _ hc.indirect
          · show inode_disk.double_indirect (view c2 sector) ≠ 0 →
              inode_disk.double_indirect (view c2 sector) ≠ sector ∧
              ∀ j t, store_entry (view c2) (inode_disk.double_indirect (view c2 sector)) j zeros =
                Except.ok t → t ≠ 0 → t ≠ sector
            rw [hD]
            intro h0
            refine ⟨hw0 _ hc.double h0, fun j t ht => ?_⟩
            exact hw0 t (entry_created hc hu r3 (hc.double.resolve_left h0) ht)
          · show ∀ k t, store_block_to_sector (view c2) sector k = Except.ok t → t ≠ 0 →
              t ≠ sector
            intro k t ht
            apply hw0 t
            unfold store_block_to_sector store_resolve at ht
            have hI2 : inode_disk.indirect (load_block zeros (view c2 sector)) =
                inode_disk.indirect d1 := by
              rw [← hI]
              exact get32_load_block _ _ (by norm_num)
            have hD2 : inode_disk.double_indirect (load_block zeros (view c2 sector)) =
                inode_disk.double_indirect d1 := by
              rw [← hD]
              exact get32_load_block _ _ (by norm_num)
            rw [hI2, hD2] at ht
            by_cases h1 : k < NUM_DIRECT
            · rw [if_pos h1] at ht
              cases ht
              have h1n : k < 10 := h1
              have : inode_disk.direct (load_block zeros (view c2 sector)) k =
                  inode_disk.direct d1 k := by
                unfold inode_disk.direct
                rw [get32_load_block _ _ (by omega), hS, get32_load_block _ _ (by omega)]
              rw [this]
              exact hc.direct k h1n
            · rw [if_neg h1] at ht
              by_cases h2 : k < NUM_DIRECT + 128
              · rw [if_pos h2] at ht
                by_cases hz : inode_disk.indirect d1 = 0
                · rw [if_pos hz] at ht
                  cases ht
                  exact Or.inl rfl
                · rw [if_neg hz] at ht
                  exact entry_created hc hu r3 (hc.indirect.resolve_left hz) ht
              · rw [if_neg h2] at ht
                by_cases h3 : k < NUM_SECTORS
                · rw [if_pos h3] at ht
                  by_cases hz : inode_disk.double_indirect d1 = 0
                  · rw [if_pos hz] at ht
                    cases ht
                    exact Or.inl rfl
                  · rw [if_neg hz] at ht
                    unfold store_double at ht
                    simp only [bind, Except.bind] at ht
                    rw [hD2] at ht
                    cases ho : store_entry (view c2) (inode_disk.double_indirect d1)
                        ((k - (NUM_DIRECT + 128)) / BLOCK_SECTOR_SIZE) zeros with
                    | error e => rw [ho] at ht; cases ht
                    | ok outer =>
                      rw [ho] at ht
                      simp only at ht
                      have hO := entry_created hc hu r3 (hc.double.resolve_left hz) ho
                      by_cases hz2 : outer = 0
                      · rw [if_pos hz2] at ht
                        cases ht
                        exact Or.inl rfl
                      · rw [if_neg hz2] at ht
                        exact entry_created hc hu r3 (hO.resolve_left hz2) ht
                · rw [if_neg h3] at ht
                  cases ht

set_option maxRecDepth 1000000 in
/-- A file of 600 bytes created on the blank volume: `inode_create` returns
true and the inode it has written to sector 2 names sector 2 nowhere. -/
theorem created_self_free_witness :
    ∃ st1, inode_create ex_blank_fs 2 600 false = Except.ok (st1, true) ∧
      SelfFree (view st1.cache) 2 := by
  have hb : (inode_create ex_blank_fs 2 600 false).toOption.map Prod.snd = some true := by
    decide!
  cases h : inode_create ex_blank_fs 2 600 false with
  | error e =>
    rw [h] at hb
    cases hb
  | ok p =>
    obtain ⟨st1, r⟩ := p
    rw [h] at hb
    have hr : r = true := by
      simpa [Except.toOption] using hb
    subst hr
    exact ⟨st1, rfl, created_self_free blank_good.cache blank_good.size rfl h⟩

end Pintos
